import Mathlib

/-! # SimpleOS kernel core: a shallow embedding and its verified properties

The definitions below transcribe the C sources of the kernel
(`src/mm/pmm.c`, `src/mm/vmm.c`, `src/kernel/process.c`, `src/kernel/scheduler.c`,
`src/kernel/syscall.c`, `src/ipc/pipe.c`, `src/fs/fs.c`) into pure functions over
explicit state.  Machine integers are natural numbers reduced modulo `2^w` where
the C code can wrap; pointers are natural numbers, `0` being `NULL`; a `for` loop
is a structurally recursive function on the number of remaining iterations.
-/

namespace SimpleOS

/-! ## Machine words and physical memory -/

/-- Number of values of a `uint64_t`. -/
def U64 : Nat := 2 ^ 64

/-- Number of values of a `uint32_t`. -/
def U32 : Nat := 2 ^ 32

/-- The C constant `~0xFFF` converted to `uint64_t`. -/
def NOT_FFF : Nat := 0xFFFFFFFFFFFFF000

/-- Physical memory, one byte per address (the kernel runs identity mapped, so a
pointer held by kernel code is a physical address). -/
abbrev Mem := Nat → Nat

/-- Load of one byte (`uint8_t`). -/
def read8 (m : Mem) (a : Nat) : Nat := m a % 256

/-- Store of one byte (`uint8_t` assignment). -/
def write8 (m : Mem) (a v : Nat) : Mem :=
  fun x => if x = a then v % 256 else m x

/-- Load of a little-endian `uint64_t` at byte address `a`. -/
def read64 (m : Mem) (a : Nat) : Nat :=
  read8 m a + read8 m (a + 1) * 2 ^ 8 + read8 m (a + 2) * 2 ^ 16 + read8 m (a + 3) * 2 ^ 24 +
  read8 m (a + 4) * 2 ^ 32 + read8 m (a + 5) * 2 ^ 40 + read8 m (a + 6) * 2 ^ 48 +
  read8 m (a + 7) * 2 ^ 56

/-- Store of a little-endian `uint64_t` at byte address `a`. -/
def write64 (m : Mem) (a v : Nat) : Mem :=
  fun x => if a ≤ x ∧ x < a + 8 then (v / 2 ^ (8 * (x - a))) % 256 else m x

/-- Store of a little-endian `uint32_t` at byte address `a`. -/
def write32 (m : Mem) (a v : Nat) : Mem :=
  fun x => if a ≤ x ∧ x < a + 4 then (v / 2 ^ (8 * (x - a))) % 256 else m x

/-! ## Physical memory manager (`src/mm/pmm.c`) -/

def PAGE_SIZE : Nat := 4096
def PMM_START : Nat := 0x400000
def BITMAP_SIZE : Nat := 128 * 1024

/-- Number of `uint32_t` words of `pmm_bitmap` (`BITMAP_SIZE / 4`). -/
def BITMAP_WORDS : Nat := BITMAP_SIZE / 4

/-- The physical side of the machine: the PMM globals and physical memory. -/
structure Phys where
  pmm_bitmap : Nat → Nat
  pmm_total_pages : Nat
  pmm_free_pages : Nat
  pmm_reserved_pages : Nat
  mem : Mem

/-- Inner loop of `bitmap_find_free`: the first clear bit of word `w`, scanning
`bit, bit+1, ...` for `n` iterations. -/
def find_free_bit (w : Nat) : Nat → Nat → Option Nat
  | 0, _ => none
  | n + 1, bit => if w &&& (1 <<< bit) = 0 then some bit else find_free_bit w n (bit + 1)

/-- Outer loop of `bitmap_find_free` from word `i`, `n` words left. -/
def bitmap_find_free_from (bm : Nat → Nat) : Nat → Nat → Option Nat
  | 0, _ => none
  | n + 1, i =>
    if bm i ≠ 0xFFFFFFFF then
      match find_free_bit (bm i) 32 0 with
      | some bit => some (i * 32 + bit)
      | none => bitmap_find_free_from bm n (i + 1)
    else bitmap_find_free_from bm n (i + 1)

/-- The function `bitmap_find_free`; `none` is the C result `-1`. -/
def bitmap_find_free (bm : Nat → Nat) : Option Nat :=
  bitmap_find_free_from bm BITMAP_WORDS 0

/-- The function `bitmap_set`: `pmm_bitmap[page / 32] |= (1 << page % 32)`. -/
def bitmap_set (bm : Nat → Nat) (page : Nat) : Nat → Nat :=
  fun i => if i = page / 32 then bm i ||| (1 <<< (page % 32)) else bm i

/-- The function `bitmap_clear`: `pmm_bitmap[page / 32] &= ~(1 << page % 32)`. -/
def bitmap_clear (bm : Nat → Nat) (page : Nat) : Nat → Nat :=
  fun i => if i = page / 32 then bm i &&& (0xFFFFFFFF ^^^ (1 <<< (page % 32))) else bm i

/-- The function `bitmap_test`. -/
def bitmap_test (bm : Nat → Nat) (page : Nat) : Bool :=
  bm (page / 32) &&& (1 <<< (page % 32)) ≠ 0

/-- The zeroing loop of `pmm_alloc_page`: `ptr[i] = 0` for `i < n`. -/
def zero_words (addr : Nat) : Nat → Mem → Mem
  | 0, m => m
  | n + 1, m => write64 (zero_words addr n m) (addr + 8 * n) 0

/-- The function `pmm_alloc_page`; the returned address is `0` for `NULL`. -/
def pmm_alloc_page (s : Phys) : Phys × Nat :=
  match bitmap_find_free s.pmm_bitmap with
  | none => (s, 0)
  | some page =>
    ({ s with
        pmm_bitmap := bitmap_set s.pmm_bitmap page
        pmm_free_pages := (s.pmm_free_pages + U64 - 1) % U64
        mem := zero_words (page * PAGE_SIZE) (PAGE_SIZE / 8) s.mem },
     page * PAGE_SIZE)

/-- The function `pmm_free_page`; `none` is a call of `panic`, which halts. -/
def pmm_free_page (s : Phys) (addr : Nat) : Option Phys :=
  if addr % PAGE_SIZE ≠ 0 ∨ addr < PMM_START then none
  else if addr / PAGE_SIZE ≥ s.pmm_total_pages then none
  else if ¬ bitmap_test s.pmm_bitmap (addr / PAGE_SIZE) then none
  else some { s with
    pmm_bitmap := bitmap_clear s.pmm_bitmap (addr / PAGE_SIZE)
    pmm_free_pages := (s.pmm_free_pages + 1) % U64 }

/-! ## Virtual memory manager (`src/mm/vmm.c`, `include/mm/vmm.h`) -/

def PAGE_PRESENT : Nat := 1
def PAGE_WRITABLE : Nat := 2
def PAGE_USER : Nat := 4
def USER_STACK_TOP : Nat := 0x00007FFFFFFFE000
def USER_STACK_SIZE : Nat := 0x100000
def USER_HEAP_START : Nat := 0x400000
def KERNEL_BASE : Nat := 0xFFFF800000000000

def PML4_INDEX (addr : Nat) : Nat := (addr >>> 39) &&& 0x1FF
def PDPT_INDEX (addr : Nat) : Nat := (addr >>> 30) &&& 0x1FF
def PD_INDEX (addr : Nat) : Nat := (addr >>> 21) &&& 0x1FF
def PT_INDEX (addr : Nat) : Nat := (addr >>> 12) &&& 0x1FF

/-- Entry `table[i]` of a page table held at physical address `table`. -/
def entry (m : Mem) (table i : Nat) : Nat := read64 m (table + 8 * i)

/-- Assignment `table[i] = v` in a page table. -/
def set_entry (m : Mem) (table i v : Nat) : Mem := write64 m (table + 8 * i) v

/-- The function `vmm_get_physical`. -/
def vmm_get_physical (m : Mem) (pml4_table virt : Nat) : Nat :=
  if entry m pml4_table (PML4_INDEX virt) &&& PAGE_PRESENT = 0 then 0 else
  let pdpt := entry m pml4_table (PML4_INDEX virt) &&& NOT_FFF
  if entry m pdpt (PDPT_INDEX virt) &&& PAGE_PRESENT = 0 then 0 else
  let pd := entry m pdpt (PDPT_INDEX virt) &&& NOT_FFF
  if entry m pd (PD_INDEX virt) &&& PAGE_PRESENT = 0 then 0 else
  let pt := entry m pd (PD_INDEX virt) &&& NOT_FFF
  if entry m pt (PT_INDEX virt) &&& PAGE_PRESENT = 0 then 0 else
  (entry m pt (PT_INDEX virt) &&& NOT_FFF) ||| (virt &&& 0xFFF)

/-- The leaf (page-table) entry that the walk of `vmm_get_physical` reaches for
`virt`, when all four levels are present. -/
def vmm_leaf (m : Mem) (pml4_table virt : Nat) : Option Nat :=
  if entry m pml4_table (PML4_INDEX virt) &&& PAGE_PRESENT = 0 then none else
  let pdpt := entry m pml4_table (PML4_INDEX virt) &&& NOT_FFF
  if entry m pdpt (PDPT_INDEX virt) &&& PAGE_PRESENT = 0 then none else
  let pd := entry m pdpt (PDPT_INDEX virt) &&& NOT_FFF
  if entry m pd (PD_INDEX virt) &&& PAGE_PRESENT = 0 then none else
  let pt := entry m pd (PD_INDEX virt) &&& NOT_FFF
  if entry m pt (PT_INDEX virt) &&& PAGE_PRESENT = 0 then none else
  some (entry m pt (PT_INDEX virt))

/-- The function `vmm_destroy_address_space`; `kpml4` is the global `pml4`
(the kernel root), `none` a panic inside `pmm_free_page`. -/
def vmm_destroy_address_space (kpml4 : Nat) (s : Phys) (pml4_to_destroy : Nat) : Option Phys :=
  if pml4_to_destroy = 0 ∨ pml4_to_destroy = kpml4 then some s
  else pmm_free_page s pml4_to_destroy

/-- The byte copy loop of `clone_page`: `dst[i] = src[i]` for `i < n`. -/
def copy_bytes (src dst : Nat) : Nat → Mem → Mem
  | 0, m => m
  | n + 1, m => write8 (copy_bytes src dst n m) (dst + n) (read8 (copy_bytes src dst n m) (src + n))

/-- The function `clone_page`; result `0` means failure. -/
def clone_page (s : Phys) (parent_page_phys flags : Nat) : Phys × Nat :=
  let r := pmm_alloc_page s
  if r.2 = 0 then (r.1, 0)
  else ({ r.1 with mem := copy_bytes parent_page_phys r.2 PAGE_SIZE r.1.mem }, r.2 ||| flags)

/-- The loop of `clone_pt` from index `i` with `n` iterations left.  The result is
`none` when `pmm_free_page` panics, and otherwise the state with `true` for a
completed loop and `false` for the failure exit. -/
def clone_pt_loop (parent_pt child_pt : Nat) : Nat → Nat → Phys → Option (Phys × Bool)
  | 0, _, s => some (s, true)
  | n + 1, i, s =>
    if entry s.mem parent_pt i &&& PAGE_PRESENT ≠ 0 then
      let page_phys := entry s.mem parent_pt i &&& NOT_FFF
      let flags := entry s.mem parent_pt i &&& 0xFFF
      let r := clone_page s page_phys flags
      let s1 : Phys := { r.1 with mem := set_entry r.1.mem child_pt i r.2 }
      if entry s1.mem child_pt i = 0 then
        (pmm_free_page s1 child_pt).map (fun s2 => (s2, false))
      else clone_pt_loop parent_pt child_pt n (i + 1) s1
    else
      clone_pt_loop parent_pt child_pt n (i + 1)
        { s with mem := set_entry s.mem child_pt i 0 }

/-- The function `clone_pt`; result `0` means failure. -/
def clone_pt (s : Phys) (parent_pt_phys : Nat) : Option (Phys × Nat) :=
  let r := pmm_alloc_page s
  if r.2 = 0 then some (r.1, 0)
  else (clone_pt_loop parent_pt_phys r.2 512 0 r.1).map
    (fun q => (q.1, if q.2 then r.2 else 0))

/-- The loop shared, up to the names, by `clone_pd`, `clone_pdpt` and the user-half
loop of `vmm_clone_address_space`: for a present `parent[i]` clone the table below it
with `lower` and store `child | (parent[i] & 0xFFF)`; `on_fail` is the cleanup run
when `lower` fails, `absent` the store made for a non-present entry. -/
def clone_table_loop (lower : Phys → Nat → Option (Phys × Nat))
    (on_fail : Phys → Option Phys) (absent : Mem → Nat → Mem)
    (parent child : Nat) : Nat → Nat → Phys → Option (Phys × Bool)
  | 0, _, s => some (s, true)
  | n + 1, i, s =>
    if entry s.mem parent i &&& PAGE_PRESENT ≠ 0 then
      match lower s (entry s.mem parent i &&& NOT_FFF) with
      | none => none
      | some (s1, c) =>
        if c = 0 then (on_fail s1).map (fun s2 => (s2, false))
        else
          clone_table_loop lower on_fail absent parent child n (i + 1)
            { s1 with mem := set_entry s1.mem child i (c ||| (entry s1.mem parent i &&& 0xFFF)) }
    else
      clone_table_loop lower on_fail absent parent child n (i + 1)
        { s with mem := absent s.mem i }

/-- The function `clone_pd`. -/
def clone_pd (s : Phys) (parent_pd_phys : Nat) : Option (Phys × Nat) :=
  let r := pmm_alloc_page s
  if r.2 = 0 then some (r.1, 0)
  else (clone_table_loop clone_pt (fun t => pmm_free_page t r.2)
          (fun m i => set_entry m r.2 i 0) parent_pd_phys r.2 512 0 r.1).map
    (fun q => (q.1, if q.2 then r.2 else 0))

/-- The function `clone_pdpt`. -/
def clone_pdpt (s : Phys) (parent_pdpt_phys : Nat) : Option (Phys × Nat) :=
  let r := pmm_alloc_page s
  if r.2 = 0 then some (r.1, 0)
  else (clone_table_loop clone_pd (fun t => pmm_free_page t r.2)
          (fun m i => set_entry m r.2 i 0) parent_pdpt_phys r.2 512 0 r.1).map
    (fun q => (q.1, if q.2 then r.2 else 0))

/-- The loop `child_pml4[i] = 0` for `i < n` of `vmm_clone_address_space`. -/
def clear_entries (table : Nat) : Nat → Mem → Mem
  | 0, m => m
  | n + 1, m => set_entry (clear_entries table n m) table n 0

/-- The loop `child_pml4[i] = parent_pml4[i]` for `lo ≤ i < lo + n`. -/
def copy_entries (parent child lo : Nat) : Nat → Mem → Mem
  | 0, m => m
  | n + 1, m =>
    set_entry (copy_entries parent child lo n m) child (lo + n)
      (entry (copy_entries parent child lo n m) parent (lo + n))

/-- The function `vmm_clone_address_space`; result `0` is `NULL`. -/
def vmm_clone_address_space (kpml4 : Nat) (s : Phys) (parent_pml4 : Nat) : Option (Phys × Nat) :=
  let r := pmm_alloc_page s
  if r.2 = 0 then some (r.1, 0)
  else
    let m1 := clear_entries r.2 512 r.1.mem
    let m2 := copy_entries parent_pml4 r.2 256 256 m1
    (clone_table_loop clone_pdpt (fun t => vmm_destroy_address_space kpml4 t r.2)
        (fun m _ => m) parent_pml4 r.2 256 0 { r.1 with mem := m2 }).map
      (fun q => (q.1, if q.2 then r.2 else 0))

/-- The loop of `vmm_clear_user_space`: entries `0 .. n-1`. -/
def clear_user_entries (pml4 : Nat) : Nat → Mem → Mem
  | 0, m => m
  | n + 1, m =>
    let m1 := clear_user_entries pml4 n m
    if entry m1 pml4 n &&& PAGE_PRESENT ≠ 0 then set_entry m1 pml4 n 0 else m1

/-- The function `vmm_clear_user_space` (the reload of CR3 changes no memory). -/
def vmm_clear_user_space (m : Mem) (pml4 : Nat) : Mem :=
  clear_user_entries pml4 256 m

/-- The function `vmm_get_or_create_table`; result `0` is `NULL`. -/
def vmm_get_or_create_table (s : Phys) (parent_table index flags : Nat) : Phys × Nat :=
  if entry s.mem parent_table index &&& PAGE_PRESENT = 0 then
    let r := pmm_alloc_page s
    if r.2 = 0 then (r.1, 0)
    else
      let e := ((r.2 &&& NOT_FFF) ||| flags) ||| PAGE_PRESENT
      ({ r.1 with mem := set_entry r.1.mem parent_table index e }, r.2)
  else (s, entry s.mem parent_table index &&& NOT_FFF)

/-- The function `vmm_map_page`; the Boolean is `true` for the result `0` and
`false` for `-1` (the `invlpg` instruction changes no memory). -/
def vmm_map_page (s : Phys) (pml4_table virt0 phys0 flags : Nat) : Phys × Bool :=
  let virt := virt0 &&& NOT_FFF
  let phys := phys0 &&& NOT_FFF
  let pdpt_flags := if virt ≥ KERNEL_BASE then PAGE_WRITABLE else PAGE_WRITABLE ||| PAGE_USER
  let r1 := vmm_get_or_create_table s pml4_table (PML4_INDEX virt) pdpt_flags
  if r1.2 = 0 then (r1.1, false) else
  let r2 := vmm_get_or_create_table r1.1 r1.2 (PDPT_INDEX virt) pdpt_flags
  if r2.2 = 0 then (r2.1, false) else
  let r3 := vmm_get_or_create_table r2.1 r2.2 (PD_INDEX virt) pdpt_flags
  if r3.2 = 0 then (r3.1, false) else
  let e := ((phys &&& NOT_FFF) ||| flags) ||| PAGE_PRESENT
  ({ r3.1 with mem := set_entry r3.1.mem r3.2 (PT_INDEX virt) e }, true)

/-! ## Kernel heap (`src/mm/kmalloc.c`) -/

def HEAP_START : Nat := 0x2000000
def HEAP_SIZE : Nat := 0x1000000

/-- The value of `sizeof(block_t)`: a `size_t`, a pointer and a padded `bool`. -/
def BLOCK_HEADER_SIZE : Nat := 24
def MIN_BLOCK_SIZE : Nat := 16

/-- A heap block header; `addr` is the address the header lives at, and the
`next` pointer is the following element of the list the blocks are kept in. -/
structure block_t where
  addr : Nat
  size : Nat
  free : Bool
  deriving DecidableEq

/-- The heap globals; `blocks` is the list reached from `head` through `next`. -/
structure KHeap where
  blocks : List block_t
  heap_initialized : Bool
  total_allocated : Nat
  total_free : Nat
  allocation_count : Nat

/-- The function `init_heap`. -/
def init_heap (h : KHeap) : KHeap :=
  { h with blocks := [{ addr := HEAP_START, size := HEAP_SIZE - BLOCK_HEADER_SIZE, free := true }]
           heap_initialized := true }

/-- The function `find_free_block`: the position in the list of the first free
block of at least `size` bytes. -/
def find_free_block (size : Nat) : List block_t → Option Nat
  | [] => none
  | b :: rest =>
    if b.free ∧ b.size ≥ size then some 0
    else (find_free_block size rest).map (· + 1)

/-- The function `split_block` applied to the block at position `pos`; the sizes
are computed in `size_t`. -/
def split_block (size : Nat) : List block_t → Nat → List block_t
  | [], _ => []
  | b :: rest, 0 =>
    if b.size ≥ (size + BLOCK_HEADER_SIZE + MIN_BLOCK_SIZE) % U64 then
      { b with size := size } ::
        { addr := b.addr + BLOCK_HEADER_SIZE + size,
          size := (b.size + (U64 - size % U64) + (U64 - BLOCK_HEADER_SIZE)) % U64, free := true } :: rest
    else b :: rest
  | b :: rest, pos + 1 => b :: split_block size rest pos

/-- Assignment `block->free = v` for the block at position `pos`. -/
def set_block_free (v : Bool) : List block_t → Nat → List block_t
  | [], _ => []
  | b :: rest, 0 => { b with free := v } :: rest
  | b :: rest, pos + 1 => b :: set_block_free v rest pos

/-- The loop of `coalesce_free_blocks` with `cur` the block `current` points to. -/
def coalesce_from (cur : block_t) : List block_t → List block_t
  | [] => [cur]
  | b :: rest =>
    if cur.free ∧ b.free then
      coalesce_from { cur with size := (cur.size + BLOCK_HEADER_SIZE + b.size) % U64 } rest
    else cur :: coalesce_from b rest

/-- The function `coalesce_free_blocks`. -/
def coalesce_free_blocks : List block_t → List block_t
  | [] => []
  | b :: rest => coalesce_from b rest

/-- The function `kmalloc`: the new heap and the returned pointer; `none` is the
out-of-memory `panic`. -/
def kmalloc (h0 : KHeap) (size0 : Nat) : Option (KHeap × Nat) :=
  let h := if h0.heap_initialized then h0 else init_heap h0
  let size := ((size0 + 7) % U64) &&& 0xFFFFFFFFFFFFFFF8
  match find_free_block size h.blocks with
  | none => none
  | some pos =>
    let bl := set_block_free false (split_block size h.blocks pos) pos
    match bl.get? pos with
    | none => none
    | some b =>
      some ({ h with blocks := bl
                     total_allocated := (h.total_allocated + b.size) % U64
                     total_free := (h.total_free + U64 - b.size % U64) % U64
                     allocation_count := (h.allocation_count + 1) % U64 },
            b.addr + BLOCK_HEADER_SIZE)

/-- Position of the block whose header is at address `a`. -/
def block_at (a : Nat) : List block_t → Option Nat
  | [] => none
  | b :: rest => if b.addr = a then some 0 else (block_at a rest).map (· + 1)

/-- The function `kfree`.  The result `none` stands for a `panic` (pointer out of the
arena, double free) and for a pointer that is not the payload of a block of the list:
for such a pointer the C code tests and sets the byte `free` of a header that does not
exist, inside a payload or another header, which a list of headers cannot follow. -/
def kfree (h : KHeap) (ptr : Nat) : Option KHeap :=
  if ptr = 0 then some h else
  let block := (ptr + U64 - BLOCK_HEADER_SIZE) % U64
  if block < HEAP_START ∨ block ≥ HEAP_START + HEAP_SIZE then none else
  match block_at block h.blocks with
  | none => none
  | some pos =>
    match h.blocks.get? pos with
    | none => none
    | some b =>
      if b.free then none else
      some { h with blocks := coalesce_free_blocks (set_block_free true h.blocks pos)
                    total_allocated := (h.total_allocated + U64 - b.size % U64) % U64
                    total_free := (h.total_free + b.size) % U64
                    allocation_count := (h.allocation_count + U64 - 1) % U64 }

/-! ## Pipes (`src/ipc/pipe.c`, `include/ipc/pipe.h`) -/

def PIPE_SIZE : Nat := 4096

/-- The structure `pipe_t`; `buffer` is indexed by byte position. -/
structure pipe_t where
  buffer : Nat → Nat
  read_pos : Nat
  write_pos : Nat
  count : Nat
  reader_closed : Nat
  writer_closed : Nat

/-- The field initialisation of `pipe_create` on the memory `kmalloc` returned
(`raw` is what that memory held). -/
def pipe_create_fields (raw : pipe_t) : pipe_t :=
  { raw with read_pos := 0, write_pos := 0, count := 0, reader_closed := 0, writer_closed := 0 }

/-- The function `pipe_destroy`. -/
def pipe_destroy (p : pipe_t) : pipe_t :=
  { p with reader_closed := 1, writer_closed := 1 }

/-- The loop of `pipe_read` with `n = count - bytes_read` iterations left; `out` is
what has been stored in `buf` so far.  The result is `none` when the loop spins for
ever: the pipe is empty, the writer is open, and the loop body changes nothing. -/
def pipe_read_loop : Nat → pipe_t → List Nat → Option (pipe_t × List Nat)
  | 0, p, out => some (p, out)
  | n + 1, p, out =>
    if p.count = 0 then
      if p.writer_closed ≠ 0 then some (p, out) else none
    else
      pipe_read_loop n
        { p with read_pos := (p.read_pos + 1) % PIPE_SIZE, count := (p.count + U32 - 1) % U32 }
        (out ++ [p.buffer p.read_pos])

/-- Conversion of a `size_t` to the `int` a function returns. -/
def int_of_size (n : Nat) : Int :=
  if n % U32 < 2 ^ 31 then (n % U32 : Nat) else ((n % U32 : Nat) : Int) - (U32 : Nat)

/-- Conversion of an `int` to `uint64_t` (sign extension). -/
def u64_of_int (i : Int) : Nat := (i % (U64 : Nat)).toNat

/-- The function `pipe_read` on a non-null pipe: the pipe afterwards, the bytes
stored in `buffer` and the returned `int`; `none` when the call never returns. -/
def pipe_read (p : pipe_t) (count : Nat) : Option (pipe_t × List Nat × Int) :=
  if p.reader_closed ≠ 0 then some (p, [], -1)
  else (pipe_read_loop count p []).map (fun r => (r.1, r.2, int_of_size r.2.length))

/-- The loop of `pipe_write` over the bytes still to be written, `done` being
`bytes_written`.  The result is `none` when the loop spins for ever on a full pipe. -/
def pipe_write_loop : List Nat → pipe_t → Nat → Option (pipe_t × Nat)
  | [], p, done => some (p, done)
  | b :: rest, p, done =>
    if p.count = PIPE_SIZE then none
    else
      pipe_write_loop rest
        { p with buffer := fun i => if i = p.write_pos then b % 256 else p.buffer i
                 write_pos := (p.write_pos + 1) % PIPE_SIZE
                 count := (p.count + 1) % U32 }
        (done + 1)

/-- The function `pipe_write` on a non-null pipe, `buf` being the `count` bytes at
`buffer`; `none` when the call never returns. -/
def pipe_write (p : pipe_t) (buf : List Nat) : Option (pipe_t × Int) :=
  if p.writer_closed ≠ 0 then some (p, -1)
  else if p.reader_closed ≠ 0 then some (p, -1)
  else (pipe_write_loop buf p 0).map (fun r => (r.1, int_of_size r.2))

/-! ## RAM file system (`include/fs/fs.h`, `src/fs/fs.c`) -/

def FS_MAX_FILES : Nat := 64
def FS_BLOCK_SIZE : Nat := 512
def FS_MAX_BLOCKS : Nat := 1024
def FS_TYPE_FILE : Nat := 1
def FS_TYPE_DIR : Nat := 2

/-- The value `(uint32_t)-1` that ends a block chain. -/
def NO_BLOCK : Nat := 0xFFFFFFFF

/-- The structure `fs_node_t`. -/
structure fs_node_t where
  name : List Nat
  type : Nat
  size : Nat
  permissions : Nat
  first_block : Nat
  created_time : Nat
  modified_time : Nat
  inode_num : Nat

/-- The structure `fs_block_t`. -/
structure fs_block_t where
  data : Nat → Nat
  next_block : Nat

/-- The structure `ramfs_t`; a `fs_node_t*` is the index of the inode in `nodes`. -/
structure ramfs_t where
  nodes : Nat → fs_node_t
  blocks : Nat → fs_block_t
  free_blocks : Nat → Nat
  next_inode : Nat
  root : Nat

/-- Update of inode `n`. -/
def set_node (fs : ramfs_t) (n : Nat) (f : fs_node_t → fs_node_t) : ramfs_t :=
  { fs with nodes := fun j => if j = n then f (fs.nodes n) else fs.nodes j }

/-- Update of block `b`. -/
def set_block (fs : ramfs_t) (b : Nat) (f : fs_block_t → fs_block_t) : ramfs_t :=
  { fs with blocks := fun j => if j = b then f (fs.blocks b) else fs.blocks j }

/-- The loop of `allocate_block` from block `i`, `n` blocks left; `none` is the
result `-1`. -/
def allocate_block_from (fs : ramfs_t) : Nat → Nat → ramfs_t × Option Nat
  | 0, _ => (fs, none)
  | n + 1, i =>
    if fs.free_blocks (i / 32) &&& (1 <<< (i % 32)) = 0 then
      (set_block { fs with free_blocks := bitmap_set fs.free_blocks i } i
          (fun b => { b with next_block := NO_BLOCK }), some i)
    else allocate_block_from fs n (i + 1)

/-- The function `allocate_block`. -/
def allocate_block (fs : ramfs_t) : ramfs_t × Option Nat :=
  allocate_block_from fs FS_MAX_BLOCKS 0

/-- The loop "skip to starting block" of `ramfs_read` on `(block_num, block_offset)`,
`n` iterations allowed; as `block_offset` drops by `FS_BLOCK_SIZE` each time, the
loop has ended after `offset / FS_BLOCK_SIZE` iterations. -/
def read_skip (fs : ramfs_t) : Nat → Nat → Nat → Nat × Nat
  | 0, block_num, block_offset => (block_num, block_offset)
  | n + 1, block_num, block_offset =>
    if block_offset ≥ FS_BLOCK_SIZE ∧ block_num ≠ NO_BLOCK then
      read_skip fs n (fs.blocks block_num).next_block (block_offset - FS_BLOCK_SIZE)
    else (block_num, block_offset)

/-- The bytes `data[off .. off+len)` of a block, as `memcpy` reads them. -/
def block_bytes (b : fs_block_t) (off len : Nat) : List Nat :=
  (List.range len).map (fun j => b.data (off + j))

/-- The copy loop of `ramfs_read` with `fuel` iterations allowed and `want` bytes
still to read: the bytes copied to `buffer`.  Every iteration copies at least one
byte, so `fuel = size` is enough; `none` is an exhausted `fuel`. -/
def read_loop (fs : ramfs_t) : Nat → Nat → Nat → Nat → Option (List Nat)
  | 0, want, block_num, _ => if want = 0 ∨ block_num = NO_BLOCK then some [] else none
  | fuel + 1, want, block_num, block_offset =>
    if want = 0 ∨ block_num = NO_BLOCK then some []
    else
      let to_read := if FS_BLOCK_SIZE - block_offset > want then want
                     else FS_BLOCK_SIZE - block_offset
      (read_loop fs fuel (want - to_read) (fs.blocks block_num).next_block 0).map
        (fun rest => block_bytes (fs.blocks block_num) block_offset to_read ++ rest)

/-- The function `ramfs_read` (reached through `fs_read`): the bytes stored in
`buffer` and the returned `int`; `none` is an exhausted loop budget. -/
def ramfs_read (fs : ramfs_t) (node offset size0 : Nat) : Option (List Nat × Int) :=
  if (fs.nodes node).type ≠ FS_TYPE_FILE then some ([], -1)
  else if offset ≥ (fs.nodes node).size then some ([], 0)
  else
    let size := if (offset + size0) % U32 > (fs.nodes node).size
                then ((fs.nodes node).size + U32 - offset) % U32 else size0
    let start := read_skip fs (offset / FS_BLOCK_SIZE) (fs.nodes node).first_block offset
    (read_loop fs size size start.1 start.2).map
      (fun out => (out, int_of_size out.length))

/-- The function `fs_read`, which calls `ramfs_ops.read`. -/
def fs_read (fs : ramfs_t) (node offset size : Nat) : Option (List Nat × Int) :=
  ramfs_read fs node offset size

/-- The loop "skip to starting block" of `ramfs_write`, which runs
`offset / FS_BLOCK_SIZE` times: the state and the block reached, `none` for the
exit `return -1`. -/
def write_skip : Nat → ramfs_t → Nat → ramfs_t × Option Nat
  | 0, fs, block_num => (fs, some block_num)
  | n + 1, fs, block_num =>
    if (fs.blocks block_num).next_block = NO_BLOCK then
      match allocate_block fs with
      | (fs1, none) => (fs1, none)
      | (fs1, some nb) =>
        let fs2 := set_block fs1 block_num (fun b => { b with next_block := nb })
        write_skip n fs2 (fs2.blocks block_num).next_block
    else write_skip n fs (fs.blocks block_num).next_block

/-- The effect of `memcpy(block.data + off, src, len)`. -/
def block_store (b : fs_block_t) (off : Nat) (src : List Nat) : fs_block_t :=
  { b with data := fun j =>
      if off ≤ j ∧ j < off + src.length then (src.getD (j - off) 0) % 256 else b.data j }

/-- The copy loop of `ramfs_write`: `rest` holds the bytes not yet written and
`written` is `bytes_written`.  Every iteration writes at least one byte, so
`fuel = size` is enough; `none` is an exhausted `fuel`. -/
def write_loop : Nat → ramfs_t → List Nat → Nat → Nat → Nat → Option (ramfs_t × Nat)
  | 0, fs, rest, _, _, written => if rest = [] then some (fs, written) else none
  | fuel + 1, fs, rest, block_num, block_offset, written =>
    if rest = [] then some (fs, written)
    else
      let to_write := if FS_BLOCK_SIZE - block_offset > rest.length then rest.length
                      else FS_BLOCK_SIZE - block_offset
      let fs1 := set_block fs block_num (fun b => block_store b block_offset (rest.take to_write))
      if rest.drop to_write ≠ [] then
        if (fs1.blocks block_num).next_block = NO_BLOCK then
          match allocate_block fs1 with
          | (fs2, none) => some (fs2, written + to_write)
          | (fs2, some nb) =>
            let fs3 := set_block fs2 block_num (fun b => { b with next_block := nb })
            write_loop fuel fs3 (rest.drop to_write) (fs3.blocks block_num).next_block 0
              (written + to_write)
        else
          write_loop fuel fs1 (rest.drop to_write) (fs1.blocks block_num).next_block 0
            (written + to_write)
      else some (fs1, written + to_write)

/-- The function `ramfs_write` (reached through `fs_write`), `buffer` being the
`size` bytes at the source pointer: the new state and the returned `int`; `none` is
an exhausted loop budget. -/
def ramfs_write (fs : ramfs_t) (node offset : Nat) (buffer : List Nat) : Option (ramfs_t × Int) :=
  if (fs.nodes node).type ≠ FS_TYPE_FILE then some (fs, -1) else
  let r0 : ramfs_t × Bool :=
    if (fs.nodes node).first_block = NO_BLOCK then
      match allocate_block fs with
      | (fs1, none) => (set_node fs1 node (fun nd => { nd with first_block := NO_BLOCK }), false)
      | (fs1, some nb) => (set_node fs1 node (fun nd => { nd with first_block := nb }), true)
    else (fs, true)
  if ¬ r0.2 then some (r0.1, -1) else
  match write_skip (offset / FS_BLOCK_SIZE) r0.1 (r0.1.nodes node).first_block with
  | (fs2, none) => some (fs2, -1)
  | (fs2, some block_num) =>
    (write_loop buffer.length fs2 buffer block_num (offset % FS_BLOCK_SIZE) 0).map
      (fun r =>
        (if (offset + r.2) % U32 > (r.1.nodes node).size
         then set_node r.1 node (fun nd => { nd with size := (offset + r.2) % U32 })
         else r.1, int_of_size r.2))

/-- The function `fs_write`, which calls `ramfs_ops.write`. -/
def fs_write (fs : ramfs_t) (node offset : Nat) (buffer : List Nat) : Option (ramfs_t × Int) :=
  ramfs_write fs node offset buffer

/-! ## Processes (`include/kernel/process.h`, `src/kernel/process.c`) -/

inductive process_state_t where
  | READY | RUNNING | BLOCKED | WAITING | ZOMBIE | TERMINATED
  deriving DecidableEq, Repr

open process_state_t

/-- The structure `context_t`: the callee-saved registers, stack pointer,
instruction pointer and flags.  It has no slot for `rax`. -/
structure context_t where
  r15 : Nat
  r14 : Nat
  r13 : Nat
  r12 : Nat
  rbx : Nat
  rbp : Nat
  rsp : Nat
  rip : Nat
  rflags : Nat
  deriving DecidableEq, Repr

/-- The structure `process_t`.  `name` is the C string held in `char name[32]`,
`exit_status` the 32-bit pattern of the `int`. -/
structure process_t where
  pid : Nat
  name : List Nat
  context : context_t
  state : process_state_t
  page_table : Nat
  heap_start : Nat
  heap_current : Nat
  heap_max : Nat
  stack_bottom : Nat
  stack_top : Nat
  pages_allocated : Nat
  page_faults : Nat
  kernel_stack : Nat
  kernel_stack_size : Nat
  ticks_total : Nat
  ticks_remaining : Nat
  priority : Nat
  parent_pid : Nat
  exit_status : Nat
  fd_table : Nat
  next : Nat
  prev : Nat
  entry_point : Nat
  deriving DecidableEq, Repr

def MAX_PROCESSES : Nat := 64
def KERNEL_STACK_SIZE : Nat := 8192
def DEFAULT_QUANTUM : Nat := 10
def MAX_FDS : Nat := 16

/-- The value of `sizeof(process_t)` on x86_64. -/
def SIZEOF_PROCESS : Nat := 264

/-- The value of `sizeof(fd_entry_t) * MAX_FDS` on x86_64. -/
def SIZEOF_FD_TABLE : Nat := 32 * 16

/-- The value of `sizeof(pipe_t)`. -/
def SIZEOF_PIPE : Nat := 4116

/-- The structure `fd_entry_t` of `syscall.c`; `node` is a pointer to an inode of
the RAM file system, `pipe` a pointer to a `pipe_t`. -/
structure fd_entry_t where
  node : Nat
  pipe : Nat
  offset : Nat
  flags : Nat
  is_pipe : Nat
  deriving DecidableEq, Repr

/-- The structure `registers_t` of `isr.h`: the trap frame. -/
structure registers_t where
  r15 : Nat
  r14 : Nat
  r13 : Nat
  r12 : Nat
  r11 : Nat
  r10 : Nat
  r9 : Nat
  r8 : Nat
  rdi : Nat
  rsi : Nat
  rbp : Nat
  rbx : Nat
  rdx : Nat
  rcx : Nat
  rax : Nat
  int_no : Nat
  err_code : Nat
  rip : Nat
  cs : Nat
  rflags : Nat
  rsp : Nat
  ss : Nat
  deriving DecidableEq, Repr

/-- A PCB as `kzalloc` leaves it: every field zero (`PROCESS_STATE_READY` is `0`). -/
def process_zero : process_t :=
  { pid := 0, name := [], context := ⟨0, 0, 0, 0, 0, 0, 0, 0, 0⟩, state := READY,
    page_table := 0, heap_start := 0, heap_current := 0, heap_max := 0,
    stack_bottom := 0, stack_top := 0, pages_allocated := 0, page_faults := 0,
    kernel_stack := 0, kernel_stack_size := 0, ticks_total := 0, ticks_remaining := 0,
    priority := 0, parent_pid := 0, exit_status := 0, fd_table := 0, next := 0, prev := 0,
    entry_point := 0 }

/-- An FD entry with every field cleared. -/
def fd_zero : fd_entry_t := ⟨0, 0, 0, 0, 0⟩

/-- The kernel state.  Objects that live in the kernel heap are kept in stores
indexed by their address: `procs` for PCBs (the static idle PCB included, at address
`idle_process`), `fd_tables` for FD tables, `pipes` for pipes.  `kpml4` is the global
`pml4` of `kernel.c`, `cpu` the register file that `context_switch` spills and loads.
Output to the console is not represented.  The objects kept as maps lie in the kernel
image and in the kernel heap arena, outside `Phys.mem`; a store that reaches them by
another way than through their fields is one that the model does not follow
(`store_status`, `alloc_user_pages_loop`). -/
structure Kernel where
  phys : Phys
  kpml4 : Nat
  heap : KHeap
  procs : Nat → process_t
  fd_tables : Nat → Nat → fd_entry_t
  pipes : Nat → pipe_t
  process_table : Nat → Nat
  next_pid : Nat
  ready_queue_head : Nat
  ready_queue_tail : Nat
  current_process : Nat
  idle_process : Nat
  scheduler_enabled : Bool
  schedule_count : Nat
  cr3 : Nat
  cpu : context_t
  ramfs : ramfs_t

/-- Update of the PCB at address `p`. -/
def set_proc (k : Kernel) (p : Nat) (f : process_t → process_t) : Kernel :=
  { k with procs := fun q => if q = p then f (k.procs p) else k.procs q }

/-- The function `ready_queue_push`. -/
def ready_queue_push (k : Kernel) (proc : Nat) : Kernel :=
  let k1 := set_proc k proc (fun p => { p with next := 0 })
  let k2 := set_proc k1 proc (fun p => { p with prev := k1.ready_queue_tail })
  let k3 :=
    if k2.ready_queue_tail ≠ 0 then
      set_proc k2 k2.ready_queue_tail (fun p => { p with next := proc })
    else { k2 with ready_queue_head := proc }
  { k3 with ready_queue_tail := proc }

/-- The function `ready_queue_remove`. -/
def ready_queue_remove (k : Kernel) (proc : Nat) : Kernel :=
  let k1 :=
    if (k.procs proc).prev ≠ 0 then
      set_proc k (k.procs proc).prev (fun p => { p with next := (k.procs proc).next })
    else { k with ready_queue_head := (k.procs proc).next }
  let k2 :=
    if (k1.procs proc).next ≠ 0 then
      set_proc k1 (k1.procs proc).next (fun p => { p with prev := (k1.procs proc).prev })
    else { k1 with ready_queue_tail := (k1.procs proc).prev }
  let k3 := set_proc k2 proc (fun p => { p with next := 0 })
  set_proc k3 proc (fun p => { p with prev := 0 })

/-- The function `ready_queue_pop`; the popped pointer is `0` for `NULL`. -/
def ready_queue_pop (k : Kernel) : Kernel × Nat :=
  if k.ready_queue_head ≠ 0 then (ready_queue_remove k k.ready_queue_head, k.ready_queue_head)
  else (k, 0)

/-- The function `process_get_current`. -/
def process_get_current (k : Kernel) : Nat :=
  if k.current_process ≠ 0 then k.current_process else k.idle_process

/-- Modelled from the spec: `context_switch` is assembly that is not among the
sources; by section 4.5 of the specification it spills the register file to `old`
(unless `old` is null) and loads it from `new`.  The arguments are the PCBs whose
`context` field is passed. -/
def context_switch (k : Kernel) (old new : Nat) : Kernel :=
  let k1 := if old ≠ 0 then set_proc k old (fun p => { p with context := k.cpu }) else k
  { k1 with cpu := (k1.procs new).context }

/-- The function `schedule` of `scheduler.c` (`cli` and `sti` change no state that is
represented). -/
def schedule (k : Kernel) : Kernel :=
  if ¬ k.scheduler_enabled then k else
  let k0 := { k with schedule_count := (k.schedule_count + 1) % U64 }
  let current := process_get_current k0
  let k1 :=
    if current ≠ 0 ∧ (k0.procs current).state = RUNNING then
      ready_queue_push (set_proc k0 current (fun p => { p with state := READY })) current
    else k0
  let r := ready_queue_pop k1
  let next := if r.2 = 0 then r.1.process_table 0 else r.2
  if current ≠ next then
    let k2 := set_proc r.1 next (fun p => { p with state := RUNNING })
    let k3 := { k2 with current_process := next }
    let k4 :=
      if current = 0 ∨ (k3.procs current).page_table ≠ (k3.procs next).page_table then
        if (k3.procs next).page_table ≠ 0 then { k3 with cr3 := (k3.procs next).page_table }
        else k3
      else k3
    context_switch k4 current next
  else r.1

/-- The function `process_exit`.  The Boolean tells whether the call returns: it does
not when `schedule` gave the CPU to another process, and when `schedule` comes back
the function ends in `panic`. -/
def process_exit (k : Kernel) : Kernel × Bool :=
  if k.current_process ≠ 0 ∧ k.current_process ≠ k.idle_process then
    (schedule (set_proc k k.current_process (fun p => { p with state := TERMINATED })), false)
  else (k, true)

/-- First index `i ≥ i₀` of the process table holding `NULL`, `n` slots left to
look at: the slot search of `allocate_process_struct`. -/
def find_free_slot (tbl : Nat → Nat) : Nat → Nat → Option Nat
  | 0, _ => none
  | n + 1, i => if tbl i = 0 then some i else find_free_slot tbl n (i + 1)

/-- The function `init_process_fd_table` for a non-null `proc`; `none` is the
out-of-memory panic of `kmalloc`. -/
def init_process_fd_table (k : Kernel) (proc : Nat) : Option Kernel :=
  match kmalloc k.heap SIZEOF_FD_TABLE with
  | none => none
  | some (h, t) =>
    let k1 := set_proc { k with heap := h } proc (fun p => { p with fd_table := t })
    if t = 0 then some k1
    else some { k1 with fd_tables := fun q => if q = t then
                  (fun i => if i < MAX_FDS then fd_zero else k1.fd_tables t i)
                else k1.fd_tables q }

/-- The function `allocate_process_struct`; the pointer is `0` for `NULL`, and the
result `none` is the out-of-memory panic of `kmalloc`. -/
def allocate_process_struct (k : Kernel) : Option (Kernel × Nat) :=
  match find_free_slot k.process_table (MAX_PROCESSES - 1) 1 with
  | none => some (k, 0)
  | some slot =>
    match kmalloc k.heap SIZEOF_PROCESS with
    | none => none
    | some (h1, proc) =>
      if proc = 0 then some ({ k with heap := h1 }, 0) else
      let k1 := set_proc { k with heap := h1 } proc (fun _ => process_zero)
      match kmalloc k1.heap KERNEL_STACK_SIZE with
      | none => none
      | some (h2, ks) =>
        let k2 := set_proc { k1 with heap := h2 } proc (fun p => { p with kernel_stack := ks })
        if ks = 0 then (kfree k2.heap proc).map (fun h3 => ({ k2 with heap := h3 }, 0)) else
        let k3 := set_proc k2 proc (fun p => { p with pid := k2.next_pid })
        let k4 := { k3 with next_pid := (k3.next_pid + 1) % U32 }
        let k5 := set_proc k4 proc (fun p => { p with kernel_stack_size := KERNEL_STACK_SIZE })
        let k6 := { k5 with process_table := fun i => if i = slot then proc else k5.process_table i }
        (init_process_fd_table k6 proc).map (fun k7 => (k7, proc))

/-- First index `i ≥ i₀` of the process table holding the pointer `process`. -/
def find_slot_of (tbl : Nat → Nat) (process : Nat) : Nat → Nat → Option Nat
  | 0, _ => none
  | n + 1, i => if tbl i = process then some i else find_slot_of tbl process n (i + 1)

/-- The function `free_process_struct`; `none` is a panic in `kfree` or
`pmm_free_page`. -/
def free_process_struct (k : Kernel) (process : Nat) : Option Kernel :=
  if process = 0 then some k else
  let k1 :=
    match find_slot_of k.process_table process MAX_PROCESSES 0 with
    | some i => { k with process_table := fun j => if j = i then 0 else k.process_table j }
    | none => k
  let r2 : Option Kernel :=
    if (k1.procs process).kernel_stack ≠ 0 then
      (kfree k1.heap (k1.procs process).kernel_stack).map (fun h => { k1 with heap := h })
    else some k1
  match r2 with
  | none => none
  | some k2 =>
    let r3 : Option Kernel :=
      if (k2.procs process).page_table ≠ 0 then
        (vmm_destroy_address_space k2.kpml4 k2.phys (k2.procs process).page_table).map
          (fun ph => { k2 with phys := ph })
      else some k2
    match r3 with
    | none => none
    | some k3 => (kfree k3.heap process).map (fun h => { k3 with heap := h })

/-- The loop of `find_zombie_child` from slot `i`, `n` slots left; `0` is `NULL`. -/
def find_zombie_from (k : Kernel) (parent_pid : Nat) : Nat → Nat → Nat
  | 0, _ => 0
  | n + 1, i =>
    if k.process_table i ≠ 0 ∧ (k.procs (k.process_table i)).parent_pid = parent_pid ∧
        (k.procs (k.process_table i)).state = ZOMBIE then k.process_table i
    else find_zombie_from k parent_pid n (i + 1)

/-- The function `find_zombie_child`. -/
def find_zombie_child (k : Kernel) (parent_pid : Nat) : Nat :=
  find_zombie_from k parent_pid MAX_PROCESSES 0

/-! ## System calls (`src/kernel/syscall.c`) -/

def SYS_FORK : Nat := 7
def MAX_SYSCALLS : Nat := 64

/-- The C string `s` as a list of character codes. -/
def cstr (s : String) : List Nat := s.toList.map Char.toNat

/-- No frame of the kernel heap arena was handed out between the PMM states `s` and
`s1`, of which the second arises from the first by calls of `pmm_alloc_page`: the words
of `pmm_bitmap` with the bits of the frames of `[HEAP_START, HEAP_START + HEAP_SIZE)` are
the same. -/
def arena_kept (s s1 : Phys) : Prop :=
  ∀ i, i < HEAP_SIZE / PAGE_SIZE / 32 →
    s1.pmm_bitmap (HEAP_START / PAGE_SIZE / 32 + i) = s.pmm_bitmap (HEAP_START / PAGE_SIZE / 32 + i)

instance (s s1 : Phys) : Decidable (arena_kept s s1) := by
  unfold arena_kept; infer_instance

/-- The loop of `vmm_alloc_user_pages` of `vmm.c` over page `i` with `n` pages left;
the Boolean is `true` for the result `0`, `false` for `-1`.  The result `none` is a
panic in `pmm_free_page`, or an iteration in which the PMM hands out a frame of the
kernel heap arena, as the page or as a page table inside `vmm_map_page`: `pmm_init`
leaves those frames free and `pmm_alloc_page` zeroes the frame it hands out, and with it
the PCBs, FD tables, pipes and block headers that lie there, which the model keeps
outside `Phys.mem` and cannot follow. -/
def alloc_user_pages_loop (process virt_addr : Nat) : Nat → Nat → Kernel → Option (Kernel × Bool)
  | 0, _, k => some (k, true)
  | n + 1, i, k =>
    let r := pmm_alloc_page k.phys
    if r.2 = 0 then some ({ k with phys := r.1 }, false) else
    let virt := (virt_addr + i * PAGE_SIZE) % U64
    let q := vmm_map_page r.1 (k.procs process).page_table virt r.2
               ((PAGE_PRESENT ||| PAGE_WRITABLE) ||| PAGE_USER)
    if ¬ arena_kept k.phys q.1 then none else
    if ¬ q.2 then
      (pmm_free_page q.1 r.2).map (fun ph => ({ k with phys := ph }, false))
    else
      alloc_user_pages_loop process virt_addr n (i + 1)
        (set_proc { k with phys := q.1 } process
          (fun p => { p with pages_allocated := (p.pages_allocated + 1) % U64 }))

/-- The function `vmm_alloc_user_pages`; `none` as for its loop. -/
def vmm_alloc_user_pages (k : Kernel) (process virt_addr count : Nat) : Option (Kernel × Bool) :=
  if virt_addr ≥ KERNEL_BASE then some (k, false)
  else alloc_user_pages_loop process virt_addr count 0 k

/-- The function `sys_exit`.  The second component is the value returned, `none`
when the call does not return to the caller (another process runs, or `process_exit`
ends in `panic`). -/
def sys_exit (k : Kernel) (status : Nat) : Kernel × Option Nat :=
  let current := process_get_current k
  if current = 0 then (k, some 0) else
  let k1 := set_proc k current (fun p => { p with exit_status := status % U32 })
  let k2 := set_proc k1 current (fun p => { p with state := ZOMBIE })
  if (k2.procs current).parent_pid = 0 then
    let r := process_exit k2
    (r.1, if r.2 then some 0 else none)
  else
    let k3 := schedule k2
    (k3, if process_get_current k3 = current then some 0 else none)

/-- The growth loop of `sys_sbrk` from `page`, `n` iterations left; both loop bounds
are multiples of `PAGE_SIZE`, so it runs `(new_page - old_page) / PAGE_SIZE` times.
The Boolean is `false` when `vmm_alloc_user_pages` failed, `none` is the `none` of
`vmm_alloc_user_pages`. -/
def sbrk_grow (current : Nat) : Nat → Nat → Kernel → Option (Kernel × Bool)
  | 0, _, k => some (k, true)
  | n + 1, page, k =>
    if page ≥ (k.procs current).heap_current then
      match vmm_alloc_user_pages k current page 1 with
      | none => none
      | some (k1, ok) =>
        if ¬ ok then some (k1, false) else sbrk_grow current n (page + PAGE_SIZE) k1
    else sbrk_grow current n (page + PAGE_SIZE) k

/-- The function `sys_sbrk`; `U64 - 1` is the returned `-1`, `none` is the `none` of
`vmm_alloc_user_pages`: a panic, or a frame of the kernel heap arena handed out. -/
def sys_sbrk (k : Kernel) (increment : Nat) : Option (Kernel × Nat) :=
  let current := process_get_current k
  if current = 0 then some (k, U64 - 1) else
  let old_heap := (k.procs current).heap_current
  if increment = 0 then some (k, old_heap) else
  let new_heap := ((k.procs current).heap_current + increment) % U64
  if new_heap > (k.procs current).heap_max then some (k, U64 - 1) else
  if new_heap < (k.procs current).heap_start then some (k, U64 - 1) else
  if 0 < increment ∧ increment < 2 ^ 63 then
    let old_page := (k.procs current).heap_current &&& NOT_FFF
    let new_page := ((new_heap + PAGE_SIZE - 1) % U64) &&& NOT_FFF
    match sbrk_grow current ((new_page - old_page) / PAGE_SIZE) old_page k with
    | none => none
    | some (k1, ok) =>
      if ¬ ok then some (k1, U64 - 1)
      else some (set_proc k1 current (fun p => { p with heap_current := new_heap }), old_heap)
  else some (set_proc k current (fun p => { p with heap_current := new_heap }), old_heap)

/-- The function `sys_fork`.  The result `none` is a panic on the way; otherwise the
value is what the function returns (`U64 - 1` for `-1`). -/
def sys_fork (k : Kernel) : Option (Kernel × Nat) :=
  let parent := process_get_current k
  if parent = 0 then some (k, U64 - 1) else
  match allocate_process_struct k with
  | none => none
  | some (k1, child) =>
    if child = 0 then some (k1, U64 - 1) else
    let k2 := set_proc k1 child
      (fun c => { c with name := (k1.procs parent).name.take 24 ++ cstr "[child]" })
    match vmm_clone_address_space k2.kpml4 k2.phys (k2.procs parent).page_table with
    | none => none
    | some (ph, root) =>
      let k3 := set_proc { k2 with phys := ph } child (fun c => { c with page_table := root })
      if root = 0 then
        (free_process_struct k3 child).map (fun k4 => (k4, U64 - 1))
      else
        let k4 := set_proc k3 child (fun c =>
          { c with
            context := (k3.procs parent).context
            parent_pid := (k3.procs parent).pid
            state := READY
            priority := (k3.procs parent).priority
            ticks_remaining := DEFAULT_QUANTUM
            ticks_total := 0
            heap_start := (k3.procs parent).heap_start
            heap_current := (k3.procs parent).heap_current
            heap_max := (k3.procs parent).heap_max
            stack_bottom := (k3.procs parent).stack_bottom
            stack_top := (k3.procs parent).stack_top
            pages_allocated := (k3.procs parent).pages_allocated
            page_faults := 0 })
        let k5 :=
          if (k4.procs parent).fd_table ≠ 0 ∧ (k4.procs child).fd_table ≠ 0 then
            { k4 with fd_tables := fun t =>
                if t = (k4.procs child).fd_table then
                  (fun i => if i < MAX_FDS then k4.fd_tables (k4.procs parent).fd_table i
                            else k4.fd_tables t i)
                else k4.fd_tables t }
          else k4
        let k6 := ready_queue_push k5 child
        some (k6, (k6.procs child).pid)

/-- What one pass of the loop of `sys_wait` does: `ret` is the value returned when
a zombie child was found (`none` when the caller went to `WAITING` and called
`schedule`; the loop runs again when it is resumed), `status_store` the pair of
address and value of the store `*status = child->exit_status`. -/
structure wait_result where
  ret : Option Nat
  status_store : Option (Nat × Nat)

/-- The offsets of the fields of 32 bits of `process_t` on x86_64 (`offsetof`): `pid`
is first, `state` follows the 32 bytes of `name`, 4 bytes of padding and the 72 bytes
of `context`, and `priority`, `parent_pid` and `exit_status` follow twelve fields of 8
bytes that start at 120. -/
def OFFSET_PID : Nat := 0
def OFFSET_STATE : Nat := 112
def OFFSET_PRIORITY : Nat := 216
def OFFSET_PARENT_PID : Nat := 220
def OFFSET_EXIT_STATUS : Nat := 224

/-- The value of the enumeration `process_state_t` with number `v`. -/
def state_of_int (v : Nat) : Option process_state_t :=
  if v = 0 then some READY else if v = 1 then some RUNNING else if v = 2 then some BLOCKED
  else if v = 3 then some WAITING else if v = 4 then some ZOMBIE
  else if v = 5 then some TERMINATED else none

/-- The first PCB of the process table, from slot `i` with `n` slots left, of which the
four bytes at `addr` hold a byte. -/
def pcb_hit (k : Kernel) (addr : Nat) : Nat → Nat → Option Nat
  | 0, _ => none
  | n + 1, i =>
    if k.process_table i ≠ 0 ∧ k.process_table i < addr + 4 ∧
        addr < k.process_table i + SIZEOF_PROCESS then some (k.process_table i)
    else pcb_hit k addr n (i + 1)

/-- The store `*status = v` of an `int` through the pointer `addr` that a system call
was given; no system call checks such a pointer.  The kernel runs identity mapped and
the address is taken as a physical one, as every pointer of the model is.  A store to a
field of 32 bits of a PCB of the process table changes that field (the field `state`
when the value is one of the enumeration); a store to memory that the PMM manages,
outside the kernel heap arena, changes `Phys.mem`.  The result is `none` for every
other store (to another part of a PCB, to the kernel image, to another object of the
kernel heap or beyond the memory of the PMM), which the model does not follow. -/
def store_status (k : Kernel) (addr v : Nat) : Option Kernel :=
  match pcb_hit k addr MAX_PROCESSES 0 with
  | some q =>
    if addr = q + OFFSET_PID then some (set_proc k q (fun p => { p with pid := v % U32 }))
    else if addr = q + OFFSET_STATE then
      (state_of_int (v % U32)).map (fun st => set_proc k q (fun p => { p with state := st }))
    else if addr = q + OFFSET_PRIORITY then
      some (set_proc k q (fun p => { p with priority := v % U32 }))
    else if addr = q + OFFSET_PARENT_PID then
      some (set_proc k q (fun p => { p with parent_pid := v % U32 }))
    else if addr = q + OFFSET_EXIT_STATUS then
      some (set_proc k q (fun p => { p with exit_status := v % U32 }))
    else none
  | none =>
    if PMM_START ≤ addr ∧ addr + 4 ≤ k.phys.pmm_total_pages * PAGE_SIZE ∧
        (addr + 4 ≤ HEAP_START ∨ HEAP_START + HEAP_SIZE ≤ addr) then
      some { k with phys := { k.phys with mem := write32 k.phys.mem addr v } }
    else none

/-- The function `sys_wait` (one pass of its loop); the outer `none` is a panic in
`free_process_struct`, or a store through `status_ptr` that `store_status` does not
follow. -/
def sys_wait (k : Kernel) (status_ptr : Nat) : Option (Kernel × wait_result) :=
  let parent := process_get_current k
  if parent = 0 then some (k, ⟨some (U64 - 1), none⟩) else
  let child := find_zombie_child k (k.procs parent).pid
  if child ≠ 0 then
    let store := if status_ptr ≠ 0 then some (status_ptr, (k.procs child).exit_status) else none
    let r1 := if status_ptr ≠ 0 then store_status k status_ptr (k.procs child).exit_status
              else some k
    match r1 with
    | none => none
    | some k1 =>
      let child_pid := (k1.procs child).pid
      (free_process_struct k1 child).map (fun k2 => (k2, ⟨some child_pid, store⟩))
  else
    some (schedule (set_proc k parent (fun p => { p with state := WAITING })), ⟨none, none⟩)

/-- The four bytes at `addr` are memory that the PMM manages outside the kernel heap
arena, and none of them is a byte of a PCB of the process table. -/
def user_int (k : Kernel) (addr : Nat) : Prop :=
  pcb_hit k addr MAX_PROCESSES 0 = none ∧
  (PMM_START ≤ addr ∧ addr + 4 ≤ k.phys.pmm_total_pages * PAGE_SIZE ∧
    (addr + 4 ≤ HEAP_START ∨ HEAP_START + HEAP_SIZE ≤ addr))

instance (k : Kernel) (addr : Nat) : Decidable (user_int k addr) := by
  unfold user_int; infer_instance

/-- An element of the table `builtins` of `sys_execve`. -/
structure builtin_program where
  path : List Nat
  entry : Nat
  name : List Nat

/-- The table `builtins` of `sys_execve`; the arguments are the addresses of the
functions `builtin_hello_main`, `shell_main`, `init_main` and `shell_v2_main`. -/
def builtins (hello shell init shell_v2 : Nat) : List builtin_program :=
  [⟨cstr "/bin/hello", hello, cstr "hello"⟩,
   ⟨cstr "/bin/shell", shell, cstr "shell"⟩,
   ⟨cstr "/bin/init", init, cstr "init"⟩,
   ⟨cstr "/bin/shell_v2", shell_v2, cstr "shell_v2"⟩]

/-- The loop of `sys_execve` over the table; `path` is the C string at `path_ptr`. -/
def execve_loop (current : Nat) (path : List Nat) : List builtin_program → Kernel → Kernel × Nat
  | [], k => (k, U64 - 1)
  | b :: rest, k =>
    if path = b.path then
      let k1 := { k with phys := { k.phys with
                    mem := vmm_clear_user_space k.phys.mem (k.procs current).page_table } }
      let k2 := set_proc k1 current (fun p => { p with context := { p.context with rip := b.entry } })
      let k3 := set_proc k2 current
        (fun p => { p with context := { p.context with rsp := USER_STACK_TOP - 16 } })
      let k4 := set_proc k3 current (fun p => { p with context := { p.context with rflags := 0x202 } })
      (set_proc k4 current (fun p => { p with name := b.name.take 31 }), 0)
    else execve_loop current path rest k

/-- The function `sys_execve`; `tbl` is the table `builtins`, `path` the C string at
`path_ptr`. -/
def sys_execve (tbl : List builtin_program) (k : Kernel) (path_ptr : Nat) (path : List Nat) :
    Kernel × Nat :=
  let current := process_get_current k
  if current = 0 ∨ path_ptr = 0 then (k, U64 - 1)
  else execve_loop current path tbl k

/-- The type `syscall_func_t` of a table entry: the new state and the value
returned, `none` when the call does not return. -/
abbrev syscall_func_t := Kernel → Nat → Nat → Nat → Nat → Nat → Kernel × Option Nat

/-- The entry `syscall_table[SYS_FORK]` that `init_syscalls` registers. -/
def sys_fork_entry : syscall_func_t := fun k _ _ _ _ _ =>
  match sys_fork k with
  | none => (k, none)
  | some (k1, v) => (k1, some v)

/-- The function `syscall_handler`: the state and the trap frame after the call;
`table` is `syscall_table`.  When the system call does not return the frame is left
as it is. -/
def syscall_handler (table : Nat → Option syscall_func_t) (k : Kernel) (regs : registers_t) :
    Kernel × registers_t :=
  let syscall_num := regs.rax
  if syscall_num ≥ MAX_SYSCALLS then (k, { regs with rax := U64 - 1 }) else
  match table syscall_num with
  | none => (k, { regs with rax := U64 - 1 })
  | some f =>
    match f k regs.rdi regs.rsi regs.rdx regs.r10 regs.r8 with
    | (k1, none) => (k1, regs)
    | (k1, some result) => (k1, { regs with rax := result })

/-- The function `get_fd_table`; `0` is `NULL`. -/
def get_fd_table (k : Kernel) : Nat :=
  if process_get_current k = 0 ∨ (k.procs (process_get_current k)).fd_table = 0 then 0
  else (k.procs (process_get_current k)).fd_table

/-- Update of entry `fd` of the FD table at address `t`. -/
def set_fd (k : Kernel) (t fd : Nat) (f : fd_entry_t → fd_entry_t) : Kernel :=
  { k with fd_tables := fun q => if q = t then
             (fun i => if i = fd then f (k.fd_tables t fd) else k.fd_tables t i)
           else k.fd_tables q }

/-- The function `pipe_create`; `none` is the out-of-memory panic of `kmalloc`. -/
def pipe_create (k : Kernel) : Option (Kernel × Nat) :=
  match kmalloc k.heap SIZEOF_PIPE with
  | none => none
  | some (h, p) =>
    if p = 0 then some ({ k with heap := h }, 0)
    else some ({ k with heap := h
                        pipes := fun q => if q = p then pipe_create_fields (k.pipes p)
                                          else k.pipes q }, p)

/-- The loop of `sys_pipe` that looks for two free descriptors, from `i` with `n`
indices left; `none` stands for `-1`. -/
def find_two_fds (tbl : Nat → fd_entry_t) : Nat → Nat → Option Nat → Option Nat × Option Nat
  | 0, _, read_fd => (read_fd, none)
  | n + 1, i, read_fd =>
    if (tbl i).node = 0 ∧ (tbl i).pipe = 0 then
      match read_fd with
      | none => find_two_fds tbl n (i + 1) (some i)
      | some r => (some r, some i)
    else find_two_fds tbl n (i + 1) read_fd

/-- The function `sys_pipe`: the state, the value returned and the pair stored in
`pipefd[0]`, `pipefd[1]`; `none` is the out-of-memory panic of `kmalloc`. -/
def sys_pipe (k : Kernel) (pipefd_ptr : Nat) : Option (Kernel × Nat × Option (Nat × Nat)) :=
  if pipefd_ptr = 0 then some (k, U64 - 1, none) else
  if get_fd_table k = 0 then some (k, U64 - 1, none) else
  match pipe_create k with
  | none => none
  | some (k1, pipe) =>
    if pipe = 0 then some (k1, U64 - 1, none) else
    match find_two_fds (k1.fd_tables (get_fd_table k)) (MAX_FDS - 3) 3 none with
    | (some read_fd, some write_fd) =>
      let t := get_fd_table k
      let k2 := set_fd k1 t read_fd (fun e => { e with pipe := pipe, is_pipe := 1, flags := 0 })
      let k3 := set_fd k2 t write_fd (fun e => { e with pipe := pipe, is_pipe := 1, flags := 1 })
      some (k3, 0, some (read_fd, write_fd))
    | _ =>
      some ({ k1 with pipes := fun q => if q = pipe then pipe_destroy (k1.pipes pipe)
                                         else k1.pipes q }, U64 - 1, none)

/-- The function `sys_close`. -/
def sys_close (k : Kernel) (fd : Nat) : Kernel × Nat :=
  if get_fd_table k = 0 ∨ fd ≥ MAX_FDS then (k, U64 - 1)
  else (set_fd k (get_fd_table k) fd (fun _ => fd_zero), 0)

/-- The function `sys_write`, `buf` being the `count` bytes at `buf_ptr`.  A pointer
`&ramfs.nodes[j]` held in an FD entry is represented by `j + 1`.  The value is `none`
when the call does not return. -/
def sys_write (k : Kernel) (fd buf_ptr : Nat) (buf : List Nat) : Kernel × Option Nat :=
  if buf_ptr = 0 ∨ buf.length = 0 then (k, some 0) else
  if fd = 1 ∨ fd = 2 then (k, some buf.length) else
  let t := get_fd_table k
  if t ≠ 0 ∧ fd < MAX_FDS then
    if (k.fd_tables t fd).is_pipe ≠ 0 ∧ (k.fd_tables t fd).pipe ≠ 0 then
      match pipe_write (k.pipes (k.fd_tables t fd).pipe) buf with
      | none => (k, none)
      | some (p, r) =>
        ({ k with pipes := fun q => if q = (k.fd_tables t fd).pipe then p else k.pipes q },
         some (u64_of_int r))
    else if (k.fd_tables t fd).node ≠ 0 then
      match fs_write k.ramfs ((k.fd_tables t fd).node - 1) (k.fd_tables t fd).offset
              (buf.take (buf.length % U32)) with
      | none => (k, none)
      | some (fs1, written) =>
        let k1 := { k with ramfs := fs1 }
        (if written > 0 then
           set_fd k1 t fd (fun e => { e with offset := (e.offset + written.toNat) % U32 })
         else k1, some (u64_of_int written))
    else (k, some (U64 - 1))
  else (k, some (U64 - 1))

/-- The loop of `sys_read` on `STDIN`, `n` bytes wanted, `kbd` the bytes the keyboard
ring delivers: the bytes stored, or `none` when the loop waits for ever. -/
def stdin_loop : Nat → List Nat → List Nat → Option (List Nat)
  | 0, _, out => some out
  | _ + 1, [], _ => none
  | n + 1, c :: kbd, out =>
    if c = 10 then some (out ++ [c]) else stdin_loop n kbd (out ++ [c])

/-- The function `sys_read`: the state and, when the call returns, the value
returned with the bytes stored in `buf`. -/
def sys_read (k : Kernel) (kbd : List Nat) (fd buf_ptr count : Nat) :
    Kernel × Option (Nat × List Nat) :=
  if buf_ptr = 0 ∨ count = 0 then (k, some (0, [])) else
  if fd = 0 then (k, (stdin_loop count kbd []).map (fun out => (out.length, out))) else
  let t := get_fd_table k
  if t ≠ 0 ∧ fd < MAX_FDS then
    if (k.fd_tables t fd).is_pipe ≠ 0 ∧ (k.fd_tables t fd).pipe ≠ 0 then
      match pipe_read (k.pipes (k.fd_tables t fd).pipe) count with
      | none => (k, none)
      | some (p, out, r) =>
        ({ k with pipes := fun q => if q = (k.fd_tables t fd).pipe then p else k.pipes q },
         some (u64_of_int r, out))
    else if (k.fd_tables t fd).node ≠ 0 then
      match fs_read k.ramfs ((k.fd_tables t fd).node - 1) (k.fd_tables t fd).offset
              (count % U32) with
      | none => (k, none)
      | some (out, bytes_read) =>
        (if bytes_read > 0 then
           set_fd k t fd (fun e => { e with offset := (e.offset + bytes_read.toNat) % U32 })
         else k, some (u64_of_int bytes_read, out))
    else (k, some (U64 - 1, []))
  else (k, some (U64 - 1, []))

/-! ## Vocabulary of the pipe properties -/

/-- The invariant of a pipe stated in section 3 of the specification. -/
def pipe_wf (p : pipe_t) : Prop :=
  p.read_pos < PIPE_SIZE ∧ p.count ≤ PIPE_SIZE ∧
  p.write_pos = (p.read_pos + p.count) % PIPE_SIZE

/-- The bytes buffered in a pipe, oldest first. -/
def pipe_contents (p : pipe_t) : List Nat :=
  (List.range p.count).map (fun i => p.buffer ((p.read_pos + i) % PIPE_SIZE))

/-- A call of `pipe_write` or of `pipe_read` on one pipe. -/
inductive pipe_op where
  | write (s : List Nat)
  | read (n : Nat)

/-- A sequence of calls on one pipe, starting with `w` the bytes written so far and
`r` the bytes read so far: the pipe, the bytes written and the bytes read at the end,
or `none` when one of the calls never returns. -/
def pipe_run : List pipe_op → pipe_t → List Nat → List Nat → Option (pipe_t × List Nat × List Nat)
  | [], p, w, r => some (p, w, r)
  | pipe_op.write s :: ops, p, w, r =>
    match pipe_write p s with
    | none => none
    | some (p1, ret) => pipe_run ops p1 (if ret < 0 then w else w ++ s) r
  | pipe_op.read n :: ops, p, w, r =>
    match pipe_read p n with
    | none => none
    | some (p1, out, _) => pipe_run ops p1 w (r ++ out)

/-- A pipe as `pipe_create` returns it, on memory holding zeros. -/
def pipe_fresh : pipe_t := pipe_create_fields ⟨fun _ => 0, 0, 0, 0, 0, 0⟩

/-! ## Concrete states on which the theorems are instantiated -/

/-- The PMM and memory after `pmm_init` for 128 MiB with one frame, `0x400000`,
allocated and zeroed. -/
def phys0 : Phys :=
  { pmm_bitmap := fun i => if i = 32 then 1 else if 32 < i ∧ i < 1024 then 0 else 0xFFFFFFFF
    pmm_total_pages := 32768
    pmm_free_pages := 31743
    pmm_reserved_pages := 1024
    mem := fun _ => 0 }

/-- A kernel heap holding the PCB, the kernel stack and the FD table of one process. -/
def heap0 : KHeap :=
  { blocks := [⟨0x2000000, 264, false⟩, ⟨0x2000120, 8192, false⟩, ⟨0x2002138, 512, false⟩,
               ⟨0x2002350, 0xFFDC98, true⟩]
    heap_initialized := true
    total_allocated := 8968
    total_free := 0xFFDCF8
    allocation_count := 3 }

/-- An empty RAM file system. -/
def ramfs0 : ramfs_t :=
  { nodes := fun _ => ⟨[], 0, 0, 0, 0, 0, 0, 0⟩
    blocks := fun _ => ⟨fun _ => 0, 0⟩
    free_blocks := fun _ => 0
    next_inode := 1
    root := 0 }

/-- The PCB of the process with PID 1 in `kernel0`. -/
def proc1 : process_t :=
  { process_zero with
    pid := 1, name := [105, 110, 105, 116], state := RUNNING, page_table := 0x400000,
    heap_start := 0x400000, heap_current := 0x400000, heap_max := 0x10400000,
    stack_bottom := 0x7FFFFFEFE000, stack_top := 0x7FFFFFFFE000,
    kernel_stack := 0x2000138, kernel_stack_size := 8192, ticks_remaining := 10,
    fd_table := 0x2002150,
    context := ⟨1, 2, 3, 4, 5, 6, 0x2002000, 0x100000, 0x202⟩ }

/-- A kernel state with the idle process and one running process, PID 1. -/
def kernel0 : Kernel :=
  { phys := phys0
    kpml4 := 0x1000000
    heap := heap0
    procs := fun q => if q = 0x2000018 then proc1
                      else if q = 0x200000 then { process_zero with priority := 255, ticks_remaining := 1 }
                      else process_zero
    fd_tables := fun _ _ => fd_zero
    pipes := fun _ => ⟨fun _ => 0, 0, 0, 0, 0, 0⟩
    process_table := fun i => if i = 0 then 0x200000 else if i = 1 then 0x2000018 else 0
    next_pid := 2
    ready_queue_head := 0
    ready_queue_tail := 0
    current_process := 0x2000018
    idle_process := 0x200000
    scheduler_enabled := true
    schedule_count := 1
    cr3 := 0x400000
    cpu := ⟨0, 0, 0, 0, 0, 0, 0, 0, 0⟩
    ramfs := ramfs0 }

/-! ## Vocabulary of the process properties -/

/-- The first block of the list with header address `a` exists and is in use. -/
def first_used (a : Nat) : List block_t → Bool
  | [] => false
  | c :: l => if c.addr = a then !c.free else first_used a l

/-- The pointer `ptr` is the payload of a block of the heap that is in use. -/
def heap_live (h : KHeap) (ptr : Nat) : Prop :=
  BLOCK_HEADER_SIZE ≤ ptr ∧ HEAP_START ≤ ptr - BLOCK_HEADER_SIZE ∧
  ptr - BLOCK_HEADER_SIZE < HEAP_START + HEAP_SIZE ∧
  first_used (ptr - BLOCK_HEADER_SIZE) h.blocks = true

/-- The root `root` can be handed to `vmm_destroy_address_space` without a panic: it
is null, the kernel root, or a frame of the managed range that is marked used. -/
def root_releasable (k : Kernel) (root : Nat) : Prop :=
  root = 0 ∨ root = k.kpml4 ∨
  (root % PAGE_SIZE = 0 ∧ PMM_START ≤ root ∧ root / PAGE_SIZE < k.phys.pmm_total_pages ∧
    bitmap_test k.phys.pmm_bitmap (root / PAGE_SIZE) = true)

/-- Slot `j` of the process table holds a zombie whose parent has PID `pid`. -/
def zombie_child_at (k : Kernel) (pid j : Nat) : Prop :=
  k.process_table j ≠ 0 ∧ (k.procs (k.process_table j)).parent_pid = pid ∧
  (k.procs (k.process_table j)).state = ZOMBIE

/-- The resources of the PCB `c` can be released: the PCB and its kernel stack are
distinct live heap blocks and its root is releasable. -/
def reapable (k : Kernel) (c : Nat) : Prop :=
  heap_live k.heap c ∧
  ((k.procs c).kernel_stack = 0 ∨
    (heap_live k.heap (k.procs c).kernel_stack ∧ (k.procs c).kernel_stack ≠ c)) ∧
  root_releasable k (k.procs c).page_table

instance (h : KHeap) (ptr : Nat) : Decidable (heap_live h ptr) := by
  unfold heap_live; infer_instance

instance (k : Kernel) (root : Nat) : Decidable (root_releasable k root) := by
  unfold root_releasable; infer_instance

instance (k : Kernel) (pid j : Nat) : Decidable (zombie_child_at k pid j) := by
  unfold zombie_child_at; infer_instance

instance (k : Kernel) (c : Nat) : Decidable (reapable k c) := by
  unfold reapable; infer_instance

/-- The PMM and memory of `phys0` with a second frame, `0x401000`, allocated. -/
def phys1 : Phys :=
  { phys0 with pmm_bitmap := fun i => if i = 32 then 3 else if 32 < i ∧ i < 1024 then 0 else 0xFFFFFFFF
               pmm_free_pages := 31742 }

/-- A kernel heap holding the PCBs, kernel stacks and FD tables of two processes. -/
def heap1 : KHeap :=
  { blocks := [⟨0x2000000, 264, false⟩, ⟨0x2000120, 8192, false⟩, ⟨0x2002138, 512, false⟩,
               ⟨0x2002350, 264, false⟩, ⟨0x2002470, 8192, false⟩, ⟨0x2004488, 512, false⟩,
               ⟨0x20046A0, 0xFFB948, true⟩]
    heap_initialized := true
    total_allocated := 17936
    total_free := 16759280
    allocation_count := 6 }

/-- The PCB of the process with PID 2, a child of PID 1, in `kernel1`. -/
def proc2 : process_t :=
  { proc1 with
    pid := 2, name := [105, 110, 105, 116, 91, 99, 104, 105, 108, 100, 93],
    page_table := 0x401000, parent_pid := 1, kernel_stack := 0x2002488, fd_table := 0x20044A0 }

/-- A kernel state in which PID 1 is `WAITING` in `sys_wait` and its child PID 2 is
the running process; the ready queue is empty. -/
def kernel1 : Kernel :=
  { kernel0 with
    phys := phys1
    heap := heap1
    procs := fun q => if q = 0x2000018 then { proc1 with state := WAITING }
                      else if q = 0x2002368 then proc2
                      else if q = 0x200000 then { process_zero with priority := 255, ticks_remaining := 1 }
                      else process_zero
    process_table := fun i => if i = 0 then 0x200000 else if i = 1 then 0x2000018
                              else if i = 2 then 0x2002368 else 0
    next_pid := 3
    current_process := 0x2002368
    cr3 := 0x401000 }

/-- A kernel state in which PID 1 runs and its child PID 2 is a zombie that exited
with status 42. -/
def kernel2 : Kernel :=
  { kernel1 with
    procs := fun q => if q = 0x2000018 then proc1
                      else if q = 0x2002368 then { proc2 with state := ZOMBIE, exit_status := 42 }
                      else if q = 0x200000 then { process_zero with priority := 255, ticks_remaining := 1 }
                      else process_zero
    current_process := 0x2000018
    cr3 := 0x400000 }

/-! ## Vocabulary of the address-space properties -/

/-- Frame `f` is free in the PMM bitmap, so that `pmm_alloc_page` may hand it out. -/
def frame_free (s : Phys) (f : Nat) : Prop :=
  f < BITMAP_WORDS * 32 ∧ bitmap_test s.pmm_bitmap f = false

instance (s : Phys) (f : Nat) : Decidable (frame_free s f) := by
  unfold frame_free; infer_instance

/-- State `s1` is reached from `s` by allocation only: no frame has become free, and
memory outside the frames that are free in `s` is as it was. -/
def grows (s s1 : Phys) : Prop :=
  (∀ f, frame_free s1 f → frame_free s f) ∧ (∀ a, ¬ frame_free s (a / 4096) → s1.mem a = s.mem a)

/-- The PMM owns every frame of the tree below a node of level `l` (a page for
`l = 0`, a page table, a page directory, a PDPT for `l = 1, 2, 3`): none of them is
free.  This is the invariant "a present entry in any level always points to a
PMM-owned frame" of section 3 of the specification. -/
def tree_owned (s : Phys) : Nat → Nat → Prop
  | 0, page => ¬ frame_free s (page / 4096)
  | l + 1, table => ¬ frame_free s (table / 4096) ∧
      ∀ i, i < 512 → entry s.mem table i % 2 = 1 →
        tree_owned s l (entry s.mem table i - entry s.mem table i % 4096)

/-- The PMM owns the PML4 frame at `root` and every frame of the trees below its
user-half entries. -/
def space_owned (s : Phys) (root : Nat) : Prop :=
  (∀ a, root ≤ a → a < root + 4096 → ¬ frame_free s (a / 4096)) ∧
  ∀ i, i < 256 → entry s.mem root i % 2 = 1 →
    tree_owned s 3 (entry s.mem root i - entry s.mem root i % 4096)

/-- The node at `c` in memory `mC` is a copy of the node of level `l` at `p` in
memory `mP`, held in frames of the set `F`: a page has the same bytes; a table has,
for each present entry of the parent, an entry with the same low 12 bits that points to
a copy of what the parent entry points to, and `0` for each entry that is not present. -/
def cloned (F : Nat → Prop) (mP mC : Mem) : Nat → Nat → Nat → Prop
  | 0, p, c => c % 4096 = 0 ∧ F (c / 4096) ∧
      ∀ off, off < 4096 → read8 mC (c + off) = read8 mP (p + off)
  | l + 1, t, c => c % 4096 = 0 ∧ F (c / 4096) ∧
      ∀ i, i < 512 →
        (entry mP t i % 2 = 1 →
          ∃ d, entry mC c i = d + entry mP t i % 4096 ∧
            cloned F mP mC l (entry mP t i - entry mP t i % 4096) d) ∧
        (entry mP t i % 2 = 0 → entry mC c i = 0)

/-- The invariant of the loops that fill a child table: `mP` is the memory at the
start of the address-space clone, `sb` the state in which the function that owns the
loop was called, `sa` the state in which the child table had just been allocated, `s`
the state before iteration `i`. -/
structure clone_inv (l n parent child : Nat) (mP : Mem) (sb sa s : Phys) (i : Nat) : Prop where
  g0 : grows sb s
  ga : ∀ f, frame_free s f → frame_free sa f
  done : ∀ j, j < i →
    (entry mP parent j % 2 = 1 →
      ∃ d, entry s.mem child j = d + entry mP parent j % 4096 ∧
        cloned (fun f => frame_free sa f ∧ ¬ frame_free s f) mP s.mem l
          (entry mP parent j - entry mP parent j % 4096) d) ∧
    (entry mP parent j % 2 = 0 → entry s.mem child j = 0)
  todo : ∀ j, i ≤ j → j < n → entry s.mem child j = 0

/-- What a function that clones a node of level `l` has to do when it succeeds. -/
def clone_ok (l : Nat) (lower : Phys → Nat → Option (Phys × Nat)) : Prop :=
  ∀ (s0 s s1 : Phys) (p c : Nat), grows s0 s → tree_owned s0 l p → p % 4096 = 0 →
    lower s p = some (s1, c) → c ≠ 0 →
    grows s s1 ∧ cloned (fun f => frame_free s f ∧ ¬ frame_free s1 f) s0.mem s1.mem l p c

/-- The index that the walk of `vmm_get_physical` uses in a table of level `l`
(`4` for the PML4, `3` for a PDPT, `2` for a page directory, `1` for a page table). -/
def level_index (l virt : Nat) : Nat :=
  match l with
  | 1 => PT_INDEX virt
  | 2 => PD_INDEX virt
  | 3 => PDPT_INDEX virt
  | _ => PML4_INDEX virt

/-- The walk of `vmm_get_physical` from a table of level `l` down to the leaf entry. -/
def walk (m : Mem) (virt : Nat) : Nat → Nat → Option Nat
  | 0, _ => none
  | l + 1, table =>
    if entry m table (level_index (l + 1) virt) &&& PAGE_PRESENT = 0 then none
    else if l = 0 then some (entry m table (level_index (l + 1) virt))
    else walk m virt l (entry m table (level_index (l + 1) virt) &&& NOT_FFF)

/-- Frame `f` holds the node of level `l` at `node` or a node of the tree below it. -/
def reach (m : Mem) : Nat → Nat → Nat → Prop
  | 0, page, f => f = page / 4096
  | l + 1, table, f => f = table / 4096 ∨
      ∃ i, i < 512 ∧ entry m table i % 2 = 1 ∧
        reach m l (entry m table i - entry m table i % 4096) f

/-- Frame `f` is reachable from a user-half entry of the PML4 at `root`: it holds a
PDPT, a page directory, a page table or a page of the user half. -/
def user_reach (m : Mem) (root f : Nat) : Prop :=
  ∃ i, i < 256 ∧ entry m root i % 2 = 1 ∧
    reach m 3 (entry m root i - entry m root i % 4096) f

/-- A system-call table in which only `SYS_FORK` is registered. -/
def syscall_table_fork : Nat → Option syscall_func_t :=
  fun n => if n = SYS_FORK then some sys_fork_entry else none

/-- A trap frame of `int 0x80` with `rax = SYS_FORK`. -/
def regs_fork : registers_t :=
  { r15 := 0, r14 := 0, r13 := 0, r12 := 0, r11 := 0, r10 := 0, r9 := 0, r8 := 0,
    rdi := 0, rsi := 0, rbp := 0x7FFFFFFFDFF0, rbx := 0, rdx := 0, rcx := 0, rax := 7,
    int_no := 128, err_code := 0, rip := 0x100020, cs := 0x1B, rflags := 0x202,
    rsp := 0x7FFFFFFFDFE0, ss := 0x23 }

/-! ## Vocabulary of the file-system properties -/

/-- The list `l` is the chain of blocks that starts at `b` and ends at the end mark:
each block is a block of the pool and its `next_block` is the block after it. -/
def is_chain (fs : ramfs_t) : Nat → List Nat → Prop
  | b, [] => b = NO_BLOCK
  | b, x :: xs => b = x ∧ x < FS_MAX_BLOCKS ∧ is_chain fs (fs.blocks x).next_block xs

/-- Number of blocks whose bit in `free_blocks` is clear. -/
def free_count (fs : ramfs_t) : Nat :=
  (List.range FS_MAX_BLOCKS).countP (fun i => ! bitmap_test fs.free_blocks i)

/-- Byte `p` of the file whose chain of blocks is `l`. -/
def file_byte (fs : ramfs_t) (l : List Nat) (p : Nat) : Nat :=
  (fs.blocks (l.getD (p / FS_BLOCK_SIZE) NO_BLOCK)).data (p % FS_BLOCK_SIZE)

/-- Number of blocks that the chain of a file must have for a write of `n` bytes at
`offset`. -/
def blocks_needed (offset n : Nat) : Nat :=
  if n = 0 then offset / FS_BLOCK_SIZE + 1 else (offset + n - 1) / FS_BLOCK_SIZE + 1

/-- The inode `node` is a regular file whose blocks are the chain `l`, all of them
marked used in the bitmap, and whose size is within the chain. -/
def file_wf (fs : ramfs_t) (node : Nat) (l : List Nat) : Prop :=
  (fs.nodes node).type = FS_TYPE_FILE ∧
  is_chain fs (fs.nodes node).first_block l ∧
  (∀ b, b ∈ l → bitmap_test fs.free_blocks b = true) ∧
  (fs.nodes node).size ≤ l.length * FS_BLOCK_SIZE

/-- A RAM file system with one regular file, inode 1, of 5 bytes in block 0. -/
def ramfs1 : ramfs_t :=
  { nodes := fun i => if i = 1 then ⟨[102], FS_TYPE_FILE, 5, 0x1A4, 0, 0, 0, 1⟩
                      else ⟨[], 0, 0, 0, NO_BLOCK, 0, 0, 0⟩
    blocks := fun i => if i = 0 then ⟨fun j => if j < 5 then 104 + j else 0, NO_BLOCK⟩
                       else ⟨fun _ => 0, 0⟩
    free_blocks := fun i => if i = 0 then 1 else 0
    next_inode := 2
    root := 0 }

/-- A memory with one user page: the PML4 at `0x400000`, a PDPT at `0x401000`, a page
directory at `0x402000` and a page table at `0x403000`, each with entry 0 present,
writable and user, and the page `0x404000`, mapped at virtual address 0, with the byte
`0x42` at its start. -/
def mem2 : Mem :=
  set_entry (set_entry (set_entry (set_entry (write8 (fun _ => 0) 0x404000 0x42)
    0x403000 0 0x404007) 0x402000 0 0x403007) 0x401000 0 0x402007) 0x400000 0 0x401007

/-- The PMM after `pmm_init` for 128 MiB with the five frames of `mem2` allocated. -/
def phys2 : Phys :=
  { pmm_bitmap := fun i => if i = 32 then 0x1F else if 32 < i ∧ i < 1024 then 0 else 0xFFFFFFFF
    pmm_total_pages := 32768
    pmm_free_pages := 31739
    pmm_reserved_pages := 1024
    mem := mem2 }

/-! ## Vocabulary of the ready-queue properties -/

/-- The PCBs of `l` are chained through `prev` and `next` after the PCB `prev`
(`0` when `l` starts the queue), and the last of them is `ready_queue_tail`. -/
def queue_links (k : Kernel) : Nat → List Nat → Prop
  | prev, [] => k.ready_queue_tail = prev
  | prev, p :: l =>
    p ≠ 0 ∧ (k.procs p).prev = prev ∧ (k.procs p).next = l.headD 0 ∧ queue_links k p l

/-- The ready queue of `k` holds the PCBs of `l`, in this order from the head. -/
def queue_is (k : Kernel) (l : List Nat) : Prop :=
  l.Nodup ∧ k.ready_queue_head = l.headD 0 ∧ queue_links k 0 l

/-- The links of a ready queue whose members are the PCBs of `l` are well formed:
the head has no predecessor, the tail no successor, and the successor of a member
points back to it. -/
def links_wf (k : Kernel) (l : List Nat) : Prop :=
  (k.ready_queue_head ≠ 0 → (k.procs k.ready_queue_head).prev = 0) ∧
  (k.ready_queue_tail ≠ 0 → (k.procs k.ready_queue_tail).next = 0) ∧
  ∀ x, x ∈ l → (k.procs x).next ≠ 0 → (k.procs (k.procs x).next).prev = x

/-- Calls of `ready_queue_push` for the PCBs of a list, first to last. -/
def push_all (k : Kernel) : List Nat → Kernel
  | [] => k
  | p :: ps => push_all (ready_queue_push k p) ps

/-- The state after `n` successive calls of `ready_queue_pop`, and the pointers
that they returned, first to last. -/
def pop_n : Nat → Kernel → Kernel × List Nat
  | 0, k => (k, [])
  | n + 1, k => ((pop_n n (ready_queue_pop k).1).1, (ready_queue_pop k).2 :: (pop_n n (ready_queue_pop k).1).2)

/-- The function `scheduler_tick` of `scheduler.c`, the timer callback. -/
def scheduler_tick (k : Kernel) : Kernel :=
  if ¬ k.scheduler_enabled then k else
  let current := process_get_current k
  if current = 0 then k else
  let k1 := set_proc k current (fun p => { p with ticks_total := (p.ticks_total + 1) % U64 })
  let k2 :=
    if (k1.procs current).ticks_remaining > 0 then
      set_proc k1 current (fun p => { p with ticks_remaining := p.ticks_remaining - 1 })
    else k1
  if (k2.procs current).ticks_remaining = 0 then
    schedule (set_proc k2 current (fun p => { p with ticks_remaining := DEFAULT_QUANTUM }))
  else k2

/-- The state after `n` consecutive calls of `scheduler_tick`. -/
def tick_n : Nat → Kernel → Kernel
  | 0, k => k
  | n + 1, k => tick_n n (scheduler_tick k)

/-- The scheduler is enabled, the PCB `A` is current and `RUNNING` with `r` ticks
left in its quantum, and the ready queue holds the PCBs of `l`, all `READY` and with a full
quantum. -/
structure rr_state (k : Kernel) (A : Nat) (l : List Nat) (r : Nat) : Prop where
  enabled : k.scheduler_enabled = true
  current : k.current_process = A
  nonnull : A ≠ 0
  fresh : A ∉ l
  running : (k.procs A).state = RUNNING
  left : (k.procs A).ticks_remaining = r
  queue : queue_is k l
  ready : ∀ x, x ∈ l → (k.procs x).state = READY ∧ (k.procs x).ticks_remaining = DEFAULT_QUANTUM

/-- A kernel heap holding the PCBs, kernel stacks and FD tables of three processes. -/
def heap2 : KHeap :=
  { blocks := [⟨0x2000000, 264, false⟩, ⟨0x2000120, 8192, false⟩, ⟨0x2002138, 512, false⟩,
               ⟨0x2002350, 264, false⟩, ⟨0x2002470, 8192, false⟩, ⟨0x2004488, 512, false⟩,
               ⟨0x20046A0, 264, false⟩, ⟨0x20047C0, 8192, false⟩, ⟨0x20067D8, 512, false⟩,
               ⟨0x20069F0, 0xFF95F8, true⟩]
    heap_initialized := true
    total_allocated := 26904
    total_free := 16750312
    allocation_count := 9 }

/-- A kernel state with three processes: PID 1 is running, PID 2 and PID 3 are ready
and wait in the ready queue in this order, each with a full quantum. -/
def kernel3 : Kernel :=
  { kernel0 with
    phys := { phys0 with
      pmm_bitmap := fun i => if i = 32 then 7 else if 32 < i ∧ i < 1024 then 0 else 0xFFFFFFFF
      pmm_free_pages := 31741 }
    heap := heap2
    procs := fun q =>
      if q = 0x2000018 then proc1
      else if q = 0x2002368 then { proc2 with state := READY, next := 0x20046B8 }
      else if q = 0x20046B8 then
        { proc2 with pid := 3, state := READY, page_table := 0x402000, kernel_stack := 0x20047D8,
                     fd_table := 0x20067F0, prev := 0x2002368 }
      else if q = 0x200000 then { process_zero with priority := 255, ticks_remaining := 1 }
      else process_zero
    process_table := fun i => if i = 0 then 0x200000 else if i = 1 then 0x2000018
                              else if i = 2 then 0x2002368 else if i = 3 then 0x20046B8 else 0
    next_pid := 4
    ready_queue_head := 0x2002368
    ready_queue_tail := 0x20046B8 }

/-! ## Signals (`include/ipc/signal.h`, `src/ipc/signal.c`) -/

def SIGINT : Int := 2
def SIGKILL : Int := 9
def SIGTERM : Int := 15
def SIGSTOP : Int := 19
def SIGCONT : Int := 18

/-- The search of `process_find_by_pid` from slot `i` of the process table, `n`
slots left; `0` is `NULL`. -/
def find_by_pid_from (k : Kernel) (pid : Int) : Nat → Nat → Nat
  | 0, _ => 0
  | n + 1, i =>
    if k.process_table i ≠ 0 ∧ ((k.procs (k.process_table i)).pid : Int) = pid then
      k.process_table i
    else find_by_pid_from k pid n (i + 1)

/-- Modelled from the spec: `process_find_by_pid` is called by `signal_send` and is
not among the sources; by section 4.10 of the specification a signal acts on the PCB
of the target process, so the function gives the PCB of the process table whose `pid` is
the argument (the first one in table order), and `NULL` when there is none. -/
def process_find_by_pid (k : Kernel) (pid : Int) : Nat :=
  find_by_pid_from k pid MAX_PROCESSES 0

/-- The function `process_unblock` of `process.c`. -/
def process_unblock (k : Kernel) (process : Nat) : Kernel :=
  if process ≠ 0 ∧ (k.procs process).state = BLOCKED then
    ready_queue_push (set_proc k process (fun p => { p with state := READY })) process
  else k

/-- The function `signal_send` of `signal.c` (the messages it prints are not
represented). -/
def signal_send (k : Kernel) (pid sig : Int) : Kernel :=
  let proc := process_find_by_pid k pid
  if proc = 0 then k
  else if sig = SIGKILL then set_proc k proc (fun p => { p with state := TERMINATED })
  else if sig = SIGTERM then set_proc k proc (fun p => { p with state := TERMINATED })
  else if sig = SIGSTOP then
    if (k.procs proc).state = RUNNING ∨ (k.procs proc).state = READY then
      set_proc k proc (fun p => { p with state := BLOCKED })
    else k
  else if sig = SIGCONT then
    if (k.procs proc).state = BLOCKED then set_proc k proc (fun p => { p with state := READY })
    else k
  else if sig = SIGINT then set_proc k proc (fun p => { p with state := TERMINATED })
  else k

/-- A kernel state in which PID 1 runs and its child PID 2 is `BLOCKED`, as a
`SIGSTOP` leaves it; the ready queue is empty. -/
def kernel4 : Kernel :=
  { kernel1 with
    procs := fun q => if q = 0x2000018 then proc1
                      else if q = 0x2002368 then { proc2 with state := BLOCKED }
                      else if q = 0x200000 then { process_zero with priority := 255, ticks_remaining := 1 }
                      else process_zero
    current_process := 0x2000018
    cr3 := 0x400000 }

/-- The blocks that `kmalloc` searches: those of the heap, set up by `init_heap` on
the first call. -/
def heap_blocks (h : KHeap) : List block_t :=
  (if h.heap_initialized then h else init_heap h).blocks

/-- The function `krealloc`: the new heap, the new memory (the payload bytes are
copied when the block moves) and the returned pointer.  The result `none` stands for
a `panic` in `kmalloc` or `kfree`, and for a pointer that is not the payload of a
block of the list: for such a pointer the C code reads the field `size` of a header
that does not exist, which a list of headers cannot follow. -/
def krealloc (h : KHeap) (m : Mem) (ptr new_size : Nat) : Option (KHeap × Mem × Nat) :=
  if ptr = 0 then (kmalloc h new_size).map (fun r => (r.1, m, r.2)) else
  match block_at ((ptr + U64 - BLOCK_HEADER_SIZE) % U64) h.blocks with
  | none => none
  | some pos =>
    match h.blocks.get? pos with
    | none => none
    | some b =>
      if new_size ≤ b.size then some (h, m, ptr) else
      match kmalloc h new_size with
      | none => none
      | some (h1, new_ptr) =>
        if new_ptr = 0 then some (h1, m, 0) else
        (kfree h1 ptr).map (fun h2 => (h2, copy_bytes ptr new_ptr b.size m, new_ptr))

/-- The size recorded in the header of the block whose payload is `ptr`. -/
def chunk_size (h : KHeap) (ptr : Nat) : Option Nat :=
  match block_at (ptr - BLOCK_HEADER_SIZE) h.blocks with
  | none => none
  | some pos => (h.blocks.get? pos).map (fun b => b.size)

/-- Every block of the list whose header is at address `a` is marked free. -/
def all_free_at (a : Nat) (l : List block_t) : Prop :=
  ∀ b, b ∈ l → b.addr = a → b.free = true

/-- The function `sys_dup2` (`fs_close` does nothing for the RAM file system); the
value `U64 - 1` is the result `-1`. -/
def sys_dup2 (k : Kernel) (oldfd newfd : Nat) : Kernel × Nat :=
  let t := get_fd_table k
  if t = 0 then (k, U64 - 1) else
  if oldfd ≥ MAX_FDS ∨ newfd ≥ MAX_FDS then (k, U64 - 1) else
  if (k.fd_tables t oldfd).node = 0 ∧ (k.fd_tables t oldfd).pipe = 0 then (k, U64 - 1) else
  if oldfd = newfd then (k, newfd) else
  let k1 :=
    if (k.fd_tables t newfd).node ≠ 0 ∨ (k.fd_tables t newfd).pipe ≠ 0 then
      set_fd (set_fd k t newfd (fun e => { e with node := 0 })) t newfd
        (fun e => { e with pipe := 0 })
    else k
  (set_fd k1 t newfd (fun _ => k1.fd_tables t oldfd), newfd)

/-- The kernel state `kernel0` after the running process has opened a file of the RAM
file system as descriptor 3. -/
def kernel5 : Kernel :=
  { kernel0 with
    fd_tables := fun q i => if q = 0x2002150 ∧ i = 3 then ⟨1, 0, 0, 0, 0⟩ else fd_zero }

/-! ## Trap dispatch (`src/kernel/kernel.c`, `src/kernel/panic.c`, `src/boot/exceptions.c`) -/

/-- An item written to the console: the argument of a call of `terminal_writestring`,
or a value that `print_hex` and `print_hex_value` write as sixteen hexadecimal
digits. -/
inductive console_t where
  | text (s : String)
  | hex (v : Nat)
  deriving DecidableEq

/-- The helper `print_hex` of `panic.c`. -/
def print_hex (label : String) (value : Nat) : List console_t :=
  [console_t.text label, console_t.text ": 0x", console_t.hex value, console_t.text "  "]

/-- The helper `print_hex_value` of `exceptions.c`. -/
def print_hex_value (value : Nat) : List console_t :=
  [console_t.text "0x", console_t.hex value]

/-- The line of 80 characters `=` that frames the panic and exception banners. -/
def banner_line : String := String.mk (List.replicate 80 '=')

/-- The function `panic_with_regs`: what it writes before it halts for ever. -/
def panic_with_regs (msg : String) (regs : registers_t) : List console_t :=
  [console_t.text "\n\n",
   console_t.text (banner_line ++ "\n"),
   console_t.text "                              KERNEL PANIC\n",
   console_t.text (banner_line ++ "\n\n"),
   console_t.text "Error: ", console_t.text msg, console_t.text "\n\n",
   console_t.text "Interrupt: "] ++
  print_hex "INT" regs.int_no ++ print_hex "ERR" regs.err_code ++
  [console_t.text "\n\n", console_t.text "Registers:\n"] ++
  print_hex "RAX" regs.rax ++ print_hex "RBX" regs.rbx ++ print_hex "RCX" regs.rcx ++
  print_hex "RDX" regs.rdx ++ [console_t.text "\n"] ++
  print_hex "RSI" regs.rsi ++ print_hex "RDI" regs.rdi ++ print_hex "RBP" regs.rbp ++
  print_hex "RSP" regs.rsp ++ [console_t.text "\n"] ++
  print_hex "R8 " regs.r8 ++ print_hex "R9 " regs.r9 ++ print_hex "R10" regs.r10 ++
  print_hex "R11" regs.r11 ++ [console_t.text "\n"] ++
  print_hex "R12" regs.r12 ++ print_hex "R13" regs.r13 ++ print_hex "R14" regs.r14 ++
  print_hex "R15" regs.r15 ++ [console_t.text "\n\n", console_t.text "Execution:\n"] ++
  print_hex "RIP" regs.rip ++ print_hex "CS " regs.cs ++ print_hex "RFLAGS" regs.rflags ++
  [console_t.text "\n\n", console_t.text "System halted. Please restart your computer.\n"]

/-- The table `exception_messages` of `panic.c`. -/
def exception_messages : List String :=
  ["Division By Zero", "Debug", "Non Maskable Interrupt", "Breakpoint",
   "Into Detected Overflow", "Out of Bounds", "Invalid Opcode", "No Coprocessor",
   "Double Fault", "Coprocessor Segment Overrun", "Bad TSS", "Segment Not Present",
   "Stack Fault", "General Protection Fault", "Page Fault", "Unknown Interrupt",
   "Coprocessor Fault", "Alignment Check", "Machine Check", "SIMD Floating-Point Exception",
   "Virtualization Exception", "Reserved", "Reserved", "Reserved", "Reserved", "Reserved",
   "Reserved", "Reserved", "Reserved", "Reserved", "Reserved", "Reserved"]

/-- The function `exception_handler` of `panic.c`, which does not return: what it
writes before the halt. -/
def exception_handler (regs : registers_t) : List console_t :=
  if regs.int_no < 32 then panic_with_regs (exception_messages.getD regs.int_no "") regs
  else panic_with_regs "Unknown exception" regs

def PF_PRESENT : Nat := 1
def PF_WRITE : Nat := 2
def PF_USER : Nat := 4
def PF_RESERVED : Nat := 8
def PF_FETCH : Nat := 16

/-- The part of `page_fault_handler` that decodes the error code. -/
def page_fault_decode (error : Nat) : List console_t :=
  [if error &&& PF_PRESENT ≠ 0 then console_t.text "protection violation"
   else console_t.text "page not present",
   console_t.text ", during ",
   console_t.text (if error &&& PF_WRITE ≠ 0 then "write" else "read"),
   console_t.text " in ",
   console_t.text (if error &&& PF_USER ≠ 0 then "user" else "kernel"),
   console_t.text " mode"] ++
  (if error &&& PF_RESERVED ≠ 0 then [console_t.text ", reserved bit set"] else []) ++
  (if error &&& PF_FETCH ≠ 0 then [console_t.text ", instruction fetch"] else [])

/-- The function `page_fault_handler` of `exceptions.c`, which does not return: what
it writes before the halt; `cr2` is the faulting address read from the register CR2,
and `error` is a `uint32_t`. -/
def page_fault_handler (cr2 : Nat) (regs : registers_t) : List console_t :=
  [console_t.text ("\n\n" ++ banner_line ++ "\n"),
   console_t.text "                                PAGE FAULT\n",
   console_t.text (banner_line ++ "\n\n"),
   console_t.text "Faulting address: "] ++
  print_hex_value cr2 ++ [console_t.text "\n\n", console_t.text "Error code: "] ++
  print_hex_value (regs.err_code % U32) ++ [console_t.text " - "] ++
  page_fault_decode (regs.err_code % U32) ++
  [console_t.text "\n\n", console_t.text "Instruction pointer: "] ++
  print_hex_value regs.rip ++ [console_t.text "\n"] ++
  panic_with_regs "Unhandled page fault" regs

/-- The function `general_protection_fault_handler`: what it writes before the halt. -/
def general_protection_fault_handler (regs : registers_t) : List console_t :=
  [console_t.text ("\n\n" ++ banner_line ++ "\n"),
   console_t.text "                          GENERAL PROTECTION FAULT\n",
   console_t.text (banner_line ++ "\n\n")] ++
  (if regs.err_code % U32 ≠ 0 then
    [console_t.text "Error code: "] ++ print_hex_value (regs.err_code % U32) ++
    [console_t.text "\n", console_t.text "Segment selector: "] ++
    print_hex_value (((regs.err_code % U32) >>> 3) &&& 0x1FFF) ++
    [console_t.text ", Table: ",
     console_t.text (if ((regs.err_code % U32) >>> 1) &&& 3 = 0 then "GDT"
       else if ((regs.err_code % U32) >>> 1) &&& 3 = 1 then "IDT" else "LDT")] ++
    (if (regs.err_code % U32) &&& 1 ≠ 0 then [console_t.text ", External event"] else []) ++
    [console_t.text "\n"]
   else []) ++
  [console_t.text "Instruction pointer: "] ++ print_hex_value regs.rip ++ [console_t.text "\n"] ++
  panic_with_regs "General protection fault" regs

/-- The function `double_fault_handler`: what it writes before the halt. -/
def double_fault_handler (regs : registers_t) : List console_t :=
  [console_t.text ("\n\n" ++ banner_line ++ "\n"),
   console_t.text "                              DOUBLE FAULT\n",
   console_t.text (banner_line ++ "\n\n"),
   console_t.text "CRITICAL: Exception occurred while handling another exception!\n",
   console_t.text "This often indicates stack overflow or corrupted interrupt handlers.\n\n"] ++
  panic_with_regs "Double fault - system integrity compromised" regs

/-- The function `invalid_opcode_handler`: what it writes before the halt. -/
def invalid_opcode_handler (regs : registers_t) : List console_t :=
  [console_t.text ("\n\n" ++ banner_line ++ "\n"),
   console_t.text "                            INVALID OPCODE\n",
   console_t.text (banner_line ++ "\n\n"),
   console_t.text "CPU encountered an invalid or undefined instruction.\n",
   console_t.text "This may indicate corrupted code or incompatible CPU instructions.\n\n",
   console_t.text "Instruction pointer: "] ++
  print_hex_value regs.rip ++ [console_t.text "\n"] ++
  panic_with_regs "Invalid opcode" regs

/-- The function `stack_fault_handler`: what it writes before the halt. -/
def stack_fault_handler (regs : registers_t) : List console_t :=
  [console_t.text ("\n\n" ++ banner_line ++ "\n"),
   console_t.text "                             STACK FAULT\n",
   console_t.text (banner_line ++ "\n\n")] ++
  (if regs.err_code % U32 ≠ 0 then
    [console_t.text "Segment selector: "] ++ print_hex_value (regs.err_code % U32) ++
    [console_t.text "\n"]
   else []) ++
  [console_t.text "Stack pointer: "] ++ print_hex_value regs.rsp ++ [console_t.text "\n"] ++
  panic_with_regs "Stack segment fault" regs

/-- A function pointer of type `isr_t` held in `interrupt_handlers`: one of the five
handlers of `exceptions.c`, or a handler of the drivers or the system-call entry, given
as a function of the kernel state and the trap frame. -/
inductive isr_t where
  | invalid_opcode
  | double_fault
  | stack_fault
  | general_protection_fault
  | page_fault
  | other (run : Kernel → registers_t → Kernel × registers_t)

/-- The state that trap dispatch works on: the kernel state, the register CR2, the
console output so far and the table `interrupt_handlers` of `kernel.c` (`none` is a null
entry). -/
structure Trap where
  kernel : Kernel
  cr2 : Nat
  console : List console_t
  interrupt_handlers : Nat → Option isr_t

/-- How a call of `isr_handler` ends: it returns, or the machine halts in the loop of
a panic with the given console output. -/
inductive outcome_t where
  | returned (t : Trap) (regs : registers_t)
  | halted (console : List console_t)

/-- The function `register_interrupt_handler`; `n` is a `uint8_t`. -/
def register_interrupt_handler (t : Trap) (n : Nat) (handler : isr_t) : Trap :=
  { t with interrupt_handlers := fun i => if i = n % 256 then some handler
                                          else t.interrupt_handlers i }

/-- The function `init_exceptions`. -/
def init_exceptions (t : Trap) : Trap :=
  let t1 := register_interrupt_handler t 6 isr_t.invalid_opcode
  let t2 := register_interrupt_handler t1 8 isr_t.double_fault
  let t3 := register_interrupt_handler t2 12 isr_t.stack_fault
  let t4 := register_interrupt_handler t3 13 isr_t.general_protection_fault
  let t5 := register_interrupt_handler t4 14 isr_t.page_fault
  { t5 with console := t5.console ++ [console_t.text "Exception handlers initialized\n"] }

/-- A call `handler(regs)` through a pointer of the table. -/
def call_handler (h : isr_t) (t : Trap) (regs : registers_t) : outcome_t :=
  match h with
  | isr_t.invalid_opcode => outcome_t.halted (t.console ++ invalid_opcode_handler regs)
  | isr_t.double_fault => outcome_t.halted (t.console ++ double_fault_handler regs)
  | isr_t.stack_fault => outcome_t.halted (t.console ++ stack_fault_handler regs)
  | isr_t.general_protection_fault =>
    outcome_t.halted (t.console ++ general_protection_fault_handler regs)
  | isr_t.page_fault => outcome_t.halted (t.console ++ page_fault_handler t.cr2 regs)
  | isr_t.other run => outcome_t.returned { t with kernel := (run t.kernel regs).1 } (run t.kernel regs).2

/-- The function `isr_handler` of `kernel.c`; `none` stands for an `int_no` beyond the
256 entries of `interrupt_handlers`, which no trap stub delivers. -/
def isr_handler (t : Trap) (regs : registers_t) : Option outcome_t :=
  if regs.int_no < 32 then some (outcome_t.halted (t.console ++ exception_handler regs))
  else if regs.int_no ≥ 256 then none
  else
    match t.interrupt_handlers regs.int_no with
    | some handler => some (call_handler handler t regs)
    | none =>
      some (outcome_t.returned
        { t with console := t.console ++
            [console_t.text "Unhandled interrupt: ", console_t.text "\n"] } regs)

/-- A machine in which no handler is registered yet and nothing has been written. -/
def trap0 : Trap :=
  { kernel := kernel0, cr2 := 0xDEADBEEF000, console := [], interrupt_handlers := fun _ => none }

/-- The trap frame of a page fault for a write in user mode to a page that is not
present: `int_no = 14`, `err_code = 6`. -/
def regs_page_fault : registers_t :=
  { regs_fork with rax := 0, int_no := 14, err_code := 6 }

/-- The texts among the items written to the console, in order. -/
def console_texts : List console_t → List String
  | [] => []
  | console_t.text s :: l => s :: console_texts l
  | console_t.hex _ :: l => console_texts l

/-! ## Vocabulary of the mapping properties -/

def PAGE_WRITE_THROUGH : Nat := 8
def PAGE_CACHE_DISABLE : Nat := 16
def PAGE_ACCESSED : Nat := 32
def PAGE_DIRTY : Nat := 64
def PAGE_HUGE : Nat := 128
def PAGE_GLOBAL : Nat := 256

/-- The flag `PAGE_NX` of `vmm.h`, `1ULL << 63`. -/
def PAGE_NX : Nat := 2 ^ 63

/-- The table that the walk of `vmm_get_physical` for `v` reaches after `k` steps
down from the PML4 at `root` (`k = 1` the PDPT, `k = 2` the page directory, `k = 3` the
page table), when the entries on the way are present. -/
def table_at (m : Mem) (root v : Nat) : Nat → Option Nat
  | 0 => some root
  | k + 1 =>
    match table_at m root v k with
    | none => none
    | some t =>
      if entry m t (level_index (4 - k) v) &&& PAGE_PRESENT = 0 then none
      else some (entry m t (level_index (4 - k) v) &&& NOT_FFF)

/-- The page tables below `root` form a tree of frames that the PMM owns: the root is
page aligned, no table that a walk reaches lies in a free frame, and a table is reached
at one depth and through one sequence of indices only. -/
structure tree_wf (s : Phys) (root : Nat) : Prop where
  aligned : root % 4096 = 0
  owned : ∀ v k t, k ≤ 3 → table_at s.mem root v k = some t → ¬ frame_free s (t / 4096)
  inj : ∀ v w k j t, k ≤ 3 → j ≤ 3 → table_at s.mem root v k = some t →
    table_at s.mem root w j = some t →
    k = j ∧ ∀ i, i < k → level_index (4 - i) v = level_index (4 - i) w

/-! ## ELF loader (`include/lib/elf.h`, `src/lib/elf.c`) -/

def ELFMAG0 : Nat := 0x7F
def ELFMAG1 : Nat := 69
def ELFMAG2 : Nat := 76
def ELFMAG3 : Nat := 70
def ELFCLASS64 : Nat := 2
def ET_EXEC : Nat := 2
def EM_X86_64 : Nat := 62
def PT_LOAD : Nat := 1
def PF_W : Nat := 2

/-- The value of `sizeof(Elf64_Phdr)`; the structure is packed. -/
def SIZEOF_PHDR : Nat := 56

/-- Load of a little-endian `uint16_t`. -/
def read16 (m : Mem) (a : Nat) : Nat := read8 m a + read8 m (a + 1) * 2 ^ 8

/-- Load of a little-endian `uint32_t`. -/
def read32 (m : Mem) (a : Nat) : Nat :=
  read8 m a + read8 m (a + 1) * 2 ^ 8 + read8 m (a + 2) * 2 ^ 16 + read8 m (a + 3) * 2 ^ 24

/-- The function `elf_validate` on the `Elf64_Ehdr` at `header`: `true` for the
result 0.  The fields `e_type` and `e_machine` are at the offsets 16 and 18. -/
def elf_validate (m : Mem) (header : Nat) : Bool :=
  if read8 m header ≠ ELFMAG0 ∨ read8 m (header + 1) ≠ ELFMAG1 ∨
      read8 m (header + 2) ≠ ELFMAG2 ∨ read8 m (header + 3) ≠ ELFMAG3 then false
  else if read8 m (header + 4) ≠ ELFCLASS64 then false
  else if read16 m (header + 16) ≠ ET_EXEC then false
  else if read16 m (header + 18) ≠ EM_X86_64 then false
  else true

/-- The loop of `elf_load` that maps the pages of the segment whose `Elf64_Phdr` is
at `phdr`, from page `j` with `n` pages left; the Boolean is `false` when `elf_load`
returns `-1`, and `none` is a panic in `pmm_free_page`.  The field `p_flags` is at
offset 4. -/
def elf_map_loop (phdr start : Nat) : Nat → Nat → Phys → process_t → Option (Phys × process_t × Bool)
  | 0, _, s, p => some (s, p, true)
  | n + 1, j, s, p =>
    let vaddr := (start + j * PAGE_SIZE) % U64
    let r := pmm_alloc_page s
    if r.2 = 0 then some (r.1, p, false) else
    let flags :=
      if read32 r.1.mem (phdr + 4) &&& PF_W ≠ 0 then (PAGE_PRESENT ||| PAGE_USER) ||| PAGE_WRITABLE
      else PAGE_PRESENT ||| PAGE_USER
    let r2 := vmm_map_page r.1 p.page_table vaddr r.2 flags
    if r2.2 = false then (pmm_free_page r2.1 r.2).map (fun s1 => (s1, p, false))
    else elf_map_loop phdr start n (j + 1) r2.1
      { p with pages_allocated := (p.pages_allocated + 1) % U64 }

/-- The loop of `elf_load` that copies the file bytes of a segment, `src` being
`elf_data + p_offset`; `memcpy` is the byte copy `copy_bytes`.  The fields `p_vaddr`
and `p_filesz` are at the offsets 16 and 32.  The Boolean is `false` when `elf_load`
returns `-1`; `none` means that the iterations allowed by the first argument did not
finish the loop. -/
def elf_copy_loop (root phdr src : Nat) : Nat → Nat → Mem → Option (Mem × Bool)
  | 0, _, _ => none
  | fuel + 1, off, m =>
    if ¬ off < read64 m (phdr + 32) then some (m, true) else
    let vaddr := (read64 m (phdr + 16) + off) % U64
    let paddr := vmm_get_physical m root vaddr
    if paddr = 0 then some (m, false) else
    let page_off := vaddr &&& 0xFFF
    let copy_size :=
      if (off + (PAGE_SIZE - page_off)) % U64 > read64 m (phdr + 32) then
        (read64 m (phdr + 32) + U64 - off) % U64
      else PAGE_SIZE - page_off
    elf_copy_loop root phdr src fuel ((off + copy_size) % U64)
      (copy_bytes ((src + off) % U64) ((paddr + page_off) % U64) copy_size m)

/-- The function `memset(dst, 0, n)`. -/
def zero_bytes (dst : Nat) : Nat → Mem → Mem
  | 0, m => m
  | n + 1, m => write8 (zero_bytes dst n m) (dst + n) 0

/-- The loop of `elf_load` that zeroes the part of a segment beyond its file bytes. -/
def elf_bss_loop (root bss_start bss_size : Nat) : Nat → Nat → Mem → Option (Mem × Bool)
  | 0, _, _ => none
  | fuel + 1, off, m =>
    if ¬ off < bss_size then some (m, true) else
    let vaddr := (bss_start + off) % U64
    let paddr := vmm_get_physical m root vaddr
    if paddr = 0 then some (m, false) else
    let page_off := vaddr &&& 0xFFF
    let zero_size :=
      if (off + (PAGE_SIZE - page_off)) % U64 > bss_size then (bss_size + U64 - off) % U64
      else PAGE_SIZE - page_off
    elf_bss_loop root bss_start bss_size fuel ((off + zero_size) % U64)
      (zero_bytes ((paddr + page_off) % U64) zero_size m)

/-- The body of the loop of `elf_load` over the program headers, for the header at
`phdr`.  The fields `p_type`, `p_offset`, `p_vaddr`, `p_filesz` and `p_memsz` are at
the offsets 0, 8, 16, 32 and 40. -/
def elf_load_segment (fuel elf_data phdr : Nat) (s : Phys) (p : process_t) :
    Option (Phys × process_t × Bool) :=
  if read32 s.mem phdr ≠ PT_LOAD then some (s, p, true) else
  let start := read64 s.mem (phdr + 16) &&& NOT_FFF
  let end_page := ((read64 s.mem (phdr + 16) + read64 s.mem (phdr + 40) + 0xFFF) % U64) &&& NOT_FFF
  let pages := ((end_page + U64 - start) % U64) / PAGE_SIZE
  match elf_map_loop phdr start pages 0 s p with
  | none => none
  | some (s1, p1, false) => some (s1, p1, false)
  | some (s1, p1, true) =>
    let r2 : Option (Mem × Bool) :=
      if read64 s1.mem (phdr + 32) > 0 then
        elf_copy_loop p1.page_table phdr ((elf_data + read64 s1.mem (phdr + 8)) % U64) fuel 0 s1.mem
      else some (s1.mem, true)
    match r2 with
    | none => none
    | some (m2, false) => some ({ s1 with mem := m2 }, p1, false)
    | some (m2, true) =>
      if read64 m2 (phdr + 40) > read64 m2 (phdr + 32) then
        match elf_bss_loop p1.page_table ((read64 m2 (phdr + 16) + read64 m2 (phdr + 32)) % U64)
            ((read64 m2 (phdr + 40) + U64 - read64 m2 (phdr + 32)) % U64) fuel 0 m2 with
        | none => none
        | some (m3, ok) => some ({ s1 with mem := m3 }, p1, ok)
      else some ({ s1 with mem := m2 }, p1, true)

/-- The loop of `elf_load` over the program headers, from header `i`; `e_phnum` is at
offset 56 of the ELF header. -/
def elf_segments_loop (elf_data phdrs : Nat) : Nat → Nat → Phys → process_t →
    Option (Phys × process_t × Bool)
  | 0, _, _, _ => none
  | fuel + 1, i, s, p =>
    if ¬ i < read16 s.mem (elf_data + 56) then some (s, p, true) else
    match elf_load_segment fuel elf_data (phdrs + i * SIZEOF_PHDR) s p with
    | none => none
    | some (s1, p1, false) => some (s1, p1, false)
    | some (s1, p1, true) => elf_segments_loop elf_data phdrs fuel (i + 1) s1 p1

/-- The function `elf_load`: the state, the PCB and the value returned.  The fields
`e_entry` and `e_phoff` are at the offsets 24 and 32 of the ELF header.  The result
`none` is a panic, or a loop that the `fuel` iterations allowed did not finish. -/
def elf_load (fuel : Nat) (s : Phys) (p : process_t) (elf_data : Nat) :
    Option (Phys × process_t × Int) :=
  if elf_validate s.mem elf_data = false then some (s, p, -1) else
  let phdrs := (elf_data + read64 s.mem (elf_data + 32)) % U64
  match elf_segments_loop elf_data phdrs fuel 0 s p with
  | none => none
  | some (s1, p1, false) => some (s1, p1, -1)
  | some (s1, p1, true) =>
    some (s1,
      { p1 with
        context := { p1.context with rip := read64 s1.mem (elf_data + 24),
                                     rsp := USER_STACK_TOP - 16, rflags := 0x202 }
        entry_point := read64 s1.mem (elf_data + 24) }, 0)

/-- The little-endian bytes of a `uint64_t`. -/
def le64 (v : Nat) : List Nat :=
  [v % 256, v / 2 ^ 8 % 256, v / 2 ^ 16 % 256, v / 2 ^ 24 % 256, v / 2 ^ 32 % 256,
   v / 2 ^ 40 % 256, v / 2 ^ 48 % 256, v / 2 ^ 56 % 256]

/-- An ELF image of 121 bytes that passes `elf_validate`: the header (magic, class
64, little endian, `ET_EXEC`, `EM_X86_64`, entry `vaddr`, one program header at offset
64), a `PT_LOAD` program header with flags `PF_R | PF_X`, `p_offset = 120`,
`p_vaddr = vaddr` and `p_filesz = p_memsz = 1`, and the one byte `0x42` of the
segment. -/
def elf_image (vaddr : Nat) : List Nat :=
  [0x7F, 69, 76, 70, 2, 1, 1, 0, 0, 0, 0, 0, 0, 0, 0, 0] ++ [2, 0] ++ [62, 0] ++ [1, 0, 0, 0] ++
  le64 vaddr ++ le64 64 ++ le64 0 ++ [0, 0, 0, 0] ++ [64, 0] ++ [56, 0] ++ [1, 0] ++
  [0, 0] ++ [0, 0] ++ [0, 0] ++
  [1, 0, 0, 0] ++ [5, 0, 0, 0] ++ le64 120 ++ le64 vaddr ++ le64 vaddr ++ le64 1 ++ le64 1 ++
  le64 0x1000 ++
  [0x42]

/-- The state `phys0`, in which the frame `0x400000` is an empty PML4, with the image
`elf_image vaddr` in kernel memory at `0x300000`. -/
def phys_elf (vaddr : Nat) : Phys :=
  { phys0 with
    mem := fun a => if 0x300000 ≤ a ∧ a < 0x300000 + 121 then (elf_image vaddr).getD (a - 0x300000) 0
                    else 0 }

/-- The state after `n` consecutive passes of `schedule`. -/
def schedule_n : Nat → Kernel → Kernel
  | 0, k => k
  | n + 1, k => schedule_n n (schedule k)

/-- A kernel state in which the idle loop is the current, running process with one
tick left, and the process with PID 1 has just been created: it is `READY` and alone in
the ready queue. -/
def kernel6 : Kernel :=
  { kernel0 with
    procs := fun q => if q = 0x2000018 then { proc1 with state := READY }
                      else if q = 0x200000 then
                        { process_zero with state := RUNNING, priority := 255, ticks_remaining := 1 }
                      else process_zero
    ready_queue_head := 0x2000018
    ready_queue_tail := 0x2000018
    current_process := 0x200000
    cr3 := 0x1000000 }

/-! ## Vocabulary of the zombie properties -/

/-- The part of the state that the scheduler reads is the same in `k1` as in `k`: the
globals, and the state and the queue links of every PCB. -/
def same_sched (k k1 : Kernel) : Prop :=
  k1.scheduler_enabled = k.scheduler_enabled ∧ k1.current_process = k.current_process ∧
  k1.idle_process = k.idle_process ∧ k1.process_table = k.process_table ∧
  k1.ready_queue_head = k.ready_queue_head ∧ k1.ready_queue_tail = k.ready_queue_tail ∧
  ∀ q, (k1.procs q).state = (k.procs q).state ∧ (k1.procs q).prev = (k.procs q).prev ∧
    (k1.procs q).next = (k.procs q).next ∧ (k1.procs q).parent_pid = (k.procs q).parent_pid ∧
    (k1.procs q).pid = (k.procs q).pid

/-- The PCB `z` is a zombie at rest in slot `j` of the process table: the scheduler is
enabled, slot 0 holds the idle PCB, which is no zombie, the ready queue holds the PCBs of
`l`, and neither `z` nor the current process is among them. -/
structure zombie_kept (k : Kernel) (z j : Nat) (l : List Nat) : Prop where
  enabled : k.scheduler_enabled = true
  queue : queue_is k l
  current : process_get_current k ≠ 0
  current_out : process_get_current k ∉ l
  slot0 : k.process_table 0 = k.idle_process
  idle_nonnull : k.idle_process ≠ 0
  idle_state : (k.procs k.idle_process).state ≠ ZOMBIE
  slot : k.process_table j = z
  state : (k.procs z).state = ZOMBIE
  out : z ∉ l
  other : z ≠ process_get_current k

/-- One step of the kernel that is neither a `sys_wait` of the parent of `z` nor a
signal for `z`: a pass of `schedule`, a timer tick, a `sys_exit` of a process other than
the idle one, a `sys_wait` of a process whose PID is not the parent PID of `z`, with a
status pointer that is null or points outside the kernel's data, or a signal whose
target is another PCB. -/
inductive zombie_step (z : Nat) : Kernel → Kernel → Prop
  | pass (k : Kernel) : zombie_step z k (schedule k)
  | tick (k : Kernel) : zombie_step z k (scheduler_tick k)
  | exit (k : Kernel) (status : Nat) :
      k.current_process ≠ 0 → k.current_process ≠ k.idle_process →
      zombie_step z k (sys_exit k status).1
  | wait (k : Kernel) (status_ptr : Nat) (k1 : Kernel) (r : wait_result) :
      sys_wait k status_ptr = some (k1, r) →
      status_ptr = 0 ∨ user_int k status_ptr →
      (k.procs (process_get_current k)).pid ≠ (k.procs z).parent_pid →
      zombie_step z k k1
  | signal (k : Kernel) (pid sig : Int) :
      process_find_by_pid k pid ≠ z → zombie_step z k (signal_send k pid sig)

/-! ## The kernel heap as a whole (`src/mm/kmalloc.c`) -/

/-- The function `kzalloc`: `kmalloc`, then the `size` bytes asked for are zeroed. -/
def kzalloc (h : KHeap) (m : Mem) (size : Nat) : Option (KHeap × Mem × Nat) :=
  match kmalloc h size with
  | none => none
  | some (h1, ptr) =>
    if ptr ≠ 0 then some (h1, zero_bytes ptr size m, ptr) else some (h1, m, ptr)

/-- The heap globals as the static initialisers leave them, before the first call. -/
def heap_boot : KHeap :=
  { blocks := []
    heap_initialized := false
    total_allocated := 0
    total_free := HEAP_SIZE
    allocation_count := 0 }

/-- A call of one of the four entry points of the allocator. -/
inductive heap_call where
  | malloc (size : Nat)
  | zalloc (size : Nat)
  | realloc (ptr new_size : Nat)
  | free (ptr : Nat)

/-- The heap and the memory after one call; `none` is a panic, or a `kfree` or
`krealloc` of a pointer that is neither null nor the payload pointer of a block of the
list. -/
def run_heap_call : heap_call → KHeap × Mem → Option (KHeap × Mem)
  | heap_call.malloc size, s => (kmalloc s.1 size).map (fun r => (r.1, s.2))
  | heap_call.zalloc size, s => (kzalloc s.1 s.2 size).map (fun r => (r.1, r.2.1))
  | heap_call.realloc ptr new_size, s => (krealloc s.1 s.2 ptr new_size).map (fun r => (r.1, r.2.1))
  | heap_call.free ptr, s => (kfree s.1 ptr).map (fun h => (h, s.2))

/-- The call writes inside the block it was given: the size of a `kzalloc` or of a
`krealloc` is at most `2^64 - 8`, so its rounding does not wrap and the block handed
out holds the bytes that `memset` or `memcpy` writes. -/
def heap_call_fits : heap_call → Prop
  | heap_call.zalloc size => size + 8 ≤ U64
  | heap_call.realloc _ new_size => new_size + 8 ≤ U64
  | _ => True

instance (c : heap_call) : Decidable (heap_call_fits c) := by
  cases c <;> unfold heap_call_fits <;> infer_instance

/-- The heap and the memory after a sequence of calls, first to last. -/
def run_heap_calls : List heap_call → KHeap × Mem → Option (KHeap × Mem)
  | [], s => some s
  | c :: cs, s =>
    match run_heap_call c s with
    | none => none
    | some s1 => run_heap_calls cs s1

/-- The blocks of `l` tile the addresses from `a` to `e`: the first header is at `a`,
every block ends (header, then `size` bytes) where the next header is, and the last
block ends at `e`. -/
def heap_chain : Nat → List block_t → Nat → Prop
  | a, [], e => a = e
  | a, b :: rest, e => b.addr = a ∧ heap_chain (a + BLOCK_HEADER_SIZE + b.size) rest e

/-- The invariant of the kernel heap: the blocks that `kmalloc` searches tile the
arena, and a heap that `init_heap` has not set up yet has no block. -/
def heap_tiled (h : KHeap) : Prop :=
  heap_chain HEAP_START (heap_blocks h) (HEAP_START + HEAP_SIZE) ∧
  (h.heap_initialized = true ∨ h.blocks = [])

/-- The heap after `kmalloc(264)`, `kmalloc(8192)` and `kfree` of the first pointer. -/
def heap3 : KHeap :=
  { blocks := [⟨0x2000000, 264, true⟩, ⟨0x2000120, 8192, false⟩, ⟨0x2002138, 0xFFDEB0, true⟩]
    heap_initialized := true
    total_allocated := 8192
    total_free := 0xFFE000
    allocation_count := 1 }

/-! ## The physical memory manager as a whole (`src/mm/pmm.c`) -/

/-- The loop of `pmm_init` that marks the available pages free: `n` iterations from
`page`, each a `bitmap_clear` and an increment of `pmm_free_pages`.  The array has
`BITMAP_WORDS` words; a word of the function at a higher index stands for the memory that
follows the array. -/
def pmm_init_loop : Nat → Nat → (Nat → Nat) → Nat → (Nat → Nat) × Nat
  | 0, _, bm, free => (bm, free)
  | n + 1, page, bm, free => pmm_init_loop n (page + 1) (bitmap_clear bm page) ((free + 1) % U64)

/-- The function `pmm_init`. -/
def pmm_init (s : Phys) (memory_size : Nat) : Phys :=
  let total := memory_size / PAGE_SIZE
  let bm0 : Nat → Nat := fun i => if i < BITMAP_WORDS then 0xFFFFFFFF else s.pmm_bitmap i
  let first_free_page := PMM_START / PAGE_SIZE
  let last_page := if total > BITMAP_SIZE * 32 then BITMAP_SIZE * 32 else total
  let r := pmm_init_loop (last_page - first_free_page) first_free_page bm0 0
  { s with
    pmm_total_pages := total
    pmm_bitmap := r.1
    pmm_free_pages := r.2
    pmm_reserved_pages := first_free_page }

/-- The inner loop of `pmm_alloc_pages`: are the `n` pages from `start` all free? -/
def pages_free (bm : Nat → Nat) : Nat → Nat → Bool
  | _, 0 => true
  | start, n + 1 => if bitmap_test bm (start % U64) then false else pages_free bm (start + 1) n

/-- The loop of `pmm_alloc_pages` that marks the `n` pages from `start` used. -/
def set_pages (bm : Nat → Nat) : Nat → Nat → Nat → Nat
  | _, 0 => bm
  | start, n + 1 => set_pages (bitmap_set bm (start % U64)) (start + 1) n

/-- The search loop of `pmm_alloc_pages` from `start`.  The loop condition
`start + count <= pmm_total_pages`, computed in `size_t`, holds for at most
`pmm_total_pages + 1` values of `start` in a row, so that many steps are all the loop can
take before it ends with `NULL`; `fuel` counts them. -/
def alloc_pages_from (s : Phys) (count : Nat) : Nat → Nat → Phys × Nat
  | 0, _ => (s, 0)
  | fuel + 1, start =>
    if (start + count) % U64 ≤ s.pmm_total_pages then
      if pages_free s.pmm_bitmap start count then
        ({ s with
            pmm_bitmap := set_pages s.pmm_bitmap start count
            pmm_free_pages := (s.pmm_free_pages + U64 - count % U64) % U64
            mem := zero_words (start * PAGE_SIZE % U64) (count * PAGE_SIZE % U64 / 8) s.mem },
         start * PAGE_SIZE % U64)
      else alloc_pages_from s count fuel (start + 1)
    else (s, 0)

/-- The function `pmm_alloc_pages`; the returned address is `0` for `NULL`. -/
def pmm_alloc_pages (s : Phys) (count : Nat) : Phys × Nat :=
  if count = 0 then (s, 0)
  else alloc_pages_from s count (s.pmm_total_pages + 1) (PMM_START / PAGE_SIZE)

/-- The loop of `pmm_free_pages` from index `i`, `n` pages left; `none` is a panic of
`pmm_free_page`. -/
def pmm_free_pages_loop (addr : Nat) : Nat → Nat → Phys → Option Phys
  | 0, _, s => some s
  | n + 1, i, s =>
    match pmm_free_page s ((addr + i * PAGE_SIZE) % U64) with
    | none => none
    | some s1 => pmm_free_pages_loop addr n (i + 1) s1

/-- The function `pmm_free_pages`. -/
def pmm_free_pages (s : Phys) (page_addr count : Nat) : Option Phys :=
  if count = 0 then some s else pmm_free_pages_loop page_addr count 0 s

/-- The function `pmm_get_stats`: total, free and used pages. -/
def pmm_get_stats (s : Phys) : Nat × Nat × Nat :=
  (s.pmm_total_pages, s.pmm_free_pages, (s.pmm_total_pages + U64 - s.pmm_free_pages % U64) % U64)

/-- A call of one of the four allocation entry points of the PMM. -/
inductive pmm_call where
  | alloc_page
  | alloc_pages (count : Nat)
  | free_page (addr : Nat)
  | free_pages (addr count : Nat)

/-- The PMM after one call; `none` is a panic. -/
def run_pmm_call : pmm_call → Phys → Option Phys
  | pmm_call.alloc_page, s => some (pmm_alloc_page s).1
  | pmm_call.alloc_pages count, s => some (pmm_alloc_pages s count).1
  | pmm_call.free_page addr, s => pmm_free_page s addr
  | pmm_call.free_pages addr count, s => pmm_free_pages s addr count

/-- The PMM after a sequence of calls, first to last. -/
def run_pmm_calls : List pmm_call → Phys → Option Phys
  | [], s => some s
  | c :: cs, s =>
    match run_pmm_call c s with
    | none => none
    | some s1 => run_pmm_calls cs s1

/-- The number of clear bits among the first `n` bits of the bitmap. -/
def clear_bits (bm : Nat → Nat) (n : Nat) : Nat :=
  (List.range n).countP (fun p => !bitmap_test bm p)

/-- The number of set bits among the first `n` bits of the bitmap. -/
def set_bits (bm : Nat → Nat) (n : Nat) : Nat :=
  (List.range n).countP (fun p => bitmap_test bm p)

/-- A call whose page count, if it has one, is below `2^63`. -/
def pmm_call_sane : pmm_call → Prop
  | pmm_call.alloc_pages count => count < 2 ^ 63
  | _ => True

/-- The invariant of the PMM: the managed frames fit the bitmap, every clear bit of the
bitmap is a managed frame, and the counter of free pages is the number of clear bits. -/
structure pmm_ok (s : Phys) : Prop where
  fits : s.pmm_total_pages ≤ BITMAP_WORDS * 32
  managed : ∀ p, p < BITMAP_WORDS * 32 → bitmap_test s.pmm_bitmap p = false →
    PMM_START / PAGE_SIZE ≤ p ∧ p < s.pmm_total_pages
  counted : s.pmm_free_pages = clear_bits s.pmm_bitmap s.pmm_total_pages

/-! ## Directories of the RAM filesystem (`src/fs/fs.c`) -/

def FS_FILENAME_MAX : Nat := 32
def FS_PERM_READ : Nat := 0x4
def FS_PERM_WRITE : Nat := 0x2
def FS_PERM_EXEC : Nat := 0x1

/-- The size of `fs_dirent_t`: the field `char name[32]` and the field
`uint32_t inode`. -/
def DIRENT_SIZE : Nat := 36

/-- The value `max_entries = FS_BLOCK_SIZE / sizeof(fs_dirent_t)`. -/
def MAX_ENTRIES : Nat := FS_BLOCK_SIZE / DIRENT_SIZE

/-- The field `entries[i].inode` of the directory block `b`, where `entries` is
`(fs_dirent_t*)b.data`. -/
def dirent_inode (b : fs_block_t) (i : Nat) : Nat :=
  read32 b.data (i * DIRENT_SIZE + FS_FILENAME_MAX)

/-- The effect of the C library call `strcpy(m + a, s)`: the characters of `s` and
the terminating zero are stored from offset `a`. -/
def strcpy (m : Mem) (a : Nat) (s : List Nat) : Mem :=
  fun x => if a ≤ x ∧ x < a + (s.length + 1) then (s ++ [0]).getD (x - a) 0 % 256 else m x

/-- The test `strcmp(m + a, s) == 0` of the C library, for a string `s` without a zero
character: the bytes from offset `a` are the characters of `s` followed by a zero. -/
def strcmp_eq (m : Mem) (a : Nat) (s : List Nat) : Bool :=
  (List.range (s.length + 1)).all (fun j => decide (read8 m (a + j) = (s ++ [0]).getD j 0))

/-- The loop "Find free node" of `ramfs_create_file` and `ramfs_create_dir` from
slot `i`, `n` slots left; `none` is `free_node == -1`. -/
def find_free_node (fs : ramfs_t) : Nat → Nat → Option Nat
  | 0, _ => none
  | n + 1, i => if (fs.nodes i).inode_num = 0 then some i else find_free_node fs n (i + 1)

/-- The search of the loop "Add to parent directory" for the first entry with
`entries[i].inode == 0`, from entry `i` with `n` entries left. -/
def find_free_entry (b : fs_block_t) : Nat → Nat → Option Nat
  | 0, _ => none
  | n + 1, i => if dirent_inode b i = 0 then some i else find_free_entry b n (i + 1)

/-- The part "Add to parent directory" of `ramfs_create_file` and of
`ramfs_create_dir` for the new inode `node`: the first free entry of the first block
of `parent` gets the name and the inode number, and `parent->size` grows by one; when
no entry is free the loop ends without a store. -/
def add_to_parent (fs : ramfs_t) (parent node : Nat) (name : List Nat) : ramfs_t :=
  if (fs.nodes parent).first_block ≠ NO_BLOCK then
    match find_free_entry (fs.blocks (fs.nodes parent).first_block) MAX_ENTRIES 0 with
    | none => fs
    | some i =>
      set_node
        (set_block fs (fs.nodes parent).first_block (fun b =>
          { b with data := write32 (strcpy b.data (i * DIRENT_SIZE) name)
                             (i * DIRENT_SIZE + FS_FILENAME_MAX) (fs.nodes node).inode_num }))
        parent (fun nd => { nd with size := (nd.size + 1) % U32 })
  else fs

/-- The function `ramfs_create_file`: the new state and the returned `fs_node_t*`,
`none` for the null pointer.  The outer `none` stands for a name of 32 or more
characters, with which `strcpy` writes past the field `name`. -/
def ramfs_create_file (fs : ramfs_t) (parent : Nat) (name : List Nat) :
    Option (ramfs_t × Option Nat) :=
  if (fs.nodes parent).type ≠ FS_TYPE_DIR then some (fs, none) else
  match find_free_node fs FS_MAX_FILES 0 with
  | none => some (fs, none)
  | some n =>
    if name.length ≥ FS_FILENAME_MAX then none else
    let fs1 := set_node { fs with next_inode := (fs.next_inode + 1) % U32 } n
      (fun nd => { nd with inode_num := fs.next_inode, name := name, type := FS_TYPE_FILE,
                           size := 0, permissions := FS_PERM_READ ||| FS_PERM_WRITE,
                           first_block := NO_BLOCK })
    some (add_to_parent fs1 parent n name, some n)

/-- The function `ramfs_create_dir`, with the conventions of `ramfs_create_file`. -/
def ramfs_create_dir (fs : ramfs_t) (parent : Nat) (name : List Nat) :
    Option (ramfs_t × Option Nat) :=
  if (fs.nodes parent).type ≠ FS_TYPE_DIR then some (fs, none) else
  match find_free_node fs FS_MAX_FILES 0 with
  | none => some (fs, none)
  | some n =>
    if name.length ≥ FS_FILENAME_MAX then none else
    let fs1 := set_node { fs with next_inode := (fs.next_inode + 1) % U32 } n
      (fun nd => { nd with inode_num := fs.next_inode, name := name, type := FS_TYPE_DIR,
                           size := 0,
                           permissions := (FS_PERM_READ ||| FS_PERM_WRITE) ||| FS_PERM_EXEC })
    match allocate_block fs1 with
    | (fs2, none) =>
      some (set_node fs2 n (fun nd => { nd with first_block := NO_BLOCK, inode_num := 0 }), none)
    | (fs2, some b) =>
      let fs3 := set_node fs2 n (fun nd => { nd with first_block := b })
      let fs4 := set_block fs3 b
        (fun bl => { bl with data := fun x => if x < FS_BLOCK_SIZE then 0 else bl.data x })
      some (add_to_parent fs4 parent n name, some n)

/-- The inner loop of `ramfs_finddir`: the first slot from `j` whose `inode_num` is
`ino`, `n` slots left. -/
def find_node_by_inode (fs : ramfs_t) (ino : Nat) : Nat → Nat → Option Nat
  | 0, _ => none
  | n + 1, j =>
    if (fs.nodes j).inode_num = ino then some j else find_node_by_inode fs ino n (j + 1)

/-- The outer loop of `ramfs_finddir` over the entries of block `b` from entry `i`,
`n` entries left. -/
def finddir_from (fs : ramfs_t) (b : fs_block_t) (name : List Nat) : Nat → Nat → Option Nat
  | 0, _ => none
  | n + 1, i =>
    if dirent_inode b i ≠ 0 ∧ strcmp_eq b.data (i * DIRENT_SIZE) name = true then
      match find_node_by_inode fs (dirent_inode b i) FS_MAX_FILES 0 with
      | some j => some j
      | none => finddir_from fs b name n (i + 1)
    else finddir_from fs b name n (i + 1)

/-- The function `ramfs_finddir` (reached through `fs_finddir`); `none` is the null
pointer. -/
def ramfs_finddir (fs : ramfs_t) (node : Nat) (name : List Nat) : Option Nat :=
  if (fs.nodes node).type ≠ FS_TYPE_DIR then none else
  if (fs.nodes node).first_block ≠ NO_BLOCK then
    finddir_from fs (fs.blocks (fs.nodes node).first_block) name MAX_ENTRIES 0
  else none

/-- The function `fs_finddir`, which calls `ramfs_ops.finddir`. -/
def fs_finddir (fs : ramfs_t) (node : Nat) (name : List Nat) : Option Nat :=
  ramfs_finddir fs node name

/-- The loop of `ramfs_readdir` from entry `i` with `n` entries left and `count`
entries in use seen: the position of the entry that is copied to `dirent`. -/
def readdir_from (b : fs_block_t) (index : Nat) : Nat → Nat → Nat → Option Nat
  | 0, _, _ => none
  | n + 1, i, count =>
    if dirent_inode b i ≠ 0 then
      if count = index then some i else readdir_from b index n (i + 1) (count + 1)
    else readdir_from b index n (i + 1) count

/-- The function `ramfs_readdir` (reached through `fs_readdir`): the fields `name`
and `inode` of the entry returned, `none` for the null pointer. -/
def ramfs_readdir (fs : ramfs_t) (node index : Nat) : Option (List Nat × Nat) :=
  if (fs.nodes node).type ≠ FS_TYPE_DIR then none else
  if (fs.nodes node).first_block ≠ NO_BLOCK then
    (readdir_from (fs.blocks (fs.nodes node).first_block) index MAX_ENTRIES 0 0).map
      (fun i => (block_bytes (fs.blocks (fs.nodes node).first_block) (i * DIRENT_SIZE)
                  FS_FILENAME_MAX,
                 dirent_inode (fs.blocks (fs.nodes node).first_block) i))
  else none

/-- The function `fs_readdir`, which calls `ramfs_ops.readdir`. -/
def fs_readdir (fs : ramfs_t) (node index : Nat) : Option (List Nat × Nat) :=
  ramfs_readdir fs node index

/-- The step of `fs_init` that creates the file `name` in the root, looks it up and
writes `msg` to it when it is found. -/
def init_file (fs : ramfs_t) (name msg : List Nat) : Option ramfs_t :=
  (ramfs_create_file fs fs.root name).bind (fun r =>
    match ramfs_finddir r.1 r.1.root name with
    | some f => (ramfs_write r.1 f 0 msg).map (fun w => w.1)
    | none => some r.1)

/-- The function `fs_init` on the storage `fs` of the variable `ramfs`. -/
def fs_init (fs : ramfs_t) : Option ramfs_t :=
  let fs1 : ramfs_t :=
    { fs with
      nodes := fun i => if i < FS_MAX_FILES then { fs.nodes i with inode_num := 0 } else fs.nodes i
      free_blocks := fun i => if i < FS_MAX_BLOCKS / 32 then 0 else fs.free_blocks i }
  let fs2 := set_node { fs1 with next_inode := 2 } 0
    (fun nd => { nd with inode_num := 1, name := cstr "/", type := FS_TYPE_DIR, size := 0,
                         permissions := (FS_PERM_READ ||| FS_PERM_WRITE) ||| FS_PERM_EXEC })
  let r := allocate_block fs2
  let fs3 : ramfs_t :=
    { set_node r.1 0 (fun nd => { nd with first_block := r.2.getD NO_BLOCK }) with root := 0 }
  (init_file fs3 (cstr "hello.txt") (cstr "Hello from SimpleOS filesystem!\n")).bind (fun fs4 =>
    init_file fs4 (cstr "readme.txt")
      (cstr "This is a simple RAM-based filesystem.\nFiles are stored in memory.\n"))

/-- A call of `ramfs_create_file` or of `ramfs_create_dir` on the root, as `sys_open`
and `sys_mkdir` issue them. -/
inductive fs_call where
  | create_file (name : List Nat)
  | create_dir (name : List Nat)

/-- The state after a successful call; `none` when the call returns the null pointer
or is not defined. -/
def run_fs_call (fs : ramfs_t) : fs_call → Option ramfs_t
  | .create_file name =>
    (ramfs_create_file fs fs.root name).bind (fun r => if r.2.isSome then some r.1 else none)
  | .create_dir name =>
    (ramfs_create_dir fs fs.root name).bind (fun r => if r.2.isSome then some r.1 else none)

/-- The state after a sequence of successful calls. -/
def run_fs_calls : List fs_call → ramfs_t → Option ramfs_t
  | [], fs => some fs
  | c :: cs, fs => (run_fs_call fs c).bind (run_fs_calls cs)

/-- Some entry of the first block of the root directory carries the inode number
`ino`. -/
def root_has_entry (fs : ramfs_t) (ino : Nat) : Bool :=
  (List.range MAX_ENTRIES).any
    (fun i => decide (dirent_inode (fs.blocks (fs.nodes fs.root).first_block) i = ino))

/-- Every inode slot other than the root whose `inode_num` is not zero has an entry
with that number in the root directory block. -/
def all_linked (fs : ramfs_t) : Bool :=
  (List.range FS_MAX_FILES).all
    (fun n => decide (n = fs.root) || decide ((fs.nodes n).inode_num = 0) ||
              root_has_entry fs (fs.nodes n).inode_num)

/-- Twelve files created in the root after `fs_init`. -/
def twelve_files : List fs_call :=
  [.create_file (cstr "a"), .create_file (cstr "b"), .create_file (cstr "c"),
   .create_file (cstr "d"), .create_file (cstr "e"), .create_file (cstr "f"),
   .create_file (cstr "g"), .create_file (cstr "h"), .create_file (cstr "i"),
   .create_file (cstr "j"), .create_file (cstr "k"), .create_file (cstr "l")]

/-- The file system after `fs_init` and the twelve creations of `twelve_files`: the
root directory block holds fourteen entries. -/
def ramfs_full : ramfs_t :=
  ((fs_init ramfs0).bind (run_fs_calls twelve_files)).getD ramfs0

/-! ## Vocabulary of the heap property of `sys_sbrk` -/

/-- State `s1` is reached from `s` by allocations that keep the address space at
`root` a tree: the PMM invariant holds, no frame has become free, every table of the
old tree is a table of the new tree at the same place, and every other table of the new
tree lies in a frame that was free in `s`. -/
def tree_step (s s1 : Phys) (root : Nat) : Prop :=
  tree_wf s1 root ∧ pmm_ok s1 ∧ s1.pmm_total_pages = s.pmm_total_pages ∧
  (∀ f, frame_free s1 f → frame_free s f) ∧
  (∀ w k t, k ≤ 3 → table_at s1.mem root w k = some t →
    frame_free s (t / 4096) ∨ table_at s.mem root w k = some t) ∧
  (∀ w k t, k ≤ 3 → table_at s.mem root w k = some t → table_at s1.mem root w k = some t)

/-- The page of `v` is mapped for user writes in the address space at `root`: the walk
of `vmm_get_physical` reaches a leaf entry with a frame that is not 0 and with the bits
`PAGE_USER` and `PAGE_WRITABLE`. -/
def user_mapped (m : Mem) (root v : Nat) : Prop :=
  ∃ e, vmm_leaf m root v = some e ∧ e &&& NOT_FFF ≠ 0 ∧ e &&& PAGE_USER ≠ 0 ∧
    e &&& PAGE_WRITABLE ≠ 0

/-- The invariant of the heap of the current process `c` under `sys_sbrk`: the break
lies between the page-aligned `heap_start` and `heap_max`, which is a user address; the
page tables of the process form a tree of frames of a consistent PMM; and every address
of `[heap_start, heap_current)` lies in a page that is mapped for user writes. -/
structure sbrk_inv (k : Kernel) (c : Nat) : Prop where
  current : process_get_current k = c
  nonnull : c ≠ 0
  aligned : (k.procs c).heap_start % PAGE_SIZE = 0
  low : (k.procs c).heap_start ≤ (k.procs c).heap_current
  high : (k.procs c).heap_current ≤ (k.procs c).heap_max
  user : (k.procs c).heap_max < 2 ^ 47
  tree : tree_wf k.phys (k.procs c).page_table
  pmm : pmm_ok k.phys
  mapped : ∀ v, (k.procs c).heap_start ≤ v → v < (k.procs c).heap_current →
    user_mapped k.phys.mem (k.procs c).page_table v

/-- The number of frames that are free below the kernel heap arena. -/
def low_frames (s : Phys) : Nat := clear_bits s.pmm_bitmap (HEAP_START / PAGE_SIZE)

/-- An upper bound of the frames that `sys_sbrk(d)` takes from the PMM for a heap of at
most `lim` bytes: a delta above `lim`, a negative one included, allocates nothing, and
a growth by `d` bytes visits at most `d / PAGE_SIZE + 2` pages, each of which takes the
page and at most three page tables. -/
def sbrk_cost (lim d : Nat) : Nat := if d ≤ lim then 4 * (d / PAGE_SIZE + 2) else 0

/-- A sequence of `sys_sbrk` calls of the current process with the increments
`deltas` (64-bit values, a negative delta in two's complement); `none` is the `none` of
`sys_sbrk`. -/
def sbrk_calls : List Nat → Kernel → Option Kernel
  | [], k => some k
  | d :: ds, k => (sys_sbrk k d).bind (fun r => sbrk_calls ds r.1)

/-! # Verified properties -/

/-! ## Pipes -/

theorem pipe_write_loop_spec (s : List Nat) :
    ∀ (p : pipe_t) (done : Nat), pipe_wf p → s.length + p.count ≤ PIPE_SIZE →
      ∃ p', pipe_write_loop s p done = some (p', done + s.length) ∧ pipe_wf p' ∧
        pipe_contents p' = pipe_contents p ++ s.map (· % 256) ∧
        p'.count = p.count + s.length ∧ p'.read_pos = p.read_pos ∧
        p'.reader_closed = p.reader_closed ∧ p'.writer_closed = p.writer_closed := by
  induction s with
  | nil =>
    intro p done _ _
    exact ⟨p, by simp [pipe_write_loop], ‹_›, by simp, by simp, rfl, rfl, rfl⟩
  | cons b rest ih =>
    intro p done hwf hlen
    obtain ⟨hr, hc, hw⟩ := hwf
    simp only [List.length_cons] at hlen
    have hne : p.count ≠ PIPE_SIZE := by omega
    have hcount : (p.count + 1) % U32 = p.count + 1 := by
      apply Nat.mod_eq_of_lt; simp only [PIPE_SIZE, U32] at *; omega
    let p1 : pipe_t :=
      { p with buffer := fun i => if i = p.write_pos then b % 256 else p.buffer i
               write_pos := (p.write_pos + 1) % PIPE_SIZE
               count := (p.count + 1) % U32 }
    have hwf1 : pipe_wf p1 := by
      refine ⟨hr, ?_, ?_⟩
      · show (p.count + 1) % U32 ≤ PIPE_SIZE
        rw [hcount]; omega
      · show (p.write_pos + 1) % PIPE_SIZE = (p.read_pos + (p.count + 1) % U32) % PIPE_SIZE
        rw [hcount, hw]; simp only [PIPE_SIZE]; omega
    have hcont : pipe_contents p1 = pipe_contents p ++ [b % 256] := by
      show (List.range ((p.count + 1) % U32)).map _ = _
      rw [hcount, List.range_succ, List.map_append]
      congr 1
      · apply List.map_congr_left
        intro i hi
        have hi' : i < p.count := List.mem_range.mp hi
        show (if (p.read_pos + i) % PIPE_SIZE = p.write_pos then b % 256 else _) = _
        rw [if_neg]
        rw [hw]; simp only [PIPE_SIZE] at *; omega
      · show [if (p.read_pos + p.count) % PIPE_SIZE = p.write_pos then b % 256 else _] = _
        rw [if_pos hw.symm]
    obtain ⟨p', h1, h2, h3, h4, h5, h6, h7⟩ := ih p1 (done + 1) hwf1 (by
      show rest.length + (p.count + 1) % U32 ≤ PIPE_SIZE
      rw [hcount]; omega)
    refine ⟨p', ?_, h2, ?_, ?_, h5, h6, h7⟩
    · simp only [pipe_write_loop, if_neg hne]
      rw [h1]; simp only [List.length_cons]; congr 2; omega
    · rw [h3, hcont]; simp
    · rw [h4]; show (p.count + 1) % U32 + _ = _; rw [hcount]; simp only [List.length_cons]; omega

theorem range_map_cons (f : Nat → Nat) (c : Nat) :
    (List.range (c + 1)).map f = f 0 :: (List.range c).map (fun i => f (i + 1)) := by
  rw [List.range_succ_eq_map, List.map_cons, List.map_map]
  rfl

theorem contents_cons (buffer : Nat → Nat) (rp c : Nat) (hr : rp < PIPE_SIZE) :
    (List.range (c + 1)).map (fun i => buffer ((rp + i) % PIPE_SIZE)) =
      buffer rp :: (List.range c).map (fun i => buffer (((rp + 1) % PIPE_SIZE + i) % PIPE_SIZE)) := by
  rw [range_map_cons]
  have e2 : ∀ i, ((rp + 1) % PIPE_SIZE + i) % PIPE_SIZE = (rp + (i + 1)) % PIPE_SIZE := by
    intro i; simp only [PIPE_SIZE]; omega
  simp only [e2, Nat.add_zero, Nat.mod_eq_of_lt hr]
theorem pipe_read_step_count (p : pipe_t) (hc : p.count ≤ PIPE_SIZE) (h : p.count ≠ 0) :
    (p.count + U32 - 1) % U32 = p.count - 1 := by
  simp only [PIPE_SIZE, U32] at *; omega

theorem pipe_read_step_contents (p : pipe_t) (hwf : pipe_wf p) (h : p.count ≠ 0) :
    pipe_contents p = p.buffer p.read_pos ::
      pipe_contents { p with read_pos := (p.read_pos + 1) % PIPE_SIZE,
                             count := (p.count + U32 - 1) % U32 } := by
  obtain ⟨hr, hc, _⟩ := hwf
  obtain ⟨c, hcc⟩ : ∃ c, p.count = c + 1 := ⟨p.count - 1, by omega⟩
  simp only [pipe_contents]
  rw [pipe_read_step_count p hc h, hcc, Nat.add_sub_cancel]
  exact contents_cons p.buffer p.read_pos c hr

theorem pipe_read_step_wf (p : pipe_t) (hwf : pipe_wf p) (h : p.count ≠ 0) :
    pipe_wf { p with read_pos := (p.read_pos + 1) % PIPE_SIZE,
                     count := (p.count + U32 - 1) % U32 } := by
  obtain ⟨hr, hc, hw⟩ := hwf
  simp only [pipe_wf]
  rw [pipe_read_step_count p hc h]
  refine ⟨Nat.mod_lt _ (by simp [PIPE_SIZE]), by omega, ?_⟩
  rw [hw]; simp only [PIPE_SIZE]; omega

theorem pipe_read_loop_spec (n : Nat) :
    ∀ (p : pipe_t) (out : List Nat), pipe_wf p → n ≤ p.count →
      ∃ p', pipe_read_loop n p out = some (p', out ++ (pipe_contents p).take n) ∧ pipe_wf p' ∧
        pipe_contents p' = (pipe_contents p).drop n ∧ p'.count = p.count - n ∧
        p'.reader_closed = p.reader_closed ∧ p'.writer_closed = p.writer_closed := by
  induction n with
  | zero =>
    intro p out hwf _
    exact ⟨p, by simp [pipe_read_loop], hwf, by simp, by simp, rfl, rfl⟩
  | succ n ih =>
    intro p out hwf hn
    have hne : p.count ≠ 0 := by omega
    have hcount := pipe_read_step_count p hwf.2.1 hne
    have hcont := pipe_read_step_contents p hwf hne
    obtain ⟨p', h1, h2, h3, h4, h5, h6⟩ := ih _ (out ++ [p.buffer p.read_pos])
      (pipe_read_step_wf p hwf hne) (by simp only []; rw [hcount]; omega)
    refine ⟨p', ?_, h2, ?_, ?_, h5, h6⟩
    · simp only [pipe_read_loop, if_neg hne]
      rw [h1, hcont, List.take_succ_cons, List.append_assoc, List.singleton_append]
    · rw [h3, hcont, List.drop_succ_cons]
    · rw [h4]; simp only []; rw [hcount]; omega


theorem pipe_read_loop_sound (n : Nat) :
    ∀ (p p' : pipe_t) (out out' : List Nat), pipe_wf p →
      pipe_read_loop n p out = some (p', out') →
      pipe_wf p' ∧ ∃ r, out' = out ++ r ∧ r ++ pipe_contents p' = pipe_contents p := by
  induction n with
  | zero =>
    intro p p' out out' hwf h
    simp only [pipe_read_loop, Option.some.injEq, Prod.mk.injEq] at h
    obtain ⟨rfl, rfl⟩ := h
    exact ⟨hwf, [], by simp, by simp⟩
  | succ n ih =>
    intro p p' out out' hwf h
    by_cases hc : p.count = 0
    · simp only [pipe_read_loop, if_pos hc] at h
      by_cases hwc : p.writer_closed ≠ 0
      · rw [if_pos hwc] at h
        simp only [Option.some.injEq, Prod.mk.injEq] at h
        obtain ⟨rfl, rfl⟩ := h
        exact ⟨hwf, [], by simp, by simp⟩
      · rw [if_neg hwc] at h; exact absurd h (by simp)
    · simp only [pipe_read_loop, if_neg hc] at h
      obtain ⟨hwf', r, hr1, hr2⟩ := ih _ _ _ _ (pipe_read_step_wf p hwf hc) h
      refine ⟨hwf', p.buffer p.read_pos :: r, ?_, ?_⟩
      · rw [hr1, List.append_assoc, List.singleton_append]
      · rw [pipe_read_step_contents p hwf hc, List.cons_append, hr2]

theorem pipe_read_loop_spins (n : Nat) :
    ∀ (p : pipe_t) (out : List Nat), pipe_wf p → p.writer_closed = 0 → p.count < n →
      pipe_read_loop n p out = none := by
  induction n with
  | zero => intro p out _ _ h; omega
  | succ n ih =>
    intro p out hwf hw hlt
    by_cases hc : p.count = 0
    · simp [pipe_read_loop, hc, hw]
    · simp only [pipe_read_loop, if_neg hc]
      apply ih _ _ (pipe_read_step_wf p hwf hc) hw
      simp only []
      rw [pipe_read_step_count p hwf.2.1 hc]; omega

theorem pipe_write_loop_sound (s : List Nat) :
    ∀ (p p' : pipe_t) (done done' : Nat), pipe_wf p →
      pipe_write_loop s p done = some (p', done') →
      pipe_wf p' ∧ pipe_contents p' = pipe_contents p ++ s.map (· % 256) ∧
        p'.count = p.count + s.length ∧ done' = done + s.length := by
  induction s with
  | nil =>
    intro p p' done done' hwf h
    simp only [pipe_write_loop, Option.some.injEq, Prod.mk.injEq] at h
    obtain ⟨rfl, rfl⟩ := h
    exact ⟨hwf, by simp, by simp, by simp⟩
  | cons b rest ih =>
    intro p p' done done' hwf h
    by_cases hc : p.count = PIPE_SIZE
    · simp [pipe_write_loop, hc] at h
    · simp only [pipe_write_loop, if_neg hc] at h
      obtain ⟨q, hq1, hq2, hq3, hq4, _⟩ := pipe_write_loop_spec [b] p done hwf (by
        have := hwf.2.1; simp only [List.length_singleton]; omega)
      simp only [pipe_write_loop, if_neg hc, Option.some.injEq, Prod.mk.injEq] at hq1
      obtain ⟨rfl, _⟩ := hq1
      obtain ⟨h1, h2, h3, h4⟩ := ih _ _ _ _ hq2 h
      refine ⟨h1, ?_, ?_, ?_⟩
      · rw [h2, hq3]; simp
      · rw [h3, hq4]; simp only [List.length_cons, List.length_nil]; omega
      · rw [h4]; simp only [List.length_cons]; omega

theorem int_of_size_small (n : Nat) (h : n ≤ PIPE_SIZE) : int_of_size n = (n : Int) := by
  have h1 : n % U32 = n := Nat.mod_eq_of_lt (by simp only [PIPE_SIZE, U32] at *; omega)
  unfold int_of_size
  rw [h1, if_pos (by simp only [PIPE_SIZE] at h; omega)]

theorem map_mod_bytes (s : List Nat) (h : ∀ b ∈ s, b < 256) : s.map (· % 256) = s := by
  induction s with
  | nil => rfl
  | cons b rest ih =>
    rw [List.map_cons, ih (fun x hx => h x (List.mem_cons_of_mem _ hx)),
      Nat.mod_eq_of_lt (h b (List.mem_cons_self _ _))]

theorem pipe_run_sound (ops : List pipe_op) :
    ∀ (p p1 : pipe_t) (w r w1 r1 : List Nat), pipe_wf p →
      (∀ s, pipe_op.write s ∈ ops → ∀ b ∈ s, b < 256) →
      pipe_run ops p w r = some (p1, w1, r1) →
      r ++ pipe_contents p ++ (w1.drop w.length) = r1 ++ pipe_contents p1 ∧
        w1.take w.length = w := by
  induction ops with
  | nil =>
    intro p p1 w r w1 r1 _ _ h
    simp only [pipe_run, Option.some.injEq, Prod.mk.injEq] at h
    obtain ⟨rfl, rfl, rfl⟩ := h
    simp
  | cons op ops ih =>
    intro p p1 w r w1 r1 hwf hb h
    have hb' : ∀ s, pipe_op.write s ∈ ops → ∀ b ∈ s, b < 256 :=
      fun s hs => hb s (List.mem_cons_of_mem _ hs)
    cases op with
    | write s =>
      simp only [pipe_run] at h
      unfold pipe_write at h
      by_cases hwc : p.writer_closed ≠ 0
      · rw [if_pos hwc] at h
        simp only [] at h
        exact ih _ _ _ _ _ _ hwf hb' h
      · rw [if_neg hwc] at h
        by_cases hrc : p.reader_closed ≠ 0
        · rw [if_pos hrc] at h
          simp only [] at h
          exact ih _ _ _ _ _ _ hwf hb' h
        · rw [if_neg hrc] at h
          cases hl : pipe_write_loop s p 0 with
          | none => rw [hl] at h; simp at h
          | some q =>
            obtain ⟨q1, done⟩ := q
            rw [hl] at h
            simp only [Option.map_some'] at h
            obtain ⟨hq1, hq2, hq3, hq4⟩ := pipe_write_loop_sound s p q1 0 done hwf hl
            have hlen : s.length ≤ PIPE_SIZE := by have := hq1.2.1; omega
            have hdone : done = s.length := by omega
            rw [hdone, int_of_size_small _ hlen, if_neg (by omega)] at h
            obtain ⟨h1, h2⟩ := ih _ _ _ _ _ _ hq1 hb' h
            rw [map_mod_bytes s (hb s (List.mem_cons_self _ _))] at hq2
            have h3 : w1.take w.length = w := by
              have := congrArg (List.take w.length) h2
              rw [List.take_take, List.length_append, Nat.min_eq_left (by omega),
                List.take_left'] at this
              · exact this
              · rfl
            refine ⟨?_, h3⟩
            rw [← h1, hq2]
            have h4 : w1.drop w.length = s ++ w1.drop (w ++ s).length := by
              have e : w1 = w ++ s ++ w1.drop (w ++ s).length := by
                conv_lhs => rw [← List.take_append_drop (w ++ s).length w1, h2]
              conv_lhs => rw [e]
              rw [List.append_assoc, List.drop_left']
              rfl
            rw [h4]; simp only [List.append_assoc]
    | read n =>
      simp only [pipe_run] at h
      unfold pipe_read at h
      by_cases hrc : p.reader_closed ≠ 0
      · rw [if_pos hrc] at h
        simp only [List.append_nil] at h
        exact ih _ _ _ _ _ _ hwf hb' h
      · rw [if_neg hrc] at h
        cases hl : pipe_read_loop n p [] with
        | none => rw [hl] at h; simp at h
        | some q =>
          obtain ⟨q1, out⟩ := q
          rw [hl] at h
          simp only [Option.map_some'] at h
          obtain ⟨hq1, x, hx1, hx2⟩ := pipe_read_loop_sound n p q1 [] out hwf hl
          obtain ⟨h1, h2⟩ := ih _ _ _ _ _ _ hq1 hb' h
          refine ⟨?_, h2⟩
          rw [← h1, ← hx2, hx1]; simp only [List.nil_append, List.append_assoc]

/-- C8: a write that fits into a pipe with both ends open returns after storing all
of `s`, a read of `|s|` bytes from a pipe that was empty before gives back exactly `s`
and leaves the pipe empty, and over any sequence of calls that return the bytes read,
followed by the bytes still buffered, are the bytes that were buffered at the start
followed by the bytes written, so that on a pipe that starts empty the bytes read are
an initial segment of the bytes written. -/
theorem pipe_write_then_read :
    (∀ (p : pipe_t) (s : List Nat), pipe_wf p → p.reader_closed = 0 → p.writer_closed = 0 →
      (∀ b ∈ s, b < 256) → s.length ≤ PIPE_SIZE - p.count →
      ∃ p1, pipe_write p s = some (p1, (s.length : Int)) ∧
        (p.count = 0 →
          ∃ p2, pipe_read p1 s.length = some (p2, s, (s.length : Int)) ∧ p2.count = 0)) ∧
    (∀ (ops : List pipe_op) (p p1 : pipe_t) (w r : List Nat), pipe_wf p →
      (∀ s, pipe_op.write s ∈ ops → ∀ b ∈ s, b < 256) →
      pipe_run ops p [] [] = some (p1, w, r) →
      r ++ pipe_contents p1 = pipe_contents p ++ w ∧ (p.count = 0 → ∃ t, r ++ t = w)) := by
  constructor
  · intro p s hwf hrc hwc hb hlen
    have hc := hwf.2.1
    obtain ⟨p1, h1, h2, h3, h4, h5, h6, h7⟩ := pipe_write_loop_spec s p 0 hwf (by omega)
    have hs : s.length ≤ PIPE_SIZE := by omega
    refine ⟨p1, ?_, ?_⟩
    · unfold pipe_write
      rw [if_neg (by simp [hwc]), if_neg (by simp [hrc]), h1]
      simp only [Option.map_some', Nat.zero_add, int_of_size_small _ hs]
    · intro hzero
      obtain ⟨p2, g1, _, _, g4, _, _⟩ := pipe_read_loop_spec s.length p1 [] h2 (by omega)
      refine ⟨p2, ?_, by omega⟩
      have hcont : pipe_contents p1 = s := by
        rw [h3, map_mod_bytes s hb]
        simp [pipe_contents, hzero]
      unfold pipe_read
      rw [if_neg (by simp [h6, hrc]), g1, hcont]
      simp only [Option.map_some', List.nil_append, List.take_length, int_of_size_small _ hs]
  · intro ops p p1 w r hwf hb h
    obtain ⟨h1, _⟩ := pipe_run_sound ops p p1 [] [] w r hwf hb h
    simp only [List.nil_append, List.length_nil, List.drop_zero] at h1
    refine ⟨h1.symm, ?_⟩
    intro hzero
    have : pipe_contents p = [] := by simp [pipe_contents, hzero]
    rw [this, List.nil_append] at h1
    exact ⟨pipe_contents p1, h1.symm⟩

/-- Witness of C8: the bytes of "ABCDEF" written to a fresh pipe and read back. -/
theorem pipe_write_then_read_witness :
    ∃ p1, pipe_write pipe_fresh [65, 66, 67, 68, 69, 70] = some (p1, 6) ∧
      ∃ p2, pipe_read p1 6 = some (p2, [65, 66, 67, 68, 69, 70], 6) ∧ p2.count = 0 := by
  obtain ⟨p1, h1, h2⟩ := pipe_write_then_read.1 pipe_fresh [65, 66, 67, 68, 69, 70]
    ⟨by decide, by decide, by decide⟩ rfl rfl (by decide) (by decide)
  exact ⟨p1, h1, h2 rfl⟩

/-! ## Pipe transport through the system calls -/

theorem find_two_fds_spec (tbl : Nat → fd_entry_t) (n : Nat) :
    ∀ (i : Nat) (rd : Option Nat) (r w : Nat), (∀ x, rd = some x → x < i) →
      find_two_fds tbl n i rd = (some r, some w) →
      (∀ x, rd = some x → r = x) ∧ (rd = none → i ≤ r) ∧ r < w ∧ i ≤ w ∧ w < i + n := by
  induction n with
  | zero => intro i rd r w _ h; simp [find_two_fds] at h
  | succ n ih =>
    intro i rd r w hrd h
    simp only [find_two_fds] at h
    split at h
    · cases rd with
      | none =>
        simp only [] at h
        obtain ⟨h1, _, h3, h4, h5⟩ := ih (i + 1) (some i) r w (by intro x hx; cases hx; omega) h
        have := h1 i rfl
        exact ⟨by simp, fun _ => by omega, h3, by omega, by omega⟩
      | some x =>
        simp only [Prod.mk.injEq, Option.some.injEq] at h
        obtain ⟨rfl, rfl⟩ := h
        exact ⟨fun y hy => by cases hy; rfl, by simp, hrd _ rfl, by omega, by omega⟩
    · obtain ⟨h1, h2, h3, h4, h5⟩ := ih (i + 1) rd r w (fun x hx => by have := hrd x hx; omega) h
      exact ⟨h1, fun hn => by have := h2 hn; omega, h3, by omega, by omega⟩

theorem pipe_create_fields_wf (raw : pipe_t) : pipe_wf (pipe_create_fields raw) := by
  simp [pipe_wf, pipe_create_fields, PIPE_SIZE]

/-- What a successful `sys_pipe` leaves behind: two distinct descriptors from `3` up,
both bound to one new pipe that is empty with both ends open. -/
theorem sys_pipe_success (k k1 : Kernel) (ptr r w : Nat)
    (h : sys_pipe k ptr = some (k1, 0, some (r, w))) :
    3 ≤ r ∧ r < w ∧ w < MAX_FDS ∧ get_fd_table k1 = get_fd_table k ∧ get_fd_table k ≠ 0 ∧
    ∃ pipe, pipe ≠ 0 ∧
      (k1.fd_tables (get_fd_table k) r).pipe = pipe ∧
      (k1.fd_tables (get_fd_table k) r).is_pipe = 1 ∧
      (k1.fd_tables (get_fd_table k) w).pipe = pipe ∧
      (k1.fd_tables (get_fd_table k) w).is_pipe = 1 ∧
      pipe_wf (k1.pipes pipe) ∧ (k1.pipes pipe).count = 0 ∧
      (k1.pipes pipe).reader_closed = 0 ∧ (k1.pipes pipe).writer_closed = 0 := by
  unfold sys_pipe at h
  split at h
  · simp [U64] at h
  split at h
  · simp [U64] at h
  rename_i hp ht
  cases hc : pipe_create k with
  | none => rw [hc] at h; simp at h
  | some q =>
    obtain ⟨k0, pipe⟩ := q
    rw [hc] at h
    simp only [] at h
    split at h
    · simp [U64] at h
    rename_i hpipe
    unfold pipe_create at hc
    cases hm : kmalloc k.heap SIZEOF_PIPE with
    | none => rw [hm] at hc; simp at hc
    | some hq =>
      obtain ⟨hp1, p⟩ := hq
      rw [hm] at hc
      simp only [] at hc
      split at hc
      · simp only [Option.some.injEq, Prod.mk.injEq] at hc
        exact absurd hc.2.symm hpipe
      · simp only [Option.some.injEq, Prod.mk.injEq] at hc
        obtain ⟨rfl, rfl⟩ := hc
        split at h
        · rename_i rd wr hf
          simp only [Option.some.injEq, Prod.mk.injEq] at h
          obtain ⟨rfl, -, rfl, rfl⟩ := h
          obtain ⟨_, h2, h3, h4, h5⟩ := find_two_fds_spec _ _ _ _ _ _ (by simp) hf
          have h2' := h2 rfl
          have hne : rd ≠ wr := by omega
          refine ⟨h2', h3, by simp only [MAX_FDS] at *; omega, ?_, ht, p, hpipe, ?_⟩
          · simp [get_fd_table, set_fd, process_get_current]
          · simp [set_fd, hne, hne.symm, pipe_create_fields, pipe_wf, PIPE_SIZE]
        · simp [U64] at h


/-- C9 (the code does otherwise): for the descriptors `(r, w)` of any successful
`sys_pipe`, `sys_write(w, "ABCDEF", 6)` returns 6 and `sys_close(w)` returns 0, but the
following `sys_read(r, buf, 16)` never returns: `sys_close` clears the descriptor
without setting `writer_closed`, so `pipe_read` spins on the emptied pipe. -/
theorem pipe_transport_read_hangs (k k1 : Kernel) (pipefd_ptr buf_ptr r w : Nat)
    (kbd : List Nat) (hbuf : buf_ptr ≠ 0)
    (h : sys_pipe k pipefd_ptr = some (k1, 0, some (r, w))) :
    (sys_write k1 w buf_ptr [65, 66, 67, 68, 69, 70]).2 = some 6 ∧
    (sys_close (sys_write k1 w buf_ptr [65, 66, 67, 68, 69, 70]).1 w).2 = 0 ∧
    (sys_read (sys_close (sys_write k1 w buf_ptr [65, 66, 67, 68, 69, 70]).1 w).1
        kbd r buf_ptr 16).2 = none := by
  obtain ⟨hr3, hrw, hw16, ht1, ht, pipe, hpipe, e1, e2, e3, e4, hwf, hcnt, hrc, hwc⟩ :=
    sys_pipe_success k k1 pipefd_ptr r w h
  obtain ⟨p1, g1, g2, -, g4, -, g6, g7⟩ :=
    pipe_write_loop_spec [65, 66, 67, 68, 69, 70] (k1.pipes pipe) 0 hwf (by
      rw [hcnt]; simp [PIPE_SIZE])
  have hw : pipe_write (k1.pipes pipe) [65, 66, 67, 68, 69, 70] = some (p1, 6) := by
    unfold pipe_write
    rw [if_neg (by simp [hwc]), if_neg (by simp [hrc]), g1]
    rfl
  have hwrite : sys_write k1 w buf_ptr [65, 66, 67, 68, 69, 70] =
      ({ k1 with pipes := fun q => if q = pipe then p1 else k1.pipes q }, some 6) := by
    unfold sys_write
    rw [if_neg (by simp [hbuf]), if_neg (by omega)]
    simp only [ht1]
    rw [if_pos ⟨ht, hw16⟩, e3, e4, if_pos ⟨by simp, hpipe⟩, hw]
    rfl
  rw [hwrite]
  refine ⟨rfl, ?_, ?_⟩
  · unfold sys_close
    have : get_fd_table { k1 with pipes := fun q => if q = pipe then p1 else k1.pipes q } =
        get_fd_table k := by rw [← ht1]; rfl
    simp only [this]
    rw [if_neg (by simp only [not_or]; exact ⟨ht, by omega⟩)]
  · have hclose : sys_close { k1 with pipes := fun q => if q = pipe then p1 else k1.pipes q } w =
        (set_fd { k1 with pipes := fun q => if q = pipe then p1 else k1.pipes q }
          (get_fd_table k) w (fun _ => fd_zero), 0) := by
      unfold sys_close
      have : get_fd_table { k1 with pipes := fun q => if q = pipe then p1 else k1.pipes q } =
          get_fd_table k := by rw [← ht1]; rfl
      simp only [this]
      rw [if_neg (by simp only [not_or]; exact ⟨ht, by omega⟩)]
    rw [hclose]
    simp only []
    have hspin : pipe_read_loop 16 p1 [] = none :=
      pipe_read_loop_spins 16 p1 [] g2 (by rw [g7, hwc]) (by rw [g4, hcnt]; simp)
    have hne : r ≠ w := by omega
    unfold sys_read
    rw [if_neg (by simp [hbuf]), if_neg (by omega)]
    have hg : get_fd_table (set_fd { k1 with pipes := fun q => if q = pipe then p1 else k1.pipes q }
          (get_fd_table k) w (fun _ => fd_zero)) = get_fd_table k := by rw [← ht1]; rfl
    simp only [hg]
    rw [if_pos ⟨ht, by omega⟩]
    have he : (set_fd { k1 with pipes := fun q => if q = pipe then p1 else k1.pipes q }
          (get_fd_table k) w (fun _ => fd_zero)).fd_tables (get_fd_table k) r =
        k1.fd_tables (get_fd_table k) r := by
      simp [set_fd, hne]
    rw [he, e1, e2, if_pos ⟨by simp, hpipe⟩]
    have hp : (set_fd { k1 with pipes := fun q => if q = pipe then p1 else k1.pipes q }
          (get_fd_table k) w (fun _ => fd_zero)).pipes pipe = p1 := by
      simp [set_fd]
    rw [hp]
    unfold pipe_read
    rw [if_neg (by simp [g6, hrc]), hspin]
    rfl

/-- Witness of C9 on `kernel0`: `sys_pipe` hands out the descriptors 3 and 4, and
the read after the close never returns. -/
theorem pipe_transport_read_hangs_witness :
    ∃ k1, sys_pipe kernel0 1 = some (k1, 0, some (3, 4)) ∧
      (sys_read (sys_close (sys_write k1 4 1 [65, 66, 67, 68, 69, 70]).1 4).1 [] 3 1 16).2 =
        none := by
  have hd : (sys_pipe kernel0 1).map (fun x => x.2) = some (0, some (3, 4)) := by decide
  cases hs : sys_pipe kernel0 1 with
  | none => rw [hs] at hd; simp at hd
  | some q =>
    obtain ⟨k1, v⟩ := q
    rw [hs] at hd
    simp only [Option.map_some', Option.some.injEq] at hd
    subst hd
    exact ⟨k1, rfl, (pipe_transport_read_hangs kernel0 k1 1 1 3 4 [] (by decide) hs).2.2⟩

/-! ## Kernel heap: live blocks -/

theorem first_used_block_at (a : Nat) (l : List block_t) (h : first_used a l = true) :
    ∃ pos b, block_at a l = some pos ∧ l.get? pos = some b ∧ b.free = false ∧ b.addr = a := by
  induction l with
  | nil => simp [first_used] at h
  | cons c l ih =>
    simp only [first_used] at h
    by_cases hc : c.addr = a
    · rw [if_pos hc] at h
      exact ⟨0, c, by simp [block_at, hc], rfl, by simpa using h, hc⟩
    · rw [if_neg hc] at h
      obtain ⟨pos, b, h1, h2, h3, h4⟩ := ih h
      exact ⟨pos + 1, b, by simp [block_at, hc, h1], by simpa using h2, h3, h4⟩

theorem first_used_set_free (a a' : Nat) (v : Bool) (hne : a ≠ a') (l : List block_t) :
    ∀ pos, block_at a' l = some pos → first_used a l = true →
      first_used a (set_block_free v l pos) = true := by
  induction l with
  | nil => intro pos h; simp [block_at] at h
  | cons c l ih =>
    intro pos hb hf
    simp only [block_at] at hb
    by_cases hc : c.addr = a'
    · rw [if_pos hc] at hb
      simp only [Option.some.injEq] at hb
      subst hb
      have hca : c.addr ≠ a := by rw [hc]; exact fun h => hne h.symm
      simp only [first_used, if_neg hca] at hf
      simp only [set_block_free, first_used, if_neg hca]
      exact hf
    · rw [if_neg hc] at hb
      cases hb' : block_at a' l with
      | none => rw [hb'] at hb; simp at hb
      | some p =>
        rw [hb'] at hb
        simp only [Option.map_some', Option.some.injEq] at hb
        subst hb
        simp only [set_block_free, first_used] at hf ⊢
        by_cases hca : c.addr = a
        · rw [if_pos hca] at hf ⊢; exact hf
        · rw [if_neg hca] at hf ⊢; exact ih p hb' hf

theorem first_used_coalesce_from (a : Nat) (rest : List block_t) :
    ∀ cur : block_t, first_used a (cur :: rest) = true →
      first_used a (coalesce_from cur rest) = true := by
  induction rest with
  | nil => intro cur h; simpa [coalesce_from] using h
  | cons b rest ih =>
    intro cur h
    simp only [coalesce_from]
    by_cases hm : cur.free = true ∧ b.free = true
    · rw [if_pos hm]
      apply ih
      simp only [first_used] at h ⊢
      by_cases hca : cur.addr = a
      · rw [if_pos hca] at h; simp [hm.1] at h
      · rw [if_neg hca] at h ⊢
        by_cases hba : b.addr = a
        · rw [if_pos hba] at h; simp [hm.2] at h
        · rw [if_neg hba] at h; exact h
    · rw [if_neg hm]
      simp only [first_used] at h ⊢
      by_cases hca : cur.addr = a
      · rw [if_pos hca] at h ⊢; exact h
      · rw [if_neg hca] at h ⊢
        exact ih b h

theorem first_used_coalesce (a : Nat) (l : List block_t) (h : first_used a l = true) :
    first_used a (coalesce_free_blocks l) = true := by
  cases l with
  | nil => simp [first_used] at h
  | cons b rest => exact first_used_coalesce_from a rest b h

/-- A `kfree` of a live payload returns, and every other live payload stays live. -/
theorem kfree_of_live (h : KHeap) (ptr : Nat) (hl : heap_live h ptr) :
    ∃ h', kfree h ptr = some h' ∧ ∀ q, q ≠ ptr → heap_live h q → heap_live h' q := by
  obtain ⟨h1, h2, h3, h4⟩ := hl
  obtain ⟨pos, b, g1, g2, g3, g4⟩ := first_used_block_at _ _ h4
  have hblock : (ptr + U64 - BLOCK_HEADER_SIZE) % U64 = ptr - BLOCK_HEADER_SIZE := by
    simp only [U64, BLOCK_HEADER_SIZE, HEAP_START, HEAP_SIZE] at *; omega
  have hne0 : ptr ≠ 0 := by simp only [BLOCK_HEADER_SIZE] at h1; omega
  have hk : kfree h ptr = some { h with
      blocks := coalesce_free_blocks (set_block_free true h.blocks pos)
      total_allocated := (h.total_allocated + U64 - b.size % U64) % U64
      total_free := (h.total_free + b.size) % U64
      allocation_count := (h.allocation_count + U64 - 1) % U64 } := by
    unfold kfree
    rw [if_neg hne0]
    simp only [hblock]
    rw [if_neg (by omega), g1]
    simp only [g2, g3, Bool.false_eq_true, if_false]
  refine ⟨_, hk, ?_⟩
  · intro q hq ⟨q1, q2, q3, q4⟩
    refine ⟨q1, q2, q3, ?_⟩
    apply first_used_coalesce
    exact first_used_set_free _ _ _ (by omega) _ _ g1 q4

/-! ## Processes: which fields the queue and the scheduler write -/

theorem set_proc_procs (k : Kernel) (p q : Nat) (f : process_t → process_t) :
    (set_proc k p f).procs q = if q = p then f (k.procs p) else k.procs q := rfl

theorem set_proc_field {α : Type} (proj : process_t → α) (k : Kernel) (p q : Nat)
    (f : process_t → process_t) (hf : ∀ x, proj (f x) = proj x) :
    proj ((set_proc k p f).procs q) = proj (k.procs q) := by
  rw [set_proc_procs]
  by_cases h : q = p
  · rw [if_pos h, h, hf]
  · rw [if_neg h]

theorem ready_queue_remove_field {α : Type} (proj : process_t → α)
    (hn : ∀ x n, proj { x with next := n } = proj x)
    (hp : ∀ x n, proj { x with prev := n } = proj x) (k : Kernel) (p q : Nat) :
    proj ((ready_queue_remove k p).procs q) = proj (k.procs q) := by
  unfold ready_queue_remove
  dsimp only
  rw [set_proc_field proj _ _ _ _ (fun x => hp x _), set_proc_field proj _ _ _ _ (fun x => hn x _)]
  have h1 : proj ((if (k.procs p).prev ≠ 0 then
        set_proc k (k.procs p).prev (fun x => { x with next := (k.procs p).next })
      else { k with ready_queue_head := (k.procs p).next }).procs q) = proj (k.procs q) := by
    by_cases h : (k.procs p).prev ≠ 0
    · rw [if_pos h]; exact set_proc_field proj _ _ _ _ (fun x => hn x _)
    · rw [if_neg h]
  rw [← h1]
  generalize (if (k.procs p).prev ≠ 0 then
        set_proc k (k.procs p).prev (fun x => { x with next := (k.procs p).next })
      else { k with ready_queue_head := (k.procs p).next }) = k1
  by_cases h : (k1.procs p).next ≠ 0
  · rw [if_pos h]; exact set_proc_field proj _ _ _ _ (fun x => hp x _)
  · rw [if_neg h]

/-- The function `ready_queue_push` writes only the `next` and `prev` links. -/
theorem ready_queue_push_field {α : Type} (proj : process_t → α)
    (hn : ∀ x n, proj { x with next := n } = proj x)
    (hp : ∀ x n, proj { x with prev := n } = proj x) (k : Kernel) (p q : Nat) :
    proj ((ready_queue_push k p).procs q) = proj (k.procs q) := by
  unfold ready_queue_push
  dsimp only
  have e0 : ∀ K : Kernel, ({ K with ready_queue_tail := p } : Kernel).procs = K.procs := fun _ => rfl
  rw [e0]
  have h2 : ∀ q, proj ((set_proc (set_proc k p (fun x => { x with next := 0 })) p
      (fun x => { x with prev := (set_proc k p (fun x => { x with next := 0 })).ready_queue_tail })).procs q)
      = proj (k.procs q) := by
    intro q
    rw [set_proc_field proj _ _ _ _ (fun x => hp x _), set_proc_field proj _ _ _ _ (fun x => hn x _)]
  rw [← h2 q]
  generalize (set_proc (set_proc k p (fun x => { x with next := 0 })) p
      (fun x => { x with prev := (set_proc k p (fun x => { x with next := 0 })).ready_queue_tail })) = k2
  by_cases h : k2.ready_queue_tail ≠ 0
  · rw [if_pos h]; exact set_proc_field proj _ _ _ _ (fun x => hn x _)
  · rw [if_neg h]

theorem ready_queue_pop_field {α : Type} (proj : process_t → α)
    (hn : ∀ x n, proj { x with next := n } = proj x)
    (hp : ∀ x n, proj { x with prev := n } = proj x) (k : Kernel) (q : Nat) :
    proj ((ready_queue_pop k).1.procs q) = proj (k.procs q) := by
  unfold ready_queue_pop
  by_cases h : k.ready_queue_head ≠ 0
  · rw [if_pos h]; exact ready_queue_remove_field proj hn hp k _ q
  · rw [if_neg h]

theorem context_switch_field {α : Type} (proj : process_t → α)
    (hc : ∀ x c, proj { x with context := c } = proj x) (k : Kernel) (a b q : Nat) :
    proj ((context_switch k a b).procs q) = proj (k.procs q) := by
  unfold context_switch
  dsimp only
  by_cases h : a ≠ 0
  · rw [if_pos h]; exact set_proc_field proj _ _ _ _ (fun x => hc x _)
  · rw [if_neg h]

/-- The function `schedule` writes only the fields `state`, `next`, `prev` and
`context` of PCBs. -/
theorem schedule_field {α : Type} (proj : process_t → α)
    (hn : ∀ x n, proj { x with next := n } = proj x)
    (hp : ∀ x n, proj { x with prev := n } = proj x)
    (hs : ∀ x s, proj { x with state := s } = proj x)
    (hc : ∀ x c, proj { x with context := c } = proj x) (k : Kernel) (q : Nat) :
    proj ((schedule k).procs q) = proj (k.procs q) := by
  by_cases he : k.scheduler_enabled = true
  swap
  · unfold schedule; rw [if_pos he]
  unfold schedule
  rw [if_neg (by simp [he])]
  dsimp only
  have hcur : process_get_current { k with schedule_count := (k.schedule_count + 1) % U64 } =
        process_get_current k := rfl
  rw [hcur]
  have hk1 : ∀ q, proj ((if process_get_current k ≠ 0 ∧
      (k.procs (process_get_current k)).state = RUNNING then
        ready_queue_push (set_proc { k with schedule_count := (k.schedule_count + 1) % U64 }
          (process_get_current k) (fun p => { p with state := READY })) (process_get_current k)
      else { k with schedule_count := (k.schedule_count + 1) % U64 }).procs q) = proj (k.procs q) := by
    intro q
    by_cases h : process_get_current k ≠ 0 ∧ (k.procs (process_get_current k)).state = RUNNING
    · rw [if_pos h, ready_queue_push_field proj hn hp]
      exact set_proc_field proj _ _ _ _ (fun x => hs x _)
    · rw [if_neg h]
  rw [← hk1 q]
  generalize (if process_get_current k ≠ 0 ∧
      (k.procs (process_get_current k)).state = RUNNING then
        ready_queue_push (set_proc { k with schedule_count := (k.schedule_count + 1) % U64 }
          (process_get_current k) (fun p => { p with state := READY })) (process_get_current k)
      else { k with schedule_count := (k.schedule_count + 1) % U64 }) = k1
  generalize hr : ready_queue_pop k1 = r
  have hrs : proj (r.1.procs q) = proj (k1.procs q) := by
    rw [← hr]; exact ready_queue_pop_field proj hn hp _ q
  generalize (if r.2 = 0 then r.1.process_table 0 else r.2) = next
  by_cases hcn : process_get_current k ≠ next
  · rw [if_pos hcn, context_switch_field proj hc]
    have fin : proj ((set_proc r.1 next (fun p => { p with state := RUNNING })).procs q) =
        proj (k1.procs q) := by
      rw [set_proc_field proj _ _ _ _ (fun x => hs x _)]; exact hrs
    split_ifs <;> exact fin
  · rw [if_neg hcn]; exact hrs

theorem process_exit_field {α : Type} (proj : process_t → α)
    (hn : ∀ x n, proj { x with next := n } = proj x)
    (hp : ∀ x n, proj { x with prev := n } = proj x)
    (hs : ∀ x s, proj { x with state := s } = proj x)
    (hc : ∀ x c, proj { x with context := c } = proj x) (k : Kernel) (q : Nat) :
    proj ((process_exit k).1.procs q) = proj (k.procs q) := by
  unfold process_exit
  by_cases hcp : k.current_process ≠ 0 ∧ k.current_process ≠ k.idle_process
  · rw [if_pos hcp]
    dsimp only
    rw [schedule_field proj hn hp hs hc]
    exact set_proc_field proj _ _ _ _ (fun x => hs x _)
  · rw [if_neg hcp]

/-- The status recorded by `sys_exit` is its argument truncated to 32 bits. -/
theorem sys_exit_status (k : Kernel) (status : Nat) (h0 : process_get_current k ≠ 0) :
    ((sys_exit k status).1.procs (process_get_current k)).exit_status = status % U32 := by
  unfold sys_exit
  dsimp only
  rw [if_neg h0]
  have key : ((set_proc (set_proc k (process_get_current k)
      (fun p => { p with exit_status := status % U32 }))
      (process_get_current k) (fun p => { p with state := ZOMBIE })).procs
        (process_get_current k)).exit_status = status % U32 := by
    rw [set_proc_procs, if_pos rfl, set_proc_procs, if_pos rfl]
  generalize (set_proc (set_proc k (process_get_current k)
      (fun p => { p with exit_status := status % U32 }))
      (process_get_current k) (fun p => { p with state := ZOMBIE })) = k2 at key ⊢
  by_cases hp : (k2.procs (process_get_current k)).parent_pid = 0
  · rw [if_pos hp]
    dsimp only
    rw [process_exit_field (fun x => x.exit_status) (fun _ _ => rfl) (fun _ _ => rfl)
      (fun _ _ => rfl) (fun _ _ => rfl)]
    exact key
  · rw [if_neg hp]
    dsimp only
    rw [schedule_field (fun x => x.exit_status) (fun _ _ => rfl) (fun _ _ => rfl)
      (fun _ _ => rfl) (fun _ _ => rfl)]
    exact key

theorem ready_queue_remove_state (k : Kernel) (p q : Nat) :
    ((ready_queue_remove k p).procs q).state = (k.procs q).state :=
  ready_queue_remove_field (fun x => x.state) (fun _ _ => rfl) (fun _ _ => rfl) k p q

theorem ready_queue_pop_state (k : Kernel) (q : Nat) :
    ((ready_queue_pop k).1.procs q).state = (k.procs q).state := by
  unfold ready_queue_pop
  by_cases h : k.ready_queue_head ≠ 0
  · rw [if_pos h]; exact ready_queue_remove_state k _ q
  · rw [if_neg h]

theorem context_switch_state (k : Kernel) (a b q : Nat) :
    ((context_switch k a b).procs q).state = (k.procs q).state := by
  unfold context_switch
  dsimp only
  by_cases h : a ≠ 0
  · rw [if_pos h]; exact set_proc_field (fun x => x.state) _ _ _ _ (fun _ => rfl)
  · rw [if_neg h]

theorem cr3_ite_procs (A B : Prop) [Decidable A] [Decidable B] (k3 : Kernel) (x : Nat) :
    (if A then (if B then { k3 with cr3 := x } else k3) else k3).procs = k3.procs := by
  split_ifs <;> rfl

/-- A pass of `schedule` started by a process that is not `RUNNING` leaves the state of
every PCB as it was, or makes it `RUNNING`. -/
theorem schedule_state_of_not_running (k : Kernel) (q : Nat)
    (hc : (k.procs (process_get_current k)).state ≠ RUNNING) :
    ((schedule k).procs q).state = (k.procs q).state ∨ ((schedule k).procs q).state = RUNNING := by
  by_cases he : k.scheduler_enabled = true
  swap
  · unfold schedule; rw [if_pos he]; left; rfl
  unfold schedule
  rw [if_neg (by simp [he])]
  dsimp only
  have hcur : process_get_current { k with schedule_count := (k.schedule_count + 1) % U64 } =
        process_get_current k := rfl
  rw [hcur]
  have hk1 : ∀ (a b : Kernel), (if process_get_current k ≠ 0 ∧
      (k.procs (process_get_current k)).state = RUNNING then a else b) = b :=
    fun a b => if_neg (fun h => hc h.2)
  simp only [hk1]
  generalize hr : ready_queue_pop { k with schedule_count := (k.schedule_count + 1) % U64 } = r
  have hrs : (r.1.procs q).state = (k.procs q).state := by
    rw [← hr]; exact ready_queue_pop_state _ q
  generalize (if r.2 = 0 then r.1.process_table 0 else r.2) = next
  by_cases hcn : process_get_current k ≠ next
  · rw [if_pos hcn, context_switch_state]
    have fin : ((set_proc r.1 next (fun p => { p with state := RUNNING })).procs q).state =
        (k.procs q).state ∨
        ((set_proc r.1 next (fun p => { p with state := RUNNING })).procs q).state = RUNNING := by
      rw [set_proc_procs]
      by_cases hq : q = next
      · rw [if_pos hq]; right; rfl
      · rw [if_neg hq]; left; exact hrs
    split_ifs <;> exact fin
  · rw [if_neg hcn]; left; exact hrs

theorem schedule_not_ready (k : Kernel) (q : Nat)
    (hc : (k.procs (process_get_current k)).state ≠ RUNNING) (hq : (k.procs q).state ≠ READY) :
    ((schedule k).procs q).state ≠ READY := by
  rcases schedule_state_of_not_running k q hc with h | h
  · rw [h]; exact hq
  · rw [h]; simp

theorem process_exit_not_ready (k : Kernel) (q : Nat) (hq : (k.procs q).state ≠ READY) :
    ((process_exit k).1.procs q).state ≠ READY := by
  unfold process_exit
  by_cases hcp : k.current_process ≠ 0 ∧ k.current_process ≠ k.idle_process
  · rw [if_pos hcp]
    apply schedule_not_ready
    · have : process_get_current (set_proc k k.current_process
          (fun p => { p with state := TERMINATED })) = k.current_process := by
        show (if k.current_process ≠ 0 then k.current_process else k.idle_process) = _
        rw [if_pos hcp.1]
      rw [this, set_proc_procs, if_pos rfl]; simp
    · rw [set_proc_procs]
      by_cases h : q = k.current_process
      · rw [if_pos h]; simp
      · rw [if_neg h]; exact hq
  · rw [if_neg hcp]; exact hq

/-- C5 (the code does otherwise): `sys_exit` never moves a `WAITING` parent to
`READY`: whatever the state, a PCB other than the caller that is `WAITING` before the
call is not `READY` after it, because neither `sys_exit` nor the `schedule` pass it
runs looks at the parent. -/
theorem exit_parent_not_ready (k : Kernel) (status q : Nat)
    (hq : q ≠ process_get_current k) (hw : (k.procs q).state = WAITING) :
    ((sys_exit k status).1.procs q).state ≠ READY := by
  have key : ∀ k2 : Kernel, process_get_current k2 = process_get_current k →
      (k2.procs (process_get_current k)).state = ZOMBIE → (k2.procs q).state = WAITING →
      ((process_exit k2).1.procs q).state ≠ READY ∧ ((schedule k2).procs q).state ≠ READY := by
    intro k2 h1 h2 h3
    exact ⟨process_exit_not_ready k2 q (by rw [h3]; simp),
      schedule_not_ready k2 q (by rw [h1, h2]; simp) (by rw [h3]; simp)⟩
  unfold sys_exit
  dsimp only
  by_cases h0 : process_get_current k = 0
  · rw [if_pos h0, hw]; simp
  rw [if_neg h0]
  obtain ⟨key1, key2⟩ := key
    (set_proc (set_proc k (process_get_current k) (fun p => { p with exit_status := status % U32 }))
      (process_get_current k) (fun p => { p with state := ZOMBIE })) rfl
    (by rw [set_proc_procs, if_pos rfl])
    (by rw [set_proc_procs, if_neg hq, set_proc_procs, if_neg hq]; exact hw)
  generalize (set_proc (set_proc k (process_get_current k)
      (fun p => { p with exit_status := status % U32 }))
      (process_get_current k) (fun p => { p with state := ZOMBIE })) = k2 at key1 key2 ⊢
  by_cases hp : (k2.procs (process_get_current k)).parent_pid = 0
  · rw [if_pos hp]; exact key1
  · rw [if_neg hp]; exact key2

/-- Witness of C5 on `kernel1`: after the child's `sys_exit(42)` the parent is still
`WAITING`, the child is a `ZOMBIE`, the ready queue is empty and the idle process runs. -/
theorem exit_parent_not_ready_witness :
    ((sys_exit kernel1 42).1.procs 0x2000018).state ≠ READY ∧
    ((sys_exit kernel1 42).1.procs 0x2000018).state = WAITING ∧
    ((sys_exit kernel1 42).1.procs 0x2002368).state = ZOMBIE ∧
    (sys_exit kernel1 42).1.ready_queue_head = 0 ∧
    (sys_exit kernel1 42).1.current_process = 0x200000 :=
  ⟨exit_parent_not_ready kernel1 42 0x2000018 (by decide) (by decide),
    by decide, by decide, by decide, by decide⟩

/-! ## Reaping a zombie child -/

theorem find_zombie_from_spec (k : Kernel) (pid : Nat) (n : Nat) :
    ∀ i, (∃ j, i ≤ j ∧ j < i + n ∧ zombie_child_at k pid j) →
      ∃ j, i ≤ j ∧ j < i + n ∧ zombie_child_at k pid j ∧
        find_zombie_from k pid n i = k.process_table j ∧
        ∀ j', i ≤ j' → j' < j → ¬ zombie_child_at k pid j' := by
  induction n with
  | zero => intro i ⟨j, h1, h2, _⟩; omega
  | succ n ih =>
    intro i ⟨j, h1, h2, h3⟩
    simp only [find_zombie_from]
    by_cases hz : zombie_child_at k pid i
    · have hz' : k.process_table i ≠ 0 ∧ (k.procs (k.process_table i)).parent_pid = pid ∧
          (k.procs (k.process_table i)).state = ZOMBIE := hz
      rw [if_pos hz']
      exact ⟨i, le_refl _, by omega, hz, rfl, fun j' a b => by omega⟩
    · have hz' : ¬ (k.process_table i ≠ 0 ∧ (k.procs (k.process_table i)).parent_pid = pid ∧
          (k.procs (k.process_table i)).state = ZOMBIE) := hz
      rw [if_neg hz']
      have hj : i + 1 ≤ j := by
        rcases Nat.eq_or_lt_of_le h1 with e | e
        · subst e; exact absurd h3 hz
        · exact e
      obtain ⟨j0, g1, g2, g3, g4, g5⟩ := ih (i + 1) ⟨j, hj, by omega, h3⟩
      refine ⟨j0, by omega, by omega, g3, g4, fun j' a b => ?_⟩
      rcases Nat.eq_or_lt_of_le a with e | e
      · subst e; exact hz
      · exact g5 j' e b

theorem find_slot_of_spec (tbl : Nat → Nat) (c : Nat) (n : Nat) :
    ∀ i j, i ≤ j → j < i + n → tbl j = c → (∀ j', i ≤ j' → j' < j → tbl j' ≠ c) →
      find_slot_of tbl c n i = some j := by
  induction n with
  | zero => intro i j h1 h2; omega
  | succ n ih =>
    intro i j h1 h2 h3 h4
    simp only [find_slot_of]
    rcases Nat.eq_or_lt_of_le h1 with e | e
    · subst e; rw [if_pos h3]
    · rw [if_neg (h4 i (le_refl _) e)]
      exact ih (i + 1) j e (by omega) h3 (fun j' a b => h4 j' (by omega) b)

/-- Releasing a reapable PCB held in slot `j` (its first slot) returns, empties that
slot and touches neither another slot nor a PCB nor the scheduler state. -/
theorem free_process_struct_spec (k : Kernel) (c j : Nat) (hc : c ≠ 0) (hj : j < MAX_PROCESSES)
    (htj : k.process_table j = c) (hfirst : ∀ j', j' < j → k.process_table j' ≠ c)
    (hr : reapable k c) :
    ∃ k1, free_process_struct k c = some k1 ∧ k1.process_table j = 0 ∧
      (∀ i, i ≠ j → k1.process_table i = k.process_table i) ∧ k1.procs = k.procs ∧
      k1.current_process = k.current_process ∧ k1.idle_process = k.idle_process ∧
      k1.schedule_count = k.schedule_count ∧
      k1.ready_queue_head = k.ready_queue_head ∧ k1.ready_queue_tail = k.ready_queue_tail := by
  obtain ⟨r1, r2, r3⟩ := hr
  have hslot : find_slot_of k.process_table c MAX_PROCESSES 0 = some j :=
    find_slot_of_spec _ _ _ 0 j (Nat.zero_le _) (by omega) htj (fun j' _ b => hfirst j' b)
  unfold free_process_struct
  rw [if_neg hc, hslot]
  dsimp only
  -- the kernel stack
  have step1 : ∃ h1, (if (k.procs c).kernel_stack ≠ 0 then
        (kfree k.heap (k.procs c).kernel_stack) else some k.heap) = some h1 ∧ heap_live h1 c := by
    by_cases hks : (k.procs c).kernel_stack ≠ 0
    · rw [if_pos hks]
      rcases r2 with e | ⟨e1, e2⟩
      · exact absurd e hks
      · obtain ⟨h1, g1, g2⟩ := kfree_of_live _ _ e1
        exact ⟨h1, g1, g2 c (fun h => e2 h.symm) r1⟩
    · rw [if_neg hks]; exact ⟨_, rfl, r1⟩
  obtain ⟨h1, s1, s2⟩ := step1
  have step2 : ∃ ph, (if (k.procs c).page_table ≠ 0 then
        vmm_destroy_address_space k.kpml4 k.phys (k.procs c).page_table else some k.phys) = some ph := by
    by_cases hpt : (k.procs c).page_table ≠ 0
    · rw [if_pos hpt]
      unfold vmm_destroy_address_space
      rcases r3 with e | e | ⟨e1, e2, e3, e4⟩
      · exact absurd e hpt
      · rw [if_pos (Or.inr e)]; exact ⟨_, rfl⟩
      · by_cases hk : (k.procs c).page_table = 0 ∨ (k.procs c).page_table = k.kpml4
        · rw [if_pos hk]; exact ⟨_, rfl⟩
        · rw [if_neg hk]
          unfold pmm_free_page
          rw [if_neg (by simp only [not_or, not_not, not_lt]; exact ⟨e1, e2⟩),
            if_neg (by omega), if_neg (by simp [e4])]
          exact ⟨_, rfl⟩
    · rw [if_neg hpt]; exact ⟨_, rfl⟩
  obtain ⟨ph, s3⟩ := step2
  obtain ⟨h2, s4, -⟩ := kfree_of_live h1 c s2
  by_cases hks : (k.procs c).kernel_stack ≠ 0
  · rw [if_pos hks] at s1
    rw [if_pos hks, s1]
    dsimp only [Option.map_some']
    by_cases hpt : (k.procs c).page_table ≠ 0
    · rw [if_pos hpt] at s3
      rw [if_pos hpt, s3]
      dsimp only [Option.map_some']
      rw [s4]
      exact ⟨_, rfl, by simp, fun i hi => by simp [hi], rfl, rfl, rfl, rfl, rfl, rfl⟩
    · rw [if_neg hpt]
      dsimp only
      rw [s4]
      exact ⟨_, rfl, by simp, fun i hi => by simp [hi], rfl, rfl, rfl, rfl, rfl, rfl⟩
  · rw [if_neg hks] at s1
    simp only [Option.some.injEq] at s1
    subst s1
    rw [if_neg hks]
    dsimp only
    by_cases hpt : (k.procs c).page_table ≠ 0
    · rw [if_pos hpt] at s3
      rw [if_pos hpt, s3]
      dsimp only [Option.map_some']
      rw [s4]
      exact ⟨_, rfl, by simp, fun i hi => by simp [hi], rfl, rfl, rfl, rfl, rfl, rfl⟩
    · rw [if_neg hpt]
      dsimp only
      rw [s4]
      exact ⟨_, rfl, by simp, fun i hi => by simp [hi], rfl, rfl, rfl, rfl, rfl, rfl⟩

theorem map_heap_some (ka kb : Kernel) (o : Option KHeap)
    (h : o.map (fun hh => { ka with heap := hh }) = some kb) : ∃ hh, kb = { ka with heap := hh } := by
  cases o with
  | none => cases h
  | some hh => exact ⟨hh, by cases h; rfl⟩

theorem map_phys_some (ka kb : Kernel) (o : Option Phys)
    (h : o.map (fun ph => { ka with phys := ph }) = some kb) : ∃ ph, kb = { ka with phys := ph } := by
  cases o with
  | none => cases h
  | some ph => exact ⟨ph, by cases h; rfl⟩

theorem read32_write32 (m : Mem) (a v : Nat) : read32 (write32 m a v) a = v % U32 := by
  unfold read32 read8 write32
  have h1 : (a ≤ a + 1 ∧ a + 1 < a + 4) := by omega
  have h2 : (a ≤ a + 2 ∧ a + 2 < a + 4) := by omega
  have h3 : (a ≤ a + 3 ∧ a + 3 < a + 4) := by omega
  have h0 : (a ≤ a ∧ a < a + 4) := by omega
  rw [if_pos h1, if_pos h2, if_pos h3, if_pos h0]
  have e0 : a - a = 0 := by omega
  have e1 : a + 1 - a = 1 := by omega
  have e2 : a + 2 - a = 2 := by omega
  have e3 : a + 3 - a = 3 := by omega
  rw [e0, e1, e2, e3]
  unfold U32
  norm_num
  omega

/-- A store to memory outside the kernel's data changes `Phys.mem` only. -/
theorem store_status_user (k : Kernel) (addr v : Nat) (h : user_int k addr) :
    store_status k addr v =
      some { k with phys := { k.phys with mem := write32 k.phys.mem addr v } } := by
  unfold store_status
  rw [h.1]
  dsimp only
  rw [if_pos h.2]

/-- The store of `sys_wait` through a pointer that is null or points outside the
kernel's data changes `Phys.mem` only. -/
theorem wait_store_mem (k : Kernel) (p v : Nat) (hptr : p = 0 ∨ user_int k p) :
    ∃ m, (if p ≠ 0 then store_status k p v else some k) =
        some { k with phys := { k.phys with mem := m } } ∧
      (p ≠ 0 → m = write32 k.phys.mem p v) := by
  by_cases hp : p = 0
  · exact ⟨k.phys.mem, by rw [if_neg (by simpa using hp)], fun h => absurd hp h⟩
  · rcases hptr with h | h
    · exact absurd h hp
    · exact ⟨_, by rw [if_pos hp, store_status_user k p v h], fun _ => rfl⟩

theorem vmm_destroy_address_space_mem (kp : Nat) (s s1 : Phys) (r : Nat)
    (h : vmm_destroy_address_space kp s r = some s1) : s1.mem = s.mem := by
  unfold vmm_destroy_address_space at h
  split_ifs at h
  · cases h; rfl
  · unfold pmm_free_page at h
    split_ifs at h
    cases h; rfl

theorem free_process_struct_rest_mem (ka k1 : Kernel) (c : Nat) (r2 r3 : Option Kernel)
    (kb kc : Kernel)
    (h2 : r2 = if (ka.procs c).kernel_stack ≠ 0 then
        (kfree ka.heap (ka.procs c).kernel_stack).map (fun h => { ka with heap := h })
      else some ka) (e2 : r2 = some kb)
    (h3 : r3 = if (kb.procs c).page_table ≠ 0 then
        (vmm_destroy_address_space kb.kpml4 kb.phys (kb.procs c).page_table).map
          (fun ph => { kb with phys := ph })
      else some kb) (e3 : r3 = some kc)
    (h : (kfree kc.heap c).map (fun h => { kc with heap := h }) = some k1) :
    k1.phys.mem = ka.phys.mem := by
  have fb : kb.phys = ka.phys := by
    rw [e2] at h2
    split_ifs at h2
    · obtain ⟨hh, e⟩ := map_heap_some _ _ _ h2.symm
      rw [e]
    · cases h2; rfl
  have fc : kc.phys.mem = kb.phys.mem := by
    rw [e3] at h3
    split_ifs at h3
    · cases hv : vmm_destroy_address_space kb.kpml4 kb.phys (kb.procs c).page_table with
      | none => rw [hv] at h3; cases h3
      | some ph =>
        rw [hv] at h3
        cases h3
        exact vmm_destroy_address_space_mem _ _ _ _ hv
    · cases h3; rfl
  obtain ⟨hh, e⟩ := map_heap_some _ _ _ h
  rw [e]
  show kc.phys.mem = ka.phys.mem
  rw [fc, fb]

/-- The function `free_process_struct` writes no byte of `Phys.mem`. -/
theorem free_process_struct_mem (k k1 : Kernel) (c : Nat)
    (h : free_process_struct k c = some k1) : k1.phys.mem = k.phys.mem := by
  unfold free_process_struct at h
  by_cases hc : c = 0
  · rw [if_pos hc] at h
    cases h
    rfl
  rw [if_neg hc] at h
  cases hf : find_slot_of k.process_table c MAX_PROCESSES 0 with
  | none =>
    rw [hf] at h
    dsimp only at h
    split at h
    · cases h
    · rename_i kb e2
      split at h
      · cases h
      · rename_i kc e3
        exact free_process_struct_rest_mem k k1 c _ _ kb kc rfl e2 rfl e3 h
  | some i =>
    rw [hf] at h
    dsimp only at h
    split at h
    · cases h
    · rename_i kb e2
      split at h
      · cases h
      · rename_i kc e3
        exact free_process_struct_rest_mem
          { k with process_table := fun j => if j = i then 0 else k.process_table j }
          k1 c _ _ kb kc rfl e2 rfl e3 h

theorem find_free_slot_spec (tbl : Nat → Nat) (n : Nat) :
    ∀ i slot, find_free_slot tbl n i = some slot → i ≤ slot ∧ slot < i + n ∧ tbl slot = 0 := by
  induction n with
  | zero => intro i slot h; simp [find_free_slot] at h
  | succ n ih =>
    intro i slot h
    simp only [find_free_slot] at h
    split at h
    · simp only [Option.some.injEq] at h; subst h; exact ⟨le_refl _, by omega, ‹_›⟩
    · obtain ⟨h1, h2, h3⟩ := ih _ _ h; exact ⟨by omega, by omega, h3⟩

/-- What a successful `allocate_process_struct` leaves behind. -/
theorem allocate_process_struct_spec (k k1 : Kernel) (child : Nat)
    (h : allocate_process_struct k = some (k1, child)) (hc : child ≠ 0) :
    k1.phys = k.phys ∧ k1.kpml4 = k.kpml4 ∧ k1.current_process = k.current_process ∧
    k1.idle_process = k.idle_process ∧
    k1.ready_queue_head = k.ready_queue_head ∧ k1.ready_queue_tail = k.ready_queue_tail ∧
    (∀ q, q ≠ child → k1.procs q = k.procs q) ∧
    (k1.procs child).pid = k.next_pid ∧
    (∃ slot, 1 ≤ slot ∧ slot < MAX_PROCESSES ∧ k.process_table slot = 0 ∧
      k1.process_table slot = child ∧ ∀ j, j ≠ slot → k1.process_table j = k.process_table j) := by
  unfold allocate_process_struct at h
  split at h
  · simp only [Option.some.injEq, Prod.mk.injEq] at h; exact absurd h.2.symm hc
  rename_i slot hslot
  obtain ⟨s1, s2, s3⟩ := find_free_slot_spec _ _ _ _ hslot
  split at h
  · simp at h
  rename_i h1 proc hm1
  try dsimp only at h
  split at h
  · simp only [Option.some.injEq, Prod.mk.injEq] at h; exact absurd h.2.symm hc
  rename_i hproc
  split at h
  · simp at h
  rename_i h2 ks hm2
  try dsimp only at h
  split at h
  · rw [Option.map_eq_some'] at h
    obtain ⟨a, _, ha⟩ := h
    simp only [Prod.mk.injEq] at ha
    exact absurd ha.2.symm hc
  rename_i hks
  unfold init_process_fd_table at h
  split at h
  · simp at h
  rename_i h4 t hm4
  try dsimp only at h
  split at h
  all_goals
    simp only [Option.map_some', Option.some.injEq, Prod.mk.injEq] at h
    obtain ⟨rfl, rfl⟩ := h
    refine ⟨rfl, rfl, rfl, rfl, rfl, rfl, ?_, ?_, slot, s1, by simp only [MAX_PROCESSES] at *; omega,
      s3, ?_, ?_⟩
    · intro q hq; simp [set_proc, hq]
    · simp [set_proc]
    · simp [set_proc]
    · intro j hj; simp [set_proc, hj]


/-- The function `ready_queue_push` writes only the `next` and `prev` links. -/
theorem ready_queue_push_fields (k : Kernel) (p q : Nat) :
    ((ready_queue_push k p).procs q).context = (k.procs q).context ∧
    ((ready_queue_push k p).procs q).pid = (k.procs q).pid ∧
    ((ready_queue_push k p).procs q).state = (k.procs q).state ∧
    ((ready_queue_push k p).procs q).parent_pid = (k.procs q).parent_pid ∧
    (ready_queue_push k p).process_table = k.process_table := by
  unfold ready_queue_push
  simp only [set_proc]
  split_ifs <;> simp <;> split_ifs <;> simp_all

/-- What a successful `sys_fork` leaves behind. -/
theorem sys_fork_spec (k k1 : Kernel) (v : Nat) (h : sys_fork k = some (k1, v))
    (hv : v ≠ U64 - 1) :
    ∃ child slot, child ≠ 0 ∧ 1 ≤ slot ∧ slot < MAX_PROCESSES ∧ k.process_table slot = 0 ∧
      k1.process_table slot = child ∧ (k1.procs child).pid = v ∧ v = k.next_pid ∧
      (k1.procs child).state = READY ∧
      (k1.procs child).context = (k1.procs (process_get_current k)).context := by
  unfold sys_fork at h
  dsimp only at h
  by_cases hp0 : process_get_current k = 0
  · rw [if_pos hp0] at h
    simp only [Option.some.injEq, Prod.mk.injEq] at h; exact absurd h.2.symm hv
  rw [if_neg hp0] at h
  cases ha : allocate_process_struct k with
  | none => rw [ha] at h; simp at h
  | some q =>
  obtain ⟨ka, child⟩ := q
  rw [ha] at h
  dsimp only at h
  by_cases hchild : child = 0
  · rw [if_pos hchild] at h
    simp only [Option.some.injEq, Prod.mk.injEq] at h; exact absurd h.2.symm hv
  rw [if_neg hchild] at h
  obtain ⟨-, -, -, -, -, -, a7, a8, slot, a9, a10, a11, a12, a13⟩ :=
    allocate_process_struct_spec k ka child ha hchild
  split at h
  · simp at h
  rename_i ph root hcl
  by_cases hroot : root = 0
  · rw [if_pos hroot, Option.map_eq_some'] at h
    obtain ⟨a, _, ha⟩ := h
    simp only [Prod.mk.injEq] at ha
    exact absurd ha.2.symm hv
  rw [if_neg hroot] at h
  simp only [Option.some.injEq, Prod.mk.injEq] at h
  obtain ⟨rfl, rfl⟩ := h
  refine ⟨child, slot, hchild, a9, a10, a11, ?_, rfl, ?_, ?_, ?_⟩
  · rw [(ready_queue_push_fields _ _ 0).2.2.2.2]
    split_ifs <;> simp [set_proc, a12]
  · rw [(ready_queue_push_fields _ _ _).2.1]
    split_ifs <;> simp [set_proc, a8]
  · rw [(ready_queue_push_fields _ _ _).2.2.1]
    split_ifs <;> simp [set_proc]
  · rw [(ready_queue_push_fields _ _ _).1, (ready_queue_push_fields _ _ _).1]
    by_cases hp : process_get_current k = child
    · rw [hp]
    · split_ifs <;> simp [set_proc, hp]

/-! ## Bit operations, memory and the physical memory manager -/

theorem land_fff (x : Nat) : x &&& 0xFFF = x % 4096 :=
  Nat.and_pow_two_sub_one_eq_mod x 12

theorem land_one (x : Nat) : x &&& 1 = x % 2 := Nat.and_one_is_mod x

theorem land_present (x : Nat) : x &&& PAGE_PRESENT = x % 2 := Nat.and_one_is_mod x

theorem land_not_fff (x : Nat) (h : x < U64) : x &&& NOT_FFF = x - x % 4096 := by
  apply Nat.eq_of_testBit_eq
  intro i
  have e1 : x - x % 4096 = 2 ^ 12 * (x / 2 ^ 12) := by
    have := Nat.div_add_mod x 4096
    norm_num at this ⊢; omega
  have e2 : NOT_FFF = 2 ^ 12 * (2 ^ 52 - 1) := by norm_num [NOT_FFF]
  rw [Nat.testBit_and, e1, e2, Nat.testBit_mul_pow_two, Nat.testBit_mul_pow_two,
    Nat.testBit_two_pow_sub_one, ← Nat.shiftRight_eq_div_pow, Nat.testBit_shiftRight]
  by_cases hi : 12 ≤ i
  · simp only [hi, decide_True, Bool.true_and]
    have : 12 + (i - 12) = i := by omega
    rw [this]
    by_cases h52 : i - 12 < 52
    · simp [h52]
    · simp only [h52, decide_False, Bool.and_false]
      symm
      apply Nat.testBit_eq_false_of_lt
      calc x < 2 ^ 64 := h
        _ ≤ 2 ^ i := Nat.pow_le_pow_right (by norm_num) (by omega)
  · simp [hi]

theorem lor_flags (c f : Nat) (hc : c % 4096 = 0) (hf : f < 4096) : c ||| f = c + f := by
  obtain ⟨q, rfl⟩ : ∃ q, c = 2 ^ 12 * q := ⟨c / 4096, by norm_num; omega⟩
  exact (Nat.mul_add_lt_is_or (show f < 2 ^ 12 by norm_num; exact hf) q).symm

theorem read8_lt (m : Mem) (a : Nat) : read8 m a < 256 := Nat.mod_lt _ (by norm_num)

theorem read64_lt (m : Mem) (a : Nat) : read64 m a < U64 := by
  unfold read64
  have h0 := read8_lt m a
  have h1 := read8_lt m (a + 1)
  have h2 := read8_lt m (a + 2)
  have h3 := read8_lt m (a + 3)
  have h4 := read8_lt m (a + 4)
  have h5 := read8_lt m (a + 5)
  have h6 := read8_lt m (a + 6)
  have h7 := read8_lt m (a + 7)
  norm_num [U64]
  omega

theorem read64_congr (m m' : Mem) (a : Nat)
    (h : ∀ i, i < 8 → read8 m' (a + i) = read8 m (a + i)) : read64 m' a = read64 m a := by
  unfold read64
  have h0 := h 0 (by norm_num)
  rw [Nat.add_zero] at h0
  rw [h0, h 1 (by norm_num), h 2 (by norm_num), h 3 (by norm_num), h 4 (by norm_num),
    h 5 (by norm_num), h 6 (by norm_num), h 7 (by norm_num)]

theorem write64_other (m : Mem) (a v x : Nat) (h : x < a ∨ a + 8 ≤ x) :
    write64 m a v x = m x := by
  unfold write64
  rw [if_neg (by omega)]

theorem write64_byte (m : Mem) (a v k : Nat) (h : k < 8) :
    read8 (write64 m a v) (a + k) = v / 2 ^ (8 * k) % 256 := by
  unfold read8 write64
  rw [if_pos (by omega), Nat.add_sub_cancel_left, Nat.mod_mod]

theorem read64_write64_same (m : Mem) (a v : Nat) : read64 (write64 m a v) a = v % U64 := by
  unfold read64
  have h0 := write64_byte m a v 0 (by norm_num)
  rw [Nat.add_zero] at h0
  rw [h0, write64_byte m a v 1 (by norm_num), write64_byte m a v 2 (by norm_num),
    write64_byte m a v 3 (by norm_num), write64_byte m a v 4 (by norm_num),
    write64_byte m a v 5 (by norm_num), write64_byte m a v 6 (by norm_num),
    write64_byte m a v 7 (by norm_num)]
  norm_num [U64]
  omega

theorem read64_write64_other (m : Mem) (a v b : Nat) (h : b + 8 ≤ a ∨ a + 8 ≤ b) :
    read64 (write64 m a v) b = read64 m b := by
  apply read64_congr
  intro i hi
  unfold read8
  rw [write64_other _ _ _ _ (by omega)]

/-! ### Page-table entries -/

theorem entry_congr (m m' : Mem) (t i : Nat) (ht : t % 4096 = 0) (hi : i < 512)
    (h : ∀ a, a / 4096 = t / 4096 → m' a = m a) : entry m' t i = entry m t i := by
  unfold entry
  apply read64_congr
  intro j hj
  unfold read8
  rw [h _ (by omega)]

theorem entry_set_same (m : Mem) (t i v : Nat) : entry (set_entry m t i v) t i = v % U64 :=
  read64_write64_same _ _ _

theorem entry_set_other (m : Mem) (t i j v : Nat) (h : j ≠ i) :
    entry (set_entry m t i v) t j = entry m t j :=
  read64_write64_other _ _ _ _ (by omega)

theorem set_entry_frame (m : Mem) (t i v a : Nat) (ht : t % 4096 = 0) (hi : i < 512)
    (ha : a / 4096 ≠ t / 4096) : set_entry m t i v a = m a :=
  write64_other _ _ _ _ (by omega)

/-! ### The loops over one frame -/

theorem zero_words_other (addr : Nat) (n : Nat) (m : Mem) (a : Nat)
    (h : a < addr ∨ addr + 8 * n ≤ a) : zero_words addr n m a = m a := by
  induction n with
  | zero => rfl
  | succ n ih =>
    simp only [zero_words]
    rw [write64_other _ _ _ _ (by omega), ih (by omega)]

theorem zero_words_inside (addr : Nat) (n : Nat) (m : Mem) (a : Nat)
    (h1 : addr ≤ a) (h2 : a < addr + 8 * n) : zero_words addr n m a = 0 := by
  induction n with
  | zero => omega
  | succ n ih =>
    simp only [zero_words]
    by_cases hlast : addr + 8 * n ≤ a
    · unfold write64
      rw [if_pos (by omega)]
      simp
    · rw [write64_other _ _ _ _ (by omega)]
      exact ih (by omega)

theorem copy_bytes_other (src dst : Nat) (n : Nat) (m : Mem) (a : Nat)
    (h : a < dst ∨ dst + n ≤ a) : copy_bytes src dst n m a = m a := by
  induction n with
  | zero => rfl
  | succ n ih =>
    simp only [copy_bytes]
    unfold write8
    rw [if_neg (by omega)]
    exact ih (by omega)

theorem copy_bytes_inside (src dst : Nat) (n : Nat) (m : Mem)
    (hd : ∀ j, j < n → src + j < dst ∨ dst + n ≤ src + j) :
    ∀ i, i < n → copy_bytes src dst n m (dst + i) = read8 m (src + i) := by
  induction n with
  | zero => intro i hi; omega
  | succ n ih =>
    intro i hi
    simp only [copy_bytes]
    unfold write8
    by_cases hl : i = n
    · subst hl
      rw [if_pos rfl]
      unfold read8
      rw [copy_bytes_other _ _ _ _ _ (by have := hd i (by omega); omega), Nat.mod_mod]
    · rw [if_neg (by omega)]
      exact ih (fun j hj => by have := hd j (by omega); omega) i (by omega)

theorem clear_entries_other (t : Nat) (n : Nat) (m : Mem) (a : Nat)
    (h : a < t ∨ t + 8 * n ≤ a) : clear_entries t n m a = m a := by
  induction n with
  | zero => rfl
  | succ n ih =>
    simp only [clear_entries]
    unfold set_entry
    rw [write64_other _ _ _ _ (by omega), ih (by omega)]

theorem clear_entries_entry (t : Nat) (n : Nat) (m : Mem) (j : Nat) (hj : j < n) :
    entry (clear_entries t n m) t j = 0 := by
  induction n with
  | zero => omega
  | succ n ih =>
    simp only [clear_entries]
    by_cases hl : j = n
    · subst hl; rw [entry_set_same]; rfl
    · rw [entry_set_other _ _ _ _ _ hl]; exact ih (by omega)

theorem copy_entries_other (parent child lo : Nat) (n : Nat) (m : Mem) (a : Nat)
    (h : a < child + 8 * lo ∨ child + 8 * (lo + n) ≤ a) :
    copy_entries parent child lo n m a = m a := by
  induction n with
  | zero => rfl
  | succ n ih =>
    simp only [copy_entries]
    unfold set_entry
    rw [write64_other _ _ _ _ (by omega), ih (by omega)]

theorem land_bit_eq_zero (w b : Nat) : w &&& (1 <<< b) = 0 ↔ w.testBit b = false := by
  rw [Nat.one_shiftLeft, Nat.and_two_pow]
  cases h : w.testBit b
  · simp
  · simp

theorem bitmap_test_eq (bm : Nat → Nat) (p : Nat) :
    bitmap_test bm p = (bm (p / 32)).testBit (p % 32) := by
  unfold bitmap_test
  cases h : (bm (p / 32)).testBit (p % 32)
  · simp [(land_bit_eq_zero _ _).mpr h]
  · have : bm (p / 32) &&& (1 <<< (p % 32)) ≠ 0 := by
      intro h0; rw [(land_bit_eq_zero _ _).mp h0] at h; cases h
    simp [this]

theorem find_free_bit_spec (w : Nat) (n : Nat) :
    ∀ b bit, find_free_bit w n b = some bit → b ≤ bit ∧ bit < b + n ∧ w.testBit bit = false := by
  induction n with
  | zero => intro b bit h; simp [find_free_bit] at h
  | succ n ih =>
    intro b bit h
    simp only [find_free_bit] at h
    by_cases h0 : w &&& (1 <<< b) = 0
    · rw [if_pos h0] at h
      simp only [Option.some.injEq] at h
      subst h
      exact ⟨le_refl _, by omega, (land_bit_eq_zero _ _).mp h0⟩
    · rw [if_neg h0] at h
      obtain ⟨h1, h2, h3⟩ := ih _ _ h
      exact ⟨by omega, by omega, h3⟩

theorem bitmap_find_free_from_spec (bm : Nat → Nat) (n : Nat) :
    ∀ i p, bitmap_find_free_from bm n i = some p →
      p < (i + n) * 32 ∧ bitmap_test bm p = false := by
  induction n with
  | zero => intro i p h; simp [bitmap_find_free_from] at h
  | succ n ih =>
    intro i p h
    simp only [bitmap_find_free_from] at h
    have hrec : bitmap_find_free_from bm n (i + 1) = some p →
        p < (i + (n + 1)) * 32 ∧ bitmap_test bm p = false := by
      intro h'
      obtain ⟨h1, h2⟩ := ih _ _ h'
      exact ⟨by have : (i + 1 + n) = (i + (n + 1)) := by omega
                rw [this] at h1; exact h1, h2⟩
    by_cases hw : bm i ≠ 0xFFFFFFFF
    · rw [if_pos hw] at h
      cases hb : find_free_bit (bm i) 32 0 with
      | none => rw [hb] at h; exact hrec h
      | some bit =>
        rw [hb] at h
        simp only [Option.some.injEq] at h
        subst h
        obtain ⟨-, h2, h3⟩ := find_free_bit_spec _ _ _ _ hb
        refine ⟨by omega, ?_⟩
        rw [bitmap_test_eq]
        have e1 : (i * 32 + bit) / 32 = i := by omega
        have e2 : (i * 32 + bit) % 32 = bit := by omega
        rw [e1, e2]; exact h3
    · rw [if_neg hw] at h; exact hrec h

theorem bitmap_find_free_spec (bm : Nat → Nat) (p : Nat) (h : bitmap_find_free bm = some p) :
    p < BITMAP_WORDS * 32 ∧ bitmap_test bm p = false := by
  have := bitmap_find_free_from_spec bm BITMAP_WORDS 0 p h
  rw [Nat.zero_add] at this
  exact this

theorem bitmap_test_set (bm : Nat → Nat) (p q : Nat) :
    bitmap_test (bitmap_set bm p) q = (decide (q = p) || bitmap_test bm q) := by
  rw [bitmap_test_eq, bitmap_test_eq]
  unfold bitmap_set
  by_cases hw : q / 32 = p / 32
  · rw [if_pos hw, Nat.one_shiftLeft, Nat.testBit_or, Nat.testBit_two_pow, hw]
    by_cases hb : p % 32 = q % 32
    · have : q = p := by omega
      simp [hb, this]
    · have : q ≠ p := by intro h; rw [h] at hb; exact hb rfl
      simp [hb, this]
  · rw [if_neg hw]
    have : q ≠ p := by intro h; rw [h] at hw; exact hw rfl
    simp [this]

/-- What `pmm_alloc_page` does when it returns a frame. -/
theorem pmm_alloc_page_spec (s : Phys) (h : (pmm_alloc_page s).2 ≠ 0) :
    ∃ p, (pmm_alloc_page s).2 = p * 4096 ∧ frame_free s p ∧
      bitmap_test (pmm_alloc_page s).1.pmm_bitmap p = true ∧
      (∀ q, q ≠ p → bitmap_test (pmm_alloc_page s).1.pmm_bitmap q = bitmap_test s.pmm_bitmap q) ∧
      (∀ a, a / 4096 ≠ p → (pmm_alloc_page s).1.mem a = s.mem a) ∧
      (∀ a, a / 4096 = p → (pmm_alloc_page s).1.mem a = 0) := by
  unfold pmm_alloc_page at h ⊢
  cases hf : bitmap_find_free s.pmm_bitmap with
  | none => rw [hf] at h; exact absurd rfl h
  | some p =>
    rw [hf] at h
    dsimp only at h ⊢
    obtain ⟨h1, h2⟩ := bitmap_find_free_spec _ _ hf
    refine ⟨p, rfl, ⟨h1, h2⟩, ?_, ?_, ?_, ?_⟩
    · rw [bitmap_test_set]; simp
    · intro q hq; rw [bitmap_test_set]; simp [hq]
    · intro a ha
      apply zero_words_other
      simp only [PAGE_SIZE]; omega
    · intro a ha
      apply zero_words_inside
      · simp only [PAGE_SIZE]; omega
      · simp only [PAGE_SIZE]; omega

/-! ## Cloning an address space -/

theorem grows_refl (s : Phys) : grows s s := ⟨fun _ h => h, fun _ _ => rfl⟩

theorem grows_trans (s0 s1 s2 : Phys) (h1 : grows s0 s1) (h2 : grows s1 s2) : grows s0 s2 :=
  ⟨fun f h => h1.1 f (h2.1 f h),
   fun a h => by rw [h2.2 a (fun hf => h (h1.1 _ hf)), h1.2 a h]⟩

theorem read8_congr (m m1 : Mem) (a : Nat) (h : m1 a = m a) : read8 m1 a = read8 m a := by
  unfold read8; rw [h]

/-- A copy stays a copy when the set of frames grows and memory changes only outside
the frames of the copy. -/
theorem cloned_transfer (F G : Nat → Prop) (mP mC mC1 : Mem) (hFG : ∀ f, F f → G f)
    (hm : ∀ a, F (a / 4096) → mC1 a = mC a) :
    ∀ l p c, cloned F mP mC l p c → cloned G mP mC1 l p c := by
  intro l
  induction l with
  | zero =>
    intro p c ⟨h1, h2, h3⟩
    refine ⟨h1, hFG _ h2, fun off hoff => ?_⟩
    rw [← h3 off hoff]
    apply read8_congr
    apply hm
    have : (c + off) / 4096 = c / 4096 := by omega
    rw [this]; exact h2
  | succ l ih =>
    intro t c ⟨h1, h2, h3⟩
    refine ⟨h1, hFG _ h2, fun i hi => ?_⟩
    have he : entry mC1 c i = entry mC c i :=
      entry_congr _ _ _ _ h1 hi (fun a ha => hm a (by rw [ha]; exact h2))
    obtain ⟨g1, g2⟩ := h3 i hi
    refine ⟨fun hodd => ?_, fun hev => by rw [he]; exact g2 hev⟩
    obtain ⟨d, d1, d2⟩ := g1 hodd
    exact ⟨d, by rw [he]; exact d1, ih _ _ d2⟩

theorem cloned_root (F : Nat → Prop) (mP mC : Mem) (l p c : Nat) (h : cloned F mP mC l p c) :
    c % 4096 = 0 ∧ F (c / 4096) := by
  cases l with
  | zero => exact ⟨h.1, h.2.1⟩
  | succ l => exact ⟨h.1, h.2.1⟩

theorem frame_free_lt (s : Phys) (f : Nat) (h : frame_free s f) : f < 2 ^ 20 := by
  have := h.1
  simp only [BITMAP_WORDS, BITMAP_SIZE] at this
  omega

/-- Reading the parent table gives the same entries as at the start. -/
theorem parent_entry_stable (s0 s : Phys) (parent j : Nat) (hg : grows s0 s)
    (hpar : ∀ a, parent ≤ a → a < parent + 4096 → ¬ frame_free s0 (a / 4096)) (hj : j < 512) :
    entry s.mem parent j = entry s0.mem parent j := by
  unfold entry
  apply read64_congr
  intro i hi
  apply read8_congr
  exact hg.2 _ (hpar _ (by omega) (by omega))

/-- One iteration of a child-table loop on a present parent entry: after the subtree
has been cloned at `d` and `child[i] = d | flags` stored, the invariant holds for
`i + 1`. -/
theorem clone_inv_present (l n parent child : Nat) (mP : Mem) (sb sa s s1 : Phys) (i d : Nat)
    (hn : n ≤ 512) (hi : i < n) (hal : child % 4096 = 0)
    (hca : ¬ frame_free sa (child / 4096)) (hc0 : frame_free sb (child / 4096))
    (inv : clone_inv l n parent child mP sb sa s i)
    (hg : grows s s1)
    (hcl : cloned (fun f => frame_free s f ∧ ¬ frame_free s1 f) mP s1.mem l
      (entry mP parent i - entry mP parent i % 4096) d)
    (hodd : entry mP parent i % 2 = 1) (m2 : Mem)
    (hm2 : m2 = set_entry s1.mem child i (d + entry mP parent i % 4096)) :
    clone_inv l n parent child mP sb sa { s1 with mem := m2 } (i + 1) := by
  subst hm2
  have hcs : ¬ frame_free s (child / 4096) := fun h => hca (inv.ga _ h)
  have hd := cloned_root _ _ _ _ _ _ hcl
  have hdlt : d / 4096 < 2 ^ 20 := frame_free_lt s _ hd.2.1
  have hval : (d + entry mP parent i % 4096) % U64 = d + entry mP parent i % 4096 := by
    apply Nat.mod_eq_of_lt
    have := Nat.mod_lt (entry mP parent i) (by norm_num : 4096 > 0)
    norm_num [U64] at *
    omega
  have hmem : ∀ a, ¬ frame_free s (a / 4096) → a / 4096 ≠ child / 4096 →
      set_entry s1.mem child i (d + entry mP parent i % 4096) a = s.mem a := by
    intro a h1 h2
    rw [set_entry_frame _ _ _ _ _ hal (by omega) h2, hg.2 a h1]
  refine ⟨?_, ?_, ?_, ?_⟩
  · refine ⟨fun f h => inv.g0.1 f (hg.1 f h), fun a ha => ?_⟩
    have hne : a / 4096 ≠ child / 4096 := fun h => ha (h ▸ hc0)
    show set_entry s1.mem child i _ a = sb.mem a
    rw [set_entry_frame _ _ _ _ _ hal (by omega) hne]
    exact (grows_trans _ _ _ inv.g0 hg).2 a ha
  · exact fun f h => inv.ga f (hg.1 f h)
  · intro j hj
    show (_ → ∃ d', entry (set_entry s1.mem child i _) child j = _ ∧ _) ∧
      (_ → entry (set_entry s1.mem child i _) child j = 0)
    by_cases hji : j = i
    · subst hji
      rw [entry_set_same, hval]
      refine ⟨fun _ => ⟨d, rfl, ?_⟩, fun hev => by omega⟩
      apply cloned_transfer _ _ _ _ _ _ _ _ _ _ hcl
      · exact fun f ⟨h1, h2⟩ => ⟨inv.ga f h1, h2⟩
      · intro a ⟨h1, _⟩
        have hne : a / 4096 ≠ child / 4096 := fun h => hcs (h ▸ h1)
        exact set_entry_frame _ _ _ _ _ hal (by omega) hne
    · have hlt : j < i := by omega
      rw [entry_set_other _ _ _ _ _ hji]
      have he : entry s1.mem child j = entry s.mem child j :=
        entry_congr _ _ _ _ hal (by omega) (fun a ha => hg.2 a (by rw [ha]; exact hcs))
      rw [he]
      obtain ⟨g1, g2⟩ := inv.done j hlt
      refine ⟨fun ho => ?_, g2⟩
      obtain ⟨d', e1, e2⟩ := g1 ho
      refine ⟨d', e1, ?_⟩
      apply cloned_transfer _ _ _ _ _ _ _ _ _ _ e2
      · exact fun f ⟨h1, h2⟩ => ⟨h1, fun h3 => h2 (hg.1 f h3)⟩
      · intro a ⟨h1, h2⟩
        exact hmem a h2 (fun h => hca (h ▸ h1))
  · intro j h1 h2
    show entry (set_entry s1.mem child i _) child j = 0
    rw [entry_set_other _ _ _ _ _ (by omega)]
    have he : entry s1.mem child j = entry s.mem child j :=
      entry_congr _ _ _ _ hal (by omega) (fun a ha => hg.2 a (by rw [ha]; exact hcs))
    rw [he]
    exact inv.todo j (by omega) h2

/-- One iteration of a child-table loop on a parent entry that is not present: the
child entry, which is zero, is left alone or overwritten with zero. -/
theorem clone_inv_absent (l n parent child : Nat) (mP : Mem) (sb sa s : Phys) (i : Nat)
    (hn : n ≤ 512) (hi : i < n) (hal : child % 4096 = 0)
    (hca : ¬ frame_free sa (child / 4096)) (hc0 : frame_free sb (child / 4096))
    (inv : clone_inv l n parent child mP sb sa s i)
    (hev : entry mP parent i % 2 = 0) (m2 : Mem)
    (hm2 : m2 = s.mem ∨ m2 = set_entry s.mem child i 0) :
    clone_inv l n parent child mP sb sa { s with mem := m2 } (i + 1) := by
  have hother : ∀ a, a / 4096 ≠ child / 4096 → m2 a = s.mem a := by
    intro a ha
    rcases hm2 with h | h
    · rw [h]
    · rw [h]; exact set_entry_frame _ _ _ _ _ hal (by omega) ha
  have hent : ∀ j, j < 512 → j ≠ i → entry m2 child j = entry s.mem child j := by
    intro j _ hji
    rcases hm2 with h | h
    · rw [h]
    · rw [h]; exact entry_set_other _ _ _ _ _ hji
  have hei : entry m2 child i = 0 := by
    rcases hm2 with h | h
    · rw [h]; exact inv.todo i (le_refl _) hi
    · rw [h, entry_set_same]; rfl
  refine ⟨?_, inv.ga, ?_, ?_⟩
  · refine ⟨inv.g0.1, fun a ha => ?_⟩
    have hne : a / 4096 ≠ child / 4096 := fun h => ha (h ▸ hc0)
    show m2 a = sb.mem a
    rw [hother a hne]; exact inv.g0.2 a ha
  · intro j hj
    show (_ → ∃ d', entry m2 child j = _ ∧ _) ∧ (_ → entry m2 child j = 0)
    by_cases hji : j = i
    · subst hji
      exact ⟨fun ho => by omega, fun _ => hei⟩
    · rw [hent j (by omega) hji]
      obtain ⟨g1, g2⟩ := inv.done j (by omega)
      refine ⟨fun ho => ?_, g2⟩
      obtain ⟨d', e1, e2⟩ := g1 ho
      refine ⟨d', e1, ?_⟩
      apply cloned_transfer _ _ _ _ _ _ _ _ _ _ e2
      · exact fun f h => h
      · intro a ⟨h1, _⟩
        exact hother a (fun h => hca (h ▸ h1))
  · intro j h1 h2
    show entry m2 child j = 0
    rw [hent j (by omega) (by omega)]
    exact inv.todo j (by omega) h2

/-- A successful `pmm_alloc_page` is an allocation step, and the frame it returns is
zeroed, was free and is no longer free. -/
theorem pmm_alloc_page_grows (s : Phys) (h : (pmm_alloc_page s).2 ≠ 0) :
    grows s (pmm_alloc_page s).1 ∧ (pmm_alloc_page s).2 % 4096 = 0 ∧
    frame_free s ((pmm_alloc_page s).2 / 4096) ∧
    ¬ frame_free (pmm_alloc_page s).1 ((pmm_alloc_page s).2 / 4096) ∧
    (∀ a, a / 4096 = (pmm_alloc_page s).2 / 4096 → (pmm_alloc_page s).1.mem a = 0) ∧
    (∀ a, a / 4096 ≠ (pmm_alloc_page s).2 / 4096 → (pmm_alloc_page s).1.mem a = s.mem a) := by
  obtain ⟨p, h1, h2, h3, h4, h5, h6⟩ := pmm_alloc_page_spec s h
  have hdiv : (pmm_alloc_page s).2 / 4096 = p := by rw [h1]; omega
  rw [hdiv]
  refine ⟨⟨?_, ?_⟩, by rw [h1]; omega, h2, ?_, h6, h5⟩
  · intro f ⟨f1, f2⟩
    refine ⟨f1, ?_⟩
    by_cases hf : f = p
    · subst hf; rw [h3] at f2; cases f2
    · rw [← h4 f hf]; exact f2
  · intro a ha
    exact h5 a (fun he => ha (he ▸ h2))
  · intro ⟨_, f2⟩; rw [h3] at f2; cases f2

theorem entry_zero_of_zero (m : Mem) (t i : Nat) (ht : t % 4096 = 0) (hi : i < 512)
    (hz : ∀ a, a / 4096 = t / 4096 → m a = 0) : entry m t i = 0 := by
  unfold entry read64 read8
  rw [hz _ (by omega), hz _ (by omega), hz _ (by omega), hz _ (by omega), hz _ (by omega),
    hz _ (by omega), hz _ (by omega), hz _ (by omega)]
  norm_num

/-- What a successful `clone_page` does. -/
theorem clone_page_spec (s0 s : Phys) (p flags : Nat) (hg : grows s0 s)
    (hown : ¬ frame_free s0 (p / 4096)) (hp : p % 4096 = 0) (hfl : flags < 4096)
    (hr : (clone_page s p flags).2 ≠ 0) :
    ∃ d, (clone_page s p flags).2 = d + flags ∧ grows s (clone_page s p flags).1 ∧
      cloned (fun f => frame_free s f ∧ ¬ frame_free (clone_page s p flags).1 f)
        s0.mem (clone_page s p flags).1.mem 0 p d := by
  unfold clone_page at hr ⊢
  dsimp only at hr ⊢
  by_cases h0 : (pmm_alloc_page s).2 = 0
  · rw [if_pos h0] at hr; exact absurd rfl hr
  rw [if_neg h0]
  obtain ⟨a1, a2, a3, a4, a5, a6⟩ := pmm_alloc_page_grows s h0
  have hpne : p / 4096 ≠ (pmm_alloc_page s).2 / 4096 := fun h => hown (hg.1 _ (h ▸ a3))
  refine ⟨(pmm_alloc_page s).2, lor_flags _ _ a2 hfl, ⟨a1.1, fun a ha => ?_⟩, a2, ⟨a3, a4⟩,
    fun off hoff => ?_⟩
  · show copy_bytes p (pmm_alloc_page s).2 PAGE_SIZE (pmm_alloc_page s).1.mem a = s.mem a
    rw [copy_bytes_other _ _ _ _ _ (by
      have : a / 4096 ≠ (pmm_alloc_page s).2 / 4096 := fun h => ha (h ▸ a3)
      simp only [PAGE_SIZE]; omega)]
    exact a1.2 a ha
  · show read8 (copy_bytes p (pmm_alloc_page s).2 PAGE_SIZE (pmm_alloc_page s).1.mem)
      ((pmm_alloc_page s).2 + off) = read8 s0.mem (p + off)
    unfold read8
    rw [copy_bytes_inside _ _ _ _ (by intro j hj; simp only [PAGE_SIZE] at *; omega) off
      (by simp only [PAGE_SIZE]; omega)]
    unfold read8
    rw [Nat.mod_mod, a6 _ (by omega), hg.2 _ (by
      have : (p + off) / 4096 = p / 4096 := by omega
      rw [this]; exact hown)]


theorem present_iff (e : Nat) : e &&& PAGE_PRESENT ≠ 0 ↔ e % 2 = 1 := by
  rw [land_present]; omega

/-- The loop of `clone_pt`, when it completes, establishes the invariant for all 512
entries. -/
theorem clone_pt_loop_spec (parent child : Nat) (s0 sb sa : Phys) (hal : child % 4096 = 0)
    (hca : ¬ frame_free sa (child / 4096)) (hc0 : frame_free sb (child / 4096))
    (hg0b : grows s0 sb)
    (hpar : ∀ a, parent ≤ a → a < parent + 4096 → ¬ frame_free s0 (a / 4096))
    (htree : ∀ j, j < 512 → entry s0.mem parent j % 2 = 1 →
      tree_owned s0 0 (entry s0.mem parent j - entry s0.mem parent j % 4096)) :
    ∀ n i s s1, i + n = 512 → clone_inv 0 512 parent child s0.mem sb sa s i →
      clone_pt_loop parent child n i s = some (s1, true) →
      clone_inv 0 512 parent child s0.mem sb sa s1 512 := by
  intro n
  induction n with
  | zero =>
    intro i s s1 hin inv h
    simp only [clone_pt_loop, Option.some.injEq, Prod.mk.injEq, and_true] at h
    subst h
    have : i = 512 := by omega
    subst this; exact inv
  | succ n ih =>
    intro i s s1 hin inv h
    have hi : i < 512 := by omega
    have hgs : grows s0 s := grows_trans _ _ _ hg0b inv.g0
    have he : entry s.mem parent i = entry s0.mem parent i :=
      parent_entry_stable s0 s parent i hgs hpar hi
    have hlt : entry s0.mem parent i < U64 := read64_lt _ _
    simp only [clone_pt_loop] at h
    rw [he] at h
    by_cases hp : entry s0.mem parent i &&& PAGE_PRESENT ≠ 0
    · rw [if_pos hp] at h
      have hodd := (present_iff _).mp hp
      rw [land_not_fff _ hlt, land_fff] at h
      generalize hr : clone_page s (entry s0.mem parent i - entry s0.mem parent i % 4096)
        (entry s0.mem parent i % 4096) = r at h
      have hfl : entry s0.mem parent i % 4096 < 4096 := Nat.mod_lt _ (by norm_num)
      by_cases hz : entry (set_entry r.1.mem child i r.2) child i = 0
      · rw [if_pos hz] at h
        rw [Option.map_eq_some'] at h
        obtain ⟨x, _, hx⟩ := h
        simp only [Prod.mk.injEq] at hx
        exact absurd hx.2 (by simp)
      · rw [if_neg hz] at h
        have hr2 : r.2 ≠ 0 := by
          intro h0; apply hz; rw [entry_set_same, h0]; rfl
        rw [← hr] at hr2
        obtain ⟨d, d1, d2, d3⟩ := clone_page_spec s0 s _ _ hgs (htree i hi hodd)
          (by omega) hfl hr2
        rw [hr] at d1 d2 d3
        apply ih (i + 1) _ s1 (by omega) _ h
        exact clone_inv_present 0 512 parent child s0.mem sb sa s r.1 i d (le_refl _) hi hal
          hca hc0 inv d2 d3 hodd _ (by rw [d1])
    · rw [if_neg hp] at h
      have hev : entry s0.mem parent i % 2 = 0 := by
        have := (present_iff (entry s0.mem parent i)).not.mp hp; omega
      apply ih (i + 1) _ s1 (by omega) _ h
      exact clone_inv_absent 0 512 parent child s0.mem sb sa s i (le_refl _) hi hal hca hc0
        inv hev _ (Or.inr rfl)

/-- The loop of `clone_pd`, of `clone_pdpt` and of `vmm_clone_address_space`, when it
completes, establishes the invariant for all `n_total` entries, and it leaves the
entries of the child table from `n_total` on as they were. -/
theorem clone_table_loop_spec (l : Nat) (lower : Phys → Nat → Option (Phys × Nat))
    (hlow : clone_ok l lower) (on_fail : Phys → Option Phys) (absent : Mem → Nat → Mem)
    (parent child n_total : Nat) (s0 sb sa : Phys)
    (habs : ∀ m i, absent m i = m ∨ absent m i = set_entry m child i 0)
    (hnt : n_total ≤ 512) (hal : child % 4096 = 0)
    (hca : ¬ frame_free sa (child / 4096)) (hc0 : frame_free sb (child / 4096))
    (hg0b : grows s0 sb)
    (hpar : ∀ a, parent ≤ a → a < parent + 4096 → ¬ frame_free s0 (a / 4096))
    (htree : ∀ j, j < n_total → entry s0.mem parent j % 2 = 1 →
      tree_owned s0 l (entry s0.mem parent j - entry s0.mem parent j % 4096)) :
    ∀ n i s s1, i + n = n_total → clone_inv l n_total parent child s0.mem sb sa s i →
      clone_table_loop lower on_fail absent parent child n i s = some (s1, true) →
      clone_inv l n_total parent child s0.mem sb sa s1 n_total ∧
      ∀ a, child + 8 * n_total ≤ a → a < child + 4096 → s1.mem a = s.mem a := by
  intro n
  induction n with
  | zero =>
    intro i s s1 hin inv h
    simp only [clone_table_loop, Option.some.injEq, Prod.mk.injEq, and_true] at h
    subst h
    have : i = n_total := by omega
    subst this; exact ⟨inv, fun _ _ _ => rfl⟩
  | succ n ih =>
    intro i s s1 hin inv h
    have hi : i < n_total := by omega
    have hgs : grows s0 s := grows_trans _ _ _ hg0b inv.g0
    have he : entry s.mem parent i = entry s0.mem parent i :=
      parent_entry_stable s0 s parent i hgs hpar (by omega)
    have hlt : entry s0.mem parent i < U64 := read64_lt _ _
    have hset : ∀ (m : Mem) (v a : Nat), child + 8 * n_total ≤ a →
        set_entry m child i v a = m a := by
      intro m v a ha
      unfold set_entry
      exact write64_other _ _ _ _ (Or.inr (by omega))
    simp only [clone_table_loop] at h
    rw [he] at h
    by_cases hp : entry s0.mem parent i &&& PAGE_PRESENT ≠ 0
    · rw [if_pos hp] at h
      have hodd := (present_iff _).mp hp
      rw [land_not_fff _ hlt] at h
      cases hr : lower s (entry s0.mem parent i - entry s0.mem parent i % 4096) with
      | none => rw [hr] at h; simp at h
      | some r =>
        obtain ⟨sr, c⟩ := r
        rw [hr] at h
        dsimp only at h
        by_cases hc : c = 0
        · rw [if_pos hc, Option.map_eq_some'] at h
          obtain ⟨x, _, hx⟩ := h
          simp only [Prod.mk.injEq] at hx
          exact absurd hx.2 (by simp)
        · rw [if_neg hc] at h
          obtain ⟨d2, d3⟩ := hlow s0 s sr _ c hgs (htree i hi hodd) (by omega) hr hc
          have he2 : entry sr.mem parent i = entry s0.mem parent i :=
            parent_entry_stable s0 sr parent i (grows_trans _ _ _ hgs d2) hpar (by omega)
          rw [he2, land_fff, lor_flags c _ (cloned_root _ _ _ _ _ _ d3).1
            (Nat.mod_lt _ (by norm_num))] at h
          obtain ⟨r1, r2⟩ := ih (i + 1) _ s1 (by omega)
            (clone_inv_present l n_total parent child s0.mem sb sa s sr i c hnt hi hal
              hca hc0 inv d2 d3 hodd _ rfl) h
          refine ⟨r1, fun a ha1 ha2 => ?_⟩
          rw [r2 a ha1 ha2]
          show set_entry sr.mem child i _ a = s.mem a
          rw [hset _ _ a ha1]
          apply d2.2
          have : a / 4096 = child / 4096 := by omega
          rw [this]
          exact fun hf => hca (inv.ga _ hf)
    · rw [if_neg hp] at h
      have hev : entry s0.mem parent i % 2 = 0 := by
        have := (present_iff (entry s0.mem parent i)).not.mp hp; omega
      obtain ⟨r1, r2⟩ := ih (i + 1) _ s1 (by omega)
        (clone_inv_absent l n_total parent child s0.mem sb sa s i hnt hi hal hca hc0
          inv hev _ (habs _ _)) h
      refine ⟨r1, fun a ha1 ha2 => ?_⟩
      rw [r2 a ha1 ha2]
      show absent s.mem i a = s.mem a
      rcases habs s.mem i with hh | hh
      · rw [hh]
      · rw [hh, hset _ _ a ha1]

/-- The invariant holds before the first iteration on a freshly allocated child
table. -/
theorem clone_inv_init (l n parent : Nat) (mP : Mem) (s : Phys) (hn : n ≤ 512)
    (h0 : (pmm_alloc_page s).2 ≠ 0) :
    clone_inv l n parent (pmm_alloc_page s).2 mP s (pmm_alloc_page s).1 (pmm_alloc_page s).1 0 := by
  obtain ⟨a1, a2, a3, a4, a5, a6⟩ := pmm_alloc_page_grows s h0
  exact ⟨a1, fun _ h => h, fun j hj => absurd hj (Nat.not_lt_zero _),
    fun j _ hj => entry_zero_of_zero _ _ _ a2 (by omega) a5⟩

/-- The invariant after the last of the 512 iterations says that the child table is a
copy of the parent table. -/
theorem cloned_of_inv (l parent : Nat) (mP : Mem) (s s1 : Phys)
    (h0 : (pmm_alloc_page s).2 ≠ 0)
    (inv : clone_inv l 512 parent (pmm_alloc_page s).2 mP s (pmm_alloc_page s).1 s1 512) :
    grows s s1 ∧ cloned (fun f => frame_free s f ∧ ¬ frame_free s1 f) mP s1.mem (l + 1) parent
      (pmm_alloc_page s).2 := by
  obtain ⟨a1, a2, a3, a4, a5, a6⟩ := pmm_alloc_page_grows s h0
  refine ⟨inv.g0, a2, ⟨a3, fun h => a4 (inv.ga _ h)⟩, fun i hi => ?_⟩
  obtain ⟨g1, g2⟩ := inv.done i hi
  refine ⟨fun hodd => ?_, g2⟩
  obtain ⟨d, d1, d2⟩ := g1 hodd
  exact ⟨d, d1, cloned_transfer _ _ _ _ _ (fun f hf => ⟨a1.1 _ hf.1, hf.2⟩) (fun _ _ => rfl) _ _ _ d2⟩

theorem table_bytes_owned (s0 : Phys) (p : Nat) (hp : p % 4096 = 0)
    (h : ¬ frame_free s0 (p / 4096)) :
    ∀ a, p ≤ a → a < p + 4096 → ¬ frame_free s0 (a / 4096) := by
  intro a h1 h2
  have : a / 4096 = p / 4096 := by omega
  rw [this]; exact h

theorem clone_pt_ok : clone_ok 1 clone_pt := by
  intro s0 s s1 p c hg ht hp h hc
  unfold clone_pt at h
  dsimp only at h
  by_cases h0 : (pmm_alloc_page s).2 = 0
  · rw [if_pos h0] at h
    simp only [Option.some.injEq, Prod.mk.injEq] at h
    exact absurd h.2.symm hc
  rw [if_neg h0, Option.map_eq_some'] at h
  obtain ⟨⟨q1, q2⟩, hq, hx⟩ := h
  simp only [Prod.mk.injEq] at hx
  obtain ⟨hx1, hx2⟩ := hx
  subst hx1
  cases q2 with
  | false => exact absurd hx2.symm hc
  | true =>
    simp only [if_true] at hx2
    subst hx2
    obtain ⟨a1, a2, a3, a4, a5, a6⟩ := pmm_alloc_page_grows s h0
    have inv := clone_pt_loop_spec p (pmm_alloc_page s).2 s0 s (pmm_alloc_page s).1 a2 a4 a3 hg
      (table_bytes_owned s0 p hp ht.1) ht.2 512 0 _ _ rfl (clone_inv_init 0 512 p s0.mem s (le_refl _) h0) hq
    exact cloned_of_inv 0 p s0.mem s q1 h0 inv

theorem clone_table_ok (l : Nat) (lower : Phys → Nat → Option (Phys × Nat))
    (hlow : clone_ok l lower)
    (f : Phys → Nat → Option (Phys × Nat))
    (hf : ∀ s p, f s p =
      if (pmm_alloc_page s).2 = 0 then some ((pmm_alloc_page s).1, 0)
      else (clone_table_loop lower (fun t => pmm_free_page t (pmm_alloc_page s).2)
          (fun m i => set_entry m (pmm_alloc_page s).2 i 0) p (pmm_alloc_page s).2 512 0
          (pmm_alloc_page s).1).map (fun q => (q.1, if q.2 then (pmm_alloc_page s).2 else 0))) :
    clone_ok (l + 1) f := by
  intro s0 s s1 p c hg ht hp h hc
  rw [hf] at h
  by_cases h0 : (pmm_alloc_page s).2 = 0
  · rw [if_pos h0] at h
    simp only [Option.some.injEq, Prod.mk.injEq] at h
    exact absurd h.2.symm hc
  rw [if_neg h0, Option.map_eq_some'] at h
  obtain ⟨⟨q1, q2⟩, hq, hx⟩ := h
  simp only [Prod.mk.injEq] at hx
  obtain ⟨hx1, hx2⟩ := hx
  subst hx1
  cases q2 with
  | false => exact absurd hx2.symm hc
  | true =>
    simp only [if_true] at hx2
    subst hx2
    obtain ⟨a1, a2, a3, a4, a5, a6⟩ := pmm_alloc_page_grows s h0
    have inv := (clone_table_loop_spec l lower hlow _ _ p (pmm_alloc_page s).2 512 s0 s
      (pmm_alloc_page s).1 (fun _ _ => Or.inr rfl) (le_refl _) a2 a4 a3 hg
      (table_bytes_owned s0 p hp ht.1) ht.2 512 0 _ _ rfl
      (clone_inv_init l 512 p s0.mem s (le_refl _) h0) hq).1
    exact cloned_of_inv l p s0.mem s q1 h0 inv

theorem clone_pd_ok : clone_ok 2 clone_pd :=
  clone_table_ok 1 clone_pt clone_pt_ok clone_pd (fun _ _ => rfl)

theorem clone_pdpt_ok : clone_ok 3 clone_pdpt :=
  clone_table_ok 2 clone_pd clone_pd_ok clone_pdpt (fun _ _ => rfl)

theorem copy_entries_entry (parent child lo : Nat) (m : Mem)
    (hd : ∀ a, parent ≤ a → a < parent + 4096 → a < child ∨ child + 4096 ≤ a) :
    ∀ n, lo + n ≤ 512 → ∀ j, lo ≤ j → j < lo + n →
      entry (copy_entries parent child lo n m) child j = entry m parent j := by
  intro n
  induction n with
  | zero => intro _ j h1 h2; omega
  | succ n ih =>
    intro hn j h1 h2
    simp only [copy_entries]
    by_cases hj : j = lo + n
    · subst hj
      rw [entry_set_same, Nat.mod_eq_of_lt (show entry _ _ _ < U64 from read64_lt _ _)]
      unfold entry
      apply read64_congr
      intro i hi
      apply read8_congr
      apply copy_entries_other
      have := hd (parent + 8 * (lo + n) + i) (by omega) (by omega)
      omega
    · rw [entry_set_other _ _ _ _ _ hj]
      exact ih (by omega) j h1 (by omega)

/-- What a successful `vmm_clone_address_space` does: the child root is a fresh frame,
each user-half entry is a copy of the tree below the parent entry held in frames that
were free, and the kernel-half entries are those of the parent. -/
theorem vmm_clone_address_space_spec (kpml4 : Nat) (s s1 : Phys) (P C : Nat)
    (hown : space_owned s P) (h : vmm_clone_address_space kpml4 s P = some (s1, C))
    (hC : C ≠ 0) :
    grows s s1 ∧ C % 4096 = 0 ∧ frame_free s (C / 4096) ∧ ¬ frame_free s1 (C / 4096) ∧
    (∀ i, i < 256 →
      (entry s.mem P i % 2 = 1 →
        ∃ d, entry s1.mem C i = d + entry s.mem P i % 4096 ∧
          cloned (fun f => frame_free s f ∧ ¬ frame_free s1 f) s.mem s1.mem 3
            (entry s.mem P i - entry s.mem P i % 4096) d) ∧
      (entry s.mem P i % 2 = 0 → entry s1.mem C i = 0)) ∧
    (∀ i, 256 ≤ i → i < 512 → entry s1.mem C i = entry s.mem P i) := by
  unfold vmm_clone_address_space at h
  dsimp only at h
  by_cases h0 : (pmm_alloc_page s).2 = 0
  · rw [if_pos h0] at h
    simp only [Option.some.injEq, Prod.mk.injEq] at h
    exact absurd h.2.symm hC
  rw [if_neg h0, Option.map_eq_some'] at h
  obtain ⟨⟨q1, q2⟩, hq, hx⟩ := h
  simp only [Prod.mk.injEq] at hx
  obtain ⟨hx1, hx2⟩ := hx
  subst hx1
  cases q2 with
  | false => exact absurd hx2.symm hC
  | true =>
    simp only [if_true] at hx2
    subst hx2
    obtain ⟨a1, a2, a3, a4, a5, a6⟩ := pmm_alloc_page_grows s h0
    have hdis : ∀ a, P ≤ a → a < P + 4096 →
        a < (pmm_alloc_page s).2 ∨ (pmm_alloc_page s).2 + 4096 ≤ a := by
      intro a h1 h2
      have hne : a / 4096 ≠ (pmm_alloc_page s).2 / 4096 := fun e => hown.1 a h1 h2 (e ▸ a3)
      omega
    generalize hm2 : copy_entries P (pmm_alloc_page s).2 256 256
      (clear_entries (pmm_alloc_page s).2 512 (pmm_alloc_page s).1.mem) = m2 at hq
    have hm2o : ∀ a, a / 4096 ≠ (pmm_alloc_page s).2 / 4096 → m2 a = (pmm_alloc_page s).1.mem a := by
      intro a ha
      rw [← hm2, copy_entries_other _ _ _ _ _ _ (by omega), clear_entries_other _ _ _ _ (by omega)]
    have inv0 : clone_inv 3 256 P (pmm_alloc_page s).2 s.mem s (pmm_alloc_page s).1
        { (pmm_alloc_page s).1 with mem := m2 } 0 := by
      refine ⟨⟨fun f hf => a1.1 f hf, fun a ha => ?_⟩, fun f hf => hf,
        fun j hj => absurd hj (Nat.not_lt_zero _), fun j _ hj => ?_⟩
      · show m2 a = s.mem a
        rw [hm2o a (fun e => ha (e ▸ a3))]
        exact a1.2 a ha
      · show entry m2 (pmm_alloc_page s).2 j = 0
        rw [← clear_entries_entry (pmm_alloc_page s).2 512 (pmm_alloc_page s).1.mem j (by omega)]
        unfold entry
        apply read64_congr
        intro i hi
        apply read8_congr
        rw [← hm2]
        exact copy_entries_other _ _ _ _ _ _ (Or.inl (by omega))
    obtain ⟨inv, keep⟩ := clone_table_loop_spec 3 clone_pdpt clone_pdpt_ok _ _ P
      (pmm_alloc_page s).2 256 s s (pmm_alloc_page s).1 (fun _ _ => Or.inl rfl) (by norm_num)
      a2 a4 a3 (grows_refl s) hown.1 hown.2 256 0 _ _ rfl inv0 hq
    refine ⟨inv.g0, a2, a3, fun hf => a4 (inv.ga _ hf), fun i hi => ?_, fun i hi1 hi2 => ?_⟩
    · obtain ⟨g1, g2⟩ := inv.done i hi
      refine ⟨fun hodd => ?_, g2⟩
      obtain ⟨d, d1, d2⟩ := g1 hodd
      exact ⟨d, d1, cloned_transfer _ _ _ _ _ (fun f hf => ⟨a1.1 _ hf.1, hf.2⟩)
        (fun _ _ => rfl) _ _ _ d2⟩
    · have e1 : entry q1.mem (pmm_alloc_page s).2 i = entry m2 (pmm_alloc_page s).2 i := by
        unfold entry
        apply read64_congr
        intro k hk
        apply read8_congr
        exact keep _ (by omega) (by omega)
      rw [e1, ← hm2, copy_entries_entry P _ 256 _ hdis 256 (by norm_num) i hi1 (by omega)]
      unfold entry
      apply read64_congr
      intro k hk
      apply read8_congr
      have hb := hdis (P + 8 * i + k) (by omega) (by omega)
      rw [clear_entries_other _ _ _ _ (by omega)]
      exact a1.2 _ (hown.1 _ (by omega) (by omega))

theorem level_index_lt (l v : Nat) : level_index l v < 512 := by
  have h : ∀ x : Nat, x &&& 0x1FF < 512 := fun x =>
    Nat.lt_of_le_of_lt Nat.and_le_right (by norm_num)
  unfold level_index PT_INDEX PD_INDEX PDPT_INDEX PML4_INDEX
  split <;> exact h _

theorem walk_succ (m : Mem) (v l t : Nat) :
    walk m v (l + 1) t =
      if entry m t (level_index (l + 1) v) &&& PAGE_PRESENT = 0 then none
      else if l = 0 then some (entry m t (level_index (l + 1) v))
      else walk m v l (entry m t (level_index (l + 1) v) &&& NOT_FFF) := by
  rw [walk]

theorem vmm_leaf_eq_walk (m : Mem) (root v : Nat) : vmm_leaf m root v = walk m v 4 root := by
  rw [walk_succ m v 3, walk_succ m v 2, walk_succ m v 1, walk_succ m v 0]
  rw [if_neg (show (3 : Nat) ≠ 0 by norm_num), if_neg (show (2 : Nat) ≠ 0 by norm_num),
    if_neg (show (1 : Nat) ≠ 0 by norm_num), if_pos rfl]
  rfl

theorem vmm_get_physical_eq (m : Mem) (root v : Nat) :
    vmm_get_physical m root v =
      match vmm_leaf m root v with
      | none => 0
      | some e => (e &&& NOT_FFF) ||| (v &&& 0xFFF) := by
  unfold vmm_get_physical vmm_leaf
  dsimp only
  split_ifs <;> rfl

/-- Entry `i` of a copied table against entry `i` of the original. -/
theorem cloned_step (F : Nat → Prop) (mP mC : Mem) (l t c i : Nat)
    (h : cloned F mP mC (l + 1) t c) (hi : i < 512) :
    (entry mP t i % 2 = 0 ∧ entry mC c i = 0) ∨
    (entry mP t i % 2 = 1 ∧ entry mC c i % 2 = 1 ∧
      entry mC c i % 4096 = entry mP t i % 4096 ∧
      cloned F mP mC l (entry mP t i - entry mP t i % 4096)
        (entry mC c i - entry mC c i % 4096)) := by
  obtain ⟨_, _, h3⟩ := h
  obtain ⟨g1, g2⟩ := h3 i hi
  rcases Nat.mod_two_eq_zero_or_one (entry mP t i) with he | ho
  · exact Or.inl ⟨he, g2 he⟩
  · right
    obtain ⟨d, d1, d2⟩ := g1 ho
    have hd := (cloned_root _ _ _ _ _ _ d2).1
    have e1 : entry mC c i - entry mC c i % 4096 = d := by rw [d1]; omega
    refine ⟨ho, by rw [d1]; omega, by rw [d1]; omega, ?_⟩
    rw [e1]; exact d2

/-- The walk through a copied tree against the walk through the original, both in the
memory after the copy. -/
theorem walk_cloned (F : Nat → Prop) (s s1 : Phys) (v : Nat) (hg : grows s s1) :
    ∀ l p c, cloned F s.mem s1.mem (l + 1) p c → tree_owned s (l + 1) p → p % 4096 = 0 →
      (walk s1.mem v (l + 1) p = none ∧ walk s1.mem v (l + 1) c = none ∧
        walk s.mem v (l + 1) p = none) ∨
      ∃ eP eC, walk s1.mem v (l + 1) p = some eP ∧ walk s1.mem v (l + 1) c = some eC ∧
        walk s.mem v (l + 1) p = some eP ∧
        eC % 4096 = eP % 4096 ∧ eP < U64 ∧ eC < U64 ∧
        cloned F s.mem s1.mem 0 (eP - eP % 4096) (eC - eC % 4096) ∧
        ¬ frame_free s ((eP - eP % 4096) / 4096) := by
  intro l
  induction l with
  | zero =>
    intro p c hc ht hp
    have hi := level_index_lt 1 v
    have he : entry s1.mem p (level_index 1 v) = entry s.mem p (level_index 1 v) :=
      parent_entry_stable s s1 p _ hg (table_bytes_owned s p hp ht.1) hi
    rw [walk_succ s1.mem v 0 p, walk_succ s1.mem v 0 c, walk_succ s.mem v 0 p]
    simp only [if_true]
    rw [he]
    rcases cloned_step F _ _ 0 p c _ hc hi with ⟨e1, e2⟩ | ⟨o1, o2, o3, o4⟩
    · left
      rw [e2, land_present, e1]
      simp
    · right
      rw [land_present, land_present, o1, o2]
      exact ⟨_, _, by simp, by simp, by simp, o3, read64_lt _ _, read64_lt _ _, o4, ht.2 _ hi o1⟩
  | succ l ih =>
    intro p c hc ht hp
    have hi := level_index_lt (l + 1 + 1) v
    have he : entry s1.mem p (level_index (l + 1 + 1) v) =
        entry s.mem p (level_index (l + 1 + 1) v) :=
      parent_entry_stable s s1 p _ hg (table_bytes_owned s p hp ht.1) hi
    have hne : l + 1 ≠ 0 := by omega
    have hone : (1 : Nat) ≠ 0 := by norm_num
    rcases cloned_step F _ _ (l + 1) p c _ hc hi with ⟨e1, e2⟩ | ⟨o1, o2, o3, o4⟩
    · left
      refine ⟨?_, ?_, ?_⟩
      · rw [walk_succ s1.mem v (l + 1) p, he, land_present, e1, if_pos rfl]
      · rw [walk_succ s1.mem v (l + 1) c, e2, land_present, if_pos rfl]
      · rw [walk_succ s.mem v (l + 1) p, land_present, e1, if_pos rfl]
    · have w1 : walk s1.mem v (l + 1 + 1) p = walk s1.mem v (l + 1)
          (entry s.mem p (level_index (l + 1 + 1) v) -
            entry s.mem p (level_index (l + 1 + 1) v) % 4096) := by
        rw [walk_succ s1.mem v (l + 1) p, he, land_present, o1, if_neg hone, if_neg hne,
          land_not_fff (entry _ _ _) (read64_lt _ _)]
      have w2 : walk s1.mem v (l + 1 + 1) c = walk s1.mem v (l + 1)
          (entry s1.mem c (level_index (l + 1 + 1) v) -
            entry s1.mem c (level_index (l + 1 + 1) v) % 4096) := by
        rw [walk_succ s1.mem v (l + 1) c, land_present, o2, if_neg hone, if_neg hne,
          land_not_fff (entry _ _ _) (read64_lt _ _)]
      have w3 : walk s.mem v (l + 1 + 1) p = walk s.mem v (l + 1)
          (entry s.mem p (level_index (l + 1 + 1) v) -
            entry s.mem p (level_index (l + 1 + 1) v) % 4096) := by
        rw [walk_succ s.mem v (l + 1) p, land_present, o1, if_neg hone, if_neg hne,
          land_not_fff (entry _ _ _) (read64_lt _ _)]
      rw [w1, w2, w3]
      exact ih _ _ o4 (ht.2 _ hi o1) (by omega)

/-- The leaf entry for a user address in the child against the one in the parent. -/
theorem clone_leaf_relation (kpml4 : Nat) (s s1 : Phys) (P C : Nat)
    (hown : space_owned s P) (h : vmm_clone_address_space kpml4 s P = some (s1, C))
    (hC : C ≠ 0) (v : Nat) (hv : PML4_INDEX v < 256) :
    (vmm_leaf s1.mem P v = none ∧ vmm_leaf s1.mem C v = none ∧ vmm_leaf s.mem P v = none) ∨
    ∃ eP eC, vmm_leaf s1.mem P v = some eP ∧ vmm_leaf s1.mem C v = some eC ∧
      vmm_leaf s.mem P v = some eP ∧ eC % 4096 = eP % 4096 ∧ eP < U64 ∧ eC < U64 ∧
      cloned (fun f => frame_free s f ∧ ¬ frame_free s1 f) s.mem s1.mem 0
        (eP - eP % 4096) (eC - eC % 4096) ∧
      ¬ frame_free s ((eP - eP % 4096) / 4096) := by
  obtain ⟨hg, _, _, _, hlow, _⟩ := vmm_clone_address_space_spec kpml4 s s1 P C hown h hC
  have hidx : level_index (3 + 1) v = PML4_INDEX v := rfl
  have he : entry s1.mem P (PML4_INDEX v) = entry s.mem P (PML4_INDEX v) :=
    parent_entry_stable s s1 P _ hg hown.1 (by omega)
  have hone : (1 : Nat) ≠ 0 := by norm_num
  have h3 : (3 : Nat) ≠ 0 := by norm_num
  obtain ⟨g1, g2⟩ := hlow _ hv
  rw [vmm_leaf_eq_walk, vmm_leaf_eq_walk, vmm_leaf_eq_walk]
  rcases Nat.mod_two_eq_zero_or_one (entry s.mem P (PML4_INDEX v)) with e1 | o1
  · left
    refine ⟨?_, ?_, ?_⟩
    · rw [walk_succ s1.mem v 3 P, hidx, he, land_present, e1, if_pos rfl]
    · rw [walk_succ s1.mem v 3 C, hidx, g2 e1, land_present, if_pos rfl]
    · rw [walk_succ s.mem v 3 P, hidx, land_present, e1, if_pos rfl]
  · obtain ⟨d, d1, d2⟩ := g1 o1
    have hd := (cloned_root _ _ _ _ _ _ d2).1
    have o2 : entry s1.mem C (PML4_INDEX v) % 2 = 1 := by rw [d1]; omega
    have e2 : entry s1.mem C (PML4_INDEX v) - entry s1.mem C (PML4_INDEX v) % 4096 = d := by
      rw [d1]; omega
    have w1 : walk s1.mem v 4 P = walk s1.mem v 3
        (entry s.mem P (PML4_INDEX v) - entry s.mem P (PML4_INDEX v) % 4096) := by
      rw [walk_succ s1.mem v 3 P, hidx, he, land_present, o1, if_neg hone, if_neg h3,
        land_not_fff (entry _ _ _) (read64_lt _ _)]
    have w2 : walk s1.mem v 4 C = walk s1.mem v 3 d := by
      rw [walk_succ s1.mem v 3 C, hidx, land_present, o2, if_neg hone, if_neg h3,
        land_not_fff (entry _ _ _) (read64_lt _ _), e2]
    have w3 : walk s.mem v 4 P = walk s.mem v 3
        (entry s.mem P (PML4_INDEX v) - entry s.mem P (PML4_INDEX v) % 4096) := by
      rw [walk_succ s.mem v 3 P, hidx, land_present, o1, if_neg hone, if_neg h3,
        land_not_fff (entry _ _ _) (read64_lt _ _)]
    rw [w1, w2, w3]
    exact walk_cloned _ s s1 v hg 2 _ d d2 (hown.2 _ hv o1) (by omega)

theorem phys_of_leaf (m : Mem) (root v e : Nat) (h : vmm_leaf m root v = some e)
    (he : e < U64) : vmm_get_physical m root v = (e - e % 4096) + v % 4096 := by
  rw [vmm_get_physical_eq, h]
  show (e &&& NOT_FFF) ||| (v &&& 0xFFF) = _
  rw [land_not_fff e he, land_fff, lor_flags _ _ (by omega) (Nat.mod_lt _ (by norm_num))]

theorem phys_of_no_leaf (m : Mem) (root v : Nat) (h : vmm_leaf m root v = none) :
    vmm_get_physical m root v = 0 := by
  rw [vmm_get_physical_eq, h]

/-- No frame of an owned tree is free. -/
theorem owned_reach (s : Phys) :
    ∀ l p f, tree_owned s l p → reach s.mem l p f → ¬ frame_free s f := by
  intro l
  induction l with
  | zero => intro p f ht hr; rw [hr]; exact ht
  | succ l ih =>
    intro p f ht hr
    rcases hr with hr | ⟨i, hi, ho, hr⟩
    · rw [hr]; exact ht.1
    · exact ih _ _ (ht.2 i hi ho) hr

/-- An owned tree has the same frames after allocations as before. -/
theorem reach_stable (s s1 : Phys) (hg : grows s s1) :
    ∀ l p f, tree_owned s l p → p % 4096 = 0 → reach s1.mem l p f → reach s.mem l p f := by
  intro l
  induction l with
  | zero => intro p f _ _ hr; exact hr
  | succ l ih =>
    intro p f ht hp hr
    rcases hr with hr | ⟨i, hi, ho, hr⟩
    · exact Or.inl hr
    · have he : entry s1.mem p i = entry s.mem p i :=
        parent_entry_stable s s1 p i hg (table_bytes_owned s p hp ht.1) hi
      rw [he] at ho hr
      exact Or.inr ⟨i, hi, ho, ih _ _ (ht.2 i hi ho) (by omega) hr⟩

/-- Every frame of a copy is in the set of frames of the copy. -/
theorem cloned_reach (F : Nat → Prop) (mP mC : Mem) :
    ∀ l p c f, cloned F mP mC l p c → reach mC l c f → F f := by
  intro l
  induction l with
  | zero => intro p c f hc hr; rw [hr]; exact hc.2.1
  | succ l ih =>
    intro p c f hc hr
    rcases hr with hr | ⟨i, hi, ho, hr⟩
    · rw [hr]; exact hc.2.1
    · rcases cloned_step F mP mC l p c i hc hi with ⟨_, e2⟩ | ⟨_, _, _, o4⟩
      · rw [e2] at ho; exact absurd ho (by norm_num)
      · exact ih _ _ _ o4 hr

theorem read8_write8_other (m : Mem) (a b x : Nat) (h : x ≠ a) :
    read8 (write8 m a b) x = read8 m x := by
  unfold read8 write8
  rw [if_neg h]

/-- C2: when `vmm_clone_address_space` succeeds on an address space whose present
entries point to PMM-owned frames, then for every user-half virtual address the child
has a leaf entry exactly when the parent has one, the two leaf entries have the same
low 12 bits, the page found through `vmm_get_physical` in the child is byte for byte
the page found in the parent (whose mapping the call has not changed), and PML4 entries
256 to 511 of the child equal those of the parent. -/
theorem clone_preserves_user_mappings (kpml4 : Nat) (s s1 : Phys) (P C : Nat)
    (hown : space_owned s P) (h : vmm_clone_address_space kpml4 s P = some (s1, C))
    (hC : C ≠ 0) :
    (∀ v, PML4_INDEX v < 256 →
      (vmm_leaf s1.mem C v).isSome = (vmm_leaf s1.mem P v).isSome ∧
      (∀ eC eP, vmm_leaf s1.mem C v = some eC → vmm_leaf s1.mem P v = some eP →
        eC &&& 0xFFF = eP &&& 0xFFF) ∧
      (∀ off, off < 4096 →
        read8 s1.mem
          (vmm_get_physical s1.mem C v - vmm_get_physical s1.mem C v % 4096 + off) =
        read8 s1.mem
          (vmm_get_physical s1.mem P v - vmm_get_physical s1.mem P v % 4096 + off)) ∧
      vmm_leaf s1.mem P v = vmm_leaf s.mem P v) ∧
    (∀ i, 256 ≤ i → i < 512 → entry s1.mem C i = entry s1.mem P i) := by
  obtain ⟨hg, _, _, _, _, hup⟩ := vmm_clone_address_space_spec kpml4 s s1 P C hown h hC
  refine ⟨fun v hv => ?_, fun i h1 h2 => ?_⟩
  · rcases clone_leaf_relation kpml4 s s1 P C hown h hC v hv with
      ⟨n1, n2, n3⟩ | ⟨eP, eC, l1, l2, l3, l4, l5, l6, l7, l8⟩
    · refine ⟨by rw [n1, n2], fun eC eP hc _ => ?_, fun off _ => ?_, by rw [n1, n3]⟩
      · rw [n2] at hc; exact absurd hc (by simp)
      · rw [phys_of_no_leaf _ _ _ n1, phys_of_no_leaf _ _ _ n2]
    · refine ⟨by rw [l1, l2]; rfl, fun eC' eP' hc hp => ?_, fun off hoff => ?_, by rw [l1, l3]⟩
      · rw [l2] at hc; rw [l1] at hp
        simp only [Option.some.injEq] at hc hp
        subst hc; subst hp
        rw [land_fff, land_fff, l4]
      · rw [phys_of_leaf _ _ _ _ l1 l5, phys_of_leaf _ _ _ _ l2 l6]
        have a1 : eC - eC % 4096 + v % 4096 - (eC - eC % 4096 + v % 4096) % 4096 =
            eC - eC % 4096 := by omega
        have a2 : eP - eP % 4096 + v % 4096 - (eP - eP % 4096 + v % 4096) % 4096 =
            eP - eP % 4096 := by omega
        rw [a1, a2, l7.2.2 off hoff]
        symm
        apply read8_congr
        apply hg.2
        have : (eP - eP % 4096 + off) / 4096 = (eP - eP % 4096) / 4096 := by omega
        rw [this]; exact l8
  · rw [hup i h1 h2, parent_entry_stable s s1 P i hg hown.1 h2]

/-- C3: when `vmm_clone_address_space` succeeds on an address space whose present
entries point to PMM-owned frames, every frame reachable from a user-half entry of the
child was free before the call, is allocated after it, and is not reachable from a
user-half entry of the parent; so for a user address mapped in both, a byte written at
the physical address of the child leaves the byte at the physical address of the parent
as it was, and the other way round. -/
theorem clone_frames_disjoint (kpml4 : Nat) (s s1 : Phys) (P C : Nat)
    (hown : space_owned s P) (h : vmm_clone_address_space kpml4 s P = some (s1, C))
    (hC : C ≠ 0) :
    (∀ f, user_reach s1.mem C f →
      frame_free s f ∧ ¬ frame_free s1 f ∧ ¬ user_reach s1.mem P f ∧ ¬ user_reach s.mem P f) ∧
    (∀ v b, PML4_INDEX v < 256 → (vmm_leaf s1.mem C v).isSome = true →
      (vmm_leaf s1.mem P v).isSome = true →
      vmm_get_physical s1.mem C v ≠ vmm_get_physical s1.mem P v ∧
      read8 (write8 s1.mem (vmm_get_physical s1.mem C v) b) (vmm_get_physical s1.mem P v) =
        read8 s1.mem (vmm_get_physical s1.mem P v) ∧
      read8 (write8 s1.mem (vmm_get_physical s1.mem P v) b) (vmm_get_physical s1.mem C v) =
        read8 s1.mem (vmm_get_physical s1.mem C v)) := by
  obtain ⟨hg, _, _, _, hlow, _⟩ := vmm_clone_address_space_spec kpml4 s s1 P C hown h hC
  have hP0 : ∀ f, user_reach s.mem P f → ¬ frame_free s f := by
    intro f ⟨i, hi, ho, hr⟩
    exact owned_reach s 3 _ f (hown.2 i hi ho) hr
  have hP1 : ∀ f, user_reach s1.mem P f → ¬ frame_free s f := by
    intro f ⟨i, hi, ho, hr⟩
    have he : entry s1.mem P i = entry s.mem P i :=
      parent_entry_stable s s1 P i hg hown.1 (by omega)
    rw [he] at ho hr
    exact owned_reach s 3 _ f (hown.2 i hi ho) (reach_stable s s1 hg 3 _ f (hown.2 i hi ho)
      (by omega) hr)
  refine ⟨fun f hf => ?_, fun v b hv hc hp => ?_⟩
  · obtain ⟨i, hi, ho, hr⟩ := hf
    obtain ⟨g1, g2⟩ := hlow i hi
    rcases Nat.mod_two_eq_zero_or_one (entry s.mem P i) with e1 | o1
    · rw [g2 e1] at ho; exact absurd ho (by norm_num)
    · obtain ⟨d, d1, d2⟩ := g1 o1
      have hd := (cloned_root _ _ _ _ _ _ d2).1
      have e2 : entry s1.mem C i - entry s1.mem C i % 4096 = d := by rw [d1]; omega
      rw [e2] at hr
      have hF := cloned_reach _ _ _ 3 _ d f d2 hr
      exact ⟨hF.1, hF.2, fun hu => hP1 f hu hF.1, fun hu => hP0 f hu hF.1⟩
  · rcases clone_leaf_relation kpml4 s s1 P C hown h hC v hv with
      ⟨n1, _, _⟩ | ⟨eP, eC, l1, l2, l3, l4, l5, l6, l7, l8⟩
    · rw [n1] at hp; exact absurd hp (by simp)
    · rw [phys_of_leaf _ _ _ _ l1 l5, phys_of_leaf _ _ _ _ l2 l6]
      have hne : eC - eC % 4096 + v % 4096 ≠ eP - eP % 4096 + v % 4096 := by
        intro e
        have hfr : (eC - eC % 4096) / 4096 = (eP - eP % 4096) / 4096 := by omega
        exact l8 (hfr ▸ l7.2.1.1)
      exact ⟨hne, read8_write8_other _ _ _ _ (Ne.symm hne), read8_write8_other _ _ _ _ hne⟩

/-- The user-half loop of `vmm_clone_address_space` on a parent without present
entries changes nothing and completes. -/
theorem clone_table_loop_absent (lower : Phys → Nat → Option (Phys × Nat))
    (on_fail : Phys → Option Phys) (parent child : Nat) (s : Phys) :
    ∀ n i, (∀ j, i ≤ j → j < i + n → entry s.mem parent j % 2 = 0) →
      clone_table_loop lower on_fail (fun m _ => m) parent child n i s = some (s, true) := by
  intro n
  induction n with
  | zero => intro i _; rfl
  | succ n ih =>
    intro i hz
    have h0 : ¬ (entry s.mem parent i &&& PAGE_PRESENT ≠ 0) := by
      rw [land_present, hz i (le_refl _) (by omega)]; simp
    simp only [clone_table_loop]
    rw [if_neg h0]
    exact ih (i + 1) (fun j h1 h2 => hz j (by omega) (by omega))

/-- The function `vmm_clone_address_space` succeeds on an address space with an empty
user half when a frame is available. -/
theorem clone_empty (kpml4 : Nat) (s : Phys) (P : Nat)
    (hP : ∀ a, P ≤ a → a < P + 4096 → ¬ frame_free s (a / 4096))
    (h0 : (pmm_alloc_page s).2 ≠ 0) (hz : ∀ j, j < 256 → entry s.mem P j % 2 = 0) :
    ∃ s1, vmm_clone_address_space kpml4 s P = some (s1, (pmm_alloc_page s).2) := by
  obtain ⟨a1, a2, a3, a4, a5, a6⟩ := pmm_alloc_page_grows s h0
  unfold vmm_clone_address_space
  dsimp only
  rw [if_neg h0]
  generalize hm2 : copy_entries P (pmm_alloc_page s).2 256 256
    (clear_entries (pmm_alloc_page s).2 512 (pmm_alloc_page s).1.mem) = m2
  have hz2 : ∀ j, 0 ≤ j → j < 0 + 256 →
      entry ({ (pmm_alloc_page s).1 with mem := m2 } : Phys).mem P j % 2 = 0 := by
    intro j _ hj
    rw [← hz j (by omega)]
    congr 1
    unfold entry
    apply read64_congr
    intro k hk
    apply read8_congr
    have hne : (P + 8 * j + k) / 4096 ≠ (pmm_alloc_page s).2 / 4096 :=
      fun e => hP _ (by omega) (by omega) (e ▸ a3)
    show m2 _ = _
    rw [← hm2, copy_entries_other _ _ _ _ _ _ (by omega), clear_entries_other _ _ _ _ (by omega)]
    exact a1.2 _ (hP _ (by omega) (by omega))
  rw [clone_table_loop_absent _ _ _ _ _ 256 0 hz2]
  exact ⟨_, rfl⟩

theorem entry_phys0 (t i : Nat) : entry phys0.mem t i = 0 := by
  simp [entry, read64, read8, phys0]

theorem space_owned_phys0 : space_owned phys0 0x400000 := by
  refine ⟨fun a h1 h2 => ?_, fun i _ ho => ?_⟩
  · have : a / 4096 = 1024 := by omega
    rw [this]; decide
  · rw [entry_phys0] at ho; exact absurd ho (by norm_num)

theorem clone_phys0 (kpml4 : Nat) :
    ∃ s1, vmm_clone_address_space kpml4 phys0 0x400000 = some (s1, 0x401000) := by
  have e : (pmm_alloc_page phys0).2 = 0x401000 := by decide
  have := clone_empty kpml4 phys0 0x400000 space_owned_phys0.1 (by rw [e]; norm_num)
    (fun j _ => by rw [entry_phys0])
  rw [e] at this
  exact this

/-- The function `sys_fork` succeeds when a PCB can be allocated and the address space
of the caller can be cloned. -/
theorem sys_fork_succeeds (k ka : Kernel) (child : Nat) (s1 : Phys) (root : Nat)
    (hp : process_get_current k ≠ 0)
    (ha : allocate_process_struct k = some (ka, child)) (hc : child ≠ 0)
    (hcl : vmm_clone_address_space ka.kpml4 ka.phys
      (ka.procs (process_get_current k)).page_table = some (s1, root))
    (hroot : root ≠ 0) :
    ∃ k1, sys_fork k = some (k1, k.next_pid) := by
  obtain ⟨-, -, -, -, -, -, a7, a8, -⟩ := allocate_process_struct_spec k ka child ha hc
  unfold sys_fork
  dsimp only
  rw [if_neg hp, ha]
  dsimp only
  rw [if_neg hc]
  have hpt : ((set_proc ka child (fun c =>
      { c with name := (ka.procs (process_get_current k)).name.take 24 ++ cstr "[child]" })).procs
      (process_get_current k)).page_table = (ka.procs (process_get_current k)).page_table :=
    set_proc_field (fun x => x.page_table) _ _ _ _ (fun _ => rfl)
  rw [hpt]
  have hph : (set_proc ka child (fun c =>
      { c with name := (ka.procs (process_get_current k)).name.take 24 ++ cstr "[child]" })).phys
      = ka.phys := rfl
  have hkp : (set_proc ka child (fun c =>
      { c with name := (ka.procs (process_get_current k)).name.take 24 ++ cstr "[child]" })).kpml4
      = ka.kpml4 := rfl
  rw [hph, hkp, hcl]
  dsimp only
  rw [if_neg hroot]
  simp only [Option.some.injEq, Prod.mk.injEq]
  refine ⟨_, rfl, ?_⟩
  rw [(ready_queue_push_fields _ _ _).2.1]
  split_ifs <;> simp [set_proc, a8]

/-- C1: a successful `sys_fork` dispatched through `syscall_handler` stores the PID of
the child, a positive PID equal to the `pid` of the PCB in the child's process-table
slot, in `rax` of the caller's trap frame, and that frame is the only one written; the
saved state of the child is a copy of the saved context of the parent, which has no
slot for the return register, so nothing makes the child observe `0`. -/
theorem fork_return_registers (table : Nat → Option syscall_func_t) (k k1 : Kernel)
    (regs : registers_t) (v : Nat)
    (ht : table SYS_FORK = some sys_fork_entry) (hr : regs.rax = SYS_FORK)
    (hn : 0 < k.next_pid) (hf : sys_fork k = some (k1, v)) (hv : v ≠ U64 - 1) :
    syscall_handler table k regs = (k1, { regs with rax := v }) ∧ 0 < v ∧
    ∃ child slot, child ≠ 0 ∧ 1 ≤ slot ∧ slot < MAX_PROCESSES ∧
      k1.process_table slot = child ∧ (k1.procs child).pid = v ∧
      (k1.procs child).context = (k1.procs (process_get_current k)).context := by
  obtain ⟨child, slot, c1, c2, c3, c4, c5, c6, c7, c8, c9⟩ := sys_fork_spec k k1 v hf hv
  refine ⟨?_, by rw [c7]; exact hn, child, slot, c1, c2, c3, c5, c6, c9⟩
  unfold syscall_handler
  dsimp only
  rw [hr, if_neg (by decide), ht]
  dsimp only
  unfold sys_fork_entry
  rw [hf]

theorem sys_fork_kernel0 : ∃ k1, sys_fork kernel0 = some (k1, 2) := by
  have h1 : (allocate_process_struct kernel0).map (fun r => r.2) = some 0x2002368 := by decide
  cases ha : allocate_process_struct kernel0 with
  | none => rw [ha] at h1; simp at h1
  | some r =>
    obtain ⟨ka, child⟩ := r
    rw [ha] at h1
    simp only [Option.map_some', Option.some.injEq] at h1
    subst h1
    obtain ⟨a1, a2, -, -, -, -, a7, -⟩ :=
      allocate_process_struct_spec kernel0 ka 0x2002368 ha (by norm_num)
    have hcur : process_get_current kernel0 = 0x2000018 := by decide
    obtain ⟨s1, hcl⟩ := clone_phys0 ka.kpml4
    have hpar : (ka.procs (process_get_current kernel0)).page_table = 0x400000 := by
      rw [hcur, a7 _ (by norm_num)]; rfl
    exact sys_fork_succeeds kernel0 ka 0x2002368 s1 0x401000 (by rw [hcur]; norm_num) ha
      (by norm_num) (by rw [a1, hpar]; exact hcl) (by norm_num)

theorem fork_return_registers_witness :
    ∃ k1, syscall_table_fork SYS_FORK = some sys_fork_entry ∧ regs_fork.rax = SYS_FORK ∧
      0 < kernel0.next_pid ∧ sys_fork kernel0 = some (k1, 2) ∧ (2 : Nat) ≠ U64 - 1 ∧
      (syscall_handler syscall_table_fork kernel0 regs_fork = (k1, { regs_fork with rax := 2 }) ∧
       0 < 2 ∧
       ∃ child slot, child ≠ 0 ∧ 1 ≤ slot ∧ slot < MAX_PROCESSES ∧
        k1.process_table slot = child ∧ (k1.procs child).pid = 2 ∧
        (k1.procs child).context = (k1.procs (process_get_current kernel0)).context) := by
  obtain ⟨k1, h⟩ := sys_fork_kernel0
  exact ⟨k1, rfl, rfl, by decide, h, by decide,
    fork_return_registers syscall_table_fork kernel0 k1 regs_fork 2 rfl rfl (by decide) h
      (by decide)⟩

/-- What the loop of `vmm_clear_user_space` leaves in each entry. -/
theorem clear_user_entries_entry (pml4 : Nat) (m : Mem) :
    ∀ n j, entry (clear_user_entries pml4 n m) pml4 j =
      if j < n ∧ entry m pml4 j % 2 = 1 then 0 else entry m pml4 j := by
  intro n
  induction n with
  | zero => intro j; simp [clear_user_entries]
  | succ n ih =>
    intro j
    simp only [clear_user_entries]
    by_cases hp : entry (clear_user_entries pml4 n m) pml4 n &&& PAGE_PRESENT ≠ 0
    · rw [if_pos hp]
      have hodd := (present_iff _).mp hp
      rw [ih n, if_neg (by omega)] at hodd
      by_cases hj : j = n
      · subst hj
        rw [entry_set_same, if_pos ⟨by omega, hodd⟩]; rfl
      · rw [entry_set_other _ _ _ _ _ hj, ih j]
        by_cases hc : j < n ∧ entry m pml4 j % 2 = 1
        · rw [if_pos hc, if_pos ⟨by omega, hc.2⟩]
        · rw [if_neg hc, if_neg (fun h => hc ⟨by omega, h.2⟩)]
    · rw [if_neg hp]
      have hev : ¬ entry (clear_user_entries pml4 n m) pml4 n % 2 = 1 :=
        fun h => hp ((present_iff _).mpr h)
      rw [ih n, if_neg (by omega)] at hev
      rw [ih j]
      by_cases hc : j < n ∧ entry m pml4 j % 2 = 1
      · rw [if_pos hc, if_pos ⟨by omega, hc.2⟩]
      · rw [if_neg hc, if_neg]
        intro h
        by_cases hj : j = n
        · subst hj; exact hev h.2
        · exact hc ⟨by omega, h.2⟩

/-- The branch of `sys_execve` taken for the table element `b`. -/
theorem execve_loop_hit (current : Nat) (path : List Nat) (b : builtin_program)
    (pre rest : List builtin_program) (k : Kernel) (hpre : ∀ x ∈ pre, path ≠ x.path)
    (hb : path = b.path) :
    (execve_loop current path (pre ++ b :: rest) k).2 = 0 ∧
    (execve_loop current path (pre ++ b :: rest) k).1.phys.mem =
      vmm_clear_user_space k.phys.mem (k.procs current).page_table ∧
    ((execve_loop current path (pre ++ b :: rest) k).1.procs current).context.rip = b.entry ∧
    ((execve_loop current path (pre ++ b :: rest) k).1.procs current).context.rsp =
      USER_STACK_TOP - 16 ∧
    ((execve_loop current path (pre ++ b :: rest) k).1.procs current).context.rflags = 0x202 ∧
    ((execve_loop current path (pre ++ b :: rest) k).1.procs current).name = b.name.take 31 ∧
    ((execve_loop current path (pre ++ b :: rest) k).1.procs current).page_table =
      (k.procs current).page_table := by
  induction pre with
  | nil =>
    simp only [List.nil_append, execve_loop]
    rw [if_pos hb]
    simp [set_proc]
  | cons x pre ih =>
    simp only [List.cons_append, execve_loop]
    rw [if_neg (hpre x (List.mem_cons_self _ _))]
    exact ih (fun y hy => hpre y (List.mem_cons_of_mem _ hy))

theorem execve_loop_miss (current : Nat) (path : List Nat) (k : Kernel) :
    ∀ tbl : List builtin_program, (∀ x ∈ tbl, path ≠ x.path) →
      execve_loop current path tbl k = (k, U64 - 1) := by
  intro tbl
  induction tbl with
  | nil => intro _; rfl
  | cons x tbl ih =>
    intro h
    simp only [execve_loop]
    rw [if_neg (h x (List.mem_cons_self _ _))]
    exact ih (fun y hy => h y (List.mem_cons_of_mem _ hy))

/-- Each element of the table `builtins` is reached by the loop: the paths before it are
different from its path, and its name is shorter than 31 characters. -/
theorem builtins_split (hello shell init shell_v2 : Nat) (b : builtin_program)
    (hb : b ∈ builtins hello shell init shell_v2) :
    b.name.take 31 = b.name ∧
    ∃ pre rest, builtins hello shell init shell_v2 = pre ++ b :: rest ∧
      ∀ x ∈ pre, b.path ≠ x.path := by
  unfold builtins at hb ⊢
  simp only [List.mem_cons, List.mem_singleton, List.not_mem_nil, or_false] at hb
  rcases hb with rfl | rfl | rfl | rfl
  · exact ⟨by dsimp only; decide, [], _, rfl, by simp⟩
  · refine ⟨by dsimp only; decide, [_], _, rfl, ?_⟩
    intro x hx
    simp only [List.mem_singleton] at hx
    subst hx; dsimp only; decide
  · refine ⟨by dsimp only; decide, [_, _], _, rfl, ?_⟩
    intro x hx
    simp only [List.mem_cons, List.mem_singleton, List.not_mem_nil, or_false] at hx
    rcases hx with rfl | rfl <;> (dsimp only; decide)
  · refine ⟨by dsimp only; decide, [_, _, _], _, rfl, ?_⟩
    intro x hx
    simp only [List.mem_cons, List.mem_singleton, List.not_mem_nil, or_false] at hx
    rcases hx with rfl | rfl | rfl <;> (dsimp only; decide)

/-- C6: for a caller and a non-null path, when the path is that of a built-in program
`sys_execve` leaves no user-half PML4 entry of the caller present, which makes each of
them zero in an address space whose non-present entries are zero, leaves entries 256 to
511 as they were, and sets `context.rip` to the entry of the program, `context.rsp` to
`USER_STACK_TOP - 16`, `context.rflags` to `0x202` and the name to the name of the
program; for every other path it returns `-1` and changes nothing at all. -/
theorem execve_builtin_or_fail (hello shell init shell_v2 : Nat) (k : Kernel)
    (path_ptr : Nat) (path : List Nat)
    (hcur : process_get_current k ≠ 0) (hptr : path_ptr ≠ 0)
    (hinv : ∀ i, i < 256 →
      entry k.phys.mem (k.procs (process_get_current k)).page_table i % 2 = 0 →
      entry k.phys.mem (k.procs (process_get_current k)).page_table i = 0) :
    (∀ b ∈ builtins hello shell init shell_v2, path = b.path →
      (sys_execve (builtins hello shell init shell_v2) k path_ptr path).2 = 0 ∧
      (∀ i, i < 256 →
        entry (sys_execve (builtins hello shell init shell_v2) k path_ptr path).1.phys.mem
          (k.procs (process_get_current k)).page_table i = 0) ∧
      (∀ i, 256 ≤ i → i < 512 →
        entry (sys_execve (builtins hello shell init shell_v2) k path_ptr path).1.phys.mem
          (k.procs (process_get_current k)).page_table i =
        entry k.phys.mem (k.procs (process_get_current k)).page_table i) ∧
      ((sys_execve (builtins hello shell init shell_v2) k path_ptr path).1.procs
        (process_get_current k)).page_table = (k.procs (process_get_current k)).page_table ∧
      ((sys_execve (builtins hello shell init shell_v2) k path_ptr path).1.procs
        (process_get_current k)).context.rip = b.entry ∧
      ((sys_execve (builtins hello shell init shell_v2) k path_ptr path).1.procs
        (process_get_current k)).context.rsp = USER_STACK_TOP - 16 ∧
      ((sys_execve (builtins hello shell init shell_v2) k path_ptr path).1.procs
        (process_get_current k)).context.rflags = 0x202 ∧
      ((sys_execve (builtins hello shell init shell_v2) k path_ptr path).1.procs
        (process_get_current k)).name = b.name) ∧
    ((∀ b ∈ builtins hello shell init shell_v2, path ≠ b.path) →
      sys_execve (builtins hello shell init shell_v2) k path_ptr path = (k, U64 - 1)) := by
  have hs : sys_execve (builtins hello shell init shell_v2) k path_ptr path =
      execve_loop (process_get_current k) path (builtins hello shell init shell_v2) k := by
    unfold sys_execve
    dsimp only
    rw [if_neg (by simp [hcur, hptr])]
  rw [hs]
  refine ⟨fun b hb hpath => ?_, fun hno => execve_loop_miss _ _ _ _ hno⟩
  obtain ⟨hname, pre, rest, hsplit, hpre⟩ := builtins_split hello shell init shell_v2 b hb
  rw [hsplit]
  obtain ⟨e1, e2, e3, e4, e5, e6, e7⟩ := execve_loop_hit (process_get_current k) path b pre rest k
    (fun x hx => hpath ▸ hpre x hx) hpath
  refine ⟨e1, fun i hi => ?_, fun i h1 h2 => ?_, e7, e3, e4, e5, by rw [e6, hname]⟩
  · rw [e2]
    unfold vmm_clear_user_space
    rw [clear_user_entries_entry]
    by_cases hc : i < 256 ∧ entry k.phys.mem (k.procs (process_get_current k)).page_table i % 2 = 1
    · rw [if_pos hc]
    · rw [if_neg hc]
      apply hinv i hi
      rcases Nat.mod_two_eq_zero_or_one
        (entry k.phys.mem (k.procs (process_get_current k)).page_table i) with h0 | h1
      · exact h0
      · exact absurd ⟨hi, h1⟩ hc
  · rw [e2]
    unfold vmm_clear_user_space
    rw [clear_user_entries_entry, if_neg (by omega)]

theorem execve_builtin_or_fail_witness :
    process_get_current kernel0 ≠ 0 ∧ (0x500000 : Nat) ≠ 0 ∧
    (∀ i, i < 256 →
      entry kernel0.phys.mem (kernel0.procs (process_get_current kernel0)).page_table i % 2 = 0 →
      entry kernel0.phys.mem (kernel0.procs (process_get_current kernel0)).page_table i = 0) ∧
    ((sys_execve (builtins 0x100000 0x101000 0x102000 0x103000) kernel0 0x500000
        (cstr "/bin/hello")).1.procs (process_get_current kernel0)).context.rip = 0x100000 ∧
    sys_execve (builtins 0x100000 0x101000 0x102000 0x103000) kernel0 0x500000
        (cstr "/bin/none") = (kernel0, U64 - 1) := by
  have hc : process_get_current kernel0 ≠ 0 := by decide
  have hi : ∀ i, i < 256 →
      entry kernel0.phys.mem (kernel0.procs (process_get_current kernel0)).page_table i % 2 = 0 →
      entry kernel0.phys.mem (kernel0.procs (process_get_current kernel0)).page_table i = 0 :=
    fun i _ _ => entry_phys0 _ i
  refine ⟨hc, by norm_num, hi, ?_, ?_⟩
  · exact ((execve_builtin_or_fail 0x100000 0x101000 0x102000 0x103000 kernel0 0x500000
      (cstr "/bin/hello") hc (by norm_num) hi).1 ⟨cstr "/bin/hello", 0x100000, cstr "hello"⟩
      (by simp [builtins]) rfl).2.2.2.2.1
  · exact (execve_builtin_or_fail 0x100000 0x101000 0x102000 0x103000 kernel0 0x500000
      (cstr "/bin/none") hc (by norm_num) hi).2 (by decide)

theorem u64_of_int_nonneg (d : Int) (h0 : 0 ≤ d) (h1 : d < 2 ^ 63) :
    (u64_of_int d : Int) = d := by
  unfold u64_of_int U64
  omega

theorem u64_of_int_neg (d : Int) (h0 : d < 0) (h1 : -(2 ^ 63) ≤ d) :
    (u64_of_int d : Int) = d + 2 ^ 64 := by
  unfold u64_of_int U64
  omega

/-- The loop of `vmm_alloc_user_pages` changes no break and no current process. -/
theorem alloc_user_pages_loop_keeps (process virt : Nat) :
    ∀ n i k k1 ok, alloc_user_pages_loop process virt n i k = some (k1, ok) →
      k1.current_process = k.current_process ∧ k1.idle_process = k.idle_process ∧
      ∀ q, (k1.procs q).heap_start = (k.procs q).heap_start ∧
        (k1.procs q).heap_current = (k.procs q).heap_current ∧
        (k1.procs q).heap_max = (k.procs q).heap_max := by
  intro n
  induction n with
  | zero =>
    intro i k k1 ok h
    simp only [alloc_user_pages_loop, Option.some.injEq, Prod.mk.injEq] at h
    obtain ⟨rfl, _⟩ := h
    exact ⟨rfl, rfl, fun _ => ⟨rfl, rfl, rfl⟩⟩
  | succ n ih =>
    intro i k k1 ok h
    simp only [alloc_user_pages_loop] at h
    by_cases h0 : (pmm_alloc_page k.phys).2 = 0
    · rw [if_pos h0] at h
      simp only [Option.some.injEq, Prod.mk.injEq] at h
      obtain ⟨rfl, _⟩ := h
      exact ⟨rfl, rfl, fun _ => ⟨rfl, rfl, rfl⟩⟩
    · rw [if_neg h0] at h
      generalize vmm_map_page (pmm_alloc_page k.phys).1 (k.procs process).page_table
        ((virt + i * PAGE_SIZE) % U64) (pmm_alloc_page k.phys).2
        ((PAGE_PRESENT ||| PAGE_WRITABLE) ||| PAGE_USER) = q at h
      by_cases hg : ¬ arena_kept k.phys q.1
      · rw [if_pos hg] at h
        cases h
      rw [if_neg hg] at h
      by_cases hq : ¬ q.2 = true
      · rw [if_pos hq, Option.map_eq_some'] at h
        obtain ⟨ph, _, hx⟩ := h
        simp only [Prod.mk.injEq] at hx
        obtain ⟨rfl, _⟩ := hx
        exact ⟨rfl, rfl, fun _ => ⟨rfl, rfl, rfl⟩⟩
      · rw [if_neg hq] at h
        obtain ⟨r1, r2, r3⟩ := ih _ _ _ _ h
        refine ⟨r1, r2, fun x => ?_⟩
        obtain ⟨x1, x2, x3⟩ := r3 x
        rw [x1, x2, x3]
        exact ⟨set_proc_field (fun p => p.heap_start) _ _ _ _ (fun _ => rfl),
          set_proc_field (fun p => p.heap_current) _ _ _ _ (fun _ => rfl),
          set_proc_field (fun p => p.heap_max) _ _ _ _ (fun _ => rfl)⟩

/-- The growth loop of `sys_sbrk` changes no break and no current process. -/
theorem sbrk_grow_keeps (current : Nat) :
    ∀ n page k k1 ok, sbrk_grow current n page k = some (k1, ok) →
      k1.current_process = k.current_process ∧ k1.idle_process = k.idle_process ∧
      ∀ q, (k1.procs q).heap_start = (k.procs q).heap_start ∧
        (k1.procs q).heap_current = (k.procs q).heap_current ∧
        (k1.procs q).heap_max = (k.procs q).heap_max := by
  intro n
  induction n with
  | zero =>
    intro page k k1 ok h
    simp only [sbrk_grow, Option.some.injEq, Prod.mk.injEq] at h
    obtain ⟨rfl, _⟩ := h
    exact ⟨rfl, rfl, fun _ => ⟨rfl, rfl, rfl⟩⟩
  | succ n ih =>
    intro page k k1 ok h
    simp only [sbrk_grow] at h
    by_cases hp : page ≥ (k.procs current).heap_current
    · rw [if_pos hp] at h
      cases ha : vmm_alloc_user_pages k current page 1 with
      | none => rw [ha] at h; simp at h
      | some r =>
        obtain ⟨ka, oka⟩ := r
        rw [ha] at h
        dsimp only at h
        have hka : ka.current_process = k.current_process ∧ ka.idle_process = k.idle_process ∧
            ∀ q, (ka.procs q).heap_start = (k.procs q).heap_start ∧
              (ka.procs q).heap_current = (k.procs q).heap_current ∧
              (ka.procs q).heap_max = (k.procs q).heap_max := by
          unfold vmm_alloc_user_pages at ha
          by_cases hv : page ≥ KERNEL_BASE
          · rw [if_pos hv] at ha
            simp only [Option.some.injEq, Prod.mk.injEq] at ha
            obtain ⟨rfl, _⟩ := ha
            exact ⟨rfl, rfl, fun _ => ⟨rfl, rfl, rfl⟩⟩
          · rw [if_neg hv] at ha
            exact alloc_user_pages_loop_keeps _ _ _ _ _ _ _ ha
        by_cases hok : ¬ oka = true
        · rw [if_pos hok] at h
          simp only [Option.some.injEq, Prod.mk.injEq] at h
          obtain ⟨rfl, _⟩ := h
          exact hka
        · rw [if_neg hok] at h
          obtain ⟨r1, r2, r3⟩ := ih _ _ _ _ h
          obtain ⟨s1, s2, s3⟩ := hka
          exact ⟨r1.trans s1, r2.trans s2, fun x =>
            ⟨(r3 x).1.trans (s3 x).1, (r3 x).2.1.trans (s3 x).2.1, (r3 x).2.2.trans (s3 x).2.2⟩⟩
    · rw [if_neg hp] at h
      exact ih _ _ _ _ h

/-- The function `sys_sbrk` on a growth request for which the loop completes. -/
theorem sys_sbrk_grow (k k1 : Kernel) (inc : Nat)
    (hcur : process_get_current k ≠ 0) (h0 : 0 < inc) (h1 : inc < 2 ^ 63)
    (hmax : (k.procs (process_get_current k)).heap_current + inc ≤
      (k.procs (process_get_current k)).heap_max)
    (hlo : (k.procs (process_get_current k)).heap_start ≤
      (k.procs (process_get_current k)).heap_current)
    (hm : (k.procs (process_get_current k)).heap_max < 2 ^ 63)
    (hg : sbrk_grow (process_get_current k)
      ((((((k.procs (process_get_current k)).heap_current + inc) % U64 + PAGE_SIZE - 1) % U64 &&&
          NOT_FFF) - ((k.procs (process_get_current k)).heap_current &&& NOT_FFF)) / PAGE_SIZE)
      ((k.procs (process_get_current k)).heap_current &&& NOT_FFF) k = some (k1, true)) :
    sys_sbrk k inc = some (set_proc k1 (process_get_current k) (fun p =>
        { p with heap_current := (k.procs (process_get_current k)).heap_current + inc }),
      (k.procs (process_get_current k)).heap_current) := by
  have e : ((k.procs (process_get_current k)).heap_current + inc) % U64 =
      (k.procs (process_get_current k)).heap_current + inc :=
    Nat.mod_eq_of_lt (by unfold U64; omega)
  rw [e] at hg
  unfold sys_sbrk
  dsimp only
  rw [if_neg hcur, if_neg (by omega), e, if_neg (by omega), if_neg (by omega),
    if_pos ⟨h0, h1⟩, hg]
  rfl

set_option maxRecDepth 1000000 in
theorem sbrk_grow_kernel0 : ∃ k1,
    sbrk_grow (process_get_current kernel0)
      ((((((kernel0.procs (process_get_current kernel0)).heap_current + u64_of_int 16) % U64 +
          PAGE_SIZE - 1) % U64 &&& NOT_FFF) -
        ((kernel0.procs (process_get_current kernel0)).heap_current &&& NOT_FFF)) / PAGE_SIZE)
      ((kernel0.procs (process_get_current kernel0)).heap_current &&& NOT_FFF) kernel0 =
      some (k1, true) := by
  have h : (sbrk_grow (process_get_current kernel0)
      ((((((kernel0.procs (process_get_current kernel0)).heap_current + u64_of_int 16) % U64 +
          PAGE_SIZE - 1) % U64 &&& NOT_FFF) -
        ((kernel0.procs (process_get_current kernel0)).heap_current &&& NOT_FFF)) / PAGE_SIZE)
      ((kernel0.procs (process_get_current kernel0)).heap_current &&& NOT_FFF) kernel0).map
      (fun r => r.2) = some true := by decide
  rw [Option.map_eq_some'] at h
  obtain ⟨⟨k1, ok⟩, h1, h2⟩ := h
  dsimp only at h2
  subst h2
  exact ⟨k1, h1⟩

theorem no_block_ge : ¬ NO_BLOCK < FS_MAX_BLOCKS := by decide

theorem is_chain_congr (fs fs1 : ramfs_t) :
    ∀ l b, (∀ x, x ∈ l → (fs1.blocks x).next_block = (fs.blocks x).next_block) →
      is_chain fs b l → is_chain fs1 b l := by
  intro l
  induction l with
  | nil => intro b _ h; exact h
  | cons x xs ih =>
    intro b hx h
    obtain ⟨h1, h2, h3⟩ := h
    refine ⟨h1, h2, ?_⟩
    rw [hx x (List.mem_cons_self _ _)]
    exact ih _ (fun y hy => hx y (List.mem_cons_of_mem _ hy)) h3

theorem is_chain_lt (fs : ramfs_t) :
    ∀ l b, is_chain fs b l → ∀ x, x ∈ l → x < FS_MAX_BLOCKS := by
  intro l
  induction l with
  | nil => intro b _ x hx; cases hx
  | cons y ys ih =>
    intro b h x hx
    obtain ⟨_, h2, h3⟩ := h
    rcases List.mem_cons.mp hx with rfl | hx
    · exact h2
    · exact ih _ h3 x hx

theorem is_chain_unique (fs : ramfs_t) :
    ∀ l1 l2 b, is_chain fs b l1 → is_chain fs b l2 → l1 = l2 := by
  intro l1
  induction l1 with
  | nil =>
    intro l2 b h1 h2
    cases l2 with
    | nil => rfl
    | cons y ys =>
      obtain ⟨e, hy, _⟩ := h2
      have h1 : b = NO_BLOCK := h1
      rw [← e, h1] at hy
      exact absurd hy no_block_ge
  | cons x xs ih =>
    intro l2 b h1 h2
    obtain ⟨e1, hx, c1⟩ := h1
    cases l2 with
    | nil =>
      have h2 : b = NO_BLOCK := h2
      rw [← e1, h2] at hx
      exact absurd hx no_block_ge
    | cons y ys =>
      obtain ⟨e2, _, c2⟩ := h2
      have : x = y := e1.symm.trans e2
      subst this
      rw [ih ys _ c1 c2]

theorem is_chain_suffix (fs : ramfs_t) (x : Nat) (zs : List Nat) :
    ∀ ys c, is_chain fs c (ys ++ x :: zs) → is_chain fs x (x :: zs) := by
  intro ys
  induction ys with
  | nil =>
    intro c h
    obtain ⟨_, h2, h3⟩ := h
    exact ⟨rfl, h2, h3⟩
  | cons y ys ih =>
    intro c h
    exact ih _ h.2.2

theorem is_chain_nodup (fs : ramfs_t) : ∀ l b, is_chain fs b l → l.Nodup := by
  intro l
  induction l with
  | nil => intro _ _; exact List.nodup_nil
  | cons x xs ih =>
    intro b h
    refine List.nodup_cons.mpr ⟨fun hx => ?_, ih _ h.2.2⟩
    obtain ⟨ys, zs, e⟩ := List.append_of_mem hx
    have h3 := h.2.2
    rw [e] at h3
    have s := is_chain_suffix fs x zs ys _ h3
    have hc : is_chain fs x (x :: xs) := ⟨rfl, h.2.1, h.2.2⟩
    have u := is_chain_unique fs _ _ _ hc s
    have hl := congrArg List.length u
    rw [e] at hl
    simp at hl
    omega

theorem is_chain_head (fs : ramfs_t) (l : List Nat) (b : Nat) (h : is_chain fs b l) :
    b = l.getD 0 NO_BLOCK := by
  cases l with
  | nil => exact h
  | cons x xs => exact h.1

theorem is_chain_next (fs : ramfs_t) :
    ∀ l b i, is_chain fs b l → i < l.length →
      (fs.blocks (l.getD i NO_BLOCK)).next_block = l.getD (i + 1) NO_BLOCK := by
  intro l
  induction l with
  | nil => intro b i _ hi; simp at hi
  | cons x xs ih =>
    intro b i h hi
    cases i with
    | zero =>
      rw [List.getD_cons_zero, List.getD_cons_succ]
      exact is_chain_head fs xs _ h.2.2
    | succ i =>
      rw [List.getD_cons_succ, List.getD_cons_succ]
      exact ih _ i h.2.2 (by simpa using hi)

theorem getD_mem (l : List Nat) (i d : Nat) (hi : i < l.length) : l.getD i d ∈ l := by
  rw [List.getD_eq_getElem _ _ hi]
  exact List.getElem_mem hi

theorem is_chain_getD_lt (fs : ramfs_t) (l : List Nat) (b i : Nat) (h : is_chain fs b l)
    (hi : i < l.length) : l.getD i NO_BLOCK < FS_MAX_BLOCKS :=
  is_chain_lt fs l b h _ (getD_mem l i _ hi)

/-- The next block of a block of the chain is the end mark only for the last block. -/
theorem is_chain_last (fs : ramfs_t) (l : List Nat) (b i : Nat) (h : is_chain fs b l)
    (hi : i < l.length) (hn : (fs.blocks (l.getD i NO_BLOCK)).next_block = NO_BLOCK) :
    i + 1 = l.length := by
  by_contra hne
  have h1 : i + 1 < l.length := by omega
  have := is_chain_getD_lt fs l b (i + 1) h h1
  rw [← is_chain_next fs l b i h hi, hn] at this
  exact no_block_ge this

theorem is_chain_snoc (fs fs1 : ramfs_t) (b nb : Nat) (hnb : nb < FS_MAX_BLOCKS)
    (hb : (fs1.blocks b).next_block = nb) (hn : (fs1.blocks nb).next_block = NO_BLOCK) :
    ∀ pre first, is_chain fs first (pre ++ [b]) → b ∉ pre →
      (∀ x, x ∈ pre → (fs1.blocks x).next_block = (fs.blocks x).next_block) →
      is_chain fs1 first (pre ++ [b, nb]) := by
  intro pre
  induction pre with
  | nil =>
    intro first h _ _
    obtain ⟨h1, h2, _⟩ := h
    exact ⟨h1, h2, by rw [hb]; exact ⟨rfl, hnb, by rw [hn]; rfl⟩⟩
  | cons x xs ih =>
    intro first h hbx hx
    obtain ⟨h1, h2, h3⟩ := h
    refine ⟨h1, h2, ?_⟩
    rw [hx x (List.mem_cons_self _ _)]
    exact ih _ h3 (fun hm => hbx (List.mem_cons_of_mem _ hm))
      (fun y hy => hx y (List.mem_cons_of_mem _ hy))

theorem bitmap_test_false_iff (bm : Nat → Nat) (i : Nat) :
    bitmap_test bm i = false ↔ bm (i / 32) &&& (1 <<< (i % 32)) = 0 := by
  unfold bitmap_test
  simp

/-- The state that `allocate_block` leaves when it hands out block `nb`. -/
theorem allocate_block_from_spec (fs : ramfs_t) :
    ∀ n i, (∃ j, i ≤ j ∧ j < i + n ∧ bitmap_test fs.free_blocks j = false) →
      ∃ nb, i ≤ nb ∧ nb < i + n ∧ bitmap_test fs.free_blocks nb = false ∧
        allocate_block_from fs n i =
          (set_block { fs with free_blocks := bitmap_set fs.free_blocks nb } nb
            (fun b => { b with next_block := NO_BLOCK }), some nb) := by
  intro n
  induction n with
  | zero => intro i ⟨j, h1, h2, _⟩; omega
  | succ n ih =>
    intro i ⟨j, h1, h2, h3⟩
    simp only [allocate_block_from]
    by_cases hi : fs.free_blocks (i / 32) &&& (1 <<< (i % 32)) = 0
    · rw [if_pos hi]
      exact ⟨i, le_refl _, by omega, (bitmap_test_false_iff _ _).mpr hi, rfl⟩
    · rw [if_neg hi]
      have hji : j ≠ i := by
        intro e; rw [e] at h3; exact hi ((bitmap_test_false_iff _ _).mp h3)
      obtain ⟨nb, n1, n2, n3, n4⟩ := ih (i + 1) ⟨j, by omega, by omega, h3⟩
      exact ⟨nb, by omega, by omega, n3, n4⟩

theorem countP_range_update (p q : Nat → Bool) (nb : Nat) (hp : p nb = true)
    (hq : q nb = false) (hother : ∀ j, j ≠ nb → q j = p j) :
    ∀ n, (nb < n → (List.range n).countP q + 1 = (List.range n).countP p) ∧
      (n ≤ nb → (List.range n).countP q = (List.range n).countP p) := by
  intro n
  induction n with
  | zero => exact ⟨fun h => absurd h (Nat.not_lt_zero _), fun _ => rfl⟩
  | succ n ih =>
    rw [List.range_succ, List.countP_append, List.countP_append]
    simp only [List.countP_cons, List.countP_nil, Nat.zero_add]
    refine ⟨fun h => ?_, fun h => ?_⟩
    · by_cases hn : n = nb
      · subst hn
        rw [ih.2 (le_refl _), hp, hq]; simp
      · rw [hother n hn, ← ih.1 (by omega)]; omega
    · rw [hother n (by omega), ih.2 (by omega)]

/-- The function `allocate_block` hands out a block when one is free. -/
theorem allocate_block_spec (fs : ramfs_t) (h : 0 < free_count fs) :
    ∃ nb, nb < FS_MAX_BLOCKS ∧ bitmap_test fs.free_blocks nb = false ∧
      allocate_block fs =
        (set_block { fs with free_blocks := bitmap_set fs.free_blocks nb } nb
          (fun b => { b with next_block := NO_BLOCK }), some nb) ∧
      free_count (set_block { fs with free_blocks := bitmap_set fs.free_blocks nb } nb
          (fun b => { b with next_block := NO_BLOCK })) + 1 = free_count fs := by
  unfold free_count at h
  obtain ⟨j, hj, hp⟩ := List.countP_pos_iff.mp h
  rw [List.mem_range] at hj
  have hp2 : bitmap_test fs.free_blocks j = false := by simpa using hp
  obtain ⟨nb, n1, n2, n3, n4⟩ := allocate_block_from_spec fs FS_MAX_BLOCKS 0
    ⟨j, Nat.zero_le _, by omega, hp2⟩
  refine ⟨nb, by omega, n3, n4, ?_⟩
  unfold free_count
  refine (countP_range_update _ _ nb ?_ ?_ ?_ FS_MAX_BLOCKS).1 (by omega)
  · simp [n3]
  · show (! bitmap_test (bitmap_set fs.free_blocks nb) nb) = false
    rw [bitmap_test_set]; simp
  · intro x hx
    show (! bitmap_test (bitmap_set fs.free_blocks nb) x) = (! bitmap_test fs.free_blocks x)
    rw [bitmap_test_set]; simp [hx]

theorem set_block_blocks (fs : ramfs_t) (b x : Nat) (f : fs_block_t → fs_block_t) :
    (set_block fs b f).blocks x = if x = b then f (fs.blocks b) else fs.blocks x := rfl

/-- Allocation of a block and its link after the last block of a chain. -/
theorem alloc_link (fs : ramfs_t) (first : Nat) (l : List Nat) (i : Nat)
    (hc : is_chain fs first l) (hu : ∀ b, b ∈ l → bitmap_test fs.free_blocks b = true)
    (hi : i + 1 = l.length) (hfree : 0 < free_count fs) :
    ∃ nb fs1, allocate_block fs = (fs1, some nb) ∧
      is_chain (set_block fs1 (l.getD i NO_BLOCK) (fun b => { b with next_block := nb })) first
        (l ++ [nb]) ∧
      (∀ b, b ∈ l ++ [nb] → bitmap_test (set_block fs1 (l.getD i NO_BLOCK)
        (fun b => { b with next_block := nb })).free_blocks b = true) ∧
      free_count (set_block fs1 (l.getD i NO_BLOCK) (fun b => { b with next_block := nb })) + 1 =
        free_count fs ∧
      (set_block fs1 (l.getD i NO_BLOCK) (fun b => { b with next_block := nb })).nodes =
        fs.nodes ∧
      (∀ x, ((set_block fs1 (l.getD i NO_BLOCK) (fun b => { b with next_block := nb })).blocks
        x).data = (fs.blocks x).data) ∧
      ((set_block fs1 (l.getD i NO_BLOCK) (fun b => { b with next_block := nb })).blocks
        (l.getD i NO_BLOCK)).next_block = nb := by
  obtain ⟨nb, n1, n2, n3, n4⟩ := allocate_block_spec fs hfree
  refine ⟨nb, _, n3, ?_, ?_, ?_, rfl, ?_, ?_⟩
  · -- the chain
    rcases List.eq_nil_or_concat l with e | ⟨pre, b, e⟩
    · rw [e] at hi; simp at hi
    rw [List.concat_eq_append] at e
    subst e
    have hlen : i = pre.length := by
      rw [List.length_append, List.length_singleton] at hi; omega
    have hb : (pre ++ [b]).getD i NO_BLOCK = b := by
      rw [hlen, List.getD_eq_getElem _ _ (by simp)]
      simp
    rw [hb]
    have hnd := is_chain_nodup fs _ _ hc
    have hbpre : b ∉ pre := by
      intro hm
      have := List.nodup_append.mp hnd
      exact this.2.2 hm (List.mem_singleton_self b) 
    have hnbl : ∀ x, x ∈ pre ++ [b] → x ≠ nb := by
      intro x hx e
      have h1 := hu x hx
      rw [e, n2] at h1
      exact absurd h1 (by simp)
    have hc1 := is_chain_congr fs (set_block { fs with free_blocks := bitmap_set fs.free_blocks nb } nb
        (fun b => { b with next_block := NO_BLOCK })) _ first
      (fun x hx => by rw [set_block_blocks, if_neg (hnbl x hx)]) hc
    have e2 : pre ++ [b] ++ [nb] = pre ++ [b, nb] := by simp
    rw [e2]
    have hbnb : b ≠ nb := hnbl b (by simp)
    refine is_chain_snoc _ _ b nb n1 ?_ ?_ pre first hc1 hbpre ?_
    · rw [set_block_blocks, if_pos rfl]
    · rw [set_block_blocks, if_neg (Ne.symm hbnb), set_block_blocks, if_pos rfl]
    · intro x hx
      have : x ≠ b := fun e => hbpre (e ▸ hx)
      rw [set_block_blocks, if_neg this]
  · intro b hb
    show bitmap_test (bitmap_set fs.free_blocks nb) b = true
    rw [bitmap_test_set]
    rcases List.mem_append.mp hb with h | h
    · rw [hu b h]; simp
    · rw [List.mem_singleton] at h; simp [h]
  · exact n4
  · intro x
    rw [set_block_blocks]
    by_cases h1 : x = l.getD i NO_BLOCK
    · rw [if_pos h1, set_block_blocks]
      by_cases h2 : l.getD i NO_BLOCK = nb
      · rw [if_pos h2, h1, h2]
      · rw [if_neg h2, h1]
    · rw [if_neg h1, set_block_blocks]
      by_cases h2 : x = nb
      · rw [if_pos h2, h2]
      · rw [if_neg h2]
  · rw [set_block_blocks, if_pos rfl]

/-- The loop "skip to starting block" of `ramfs_write`: from block `i` of the chain it
reaches block `i + n`, adding blocks at the end of the chain as needed. -/
theorem write_skip_spec (first : Nat) :
    ∀ n fs l i, is_chain fs first l → (∀ b, b ∈ l → bitmap_test fs.free_blocks b = true) →
      i < l.length → i + n + 1 ≤ l.length + free_count fs →
      ∃ fs1 l1, write_skip n fs (l.getD i NO_BLOCK) = (fs1, some (l1.getD (i + n) NO_BLOCK)) ∧
        is_chain fs1 first l1 ∧ (∀ b, b ∈ l1 → bitmap_test fs1.free_blocks b = true) ∧
        (∃ ext, l1 = l ++ ext) ∧ i + n < l1.length ∧
        free_count fs1 + l1.length = free_count fs + l.length ∧
        fs1.nodes = fs.nodes ∧ ∀ x, (fs1.blocks x).data = (fs.blocks x).data := by
  intro n
  induction n with
  | zero =>
    intro fs l i hc hu hi _
    exact ⟨fs, l, rfl, hc, hu, ⟨[], by simp⟩, hi, rfl, rfl, fun _ => rfl⟩
  | succ n ih =>
    intro fs l i hc hu hi hfree
    simp only [write_skip]
    by_cases hn : (fs.blocks (l.getD i NO_BLOCK)).next_block = NO_BLOCK
    · rw [if_pos hn]
      have hlast := is_chain_last fs l first i hc hi hn
      obtain ⟨nb, fsa, a1, a2, a3, a4, a5, a6, a7⟩ := alloc_link fs first l i hc hu hlast (by omega)
      rw [a1]
      dsimp only
      rw [a7]
      have hlen : (l ++ [nb]).length = l.length + 1 := by
        rw [List.length_append, List.length_singleton]
      have hnb : nb = (l ++ [nb]).getD (i + 1) NO_BLOCK := by
        rw [List.getD_eq_getElem _ _ (by omega)]
        simp [← hlast]
      obtain ⟨fs1, l1, r1, r2, r3, ⟨ext, r4⟩, r5, r6, r7, r8⟩ :=
        ih _ (l ++ [nb]) (i + 1) a2 a3 (by omega) (by omega)
      rw [← hnb] at r1
      have hidx : i + 1 + n = i + (n + 1) := by omega
      rw [hidx] at r1 r5
      refine ⟨fs1, l1, r1, r2, r3, ⟨[nb] ++ ext, by rw [r4]; simp⟩, r5, ?_, ?_, ?_⟩
      · rw [r6, hlen]; omega
      · rw [r7, a5]
      · intro x; rw [r8 x, a6 x]
    · rw [if_neg hn]
      have hlt : i + 1 < l.length := by
        by_contra hge
        have h1 := is_chain_next fs l first i hc hi
        have h2 : l.getD (i + 1) NO_BLOCK = NO_BLOCK := List.getD_eq_default _ _ (by omega)
        rw [h2] at h1
        exact hn h1
      rw [is_chain_next fs l first i hc hi]
      obtain ⟨fs1, l1, r1, r2, r3, r4, r5, r6, r7, r8⟩ :=
        ih fs l (i + 1) hc hu hlt (by omega)
      have hidx : i + 1 + n = i + (n + 1) := by omega
      rw [hidx] at r1 r5
      exact ⟨fs1, l1, r1, r2, r3, r4, r5, r6, r7, r8⟩

theorem nodup_getD_inj (l : List Nat) (d i j : Nat) (hn : l.Nodup) (hi : i < l.length)
    (hj : j < l.length) (h : l.getD i d = l.getD j d) : i = j := by
  rw [List.getD_eq_getElem _ _ hi, List.getD_eq_getElem _ _ hj] at h
  exact (List.Nodup.getElem_inj_iff hn).mp h

theorem getD_take (l : List Nat) (n k : Nat) (h : k < n) : (l.take n).getD k 0 = l.getD k 0 := by
  rw [List.getD_eq_getElem?_getD, List.getD_eq_getElem?_getD, List.getElem?_take_of_lt h]

theorem getD_drop (l : List Nat) (n k : Nat) : (l.drop n).getD k 0 = l.getD (n + k) 0 := by
  rw [List.getD_eq_getElem?_getD, List.getD_eq_getElem?_getD, List.getElem?_drop]

/-- The bytes of a file after `memcpy` into block `i` of its chain. -/
theorem block_store_byte (fs : ramfs_t) (first : Nat) (l : List Nat) (i off : Nat)
    (src : List Nat) (hc : is_chain fs first l) (hi : i < l.length)
    (hoff : off + src.length ≤ 512) :
    ∀ p, p < l.length * 512 →
      file_byte (set_block fs (l.getD i NO_BLOCK) (fun b => block_store b off src)) l p =
        if i * 512 + off ≤ p ∧ p < i * 512 + off + src.length
        then src.getD (p - (i * 512 + off)) 0 % 256 else file_byte fs l p := by
  intro p hp
  unfold file_byte FS_BLOCK_SIZE
  rw [set_block_blocks]
  by_cases hb : l.getD (p / 512) NO_BLOCK = l.getD i NO_BLOCK
  · have hpi : p / 512 = i :=
      nodup_getD_inj l _ _ _ (is_chain_nodup fs l first hc) (by omega) hi hb
    rw [if_pos hb]
    unfold block_store
    dsimp only
    by_cases hr : off ≤ p % 512 ∧ p % 512 < off + src.length
    · rw [if_pos hr, if_pos (by omega)]
      have : p % 512 - off = p - (i * 512 + off) := by omega
      rw [this]
    · rw [if_neg hr, if_neg (by omega), hpi]
  · have hpi : p / 512 ≠ i := fun e => hb (by rw [e])
    rw [if_neg hb, if_neg (by omega)]

theorem file_byte_ext (fs fs1 : ramfs_t) (l ext : List Nat) (p : Nat)
    (hd : ∀ x, (fs1.blocks x).data = (fs.blocks x).data) (hp : p < l.length * 512) :
    file_byte fs1 (l ++ ext) p = file_byte fs l p := by
  unfold file_byte FS_BLOCK_SIZE
  rw [List.getD_append _ _ _ _ (by omega), hd]

/-- The copy loop of `ramfs_write`: started in block `i` of the chain at `off` with
enough free blocks, it writes all of `rest`, adding blocks at the end of the chain as
needed, and changes no other byte of the chain. -/
theorem write_loop_spec (first : Nat) :
    ∀ fuel fs l i off rest written,
      is_chain fs first l → (∀ b, b ∈ l → bitmap_test fs.free_blocks b = true) →
      i < l.length → off < 512 → rest.length ≤ fuel →
      (rest ≠ [] → (off + rest.length - 1) / 512 + i + 1 ≤ l.length + free_count fs) →
      ∃ fs1 l1, write_loop fuel fs rest (l.getD i NO_BLOCK) off written =
          some (fs1, written + rest.length) ∧
        is_chain fs1 first l1 ∧ (∀ b, b ∈ l1 → bitmap_test fs1.free_blocks b = true) ∧
        (∃ ext, l1 = l ++ ext) ∧ fs1.nodes = fs.nodes ∧
        i * 512 + off + rest.length ≤ l1.length * 512 ∧
        (∀ j, j < rest.length → file_byte fs1 l1 (i * 512 + off + j) = rest.getD j 0 % 256) ∧
        (∀ p, p < l.length * 512 →
          (p < i * 512 + off ∨ i * 512 + off + rest.length ≤ p) →
          file_byte fs1 l1 p = file_byte fs l p) := by
  intro fuel
  induction fuel with
  | zero =>
    intro fs l i off rest written hc hu hi hoff hfuel _
    have hr : rest = [] := List.length_eq_zero.mp (by omega)
    subst hr
    refine ⟨fs, l, by simp [write_loop], hc, hu, ⟨[], by simp⟩, rfl, ?_, ?_, fun _ _ _ => rfl⟩
    · simp only [List.length_nil]; omega
    · intro j hj; simp at hj
  | succ fuel ih =>
    intro fs l i off rest written hc hu hi hoff hfuel hfree
    by_cases hr : rest = []
    · subst hr
      refine ⟨fs, l, by simp [write_loop], hc, hu, ⟨[], by simp⟩, rfl, ?_, ?_, fun _ _ _ => rfl⟩
      · simp only [List.length_nil]; omega
      · intro j hj; simp at hj
    have hfree := hfree hr
    have hlen : 0 < rest.length := List.length_pos.mpr hr
    simp only [write_loop]
    rw [if_neg hr]
    have hB : FS_BLOCK_SIZE = 512 := rfl
    rw [hB]
    generalize htw : (if 512 - off > rest.length then rest.length else 512 - off) = tw
    have htw1 : tw ≤ rest.length := by rw [← htw]; split_ifs <;> omega
    have htw2 : off + tw ≤ 512 := by rw [← htw]; split_ifs <;> omega
    have htw3 : 0 < tw := by rw [← htw]; split_ifs <;> omega
    have htw4 : tw < rest.length → tw = 512 - off := by
      intro h; rw [← htw] at h ⊢; split_ifs at h ⊢ <;> omega
    have htake : (rest.take tw).length = tw := by rw [List.length_take]; omega
    have hdrop : (rest.drop tw).length = rest.length - tw := List.length_drop _ _
    -- the state after the `memcpy`
    generalize hfs1 : set_block fs (l.getD i NO_BLOCK)
      (fun b => block_store b off (rest.take tw)) = fs1
    have hnext : ∀ x, (fs1.blocks x).next_block = (fs.blocks x).next_block := by
      intro x
      rw [← hfs1, set_block_blocks]
      by_cases hx : x = l.getD i NO_BLOCK
      · rw [if_pos hx, hx]; rfl
      · rw [if_neg hx]
    have hc1 : is_chain fs1 first l := is_chain_congr fs fs1 l first (fun x _ => hnext x) hc
    have hu1 : ∀ b, b ∈ l → bitmap_test fs1.free_blocks b = true := by
      intro b hb; rw [← hfs1]; exact hu b hb
    have hfc1 : free_count fs1 = free_count fs := by rw [← hfs1]; rfl
    have hn1 : fs1.nodes = fs.nodes := by rw [← hfs1]; rfl
    have hF1 : ∀ p, p < l.length * 512 →
        file_byte fs1 l p = if i * 512 + off ≤ p ∧ p < i * 512 + off + tw
          then rest.getD (p - (i * 512 + off)) 0 % 256 else file_byte fs l p := by
      intro p hp
      rw [← hfs1, block_store_byte fs first l i off _ hc hi (by omega) p hp, htake]
      by_cases hcnd : i * 512 + off ≤ p ∧ p < i * 512 + off + tw
      · rw [if_pos hcnd, if_pos hcnd, getD_take _ _ _ (by omega)]
      · rw [if_neg hcnd, if_neg hcnd]
    by_cases hd : rest.drop tw ≠ []
    · rw [if_pos hd]
      have hdl : 0 < (rest.drop tw).length := List.length_pos.mpr hd
      have htwlt : tw < rest.length := by omega
      have htweq := htw4 htwlt
      -- what remains once the loop is at block `i + 1` of a chain `lM` in state `fsM`
      have key : ∀ (fsM : ramfs_t) (lM : List Nat), is_chain fsM first lM →
          (∀ b, b ∈ lM → bitmap_test fsM.free_blocks b = true) → (∃ ext, lM = l ++ ext) →
          i + 1 < lM.length → fsM.nodes = fs1.nodes →
          (∀ x, (fsM.blocks x).data = (fs1.blocks x).data) →
          (rest.length - tw - 1) / 512 + (i + 1) + 1 ≤ lM.length + free_count fsM →
          ∃ fs2 l2, write_loop fuel fsM (rest.drop tw) (lM.getD (i + 1) NO_BLOCK) 0
              (written + tw) = some (fs2, written + rest.length) ∧
            is_chain fs2 first l2 ∧ (∀ b, b ∈ l2 → bitmap_test fs2.free_blocks b = true) ∧
            (∃ ext, l2 = l ++ ext) ∧ fs2.nodes = fs.nodes ∧
            i * 512 + off + rest.length ≤ l2.length * 512 ∧
            (∀ j, j < rest.length →
              file_byte fs2 l2 (i * 512 + off + j) = rest.getD j 0 % 256) ∧
            (∀ p, p < l.length * 512 →
              (p < i * 512 + off ∨ i * 512 + off + rest.length ≤ p) →
              file_byte fs2 l2 p = file_byte fs l p) := by
        intro fsM lM cM uM ⟨extM, eM⟩ hiM nM dM fM
        obtain ⟨fs2, l2, r1, r2, r3, ⟨ext2, r4⟩, r5, r6, r7, r8⟩ :=
          ih fsM lM (i + 1) 0 (rest.drop tw) (written + tw) cM uM hiM (by norm_num)
            (by omega) (fun _ => by rw [hdrop]; omega)
        have hlM : l.length ≤ lM.length := by rw [eM, List.length_append]; omega
        have hback : ∀ p, p < l.length * 512 → file_byte fsM lM p = file_byte fs1 l p := by
          intro p hp; rw [eM]; exact file_byte_ext fs1 fsM l extM p dM hp
        refine ⟨fs2, l2, ?_, r2, r3, ⟨extM ++ ext2, by rw [r4, eM, List.append_assoc]⟩,
          by rw [r5, nM, hn1], by rw [hdrop] at r6; omega, fun j hj => ?_, fun p hp hout => ?_⟩
        · rw [r1, hdrop]
          have e0 : written + tw + (rest.length - tw) = written + rest.length := by omega
          rw [e0]
        · by_cases hjt : j < tw
          · rw [r8 _ (by omega) (Or.inl (by omega)), hback _ (by omega),
              hF1 _ (by omega), if_pos ⟨by omega, by omega⟩]
            have e0 : i * 512 + off + j - (i * 512 + off) = j := by omega
            rw [e0]
          · have e1 : i * 512 + off + j = (i + 1) * 512 + 0 + (j - tw) := by omega
            rw [e1, r7 (j - tw) (by rw [hdrop]; omega), getD_drop]
            have e0 : tw + (j - tw) = j := by omega
            rw [e0]
        · rw [r8 p (by omega) (by rw [hdrop]; omega), hback p hp, hF1 p hp,
            if_neg (by omega)]
      by_cases hnb : (fs1.blocks (l.getD i NO_BLOCK)).next_block = NO_BLOCK
      · rw [if_pos hnb]
        have hlast := is_chain_last fs1 l first i hc1 hi hnb
        obtain ⟨nb, fsa, a1, a2, a3, a4, a5, a6, a7⟩ :=
          alloc_link fs1 first l i hc1 hu1 hlast (by omega)
        rw [a1]
        dsimp only
        rw [a7]
        have hlen3 : (l ++ [nb]).length = l.length + 1 := by
          rw [List.length_append, List.length_singleton]
        have hnbi : nb = (l ++ [nb]).getD (i + 1) NO_BLOCK := by
          rw [List.getD_eq_getElem _ _ (by omega)]
          simp [← hlast]
        have := key _ (l ++ [nb]) a2 a3 ⟨[nb], rfl⟩ (by omega) a5 a6 (by omega)
        rw [← hnbi] at this
        exact this
      · rw [if_neg hnb]
        have hlt : i + 1 < l.length := by
          by_contra hge
          have h1 := is_chain_next fs1 l first i hc1 hi
          have h2 : l.getD (i + 1) NO_BLOCK = NO_BLOCK := List.getD_eq_default _ _ (by omega)
          rw [h2] at h1
          exact hnb h1
        rw [is_chain_next fs1 l first i hc1 hi]
        exact key fs1 l hc1 hu1 ⟨[], by simp⟩ hlt rfl (fun _ => rfl) (by omega)
    · rw [if_neg hd]
      have hd2 : rest.drop tw = [] := by simpa using hd
      have hdl : rest.length - tw = 0 := by rw [← hdrop, hd2]; rfl
      have hte : tw = rest.length := by omega
      refine ⟨fs1, l, by rw [hte], hc1, hu1, ⟨[], by simp⟩, hn1, by omega,
        fun j hj => ?_, fun p hp hout => ?_⟩
      · rw [hF1 _ (by omega), if_pos ⟨by omega, by omega⟩]
        have e0 : i * 512 + off + j - (i * 512 + off) = j := by omega
        rw [e0]
      · rw [hF1 p hp, if_neg (by omega)]

/-- The loop "skip to starting block" of `ramfs_read` reaches block `off / 512` of the
chain. -/
theorem read_skip_spec (fs : ramfs_t) (first : Nat) (l : List Nat) (hc : is_chain fs first l) :
    ∀ n i off, i + n ≤ l.length → off / 512 = n →
      read_skip fs n (l.getD i NO_BLOCK) off = (l.getD (i + n) NO_BLOCK, off % 512) := by
  intro n
  induction n with
  | zero =>
    intro i off _ h
    simp only [read_skip]
    rw [Nat.mod_eq_of_lt (by omega)]; rfl
  | succ n ih =>
    intro i off hi h
    have hlt := is_chain_getD_lt fs l first i hc (by omega)
    have hne : l.getD i NO_BLOCK ≠ NO_BLOCK := fun e => no_block_ge (e ▸ hlt)
    simp only [read_skip]
    have hB : FS_BLOCK_SIZE = 512 := rfl
    rw [hB, if_pos ⟨by omega, hne⟩, is_chain_next fs l first i hc (by omega),
      ih (i + 1) (off - 512) (by omega) (by omega)]
    have e1 : i + 1 + n = i + (n + 1) := by omega
    have e2 : (off - 512) % 512 = off % 512 := by omega
    rw [e1, e2]

/-- The copy loop of `ramfs_read` returns the bytes of the file. -/
theorem read_loop_spec (fs : ramfs_t) (first : Nat) (l : List Nat) (hc : is_chain fs first l) :
    ∀ fuel want i off, off < 512 → want ≤ fuel → i * 512 + off + want ≤ l.length * 512 →
      read_loop fs fuel want (l.getD i NO_BLOCK) off =
        some ((List.range want).map (fun j => file_byte fs l (i * 512 + off + j))) := by
  intro fuel
  induction fuel with
  | zero =>
    intro want i off _ hw _
    have : want = 0 := by omega
    subst this
    simp [read_loop]
  | succ fuel ih =>
    intro want i off hoff hw hcap
    simp only [read_loop]
    by_cases h0 : want = 0
    · subst h0; simp
    have hi : i < l.length := by
      by_contra hge
      have : l.length * 512 ≤ i * 512 := Nat.mul_le_mul_right _ (by omega)
      omega
    have hlt := is_chain_getD_lt fs l first i hc hi
    have hne : l.getD i NO_BLOCK ≠ NO_BLOCK := fun e => no_block_ge (e ▸ hlt)
    rw [if_neg (fun h => h.elim h0 hne)]
    have hB : FS_BLOCK_SIZE = 512 := rfl
    rw [hB]
    generalize htr : (if 512 - off > want then want else 512 - off) = tr
    have htr1 : tr ≤ want := by rw [← htr]; split_ifs <;> omega
    have htr2 : off + tr ≤ 512 := by rw [← htr]; split_ifs <;> omega
    have htr3 : tr < want → tr = 512 - off := by
      intro h; rw [← htr] at h ⊢; split_ifs at h ⊢ <;> omega
    rw [is_chain_next fs l first i hc hi,
      ih (want - tr) (i + 1) 0 (by norm_num) (by omega) (by
        have : (i + 1) * 512 ≤ l.length * 512 := Nat.mul_le_mul_right _ (by omega)
        by_cases h : tr < want
        · have := htr3 h; omega
        · omega)]
    simp only [Option.map_some', Option.some.injEq]
    have hsplit : want = tr + (want - tr) := by omega
    have p1 : block_bytes (fs.blocks (l.getD i NO_BLOCK)) off tr =
        (List.range tr).map (fun j => file_byte fs l (i * 512 + off + j)) := by
      unfold block_bytes
      apply List.map_congr_left
      intro j hj
      rw [List.mem_range] at hj
      unfold file_byte FS_BLOCK_SIZE
      have e1 : (i * 512 + off + j) / 512 = i := by omega
      have e2 : (i * 512 + off + j) % 512 = off + j := by omega
      rw [e1, e2]
    have p2 : (List.range (want - tr)).map (fun j => file_byte fs l ((i + 1) * 512 + 0 + j)) =
        (List.range (want - tr)).map
          ((fun j => file_byte fs l (i * 512 + off + j)) ∘ fun x => tr + x) := by
      apply List.map_congr_left
      intro j hj
      rw [List.mem_range] at hj
      have h : tr < want := by omega
      have := htr3 h
      show file_byte fs l ((i + 1) * 512 + 0 + j) = file_byte fs l (i * 512 + off + (tr + j))
      have e1 : (i + 1) * 512 + 0 + j = i * 512 + off + (tr + j) := by omega
      rw [e1]
    rw [p1, p2]
    conv_rhs => rw [hsplit, List.range_add, List.map_append, List.map_map]

theorem int_of_size_lt (n : Nat) (h : n < 2 ^ 31) : int_of_size n = (n : Int) := by
  unfold int_of_size U32
  rw [Nat.mod_eq_of_lt (by omega), if_pos h]

/-- The function `fs_read` returns the bytes of the file in the requested range. -/
theorem fs_read_spec (fs : ramfs_t) (node : Nat) (l : List Nat) (off n : Nat)
    (ht : (fs.nodes node).type = FS_TYPE_FILE)
    (hc : is_chain fs (fs.nodes node).first_block l)
    (hs : (fs.nodes node).size ≤ l.length * 512) (hoff : off < (fs.nodes node).size)
    (hn : off + n ≤ (fs.nodes node).size) (hb : (fs.nodes node).size < 2 ^ 31) :
    fs_read fs node off n =
      some ((List.range n).map (fun j => file_byte fs l (off + j)), (n : Int)) := by
  unfold fs_read ramfs_read
  rw [if_neg (by rw [ht]; simp), if_neg (by omega)]
  dsimp only
  have hU : (off + n) % U32 = off + n := Nat.mod_eq_of_lt (by unfold U32; omega)
  rw [hU, if_neg (by omega)]
  have hB : FS_BLOCK_SIZE = 512 := rfl
  rw [hB]
  have hf := is_chain_head fs l _ hc
  have hsk := read_skip_spec fs _ l hc (off / 512) 0 off (by omega) rfl
  rw [← hf] at hsk
  rw [hsk]
  dsimp only
  rw [Nat.zero_add, read_loop_spec fs _ l hc n n (off / 512) (off % 512)
    (Nat.mod_lt _ (by norm_num)) (le_refl _) (by omega)]
  simp only [Option.map_some', Option.some.injEq, Prod.mk.injEq, List.length_map,
    List.length_range]
  refine ⟨?_, int_of_size_lt n (by omega)⟩
  apply List.map_congr_left
  intro j _
  have e : off / 512 * 512 + off % 512 + j = off + j := by omega
  rw [e]

/-- The blocks of a chain and the free blocks are different blocks of the pool. -/
theorem chain_free_bound (fs : ramfs_t) (first : Nat) (l : List Nat)
    (hc : is_chain fs first l) (hu : ∀ b, b ∈ l → bitmap_test fs.free_blocks b = true) :
    l.length + free_count fs ≤ FS_MAX_BLOCKS := by
  have hnd := is_chain_nodup fs l first hc
  have hsub : l ⊆ (List.range FS_MAX_BLOCKS).filter (fun i => bitmap_test fs.free_blocks i) := by
    intro x hx
    rw [List.mem_filter, List.mem_range]
    exact ⟨is_chain_lt fs l first hc x hx, hu x hx⟩
  have h1 := (List.Nodup.subperm hnd hsub).length_le
  have h2 := List.length_eq_countP_add_countP (fun i => bitmap_test fs.free_blocks i)
    (List.range FS_MAX_BLOCKS)
  rw [List.length_range] at h2
  rw [← List.countP_eq_length_filter] at h1
  unfold free_count
  have h3 : List.countP (fun i => ! bitmap_test fs.free_blocks i) (List.range FS_MAX_BLOCKS) =
      List.countP (fun a => decide ¬ (bitmap_test fs.free_blocks a = true))
        (List.range FS_MAX_BLOCKS) := by
    apply List.countP_congr
    intro x _
    simp
  rw [h3]
  omega

theorem map_getD_bytes (d : List Nat) (hd : ∀ x, x ∈ d → x < 256) :
    (List.range d.length).map (fun j => d.getD j 0 % 256) = d := by
  apply List.ext_getElem
  · simp
  · intro i h1 h2
    rw [List.getElem_map, List.getElem_range, List.getD_eq_getElem _ _ h2]
    exact Nat.mod_eq_of_lt (hd _ (List.getElem_mem h2))

theorem blocks_needed_cap (offset n : Nat) :
    offset + n ≤ blocks_needed offset n * 512 ∧ offset / 512 + 1 ≤ blocks_needed offset n ∧
    (n ≠ 0 → (offset % 512 + n - 1) / 512 + offset / 512 + 1 ≤ blocks_needed offset n) := by
  unfold blocks_needed FS_BLOCK_SIZE
  split_ifs <;> refine ⟨?_, ?_, ?_⟩ <;> omega

/-- The two loops of `ramfs_write` on a file that has a first block. -/
theorem write_tail (fs0 : ramfs_t) (node offset : Nat) (d l0 : List Nat)
    (hc : is_chain fs0 (fs0.nodes node).first_block l0)
    (hu : ∀ b, b ∈ l0 → bitmap_test fs0.free_blocks b = true) (hl : 0 < l0.length)
    (hfree : blocks_needed offset d.length ≤ l0.length + free_count fs0) :
    ∃ fs2 bn fs3 l3,
      write_skip (offset / FS_BLOCK_SIZE) fs0 (fs0.nodes node).first_block = (fs2, some bn) ∧
      write_loop d.length fs2 d bn (offset % FS_BLOCK_SIZE) 0 = some (fs3, d.length) ∧
      fs3.nodes = fs0.nodes ∧ is_chain fs3 (fs0.nodes node).first_block l3 ∧
      (∃ ext, l3 = l0 ++ ext) ∧ offset + d.length ≤ l3.length * 512 ∧
      l3.length ≤ FS_MAX_BLOCKS ∧
      (∀ j, j < d.length → file_byte fs3 l3 (offset + j) = d.getD j 0 % 256) ∧
      (∀ p, p < l0.length * 512 → (p < offset ∨ offset + d.length ≤ p) →
        file_byte fs3 l3 p = file_byte fs0 l0 p) := by
  obtain ⟨c1, c2, c3⟩ := blocks_needed_cap offset d.length
  have hB : FS_BLOCK_SIZE = 512 := rfl
  rw [hB]
  have hf := is_chain_head fs0 l0 _ hc
  obtain ⟨fs2, l2, s1, s2, s3, ⟨ext2, s4⟩, s5, s6, s7, s8⟩ :=
    write_skip_spec (fs0.nodes node).first_block (offset / 512) fs0 l0 0 hc hu hl (by omega)
  rw [← hf, Nat.zero_add] at s1
  rw [Nat.zero_add] at s5
  obtain ⟨fs3, l3, w1, w2, w3, ⟨ext3, w4⟩, w5, w6, w7, w8⟩ :=
    write_loop_spec (fs0.nodes node).first_block d.length fs2 l2 (offset / 512) (offset % 512)
      d 0 s2 s3 s5 (Nat.mod_lt _ (by norm_num)) (le_refl _)
      (fun hne => by
        have := c3 (fun h => hne (List.length_eq_zero.mp h))
        omega)
  rw [Nat.zero_add] at w1
  have hpos : ∀ j, offset / 512 * 512 + offset % 512 + j = offset + j := fun j => by omega
  have hl2 : l0.length ≤ l2.length := by rw [s4, List.length_append]; omega
  refine ⟨fs2, _, fs3, l3, s1, w1, by rw [w5, s7], w2,
    ⟨ext2 ++ ext3, by rw [w4, s4, List.append_assoc]⟩, by omega, ?_, fun j hj => ?_,
    fun p hp hout => ?_⟩
  · have := chain_free_bound fs3 _ l3 w2 w3; omega
  · rw [← hpos j]; exact w7 j hj
  · rw [w8 p (by omega) (by omega), s4]
    exact file_byte_ext fs0 fs2 l0 ext2 p s8 hp

/-- Reads from the file after the size update of `ramfs_write`. -/
theorem read_after_write (fs3 : ramfs_t) (node offset : Nat) (d l3 : List Nat)
    (ht : (fs3.nodes node).type = FS_TYPE_FILE)
    (hc : is_chain fs3 (fs3.nodes node).first_block l3)
    (hs : (fs3.nodes node).size ≤ l3.length * 512)
    (hcap : offset + d.length ≤ l3.length * 512) (hl : l3.length ≤ FS_MAX_BLOCKS)
    (hd : ∀ x, x ∈ d → x < 256)
    (hw : ∀ j, j < d.length → file_byte fs3 l3 (offset + j) = d.getD j 0 % 256) :
    ((if (offset + d.length) % U32 > (fs3.nodes node).size
      then set_node fs3 node (fun nd => { nd with size := (offset + d.length) % U32 })
      else fs3).nodes node).size = max (fs3.nodes node).size (offset + d.length) ∧
    fs_read (if (offset + d.length) % U32 > (fs3.nodes node).size
      then set_node fs3 node (fun nd => { nd with size := (offset + d.length) % U32 })
      else fs3) node offset d.length = some (d, (d.length : Int)) ∧
    ∀ p, p < (fs3.nodes node).size →
      fs_read (if (offset + d.length) % U32 > (fs3.nodes node).size
        then set_node fs3 node (fun nd => { nd with size := (offset + d.length) % U32 })
        else fs3) node p 1 = some ([file_byte fs3 l3 p], 1) := by
  have hM : FS_MAX_BLOCKS = 1024 := rfl
  rw [hM] at hl
  have hU : (offset + d.length) % U32 = offset + d.length :=
    Nat.mod_eq_of_lt (by unfold U32; omega)
  rw [hU]
  generalize hF : (if offset + d.length > (fs3.nodes node).size
      then set_node fs3 node (fun nd => { nd with size := offset + d.length })
      else fs3) = fsF
  have hblocks : fsF.blocks = fs3.blocks := by rw [← hF]; split_ifs <;> rfl
  have htype : (fsF.nodes node).type = FS_TYPE_FILE := by
    rw [← hF]; split_ifs
    · simp [set_node, ht]
    · exact ht
  have hfirst : (fsF.nodes node).first_block = (fs3.nodes node).first_block := by
    rw [← hF]; split_ifs
    · simp [set_node]
    · rfl
  have hsize : (fsF.nodes node).size = max (fs3.nodes node).size (offset + d.length) := by
    rw [← hF]; split_ifs with h
    · simp only [set_node, if_pos]; rw [max_eq_right (by omega)]
    · rw [max_eq_left (by omega)]
  have hcF : is_chain fsF (fsF.nodes node).first_block l3 := by
    rw [hfirst]
    exact is_chain_congr fs3 fsF l3 _ (fun x _ => by rw [hblocks]) hc
  have hbyte : ∀ p, file_byte fsF l3 p = file_byte fs3 l3 p := by
    intro p; unfold file_byte; rw [hblocks]
  have hsz : (fsF.nodes node).size ≤ l3.length * 512 := by rw [hsize]; omega
  refine ⟨hsize, ?_, fun p hp => ?_⟩
  · by_cases hoff : offset < (fsF.nodes node).size
    · rw [fs_read_spec fsF node l3 offset d.length htype hcF hsz hoff
        (by rw [hsize]; omega) (by omega)]
      simp only [Option.some.injEq, Prod.mk.injEq, and_true]
      have hm : (List.range d.length).map (fun j => file_byte fsF l3 (offset + j)) =
          (List.range d.length).map (fun j => d.getD j 0 % 256) := by
        apply List.map_congr_left
        intro j hj
        rw [List.mem_range] at hj
        rw [hbyte, hw j hj]
      rw [hm, map_getD_bytes d hd]
    · have hlen : d.length = 0 := by rw [hsize] at hoff; omega
      have hnil : d = [] := List.length_eq_zero.mp hlen
      subst hnil
      unfold fs_read ramfs_read
      rw [if_neg (by rw [htype]; simp), if_pos (by omega)]
      rfl
  · rw [fs_read_spec fsF node l3 p 1 htype hcF hsz (by rw [hsize]; omega)
      (by rw [hsize]; omega) (by omega)]
    have hr : List.range 1 = [0] := rfl
    rw [hr]
    simp only [List.map_cons, List.map_nil, Nat.add_zero, hbyte]
    rfl

/-- C10: for a regular file whose blocks form a chain marked used in the bitmap and
whose size lies within the chain, every offset and every byte string `d` for which the
bitmap has enough free blocks, `fs_write` returns the length of `d` and sets the size to
the maximum of the old size and `offset + |d|`; a following `fs_read` of `|d|` bytes at
`offset` returns `|d|` and the bytes `d`; and each byte below the old size and outside
the written range reads as before the write. -/
theorem write_then_read (fs : ramfs_t) (node offset : Nat) (d l : List Nat)
    (hwf : file_wf fs node l) (hd : ∀ x, x ∈ d → x < 256)
    (hfree : blocks_needed offset d.length ≤ l.length + free_count fs) :
    ∃ fs1, fs_write fs node offset d = some (fs1, (d.length : Int)) ∧
      (fs1.nodes node).size = max (fs.nodes node).size (offset + d.length) ∧
      fs_read fs1 node offset d.length = some (d, (d.length : Int)) ∧
      ∀ p, p < (fs.nodes node).size → (p < offset ∨ offset + d.length ≤ p) →
        ∃ x, fs_read fs node p 1 = some ([x], 1) ∧ fs_read fs1 node p 1 = some ([x], 1) := by
  obtain ⟨ht, hc, hu, hs⟩ := hwf
  have hB : FS_BLOCK_SIZE = 512 := rfl
  have hM : FS_MAX_BLOCKS = 1024 := rfl
  rw [hB] at hs
  obtain ⟨c1, c2, c3⟩ := blocks_needed_cap offset d.length
  have hbound := chain_free_bound fs _ l hc hu
  rw [hM] at hbound
  have hdl : d.length < 2 ^ 31 := by omega
  unfold fs_write ramfs_write
  rw [if_neg (by rw [ht]; simp)]
  dsimp only
  by_cases hfb : (fs.nodes node).first_block = NO_BLOCK
  · -- the file has no block yet
    have hl : l = [] := by
      cases l with
      | nil => rfl
      | cons x xs =>
        obtain ⟨e, hx, _⟩ := hc
        rw [← e, hfb] at hx
        exact absurd hx no_block_ge
    subst hl
    have hs0 : (fs.nodes node).size = 0 := by simpa using hs
    obtain ⟨nb, n1, n2, n3, n4⟩ := allocate_block_spec fs (by simp at hfree; omega)
    rw [if_pos hfb, n3]
    dsimp only
    rw [if_neg (by simp)]
    generalize hfs0 : set_node (set_block { fs with free_blocks := bitmap_set fs.free_blocks nb } nb
      (fun b => { b with next_block := NO_BLOCK })) node
      (fun nd => { nd with first_block := nb }) = fs0
    have hfirst0 : (fs0.nodes node).first_block = nb := by rw [← hfs0]; simp [set_node]
    have htype0 : (fs0.nodes node).type = FS_TYPE_FILE := by
      rw [← hfs0]; simp only [set_node, if_pos]; exact ht
    have hsize0 : (fs0.nodes node).size = 0 := by
      rw [← hfs0]; simp only [set_node, if_pos]; exact hs0
    have hc0 : is_chain fs0 (fs0.nodes node).first_block [nb] := by
      rw [hfirst0]
      refine ⟨rfl, n1, ?_⟩
      show (fs0.blocks nb).next_block = NO_BLOCK
      rw [← hfs0]
      show ((set_block { fs with free_blocks := bitmap_set fs.free_blocks nb } nb
        (fun b => { b with next_block := NO_BLOCK })).blocks nb).next_block = NO_BLOCK
      rw [set_block_blocks, if_pos rfl]
    have hu0 : ∀ b, b ∈ [nb] → bitmap_test fs0.free_blocks b = true := by
      intro b hb
      rw [List.mem_singleton] at hb
      rw [← hfs0, hb]
      show bitmap_test (bitmap_set fs.free_blocks nb) nb = true
      rw [bitmap_test_set]; simp
    have hfc0 : free_count fs0 + 1 = free_count fs := by rw [← hfs0]; exact n4
    obtain ⟨fs2, bn, fs3, l3, t1, t2, t3, t4, t5, t6, t7, t8, t9⟩ :=
      write_tail fs0 node offset d [nb] hc0 hu0 (by simp) (by simp at hfree ⊢; omega)
    rw [t1]
    dsimp only
    rw [t2]
    simp only [Option.map_some']
    have hn3 : fs3.nodes node = fs0.nodes node := by rw [t3]
    obtain ⟨f1, f2, f3⟩ := read_after_write fs3 node offset d l3 (by rw [hn3]; exact htype0)
      (by rw [hn3]; exact t4) (by rw [hn3, hsize0]; omega) t6 t7 hd t8
    have hsz3 : (fs3.nodes node).size = (fs.nodes node).size := by rw [hn3, hsize0, hs0]
    refine ⟨_, by rw [int_of_size_lt _ hdl], by rw [← hsz3]; exact f1, f2, fun p hp _ => ?_⟩
    rw [hs0] at hp
    exact absurd hp (Nat.not_lt_zero _)
  · -- the file has a first block
    have hl : 0 < l.length := by
      cases l with
      | nil => exact absurd hc hfb
      | cons x xs => simp
    rw [if_neg hfb]
    dsimp only
    rw [if_neg (by simp)]
    obtain ⟨fs2, bn, fs3, l3, t1, t2, t3, t4, ⟨ext, t5⟩, t6, t7, t8, t9⟩ :=
      write_tail fs node offset d l hc hu hl hfree
    rw [t1]
    dsimp only
    rw [t2]
    simp only [Option.map_some']
    have hn3 : fs3.nodes node = fs.nodes node := by rw [t3]
    have hl3 : l.length ≤ l3.length := by rw [t5, List.length_append]; omega
    obtain ⟨f1, f2, f3⟩ := read_after_write fs3 node offset d l3 (by rw [hn3]; exact ht)
      (by rw [hn3]; exact t4) (by rw [hn3]; omega) t6 t7 hd t8
    have hsz3 : (fs3.nodes node).size = (fs.nodes node).size := by rw [hn3]
    refine ⟨_, by rw [int_of_size_lt _ hdl], by rw [← hsz3]; exact f1, f2,
      fun p hp hout => ?_⟩
    refine ⟨file_byte fs l p, ?_, ?_⟩
    · rw [fs_read_spec fs node l p 1 ht hc hs hp (by omega) (by omega)]
      have hr : List.range 1 = [0] := rfl
      rw [hr]
      rfl
    · rw [f3 p (by rw [hsz3]; exact hp), t9 p (by omega) hout]

theorem write_then_read_witness :
    file_wf ramfs1 1 [0] ∧ (∀ x, x ∈ [7, 8, 9] → x < 256) ∧
    blocks_needed 510 [7, 8, 9].length ≤ [0].length + free_count ramfs1 ∧
    ∃ fs1, fs_write ramfs1 1 510 [7, 8, 9] = some (fs1, (([7, 8, 9] : List Nat).length : Int)) ∧
      (fs1.nodes 1).size = max (ramfs1.nodes 1).size (510 + [7, 8, 9].length) ∧
      fs_read fs1 1 510 [7, 8, 9].length = some ([7, 8, 9], (([7, 8, 9] : List Nat).length : Int)) ∧
      ∀ p, p < (ramfs1.nodes 1).size → (p < 510 ∨ 510 + [7, 8, 9].length ≤ p) →
        ∃ x, fs_read ramfs1 1 p 1 = some ([x], 1) ∧ fs_read fs1 1 p 1 = some ([x], 1) := by
  have h1 : file_wf ramfs1 1 [0] := by
    refine ⟨rfl, ⟨rfl, by decide, rfl⟩, ?_, by decide⟩
    intro b hb
    rw [List.mem_singleton] at hb
    subst hb
    decide
  have h2 : ∀ x, x ∈ [7, 8, 9] → x < 256 := by decide
  have h3 : blocks_needed 510 [7, 8, 9].length ≤ [0].length + free_count ramfs1 := by
    have hpos : 0 < free_count ramfs1 := by
      unfold free_count
      exact List.countP_pos_iff.mpr ⟨1, by rw [List.mem_range]; decide, by decide⟩
    have hb : blocks_needed 510 [7, 8, 9].length = 2 := by decide
    rw [hb]
    simp only [List.length_singleton]
    omega
  exact ⟨h1, h2, h3, write_then_read ramfs1 1 510 [7, 8, 9] [0] h1 h2 h3⟩

/-! ## An address space with one mapped page -/

theorem pmm_alloc_page_found (s : Phys) (f : Nat) (h : bitmap_find_free s.pmm_bitmap = some f) :
    (pmm_alloc_page s).2 = f * 4096 ∧
    (pmm_alloc_page s).1.pmm_bitmap = bitmap_set s.pmm_bitmap f := by
  unfold pmm_alloc_page
  rw [h]
  exact ⟨rfl, rfl⟩

theorem clone_page_found (s : Phys) (p flags f : Nat)
    (h : bitmap_find_free s.pmm_bitmap = some f) (hf : f ≠ 0) (hfl : flags < 4096) :
    (clone_page s p flags).2 = f * 4096 + flags ∧
    (clone_page s p flags).1.pmm_bitmap = bitmap_set s.pmm_bitmap f := by
  obtain ⟨a, b⟩ := pmm_alloc_page_found s f h
  unfold clone_page
  dsimp only
  rw [if_neg (by rw [a]; omega), a]
  exact ⟨lor_flags _ _ (by omega) hfl, b⟩

/-- A write into the child table leaves the entries of the parent table as they are. -/
theorem entry_set_entry_frame (m : Mem) (parent child i j v : Nat) (hc : child % 4096 = 0)
    (hi : i < 512) (hj : j < 512) (hp : parent % 4096 = 0)
    (hne : parent / 4096 ≠ child / 4096) :
    entry (set_entry m child i v) parent j = entry m parent j := by
  apply entry_congr _ _ _ _ hp hj
  intro a ha
  exact set_entry_frame m child i v a hc hi (by rw [ha]; exact hne)

/-- The loop of `clone_pt` over entries that are not present completes without an
allocation. -/
theorem clone_pt_loop_absent (parent child : Nat) (hc : child % 4096 = 0)
    (hp : parent % 4096 = 0) (hne : parent / 4096 ≠ child / 4096) :
    ∀ n i s, i + n ≤ 512 → (∀ j, i ≤ j → j < i + n → entry s.mem parent j % 2 = 0) →
      ∃ s1, clone_pt_loop parent child n i s = some (s1, true) ∧
        s1.pmm_bitmap = s.pmm_bitmap := by
  intro n
  induction n with
  | zero => intro i s _ _; exact ⟨s, rfl, rfl⟩
  | succ n ih =>
    intro i s hin hz
    simp only [clone_pt_loop]
    rw [if_neg (fun h => by
      have := (present_iff _).mp h
      rw [hz i (le_refl _) (by omega)] at this
      exact absurd this (by norm_num))]
    obtain ⟨s1, r1, r2⟩ := ih (i + 1) { s with mem := set_entry s.mem child i 0 } (by omega)
      (fun j h1 h2 => by
        show entry (set_entry s.mem child i 0) parent j % 2 = 0
        rw [entry_set_entry_frame _ _ _ _ _ _ hc (by omega) (by omega) hp hne]
        exact hz j (by omega) (by omega))
    exact ⟨s1, r1, r2⟩

/-- The loop of `clone_pd`, `clone_pdpt` and `vmm_clone_address_space` over entries
that are not present completes without an allocation. -/
theorem clone_table_loop_tail (lower : Phys → Nat → Option (Phys × Nat))
    (on_fail : Phys → Option Phys) (absent : Mem → Nat → Mem) (parent child : Nat)
    (habs : ∀ m i, absent m i = m ∨ absent m i = set_entry m child i 0)
    (hc : child % 4096 = 0) (hp : parent % 4096 = 0) (hne : parent / 4096 ≠ child / 4096) :
    ∀ n i s, i + n ≤ 512 → (∀ j, i ≤ j → j < i + n → entry s.mem parent j % 2 = 0) →
      ∃ s1, clone_table_loop lower on_fail absent parent child n i s = some (s1, true) ∧
        s1.pmm_bitmap = s.pmm_bitmap := by
  intro n
  induction n with
  | zero => intro i s _ _; exact ⟨s, rfl, rfl⟩
  | succ n ih =>
    intro i s hin hz
    simp only [clone_table_loop]
    rw [if_neg (fun h => by
      have := (present_iff _).mp h
      rw [hz i (le_refl _) (by omega)] at this
      exact absurd this (by norm_num))]
    obtain ⟨s1, r1, r2⟩ := ih (i + 1) { s with mem := absent s.mem i } (by omega)
      (fun j h1 h2 => by
        show entry (absent s.mem i) parent j % 2 = 0
        rcases habs s.mem i with e | e
        · rw [e]; exact hz j (by omega) (by omega)
        · rw [e, entry_set_entry_frame _ _ _ _ _ _ hc (by omega) (by omega) hp hne]
          exact hz j (by omega) (by omega))
    exact ⟨s1, r1, r2⟩

/-- The function `clone_pt` succeeds on a page table whose only present entry is
entry 0 when two frames are available. -/
theorem clone_pt_single (s0 s : Phys) (pt e f1 f2 : Nat) (hg : grows s0 s)
    (hpt : pt % 4096 = 0) (hown : tree_owned s0 1 pt)
    (he : entry s0.mem pt 0 = e) (hodd : e % 2 = 1)
    (hrest : ∀ j, 1 ≤ j → j < 512 → entry s0.mem pt j % 2 = 0)
    (hb1 : bitmap_find_free s.pmm_bitmap = some f1) (hf1 : f1 ≠ 0)
    (hb2 : bitmap_find_free (bitmap_set s.pmm_bitmap f1) = some f2) (hf2 : f2 ≠ 0) :
    ∃ s1, clone_pt s pt = some (s1, f1 * 4096) ∧
      s1.pmm_bitmap = bitmap_set (bitmap_set s.pmm_bitmap f1) f2 := by
  obtain ⟨a, ab⟩ := pmm_alloc_page_found s f1 hb1
  have h0 : (pmm_alloc_page s).2 ≠ 0 := by rw [a]; omega
  obtain ⟨a1, a2, a3, a4, a5, a6⟩ := pmm_alloc_page_grows s h0
  have hgA : grows s0 (pmm_alloc_page s).1 := grows_trans _ _ _ hg a1
  have hpar := table_bytes_owned s0 pt hpt hown.1
  have hne : pt / 4096 ≠ (pmm_alloc_page s).2 / 4096 := fun e1 => hown.1 (hg.1 _ (e1 ▸ a3))
  have helt : e < U64 := by rw [← he]; exact read64_lt _ _
  have hb2A : bitmap_find_free (pmm_alloc_page s).1.pmm_bitmap = some f2 := by rw [ab]; exact hb2
  have hfl : e % 4096 < 4096 := Nat.mod_lt _ (by norm_num)
  obtain ⟨c1, c2⟩ := clone_page_found (pmm_alloc_page s).1 (e - e % 4096) (e % 4096) f2 hb2A
    hf2 hfl
  have hf2lt := (bitmap_find_free_spec _ _ hb2A).1
  have hr2 : (clone_page (pmm_alloc_page s).1 (e - e % 4096) (e % 4096)).2 ≠ 0 := by
    rw [c1]; omega
  have hodd0 : entry s0.mem pt 0 % 2 = 1 := by rw [he]; exact hodd
  obtain ⟨d, d1, d2, d3⟩ := clone_page_spec s0 (pmm_alloc_page s).1 (e - e % 4096) (e % 4096)
    hgA (by have := hown.2 0 (by norm_num) hodd0; rw [he] at this; exact this)
    (by omega) hfl hr2
  unfold clone_pt
  dsimp only
  rw [if_neg h0]
  have hstep : clone_pt_loop pt (pmm_alloc_page s).2 (511 + 1) 0 (pmm_alloc_page s).1 =
      clone_pt_loop pt (pmm_alloc_page s).2 511 (0 + 1)
        { (clone_page (pmm_alloc_page s).1 (e - e % 4096) (e % 4096)).1 with
          mem := set_entry (clone_page (pmm_alloc_page s).1 (e - e % 4096) (e % 4096)).1.mem
            (pmm_alloc_page s).2 0
            (clone_page (pmm_alloc_page s).1 (e - e % 4096) (e % 4096)).2 } := by
    rw [clone_pt_loop]
    rw [parent_entry_stable s0 _ pt 0 hgA hpar (by norm_num), he,
      if_pos ((present_iff e).mpr hodd), land_not_fff e helt, land_fff]
    dsimp only
    rw [if_neg]
    rw [entry_set_same, c1, Nat.mod_eq_of_lt]
    · omega
    · unfold U64
      have : BITMAP_WORDS * 32 = 1048576 := rfl
      omega
  have htail := clone_pt_loop_absent pt (pmm_alloc_page s).2 a2 hpt hne 511 (0 + 1)
    { (clone_page (pmm_alloc_page s).1 (e - e % 4096) (e % 4096)).1 with
      mem := set_entry (clone_page (pmm_alloc_page s).1 (e - e % 4096) (e % 4096)).1.mem
        (pmm_alloc_page s).2 0
        (clone_page (pmm_alloc_page s).1 (e - e % 4096) (e % 4096)).2 } (by norm_num)
    (fun j h1 h2 => by
      show entry (set_entry _ _ 0 _) pt j % 2 = 0
      rw [entry_set_entry_frame _ _ _ _ _ _ a2 (by norm_num) (by omega) hpt hne,
        parent_entry_stable s0 _ pt j (grows_trans _ _ _ hgA d2) hpar (by omega)]
      exact hrest j (by omega) (by omega))
  obtain ⟨s1, t1, t2⟩ := htail
  have hfull : clone_pt_loop pt (pmm_alloc_page s).2 512 0 (pmm_alloc_page s).1 =
      some (s1, true) := by
    rw [← t1, ← hstep]
  rw [hfull]
  refine ⟨s1, by simp only [Option.map_some', if_true]; rw [a], ?_⟩
  rw [t2]
  show (clone_page (pmm_alloc_page s).1 (e - e % 4096) (e % 4096)).1.pmm_bitmap = _
  rw [c2, ab]

/-- The functions `clone_pd` and `clone_pdpt` succeed on a table whose only present
entry is entry 0 when a frame is available and the table below can be cloned. -/
theorem clone_table_single (l : Nat) (lower : Phys → Nat → Option (Phys × Nat))
    (hlow : clone_ok l lower) (f : Phys → Nat → Option (Phys × Nat))
    (hf : ∀ s p, f s p =
      if (pmm_alloc_page s).2 = 0 then some ((pmm_alloc_page s).1, 0)
      else (clone_table_loop lower (fun t => pmm_free_page t (pmm_alloc_page s).2)
          (fun m i => set_entry m (pmm_alloc_page s).2 i 0) p (pmm_alloc_page s).2 512 0
          (pmm_alloc_page s).1).map (fun q => (q.1, if q.2 then (pmm_alloc_page s).2 else 0)))
    (s0 s : Phys) (t e f1 : Nat) (B : Nat → Nat) (hg : grows s0 s)
    (ht : t % 4096 = 0) (hown : tree_owned s0 (l + 1) t)
    (he : entry s0.mem t 0 = e) (hodd : e % 2 = 1)
    (hrest : ∀ j, 1 ≤ j → j < 512 → entry s0.mem t j % 2 = 0)
    (hb1 : bitmap_find_free s.pmm_bitmap = some f1) (hf1 : f1 ≠ 0)
    (hlower : ∀ sx, grows s0 sx → sx.pmm_bitmap = bitmap_set s.pmm_bitmap f1 →
      ∃ s1 c, lower sx (e - e % 4096) = some (s1, c) ∧ c ≠ 0 ∧ s1.pmm_bitmap = B) :
    ∃ s1, f s t = some (s1, f1 * 4096) ∧ s1.pmm_bitmap = B := by
  obtain ⟨a, ab⟩ := pmm_alloc_page_found s f1 hb1
  have h0 : (pmm_alloc_page s).2 ≠ 0 := by rw [a]; omega
  obtain ⟨a1, a2, a3, a4, a5, a6⟩ := pmm_alloc_page_grows s h0
  have hgA : grows s0 (pmm_alloc_page s).1 := grows_trans _ _ _ hg a1
  have hpar := table_bytes_owned s0 t ht hown.1
  have hne : t / 4096 ≠ (pmm_alloc_page s).2 / 4096 := fun e1 => hown.1 (hg.1 _ (e1 ▸ a3))
  have helt : e < U64 := by rw [← he]; exact read64_lt _ _
  have hodd0 : entry s0.mem t 0 % 2 = 1 := by rw [he]; exact hodd
  obtain ⟨sr, c, l1, l2, l3⟩ := hlower _ hgA ab
  obtain ⟨g1, g2⟩ := hlow s0 _ sr _ c hgA
    (by have := hown.2 0 (by norm_num) hodd0; rw [he] at this; exact this) (by omega) l1 l2
  rw [hf, if_neg h0]
  have hstep : clone_table_loop lower (fun t => pmm_free_page t (pmm_alloc_page s).2)
        (fun m i => set_entry m (pmm_alloc_page s).2 i 0) t (pmm_alloc_page s).2 (511 + 1) 0
        (pmm_alloc_page s).1 =
      clone_table_loop lower (fun t => pmm_free_page t (pmm_alloc_page s).2)
        (fun m i => set_entry m (pmm_alloc_page s).2 i 0) t (pmm_alloc_page s).2 511 (0 + 1)
        { sr with mem := set_entry sr.mem (pmm_alloc_page s).2 0 (c ||| (entry sr.mem t 0 &&& 0xFFF)) } := by
    rw [clone_table_loop]
    rw [parent_entry_stable s0 _ t 0 hgA hpar (by norm_num), he,
      if_pos ((present_iff e).mpr hodd), land_not_fff e helt, l1]
    dsimp only
    rw [if_neg l2]
  have htail := clone_table_loop_tail lower (fun t => pmm_free_page t (pmm_alloc_page s).2)
    (fun m i => set_entry m (pmm_alloc_page s).2 i 0) t (pmm_alloc_page s).2
    (fun _ _ => Or.inr rfl) a2 ht hne 511 (0 + 1)
    { sr with mem := set_entry sr.mem (pmm_alloc_page s).2 0 (c ||| (entry sr.mem t 0 &&& 0xFFF)) } (by norm_num)
    (fun j h1 h2 => by
      show entry (set_entry _ _ 0 _) t j % 2 = 0
      rw [entry_set_entry_frame _ _ _ _ _ _ a2 (by norm_num) (by omega) ht hne,
        parent_entry_stable s0 _ t j (grows_trans _ _ _ hgA g1) hpar (by omega)]
      exact hrest j (by omega) (by omega))
  obtain ⟨s1, t1, t2⟩ := htail
  have hfull : clone_table_loop lower (fun t => pmm_free_page t (pmm_alloc_page s).2)
        (fun m i => set_entry m (pmm_alloc_page s).2 i 0) t (pmm_alloc_page s).2 512 0
        (pmm_alloc_page s).1 = some (s1, true) := by
    rw [← t1, ← hstep]
  rw [hfull]
  exact ⟨s1, by simp only [Option.map_some', if_true]; rw [a], by rw [t2]; exact l3⟩

/-- The state in which the user-half loop of `vmm_clone_address_space` starts is
reached by allocation only. -/
theorem clone_root_grows (s : Phys) (P : Nat) (h0 : (pmm_alloc_page s).2 ≠ 0) :
    grows s { (pmm_alloc_page s).1 with
      mem := copy_entries P (pmm_alloc_page s).2 256 256
        (clear_entries (pmm_alloc_page s).2 512 (pmm_alloc_page s).1.mem) } := by
  obtain ⟨a1, a2, a3, a4, a5, a6⟩ := pmm_alloc_page_grows s h0
  refine ⟨fun f hf => a1.1 f hf, fun a ha => ?_⟩
  have hne : a / 4096 ≠ (pmm_alloc_page s).2 / 4096 := fun e => ha (e ▸ a3)
  show copy_entries _ _ _ _ _ a = s.mem a
  rw [copy_entries_other _ _ _ _ _ _ (by omega), clear_entries_other _ _ _ _ (by omega)]
  exact a1.2 a ha

/-- The function `vmm_clone_address_space` succeeds on an address space whose only
present user-half entry is entry 0 when a frame is available and the PDPT below can be
cloned. -/
theorem clone_space_single (kpml4 : Nat) (s : Phys) (P e f1 : Nat) (B : Nat → Nat)
    (hP : P % 4096 = 0) (hown : space_owned s P)
    (he : entry s.mem P 0 = e) (hodd : e % 2 = 1)
    (hrest : ∀ j, 1 ≤ j → j < 256 → entry s.mem P j % 2 = 0)
    (hb1 : bitmap_find_free s.pmm_bitmap = some f1) (hf1 : f1 ≠ 0)
    (hlower : ∀ sx, grows s sx → sx.pmm_bitmap = bitmap_set s.pmm_bitmap f1 →
      ∃ s1 c, clone_pdpt sx (e - e % 4096) = some (s1, c) ∧ c ≠ 0 ∧ s1.pmm_bitmap = B) :
    ∃ s1, vmm_clone_address_space kpml4 s P = some (s1, f1 * 4096) := by
  obtain ⟨a, ab⟩ := pmm_alloc_page_found s f1 hb1
  have h0 : (pmm_alloc_page s).2 ≠ 0 := by rw [a]; omega
  obtain ⟨a1, a2, a3, a4, a5, a6⟩ := pmm_alloc_page_grows s h0
  have hgA := clone_root_grows s P h0
  have hne : P / 4096 ≠ (pmm_alloc_page s).2 / 4096 := fun e1 =>
    hown.1 P (le_refl _) (by omega) (e1 ▸ a3)
  have helt : e < U64 := by rw [← he]; exact read64_lt _ _
  have hodd0 : entry s.mem P 0 % 2 = 1 := by rw [he]; exact hodd
  unfold vmm_clone_address_space
  dsimp only
  rw [if_neg h0]
  generalize hst : ({ (pmm_alloc_page s).1 with
      mem := copy_entries P (pmm_alloc_page s).2 256 256
        (clear_entries (pmm_alloc_page s).2 512 (pmm_alloc_page s).1.mem) } : Phys) = st at hgA
  have hstb : st.pmm_bitmap = bitmap_set s.pmm_bitmap f1 := by rw [← hst]; exact ab
  obtain ⟨sr, c, l1, l2, l3⟩ := hlower st hgA hstb
  obtain ⟨g1, g2⟩ := clone_pdpt_ok s st sr _ c hgA
    (by have := hown.2 0 (by norm_num) hodd0; rw [he] at this; exact this) (by omega) l1 l2
  have hstep : clone_table_loop clone_pdpt
        (fun t => vmm_destroy_address_space kpml4 t (pmm_alloc_page s).2)
        (fun m _ => m) P (pmm_alloc_page s).2 (255 + 1) 0 st =
      clone_table_loop clone_pdpt
        (fun t => vmm_destroy_address_space kpml4 t (pmm_alloc_page s).2)
        (fun m _ => m) P (pmm_alloc_page s).2 255 (0 + 1)
        { sr with mem := set_entry sr.mem (pmm_alloc_page s).2 0 (c ||| (entry sr.mem P 0 &&& 0xFFF)) } := by
    rw [clone_table_loop]
    rw [parent_entry_stable s st P 0 hgA hown.1 (by norm_num), he,
      if_pos ((present_iff e).mpr hodd), land_not_fff e helt, l1]
    dsimp only
    rw [if_neg l2]
  have htail := clone_table_loop_tail clone_pdpt
    (fun t => vmm_destroy_address_space kpml4 t (pmm_alloc_page s).2)
    (fun m _ => m) P (pmm_alloc_page s).2
    (fun _ _ => Or.inl rfl) a2 hP hne 255 (0 + 1)
    { sr with mem := set_entry sr.mem (pmm_alloc_page s).2 0 (c ||| (entry sr.mem P 0 &&& 0xFFF)) } (by norm_num)
    (fun j h1 h2 => by
      show entry (set_entry _ _ 0 _) P j % 2 = 0
      rw [entry_set_entry_frame _ _ _ _ _ _ a2 (by norm_num) (by omega) hP hne,
        parent_entry_stable s _ P j (grows_trans _ _ _ hgA g1) hown.1 (by omega)]
      exact hrest j (by omega) (by omega))
  obtain ⟨s1, t1, t2⟩ := htail
  have hfull : clone_table_loop clone_pdpt
        (fun t => vmm_destroy_address_space kpml4 t (pmm_alloc_page s).2)
        (fun m _ => m) P (pmm_alloc_page s).2 256 0 st = some (s1, true) := by
    rw [← t1, ← hstep]
  rw [hfull]
  exact ⟨s1, by simp only [Option.map_some', if_true]; rw [a]⟩

theorem mem2_zero (a : Nat) (h1 : a < 0x400000 ∨ 0x400008 ≤ a)
    (h2 : a < 0x401000 ∨ 0x401008 ≤ a) (h3 : a < 0x402000 ∨ 0x402008 ≤ a)
    (h4 : a < 0x403000 ∨ 0x403008 ≤ a) (h5 : a ≠ 0x404000) : mem2 a = 0 := by
  unfold mem2 set_entry
  rw [write64_other _ _ _ _ (by omega), write64_other _ _ _ _ (by omega),
    write64_other _ _ _ _ (by omega), write64_other _ _ _ _ (by omega)]
  unfold write8
  rw [if_neg h5]

/-- The tables of `mem2` have no entry but entry 0. -/
theorem entry_mem2_rest (t j : Nat)
    (ht : t = 0x400000 ∨ t = 0x401000 ∨ t = 0x402000 ∨ t = 0x403000)
    (h1 : 1 ≤ j) (h2 : j < 512) : entry mem2 t j = 0 := by
  have hz : ∀ k, k < 8 → mem2 (t + 8 * j + k) = 0 := by
    intro k hk
    rcases ht with rfl | rfl | rfl | rfl <;>
      exact mem2_zero _ (by omega) (by omega) (by omega) (by omega) (by omega)
  have h0 := hz 0 (by norm_num)
  rw [Nat.add_zero] at h0
  unfold entry read64 read8
  rw [h0, hz 1 (by norm_num), hz 2 (by norm_num), hz 3 (by norm_num), hz 4 (by norm_num),
    hz 5 (by norm_num), hz 6 (by norm_num), hz 7 (by norm_num)]
  norm_num

theorem tree_owned_single (s : Phys) (l t e : Nat) (hfree : ¬ frame_free s (t / 4096))
    (he : entry s.mem t 0 = e)
    (hrest : ∀ j, 1 ≤ j → j < 512 → entry s.mem t j % 2 = 0)
    (hsub : tree_owned s l (e - e % 4096)) : tree_owned s (l + 1) t := by
  refine ⟨hfree, fun i hi ho => ?_⟩
  by_cases h0 : i = 0
  · subst h0; rw [he]; exact hsub
  · rw [hrest i (by omega) hi] at ho
    exact absurd ho (by norm_num)

theorem mem2_rest_even (t j : Nat)
    (ht : t = 0x400000 ∨ t = 0x401000 ∨ t = 0x402000 ∨ t = 0x403000)
    (h1 : 1 ≤ j) (h2 : j < 512) : entry phys2.mem t j % 2 = 0 := by
  show entry mem2 t j % 2 = 0
  rw [entry_mem2_rest t j ht h1 h2]

theorem owned_page2 : tree_owned phys2 0 0x404000 := by
  show ¬ frame_free phys2 (0x404000 / 4096)
  decide

theorem owned_pt2 : tree_owned phys2 1 0x403000 :=
  tree_owned_single phys2 0 0x403000 0x404007 (by decide) (by decide)
    (fun j h1 h2 => mem2_rest_even _ j (by simp) h1 h2) owned_page2

theorem owned_pd2 : tree_owned phys2 2 0x402000 :=
  tree_owned_single phys2 1 0x402000 0x403007 (by decide) (by decide)
    (fun j h1 h2 => mem2_rest_even _ j (by simp) h1 h2) owned_pt2

theorem owned_pdpt2 : tree_owned phys2 3 0x401000 :=
  tree_owned_single phys2 2 0x401000 0x402007 (by decide) (by decide)
    (fun j h1 h2 => mem2_rest_even _ j (by simp) h1 h2) owned_pd2

theorem space_owned_phys2 : space_owned phys2 0x400000 := by
  refine ⟨fun a h1 h2 => ?_, fun i hi ho => ?_⟩
  · have : a / 4096 = 1024 := by omega
    rw [this]; decide
  · by_cases h0 : i = 0
    · subst h0
      have e : entry phys2.mem 0x400000 0 = 0x401007 := by decide
      rw [e]; exact owned_pdpt2
    · rw [mem2_rest_even _ i (by simp) (by omega) (by omega)] at ho
      exact absurd ho (by norm_num)

/-- Cloning the page table of `phys2` succeeds in every state reached by allocation in
which frames 1029 to 1031 have been handed out. -/
theorem clone_pt_phys2 (sx : Phys) (hg : grows phys2 sx)
    (hb : sx.pmm_bitmap = bitmap_set (bitmap_set (bitmap_set phys2.pmm_bitmap 1029) 1030) 1031) :
    ∃ s1 c, clone_pt sx 0x403000 = some (s1, c) ∧ c ≠ 0 ∧
      s1.pmm_bitmap = bitmap_set (bitmap_set (bitmap_set (bitmap_set (bitmap_set
        phys2.pmm_bitmap 1029) 1030) 1031) 1032) 1033 := by
  obtain ⟨s1, h1, h2⟩ := clone_pt_single phys2 sx 0x403000 0x404007 1032 1033 hg (by norm_num)
    owned_pt2 (by decide) (by norm_num) (fun j h1 h2 => mem2_rest_even _ j (by simp) h1 h2)
    (by rw [hb]; decide) (by norm_num) (by rw [hb]; decide) (by norm_num)
  exact ⟨s1, _, h1, by norm_num, by rw [h2, hb]⟩

theorem clone_pd_phys2 (sx : Phys) (hg : grows phys2 sx)
    (hb : sx.pmm_bitmap = bitmap_set (bitmap_set phys2.pmm_bitmap 1029) 1030) :
    ∃ s1 c, clone_pd sx 0x402000 = some (s1, c) ∧ c ≠ 0 ∧
      s1.pmm_bitmap = bitmap_set (bitmap_set (bitmap_set (bitmap_set (bitmap_set
        phys2.pmm_bitmap 1029) 1030) 1031) 1032) 1033 := by
  obtain ⟨s1, h1, h2⟩ := clone_table_single 1 clone_pt clone_pt_ok clone_pd (fun _ _ => rfl)
    phys2 sx 0x402000 0x403007 1031 _ hg (by norm_num) owned_pd2 (by decide) (by norm_num)
    (fun j h1 h2 => mem2_rest_even _ j (by simp) h1 h2) (by rw [hb]; decide) (by norm_num)
    (fun sy hgy hby => clone_pt_phys2 sy hgy (by rw [hby, hb]))
  exact ⟨s1, _, h1, by norm_num, h2⟩

theorem clone_pdpt_phys2 (sx : Phys) (hg : grows phys2 sx)
    (hb : sx.pmm_bitmap = bitmap_set phys2.pmm_bitmap 1029) :
    ∃ s1 c, clone_pdpt sx 0x401000 = some (s1, c) ∧ c ≠ 0 ∧
      s1.pmm_bitmap = bitmap_set (bitmap_set (bitmap_set (bitmap_set (bitmap_set
        phys2.pmm_bitmap 1029) 1030) 1031) 1032) 1033 := by
  obtain ⟨s1, h1, h2⟩ := clone_table_single 2 clone_pd clone_pd_ok clone_pdpt (fun _ _ => rfl)
    phys2 sx 0x401000 0x402007 1030 _ hg (by norm_num) owned_pdpt2 (by decide) (by norm_num)
    (fun j h1 h2 => mem2_rest_even _ j (by simp) h1 h2) (by rw [hb]; decide) (by norm_num)
    (fun sy hgy hby => clone_pd_phys2 sy hgy (by rw [hby, hb]))
  exact ⟨s1, _, h1, by norm_num, h2⟩

/-- The function `vmm_clone_address_space` succeeds on the address space of `phys2`. -/
theorem clone_phys2 (kpml4 : Nat) :
    ∃ s1, vmm_clone_address_space kpml4 phys2 0x400000 = some (s1, 0x405000) := by
  obtain ⟨s1, h1⟩ := clone_space_single kpml4 phys2 0x400000 0x401007 1029 _ (by norm_num)
    space_owned_phys2 (by decide) (by norm_num)
    (fun j h1 h2 => mem2_rest_even _ j (by simp) h1 (by omega)) (by decide) (by norm_num)
    (fun sy hgy hby => clone_pdpt_phys2 sy hgy hby)
  exact ⟨s1, h1⟩

theorem vmm_leaf_lt (m : Mem) (root v e : Nat) (h : vmm_leaf m root v = some e) : e < U64 := by
  unfold vmm_leaf at h
  dsimp only at h
  split_ifs at h
  simp only [Option.some.injEq] at h
  rw [← h]
  exact read64_lt _ _

/-- After the clone of the address space of `phys2`, virtual address 0 is mapped in
parent and child, and the parent's page still starts with the byte `0x42`. -/
theorem clone_phys2_leaves (kpml4 : Nat) (s1 : Phys)
    (h : vmm_clone_address_space kpml4 phys2 0x400000 = some (s1, 0x405000)) :
    vmm_leaf s1.mem 0x400000 0 = some 0x404007 ∧
    (vmm_leaf s1.mem 0x405000 0).isSome = true ∧
    vmm_get_physical s1.mem 0x400000 0 = 0x404000 ∧
    read8 s1.mem 0x404000 = 0x42 := by
  have h0 : vmm_leaf phys2.mem 0x400000 0 = some 0x404007 := by decide
  have hg := (vmm_clone_address_space_spec kpml4 phys2 s1 0x400000 0x405000
    space_owned_phys2 h (by norm_num)).1
  rcases clone_leaf_relation kpml4 phys2 s1 0x400000 0x405000 space_owned_phys2 h
    (by norm_num) 0 (by decide) with ⟨_, _, n3⟩ | ⟨eP, eC, l1, l2, l3, _⟩
  · rw [h0] at n3; exact absurd n3 (by simp)
  · rw [h0] at l3
    simp only [Option.some.injEq] at l3
    subst l3
    refine ⟨l1, by rw [l2]; rfl, ?_, ?_⟩
    · rw [phys_of_leaf _ _ _ _ l1 (by unfold U64; norm_num)]
    · have hm : s1.mem 0x404000 = phys2.mem 0x404000 := hg.2 _ (by decide)
      unfold read8
      rw [hm]
      decide

theorem clone_preserves_user_mappings_witness :
    ∃ s1, space_owned phys2 0x400000 ∧
      vmm_clone_address_space 0x1000000 phys2 0x400000 = some (s1, 0x405000) ∧
      (0x405000 : Nat) ≠ 0 ∧
      ((∀ v, PML4_INDEX v < 256 →
        (vmm_leaf s1.mem 0x405000 v).isSome = (vmm_leaf s1.mem 0x400000 v).isSome ∧
        (∀ eC eP, vmm_leaf s1.mem 0x405000 v = some eC → vmm_leaf s1.mem 0x400000 v = some eP →
          eC &&& 0xFFF = eP &&& 0xFFF) ∧
        (∀ off, off < 4096 →
          read8 s1.mem (vmm_get_physical s1.mem 0x405000 v -
            vmm_get_physical s1.mem 0x405000 v % 4096 + off) =
          read8 s1.mem (vmm_get_physical s1.mem 0x400000 v -
            vmm_get_physical s1.mem 0x400000 v % 4096 + off)) ∧
        vmm_leaf s1.mem 0x400000 v = vmm_leaf phys2.mem 0x400000 v) ∧
      (∀ i, 256 ≤ i → i < 512 → entry s1.mem 0x405000 i = entry s1.mem 0x400000 i)) ∧
      (vmm_leaf s1.mem 0x405000 0).isSome = true ∧
      read8 s1.mem (vmm_get_physical s1.mem 0x405000 0) = 0x42 := by
  obtain ⟨s1, h⟩ := clone_phys2 0x1000000
  have T := clone_preserves_user_mappings 0x1000000 phys2 s1 0x400000 0x405000
    space_owned_phys2 h (by norm_num)
  obtain ⟨p1, p2, p3, p4⟩ := clone_phys2_leaves 0x1000000 s1 h
  obtain ⟨t1, _, t3, _⟩ := T.1 0 (by decide)
  have hC : (vmm_leaf s1.mem 0x405000 0).isSome = true := by rw [t1, p1]; rfl
  refine ⟨s1, space_owned_phys2, h, by norm_num, T, hC, ?_⟩
  obtain ⟨eC, heC⟩ := Option.isSome_iff_exists.mp hC
  have hpC := phys_of_leaf _ _ _ _ heC (vmm_leaf_lt _ _ _ _ heC)
  have hb := t3 0 (by norm_num)
  rw [p3] at hb
  have e1 : vmm_get_physical s1.mem 0x405000 0 - vmm_get_physical s1.mem 0x405000 0 % 4096 + 0 =
      vmm_get_physical s1.mem 0x405000 0 := by rw [hpC]; omega
  rw [e1] at hb
  rw [hb]
  exact p4

theorem clone_frames_disjoint_witness :
    ∃ s1, space_owned phys2 0x400000 ∧
      vmm_clone_address_space 0x1000000 phys2 0x400000 = some (s1, 0x405000) ∧
      (0x405000 : Nat) ≠ 0 ∧
      ((∀ f, user_reach s1.mem 0x405000 f →
        frame_free phys2 f ∧ ¬ frame_free s1 f ∧ ¬ user_reach s1.mem 0x400000 f ∧
          ¬ user_reach phys2.mem 0x400000 f) ∧
      (∀ v b, PML4_INDEX v < 256 → (vmm_leaf s1.mem 0x405000 v).isSome = true →
        (vmm_leaf s1.mem 0x400000 v).isSome = true →
        vmm_get_physical s1.mem 0x405000 v ≠ vmm_get_physical s1.mem 0x400000 v ∧
        read8 (write8 s1.mem (vmm_get_physical s1.mem 0x405000 v) b)
            (vmm_get_physical s1.mem 0x400000 v) =
          read8 s1.mem (vmm_get_physical s1.mem 0x400000 v) ∧
        read8 (write8 s1.mem (vmm_get_physical s1.mem 0x400000 v) b)
            (vmm_get_physical s1.mem 0x405000 v) =
          read8 s1.mem (vmm_get_physical s1.mem 0x405000 v))) ∧
      read8 (write8 s1.mem (vmm_get_physical s1.mem 0x405000 0) 0x99) 0x404000 = 0x42 := by
  obtain ⟨s1, h⟩ := clone_phys2 0x1000000
  have T := clone_frames_disjoint 0x1000000 phys2 s1 0x400000 0x405000
    space_owned_phys2 h (by norm_num)
  obtain ⟨p1, p2, p3, p4⟩ := clone_phys2_leaves 0x1000000 s1 h
  refine ⟨s1, space_owned_phys2, h, by norm_num, T, ?_⟩
  obtain ⟨_, r1, _⟩ := T.2 0 0x99 (by decide) p2 (by rw [p1]; rfl)
  rw [p3] at r1
  rw [r1]
  exact p4

/-! ## The ready queue -/

theorem queue_links_congr (k k1 : Kernel) (ht : k1.ready_queue_tail = k.ready_queue_tail) :
    ∀ (l : List Nat) (prev : Nat),
      (∀ x, x ∈ l → (k1.procs x).prev = (k.procs x).prev ∧ (k1.procs x).next = (k.procs x).next) →
      queue_links k prev l → queue_links k1 prev l
  | [], prev, _, h => by
    simp only [queue_links] at h ⊢
    rw [ht, h]
  | p :: l, prev, hx, h => by
    simp only [queue_links] at h ⊢
    obtain ⟨h0, h1, h2, h3⟩ := h
    have e := hx p (List.mem_cons_self _ _)
    refine ⟨h0, by rw [e.1, h1], by rw [e.2, h2], ?_⟩
    exact queue_links_congr k k1 ht l p (fun x hm => hx x (List.mem_cons_of_mem _ hm)) h3

theorem queue_links_nonzero (k : Kernel) :
    ∀ (l : List Nat) (prev : Nat), queue_links k prev l → ∀ x, x ∈ l → x ≠ 0
  | [], _, _, x, hm => by cases hm
  | p :: l, prev, h, x, hm => by
    simp only [queue_links] at h
    rcases List.mem_cons.1 hm with e | e
    · rw [e]; exact h.1
    · exact queue_links_nonzero k l p h.2.2.2 x e

/-- The tail pointer of a non-empty queue segment is its last PCB. -/
theorem queue_links_tail (k : Kernel) :
    ∀ (l : List Nat) (prev : Nat), queue_links k prev l →
      k.ready_queue_tail = (prev :: l).getLast (List.cons_ne_nil _ _)
  | [], prev, h => by
    simp only [queue_links] at h
    simp [h]
  | p :: l, prev, h => by
    simp only [queue_links] at h
    rw [queue_links_tail k l p h.2.2.2]
    simp

theorem ready_queue_push_procs (k : Kernel) (p q : Nat) (hpt : k.ready_queue_tail ≠ p) :
    (ready_queue_push k p).procs q =
      if q = p then { k.procs p with next := 0, prev := k.ready_queue_tail }
      else if q = k.ready_queue_tail ∧ k.ready_queue_tail ≠ 0 then { k.procs q with next := p }
      else k.procs q := by
  unfold ready_queue_push
  dsimp only
  have e0 : ∀ K : Kernel, ({ K with ready_queue_tail := p } : Kernel).procs = K.procs := fun _ => rfl
  rw [e0]
  have h2 : ∀ q, (set_proc (set_proc k p (fun x => { x with next := 0 })) p
      (fun x => { x with prev := (set_proc k p (fun x => { x with next := 0 })).ready_queue_tail })).procs q
      = if q = p then { k.procs p with next := 0, prev := k.ready_queue_tail } else k.procs q := by
    intro q
    rw [set_proc_procs]
    by_cases hqp : q = p
    · rw [if_pos hqp, if_pos hqp, set_proc_procs, if_pos rfl]; rfl
    · rw [if_neg hqp, if_neg hqp, set_proc_procs, if_neg hqp]
  have ht2 : (set_proc (set_proc k p (fun x => { x with next := 0 })) p
      (fun x => { x with prev := (set_proc k p (fun x => { x with next := 0 })).ready_queue_tail })).ready_queue_tail
        = k.ready_queue_tail := rfl
  generalize (set_proc (set_proc k p (fun x => { x with next := 0 })) p
      (fun x => { x with prev := (set_proc k p (fun x => { x with next := 0 })).ready_queue_tail })) = k2
      at h2 ht2 ⊢
  rw [ht2]
  by_cases ht : k.ready_queue_tail ≠ 0
  · rw [if_pos ht, set_proc_procs]
    by_cases hq : q = k.ready_queue_tail
    · have hqp : q ≠ p := fun h => hpt (hq.symm.trans h)
      rw [if_pos hq, if_neg hqp, if_pos ⟨hq, ht⟩, h2, ← hq, if_neg hqp]
    · rw [if_neg hq, h2, if_neg (fun h : q = k.ready_queue_tail ∧ _ => hq h.1)]
  · rw [if_neg ht]
    show k2.procs q = _
    rw [h2, if_neg (fun h : q = k.ready_queue_tail ∧ k.ready_queue_tail ≠ 0 => ht h.2)]

theorem ready_queue_push_tail (k : Kernel) (p : Nat) :
    (ready_queue_push k p).ready_queue_tail = p := rfl

theorem ready_queue_push_head (k : Kernel) (p : Nat) :
    (ready_queue_push k p).ready_queue_head =
      if k.ready_queue_tail ≠ 0 then k.ready_queue_head else p := by
  unfold ready_queue_push
  dsimp only
  by_cases ht : k.ready_queue_tail ≠ 0
  · have ht2 : (set_proc (set_proc k p fun x => { x with next := 0 }) p fun x =>
        { x with prev := (set_proc k p fun x => { x with next := 0 }).ready_queue_tail }).ready_queue_tail
          = k.ready_queue_tail := rfl
    rw [ht2, if_pos ht, if_pos ht]; rfl
  · have ht2 : (set_proc (set_proc k p fun x => { x with next := 0 }) p fun x =>
        { x with prev := (set_proc k p fun x => { x with next := 0 }).ready_queue_tail }).ready_queue_tail
          = k.ready_queue_tail := rfl
    rw [ht2, if_neg ht, if_neg ht]

theorem ready_queue_pop_spec (k : Kernel) (p n : Nat) (hh : k.ready_queue_head = p) (hp : p ≠ 0)
    (hprev : (k.procs p).prev = 0) (hnext : (k.procs p).next = n) (hn : n ≠ p) :
    (ready_queue_pop k).2 = p ∧
    (ready_queue_pop k).1.ready_queue_head = n ∧
    (ready_queue_pop k).1.ready_queue_tail = (if n ≠ 0 then k.ready_queue_tail else 0) ∧
    ∀ q, (ready_queue_pop k).1.procs q =
      if q = p then { k.procs p with next := 0, prev := 0 }
      else if q = n ∧ n ≠ 0 then { k.procs q with prev := 0 }
      else k.procs q := by
  unfold ready_queue_pop
  rw [hh, if_pos hp]
  refine ⟨rfl, ?_⟩
  unfold ready_queue_remove
  dsimp only
  rw [hprev, hnext, if_neg (show ¬ ((0 : Nat) ≠ 0) by simp)]
  have e1 : ({ k with ready_queue_head := n } : Kernel).procs = k.procs := rfl
  rw [e1, hnext, hprev]
  by_cases hn0 : n ≠ 0
  · rw [if_pos hn0, if_pos hn0]
    refine ⟨rfl, rfl, fun q => ?_⟩
    rw [set_proc_procs]
    by_cases hqp : q = p
    · rw [if_pos hqp, if_pos hqp, set_proc_procs, if_pos rfl, set_proc_procs, if_neg hn.symm]
    · rw [if_neg hqp, if_neg hqp, set_proc_procs, if_neg hqp, set_proc_procs]
      by_cases hqn : q = n
      · rw [if_pos hqn, if_pos ⟨hqn, hn0⟩, hqn]
      · rw [if_neg hqn, if_neg (fun h : q = n ∧ _ => hqn h.1)]
  · rw [if_neg hn0, if_neg hn0]
    refine ⟨rfl, rfl, fun q => ?_⟩
    rw [set_proc_procs]
    by_cases hqp : q = p
    · rw [if_pos hqp, if_pos hqp, set_proc_procs, if_pos rfl]
    · rw [if_neg hqp, if_neg hqp, set_proc_procs, if_neg hqp,
        if_neg (fun h : q = n ∧ n ≠ 0 => hn0 h.2)]

theorem ready_queue_pop_empty (k : Kernel) (hh : k.ready_queue_head = 0) :
    ready_queue_pop k = (k, 0) := by
  unfold ready_queue_pop
  rw [hh, if_neg (by simp)]

theorem getLast_mem_of_cons (a : Nat) (l : List Nat) (h : l ≠ []) :
    (a :: l).getLast (List.cons_ne_nil _ _) ∈ l := by
  rw [List.getLast_cons h]
  exact List.getLast_mem h

theorem push_links (k : Kernel) (p : Nat) (hp : p ≠ 0) (hpt : k.ready_queue_tail ≠ p) :
    ∀ (l : List Nat) (prev : Nat), queue_links k prev l → l.Nodup → p ∉ l →
      queue_links (ready_queue_push k p) prev (l ++ [p])
  | [], prev, h, _, _ => by
    simp only [queue_links] at h
    simp only [List.nil_append, queue_links, List.headD_nil]
    rw [ready_queue_push_procs k p p hpt, if_pos rfl]
    exact ⟨hp, h, rfl, rfl⟩
  | x :: l, prev, h, hnd, hpl => by
    have hlinks := h
    simp only [queue_links] at h
    obtain ⟨h0, h1, h2, h3⟩ := h
    have hxp : x ≠ p := fun e => hpl (e ▸ List.mem_cons_self _ _)
    have hpl2 : p ∉ l := fun hm => hpl (List.mem_cons_of_mem _ hm)
    have ih := push_links k p hp hpt l x h3 (List.nodup_cons.1 hnd).2 hpl2
    simp only [List.cons_append, queue_links]
    refine ⟨h0, ?_, ?_, ih⟩
    · rw [ready_queue_push_procs k p x hpt, if_neg hxp]
      by_cases ht : x = k.ready_queue_tail ∧ k.ready_queue_tail ≠ 0
      · rw [if_pos ht]; exact h1
      · rw [if_neg ht]; exact h1
    · rw [ready_queue_push_procs k p x hpt, if_neg hxp]
      cases l with
      | nil =>
        simp only [queue_links] at h3
        rw [if_pos ⟨h3.symm, by rw [h3]; exact h0⟩]
        rfl
      | cons y l2 =>
        have ht := queue_links_tail k (y :: l2) x h3
        have hm : k.ready_queue_tail ∈ y :: l2 := by
          rw [ht]; exact getLast_mem_of_cons x (y :: l2) (List.cons_ne_nil _ _)
        have hxt : x ≠ k.ready_queue_tail := fun e => (List.nodup_cons.1 hnd).1 (e ▸ hm)
        rw [if_neg (fun h : x = k.ready_queue_tail ∧ _ => hxt h.1)]
        exact h2

theorem queue_is_tail (k : Kernel) (l : List Nat) (h : queue_is k l) :
    k.ready_queue_tail = 0 ∧ l = [] ∨ k.ready_queue_tail ∈ l := by
  cases l with
  | nil =>
    left
    have := h.2.2
    simp only [queue_links] at this
    exact ⟨this, rfl⟩
  | cons x l =>
    right
    rw [queue_links_tail k (x :: l) 0 h.2.2]
    exact getLast_mem_of_cons 0 (x :: l) (List.cons_ne_nil _ _)

/-- Pushing a PCB that is not in the queue appends it. -/
theorem queue_is_push (k : Kernel) (l : List Nat) (p : Nat) (h : queue_is k l) (hp : p ≠ 0)
    (hpl : p ∉ l) : queue_is (ready_queue_push k p) (l ++ [p]) := by
  have hpt : k.ready_queue_tail ≠ p := by
    rcases queue_is_tail k l h with ⟨e, _⟩ | hm
    · rw [e]; exact hp.symm
    · exact fun e => hpl (e ▸ hm)
  refine ⟨?_, ?_, push_links k p hp hpt l 0 h.2.2 h.1 hpl⟩
  · exact List.Nodup.append h.1 (List.nodup_singleton p) (by
      intro a ha hb
      rw [List.mem_singleton] at hb
      exact hpl (hb ▸ ha))
  · rw [ready_queue_push_head]
    rcases queue_is_tail k l h with ⟨e, el⟩ | hm
    · rw [e, if_neg (by simp), el]; rfl
    · have hne : k.ready_queue_tail ≠ 0 := queue_links_nonzero k l 0 h.2.2 _ hm
      rw [if_pos hne, h.2.1]
      cases l with
      | nil => cases hm
      | cons x l => rfl

/-- Popping a non-empty queue returns its first PCB, unlinked, and leaves the rest. -/
theorem queue_is_pop (k : Kernel) (p : Nat) (l : List Nat) (h : queue_is k (p :: l)) :
    (ready_queue_pop k).2 = p ∧ queue_is (ready_queue_pop k).1 l ∧
    ((ready_queue_pop k).1.procs p).next = 0 ∧ ((ready_queue_pop k).1.procs p).prev = 0 := by
  obtain ⟨hnd, hh, hl⟩ := h
  simp only [queue_links] at hl
  obtain ⟨hp0, hprev, hnext, hrest⟩ := hl
  have hpl : p ∉ l := (List.nodup_cons.1 hnd).1
  have hn : l.headD 0 ≠ p := by
    cases l with
    | nil => exact hp0.symm
    | cons y l => exact fun e => hpl (e ▸ List.mem_cons_self _ _)
  obtain ⟨r1, r2, r3, r4⟩ := ready_queue_pop_spec k p (l.headD 0) hh hp0 hprev hnext hn
  refine ⟨r1, ⟨(List.nodup_cons.1 hnd).2, r2, ?_⟩, ?_, ?_⟩
  · cases l with
    | nil =>
      simp only [queue_links]
      rw [r3]
      simp
    | cons y l2 =>
      simp only [queue_links] at hrest ⊢
      obtain ⟨hy0, _, hynext, hrest2⟩ := hrest
      have hyp : y ≠ p := fun e => hpl (e ▸ List.mem_cons_self _ _)
      refine ⟨hy0, ?_, ?_, ?_⟩
      · rw [r4, if_neg hyp,
          if_pos (show y = (y :: l2).headD 0 ∧ (y :: l2).headD 0 ≠ 0 from ⟨rfl, hy0⟩)]
      · rw [r4, if_neg hyp,
          if_pos (show y = (y :: l2).headD 0 ∧ (y :: l2).headD 0 ≠ 0 from ⟨rfl, hy0⟩)]
        exact hynext
      · refine queue_links_congr k _ ?_ l2 y ?_ hrest2
        · rw [r3, if_pos (show (y :: l2).headD 0 ≠ 0 from hy0)]
        · intro x hx
          have hxp : x ≠ p := fun e => hpl (e ▸ List.mem_cons_of_mem _ hx)
          have hxy : x ≠ y := fun e => (List.nodup_cons.1 (List.nodup_cons.1 hnd).2).1 (e ▸ hx)
          rw [r4, if_neg hxp,
            if_neg (fun h : x = (y :: l2).headD 0 ∧ (y :: l2).headD 0 ≠ 0 => hxy h.1)]
          exact ⟨rfl, rfl⟩
  · rw [r4, if_pos rfl]
  · rw [r4, if_pos rfl]

/-- The links of a queue that holds the PCBs of `l` are well formed. -/
theorem queue_is_links_wf (k : Kernel) (l : List Nat) (h : queue_is k l) : links_wf k l := by
  obtain ⟨hnd, hh, hl⟩ := h
  have key : ∀ (l : List Nat) (prev : Nat), queue_links k prev l →
      (∀ x, x ∈ l → (k.procs x).next ≠ 0 → (k.procs (k.procs x).next).prev = x) ∧
      (l ≠ [] → (k.procs k.ready_queue_tail).next = 0) := by
    intro l
    induction l with
    | nil => intro prev _; exact ⟨fun x hx => (by cases hx), fun h => absurd rfl h⟩
    | cons y l ih =>
      intro prev hq
      simp only [queue_links] at hq
      obtain ⟨hy0, hyprev, hynext, hrest⟩ := hq
      obtain ⟨i1, i2⟩ := ih y hrest
      refine ⟨?_, ?_⟩
      · intro x hx hne
        rcases List.mem_cons.1 hx with e | e
        · rw [e] at hne ⊢
          rw [hynext] at hne ⊢
          cases l with
          | nil => exact absurd rfl hne
          | cons z l2 =>
            simp only [queue_links] at hrest
            exact hrest.2.1
        · exact i1 x e hne
      · intro _
        cases l with
        | nil =>
          simp only [queue_links] at hrest
          rw [hrest, hynext]; rfl
        | cons z l2 => exact i2 (List.cons_ne_nil _ _)
  refine ⟨?_, ?_, (key l 0 hl).1⟩
  · intro hne
    rw [hh] at hne ⊢
    cases l with
    | nil => exact absurd rfl hne
    | cons y l2 =>
      simp only [queue_links] at hl
      exact hl.2.1
  · intro hne
    cases l with
    | nil =>
      simp only [queue_links] at hl
      exact absurd hl hne
    | cons y l2 => exact (key (y :: l2) 0 hl).2 (List.cons_ne_nil _ _)

theorem queue_is_push_all : ∀ (ps : List Nat) (k : Kernel) (l : List Nat), queue_is k l →
    (l ++ ps).Nodup → (∀ p, p ∈ ps → p ≠ 0) → queue_is (push_all k ps) (l ++ ps)
  | [], k, l, h, _, _ => by
    rw [List.append_nil]; exact h
  | p :: ps, k, l, h, hnd, h0 => by
    have hpl : p ∉ l := by
      intro hm
      exact (List.nodup_append.1 hnd).2.2 hm (List.mem_cons_self _ _)
    have h1 := queue_is_push k l p h (h0 p (List.mem_cons_self _ _)) hpl
    have e : l ++ p :: ps = (l ++ [p]) ++ ps := by simp
    rw [e] at hnd ⊢
    exact queue_is_push_all ps _ _ h1 hnd (fun q hq => h0 q (List.mem_cons_of_mem _ hq))

theorem queue_is_pop_n : ∀ (a : List Nat) (k : Kernel) (b : List Nat), queue_is k (a ++ b) →
    (pop_n a.length k).2 = a ∧ queue_is (pop_n a.length k).1 b
  | [], k, b, h => ⟨rfl, h⟩
  | p :: a, k, b, h => by
    obtain ⟨r1, r2, _, _⟩ := queue_is_pop k p (a ++ b) h
    obtain ⟨i1, i2⟩ := queue_is_pop_n a _ b r2
    refine ⟨?_, i2⟩
    show (ready_queue_pop k).2 :: (pop_n a.length (ready_queue_pop k).1).2 = p :: a
    rw [r1, i1]

theorem pop_n_succ : ∀ (n : Nat) (k : Kernel),
    (pop_n (n + 1) k).1 = (ready_queue_pop (pop_n n k).1).1
  | 0, _ => rfl
  | n + 1, k => by
    show (pop_n (n + 1) (ready_queue_pop k).1).1 = _
    rw [pop_n_succ n]
    rfl

theorem queue_is_empty (k : Kernel) (hh : k.ready_queue_head = 0) (ht : k.ready_queue_tail = 0) :
    queue_is k [] := ⟨List.nodup_nil, hh, ht⟩

/-- C13: for pairwise distinct PCBs `ps` pushed with `ready_queue_push` onto an empty
ready queue, as many calls of `ready_queue_pop` return them in the order of the
pushes and the next call returns `NULL`; after every push and after every pop the
links are well formed, and a PCB that has just been popped has null `next` and
`prev`. -/
theorem ready_queue_fifo (k : Kernel) (ps : List Nat)
    (hh : k.ready_queue_head = 0) (ht : k.ready_queue_tail = 0)
    (hnd : ps.Nodup) (h0 : ∀ p, p ∈ ps → p ≠ 0) :
    (pop_n ps.length (push_all k ps)).2 = ps ∧
    (ready_queue_pop (pop_n ps.length (push_all k ps)).1).2 = 0 ∧
    (∀ i, i ≤ ps.length → links_wf (push_all k (ps.take i)) (ps.take i)) ∧
    (∀ j, j ≤ ps.length → links_wf (pop_n j (push_all k ps)).1 (ps.drop j)) ∧
    (∀ j (hj : j < ps.length),
      ((pop_n (j + 1) (push_all k ps)).1.procs (ps.get ⟨j, hj⟩)).next = 0 ∧
      ((pop_n (j + 1) (push_all k ps)).1.procs (ps.get ⟨j, hj⟩)).prev = 0) := by
  have hq0 := queue_is_empty k hh ht
  have hall : queue_is (push_all k ps) ps := by
    have := queue_is_push_all ps k [] hq0 (by simpa using hnd) h0
    simpa using this
  have hpop : ∀ j, j ≤ ps.length →
      (pop_n j (push_all k ps)).2 = ps.take j ∧ queue_is (pop_n j (push_all k ps)).1 (ps.drop j) := by
    intro j hj
    have h1 : queue_is (push_all k ps) (ps.take j ++ ps.drop j) := by
      rw [List.take_append_drop]; exact hall
    have h2 := queue_is_pop_n (ps.take j) _ (ps.drop j) h1
    rw [List.length_take, Nat.min_eq_left hj] at h2
    exact h2
  refine ⟨?_, ?_, ?_, ?_, ?_⟩
  · have := (hpop ps.length le_rfl).1
    rw [List.take_length] at this
    exact this
  · have := (hpop ps.length le_rfl).2
    rw [List.drop_length] at this
    rw [ready_queue_pop_empty _ this.2.1]
  · intro i _
    have h1 : queue_is (push_all k (ps.take i)) (ps.take i) := by
      have hnd2 : (ps.take i).Nodup := hnd.sublist (List.take_sublist _ _)
      have := queue_is_push_all (ps.take i) k [] hq0 (by simpa using hnd2)
        (fun p hp => h0 p (List.mem_of_mem_take hp))
      simpa using this
    exact queue_is_links_wf _ _ h1
  · intro j hj
    exact queue_is_links_wf _ _ (hpop j hj).2
  · intro j hj
    have h1 := (hpop j (Nat.le_of_lt hj)).2
    have e : ps.drop j = ps.get ⟨j, hj⟩ :: ps.drop (j + 1) := by
      rw [List.get_eq_getElem]
      exact List.drop_eq_getElem_cons hj
    rw [e] at h1
    obtain ⟨_, _, r3, r4⟩ := queue_is_pop _ _ _ h1
    rw [pop_n_succ]
    exact ⟨r3, r4⟩

theorem ready_queue_fifo_witness :
    (pop_n 3 (push_all kernel0 [0x2000018, 0x2002368, 0x2004488])).2 =
      [0x2000018, 0x2002368, 0x2004488] ∧
    (ready_queue_pop (pop_n 3 (push_all kernel0 [0x2000018, 0x2002368, 0x2004488])).1).2 = 0 :=
  ⟨(ready_queue_fifo kernel0 [0x2000018, 0x2002368, 0x2004488] rfl rfl (by decide)
      (by decide)).1,
   (ready_queue_fifo kernel0 [0x2000018, 0x2002368, 0x2004488] rfl rfl (by decide)
      (by decide)).2.1⟩

/-! ## Round-robin scheduling -/

theorem queue_is_of_eq (k k1 : Kernel) (l : List Nat)
    (hh : k1.ready_queue_head = k.ready_queue_head) (ht : k1.ready_queue_tail = k.ready_queue_tail)
    (hp : ∀ x, (k1.procs x).prev = (k.procs x).prev ∧ (k1.procs x).next = (k.procs x).next)
    (h : queue_is k l) : queue_is k1 l :=
  ⟨h.1, by rw [hh]; exact h.2.1, queue_links_congr k k1 ht l 0 (fun x _ => hp x) h.2.2⟩

theorem set_proc_head (k : Kernel) (p : Nat) (f : process_t → process_t) :
    (set_proc k p f).ready_queue_head = k.ready_queue_head := rfl

theorem set_proc_tail (k : Kernel) (p : Nat) (f : process_t → process_t) :
    (set_proc k p f).ready_queue_tail = k.ready_queue_tail := rfl

theorem queue_is_set_proc (k : Kernel) (l : List Nat) (p : Nat) (f : process_t → process_t)
    (hn : ∀ x, (f x).next = x.next) (hp : ∀ x, (f x).prev = x.prev) (h : queue_is k l) :
    queue_is (set_proc k p f) l :=
  queue_is_of_eq k _ l rfl rfl (fun x =>
    ⟨set_proc_field (fun q : process_t => q.prev) k p x f hp,
     set_proc_field (fun q : process_t => q.next) k p x f hn⟩) h

theorem context_switch_head (k : Kernel) (a b : Nat) :
    (context_switch k a b).ready_queue_head = k.ready_queue_head ∧
    (context_switch k a b).ready_queue_tail = k.ready_queue_tail ∧
    (context_switch k a b).current_process = k.current_process ∧
    (context_switch k a b).scheduler_enabled = k.scheduler_enabled := by
  unfold context_switch
  by_cases h : a ≠ 0
  · rw [if_pos h]; exact ⟨rfl, rfl, rfl, rfl⟩
  · rw [if_neg h]; exact ⟨rfl, rfl, rfl, rfl⟩

/-- What `schedule` does when the current process is running and the ready queue is
not empty: the current process goes to the back of the queue and the first PCB of the
queue becomes the current, running process. -/
theorem schedule_switch (k : Kernel) (A B : Nat) (l : List Nat)
    (hen : k.scheduler_enabled = true) (hcur : k.current_process = A) (hA0 : A ≠ 0)
    (hAl : A ∉ B :: l) (hrun : (k.procs A).state = RUNNING) (hq : queue_is k (B :: l)) :
    (schedule k).scheduler_enabled = true ∧ (schedule k).current_process = B ∧
    queue_is (schedule k) (l ++ [A]) ∧
    (∀ q, ((schedule k).procs q).state =
      if q = B then RUNNING else if q = A then READY else (k.procs q).state) := by
  have hB0 : B ≠ 0 := queue_links_nonzero k _ 0 hq.2.2 B (List.mem_cons_self _ _)
  have hAB : A ≠ B := fun e => hAl (e ▸ List.mem_cons_self _ _)
  unfold schedule
  rw [if_neg (by simp [hen])]
  dsimp only
  have hcur0 : process_get_current { k with schedule_count := (k.schedule_count + 1) % U64 } = A := by
    unfold process_get_current
    show (if k.current_process ≠ 0 then k.current_process else k.idle_process) = A
    rw [hcur, if_pos hA0]
  rw [hcur0]
  rw [if_pos (show A ≠ 0 ∧ (k.procs A).state = RUNNING from ⟨hA0, hrun⟩)]
  -- the state after the push
  have hq1 : queue_is (ready_queue_push (set_proc { k with schedule_count := (k.schedule_count + 1) % U64 }
      A (fun p => { p with state := READY })) A) ((B :: l) ++ [A]) := by
    apply queue_is_push _ _ _ _ hA0 hAl
    refine queue_is_set_proc _ _ A (fun p => { p with state := READY }) (fun _ => rfl) (fun _ => rfl) ?_
    exact queue_is_of_eq k _ _ rfl rfl (fun _ => ⟨rfl, rfl⟩) hq
  have hs1 : ∀ q, ((ready_queue_push (set_proc { k with schedule_count := (k.schedule_count + 1) % U64 }
      A (fun p => { p with state := READY })) A).procs q).state =
      if q = A then READY else (k.procs q).state := by
    intro q
    rw [ready_queue_push_field (fun p : process_t => p.state) (fun _ _ => rfl) (fun _ _ => rfl),
      set_proc_procs]
    by_cases hqA : q = A
    · rw [if_pos hqA, if_pos hqA]
    · rw [if_neg hqA, if_neg hqA]
  have he1 : (ready_queue_push (set_proc { k with schedule_count := (k.schedule_count + 1) % U64 }
      A (fun p => { p with state := READY })) A).scheduler_enabled = true := by
    unfold ready_queue_push
    dsimp only
    split_ifs <;> exact hen
  generalize (ready_queue_push (set_proc { k with schedule_count := (k.schedule_count + 1) % U64 }
      A (fun p => { p with state := READY })) A) = k1 at hq1 hs1 he1 ⊢
  obtain ⟨r1, r2, _, _⟩ := queue_is_pop k1 B (l ++ [A]) hq1
  have hs2 : ∀ q, ((ready_queue_pop k1).1.procs q).state = (k1.procs q).state := fun q =>
    ready_queue_pop_field (fun p : process_t => p.state) (fun _ _ => rfl) (fun _ _ => rfl) k1 q
  have he2 : (ready_queue_pop k1).1.scheduler_enabled = true := by
    unfold ready_queue_pop ready_queue_remove
    dsimp only
    split_ifs <;> exact he1
  generalize ready_queue_pop k1 = r at r1 r2 hs2 he2 ⊢
  rw [r1, if_neg hB0, if_pos hAB]
  have hs3 : ∀ q, (r.1.procs q).state = if q = A then READY else (k.procs q).state := fun q => by
    rw [hs2, hs1]
  refine ⟨?_, ?_, ?_, ?_⟩
  · rw [(context_switch_head _ A B).2.2.2]
    split_ifs <;> exact he2
  · rw [(context_switch_head _ A B).2.2.1]
    split_ifs <;> rfl
  · refine queue_is_of_eq r.1 _ _ ?_ ?_ ?_ r2
    · rw [(context_switch_head _ A B).1]
      split_ifs <;> rfl
    · rw [(context_switch_head _ A B).2.1]
      split_ifs <;> rfl
    · intro x
      rw [context_switch_field (fun p : process_t => p.prev) (fun _ _ => rfl),
        context_switch_field (fun p : process_t => p.next) (fun _ _ => rfl)]
      have hK : ∀ K4 : Kernel,
          K4.procs = (set_proc r.1 B (fun p => { p with state := RUNNING })).procs →
          (K4.procs x).prev = (r.1.procs x).prev ∧ (K4.procs x).next = (r.1.procs x).next := by
        intro K4 e
        rw [e]
        exact ⟨set_proc_field (fun p : process_t => p.prev) _ _ _ _ (fun _ => rfl),
          set_proc_field (fun p : process_t => p.next) _ _ _ _ (fun _ => rfl)⟩
      apply hK
      split_ifs <;> rfl
  · intro q
    rw [context_switch_field (fun p : process_t => p.state) (fun _ _ => rfl)]
    have hK : ∀ K4 : Kernel,
        K4.procs = (set_proc r.1 B (fun p => { p with state := RUNNING })).procs →
        (K4.procs q).state = if q = B then RUNNING else if q = A then READY else (k.procs q).state := by
      intro K4 e
      rw [e, set_proc_procs]
      by_cases hqB : q = B
      · rw [if_pos hqB, if_pos hqB]
      · rw [if_neg hqB, if_neg hqB, hs3]
    apply hK
    split_ifs <;> rfl

theorem process_get_current_of (k : Kernel) (A : Nat) (hcur : k.current_process = A) (hA0 : A ≠ 0) :
    process_get_current k = A := by
  unfold process_get_current
  rw [hcur, if_pos hA0]

theorem scheduler_tick_stay (k : Kernel) (A : Nat) (l : List Nat) (r : Nat)
    (h : rr_state k A l (r + 2)) :
    rr_state (scheduler_tick k) A l (r + 1) ∧
    ∀ q, ((scheduler_tick k).procs q).ticks_total =
      if q = A then ((k.procs A).ticks_total + 1) % U64 else (k.procs q).ticks_total := by
  have hcur := process_get_current_of k A h.current h.nonnull
  have e : scheduler_tick k = set_proc (set_proc k A
      (fun p => { p with ticks_total := (p.ticks_total + 1) % U64 })) A
      (fun p => { p with ticks_remaining := p.ticks_remaining - 1 }) := by
    unfold scheduler_tick
    rw [if_neg (by simp [h.enabled])]
    dsimp only
    rw [hcur, if_neg h.nonnull]
    have e1 : ((set_proc k A (fun p => { p with ticks_total := (p.ticks_total + 1) % U64 })).procs
        A).ticks_remaining = r + 2 := by
      rw [set_proc_procs, if_pos rfl]; exact h.left
    rw [if_pos (show ((set_proc k A (fun p => { p with ticks_total := (p.ticks_total + 1) % U64 })).procs
        A).ticks_remaining > 0 by rw [e1]; omega)]
    have e2 : ((set_proc (set_proc k A (fun p => { p with ticks_total := (p.ticks_total + 1) % U64 })) A
      (fun p => { p with ticks_remaining := p.ticks_remaining - 1 })).procs A).ticks_remaining
        = r + 1 := by
      rw [set_proc_procs, if_pos rfl]
      show ((set_proc k A (fun p => { p with ticks_total := (p.ticks_total + 1) % U64 })).procs
        A).ticks_remaining - 1 = r + 1
      rw [e1]; rfl
    rw [if_neg (by rw [e2]; omega)]
  rw [e]
  have hp : ∀ q, (set_proc (set_proc k A
      (fun p => { p with ticks_total := (p.ticks_total + 1) % U64 })) A
      (fun p => { p with ticks_remaining := p.ticks_remaining - 1 })).procs q =
      if q = A then { k.procs A with ticks_total := ((k.procs A).ticks_total + 1) % U64,
                                     ticks_remaining := (k.procs A).ticks_remaining - 1 }
      else k.procs q := by
    intro q
    rw [set_proc_procs]
    by_cases hq : q = A
    · rw [if_pos hq, if_pos hq, set_proc_procs, if_pos rfl]
    · rw [if_neg hq, if_neg hq, set_proc_procs, if_neg hq]
  refine ⟨⟨h.enabled, h.current, h.nonnull, h.fresh, ?_, ?_, ?_, ?_⟩, ?_⟩
  · rw [hp, if_pos rfl]; exact h.running
  · rw [hp, if_pos rfl]
    show (k.procs A).ticks_remaining - 1 = r + 1
    rw [h.left]; rfl
  · exact queue_is_set_proc _ _ _ _ (fun _ => rfl) (fun _ => rfl)
      (queue_is_set_proc _ _ _ _ (fun _ => rfl) (fun _ => rfl) h.queue)
  · intro x hx
    have hxA : x ≠ A := fun e => h.fresh (e ▸ hx)
    rw [hp, if_neg hxA]
    exact h.ready x hx
  · intro q
    rw [hp]
    by_cases hq : q = A
    · rw [if_pos hq, if_pos hq]
    · rw [if_neg hq, if_neg hq]

theorem scheduler_tick_switch (k : Kernel) (A B : Nat) (l : List Nat)
    (h : rr_state k A (B :: l) 1) :
    rr_state (scheduler_tick k) B (l ++ [A]) DEFAULT_QUANTUM ∧
    ∀ q, ((scheduler_tick k).procs q).ticks_total =
      if q = A then ((k.procs A).ticks_total + 1) % U64 else (k.procs q).ticks_total := by
  have hcur := process_get_current_of k A h.current h.nonnull
  have hp : ∀ q, (set_proc (set_proc (set_proc k A
      (fun p => { p with ticks_total := (p.ticks_total + 1) % U64 })) A
      (fun p => { p with ticks_remaining := p.ticks_remaining - 1 })) A
      (fun p => { p with ticks_remaining := DEFAULT_QUANTUM })).procs q =
      if q = A then { k.procs A with ticks_total := ((k.procs A).ticks_total + 1) % U64,
                                     ticks_remaining := DEFAULT_QUANTUM }
      else k.procs q := by
    intro q
    rw [set_proc_procs]
    by_cases hq : q = A
    · rw [if_pos hq, if_pos hq, set_proc_procs, if_pos rfl, set_proc_procs, if_pos rfl]
    · rw [if_neg hq, if_neg hq, set_proc_procs, if_neg hq, set_proc_procs, if_neg hq]
  have e : scheduler_tick k = schedule (set_proc (set_proc (set_proc k A
      (fun p => { p with ticks_total := (p.ticks_total + 1) % U64 })) A
      (fun p => { p with ticks_remaining := p.ticks_remaining - 1 })) A
      (fun p => { p with ticks_remaining := DEFAULT_QUANTUM })) := by
    unfold scheduler_tick
    rw [if_neg (by simp [h.enabled])]
    dsimp only
    rw [hcur, if_neg h.nonnull]
    have e1 : ((set_proc k A (fun p => { p with ticks_total := (p.ticks_total + 1) % U64 })).procs
        A).ticks_remaining = 1 := by
      rw [set_proc_procs, if_pos rfl]; exact h.left
    rw [if_pos (show ((set_proc k A (fun p => { p with ticks_total := (p.ticks_total + 1) % U64 })).procs
        A).ticks_remaining > 0 by rw [e1]; omega)]
    have e2 : ((set_proc (set_proc k A (fun p => { p with ticks_total := (p.ticks_total + 1) % U64 })) A
      (fun p => { p with ticks_remaining := p.ticks_remaining - 1 })).procs A).ticks_remaining
        = 0 := by
      rw [set_proc_procs, if_pos rfl]
      show ((set_proc k A (fun p => { p with ticks_total := (p.ticks_total + 1) % U64 })).procs
        A).ticks_remaining - 1 = 0
      rw [e1]
    rw [if_pos e2]
  rw [e]
  generalize hk3 : (set_proc (set_proc (set_proc k A
      (fun p => { p with ticks_total := (p.ticks_total + 1) % U64 })) A
      (fun p => { p with ticks_remaining := p.ticks_remaining - 1 })) A
      (fun p => { p with ticks_remaining := DEFAULT_QUANTUM })) = k3 at hp
  have hen3 : k3.scheduler_enabled = true := by rw [← hk3]; exact h.enabled
  have hcur3 : k3.current_process = A := by rw [← hk3]; exact h.current
  have hq3 : queue_is k3 (B :: l) := by
    rw [← hk3]
    exact queue_is_set_proc _ _ _ _ (fun _ => rfl) (fun _ => rfl)
      (queue_is_set_proc _ _ _ _ (fun _ => rfl) (fun _ => rfl)
        (queue_is_set_proc _ _ _ _ (fun _ => rfl) (fun _ => rfl) h.queue))
  have hrun3 : (k3.procs A).state = RUNNING := by rw [hp, if_pos rfl]; exact h.running
  obtain ⟨s1, s2, s3, s4⟩ := schedule_switch k3 A B l hen3 hcur3 h.nonnull h.fresh hrun3 hq3
  have hB0 : B ≠ 0 := queue_links_nonzero k _ 0 h.queue.2.2 B (List.mem_cons_self _ _)
  have hAB : A ≠ B := fun e => h.fresh (e ▸ List.mem_cons_self _ _)
  have hBl : B ∉ l := (List.nodup_cons.1 h.queue.1).1
  have hrem : ∀ q, ((schedule k3).procs q).ticks_remaining = (k3.procs q).ticks_remaining := fun q =>
    schedule_field (fun p : process_t => p.ticks_remaining) (fun _ _ => rfl) (fun _ _ => rfl)
      (fun _ _ => rfl) (fun _ _ => rfl) k3 q
  have htot : ∀ q, ((schedule k3).procs q).ticks_total = (k3.procs q).ticks_total := fun q =>
    schedule_field (fun p : process_t => p.ticks_total) (fun _ _ => rfl) (fun _ _ => rfl)
      (fun _ _ => rfl) (fun _ _ => rfl) k3 q
  refine ⟨⟨s1, s2, hB0, ?_, ?_, ?_, s3, ?_⟩, ?_⟩
  · intro hm
    rcases List.mem_append.1 hm with hm | hm
    · exact hBl hm
    · exact hAB (List.mem_singleton.1 hm).symm
  · rw [s4, if_pos rfl]
  · rw [hrem, hp, if_neg hAB.symm]
    exact (h.ready B (List.mem_cons_self _ _)).2
  · intro x hx
    rcases List.mem_append.1 hx with hm | hm
    · have hxB : x ≠ B := fun e => hBl (e ▸ hm)
      have hxA : x ≠ A := fun e => h.fresh (e ▸ List.mem_cons_of_mem _ hm)
      rw [s4, if_neg hxB, if_neg hxA, hrem, hp, if_neg hxA]
      exact h.ready x (List.mem_cons_of_mem _ hm)
    · rw [List.mem_singleton.1 hm, s4, if_neg hAB, if_pos rfl, hrem, hp, if_pos rfl]
      exact ⟨rfl, rfl⟩
  · intro q
    rw [htot, hp]
    by_cases hq : q = A
    · rw [if_pos hq, if_pos hq]
    · rw [if_neg hq, if_neg hq]

theorem tick_n_add : ∀ (a b : Nat) (k : Kernel), tick_n (a + b) k = tick_n b (tick_n a k)
  | 0, b, k => by rw [Nat.zero_add]; rfl
  | a + 1, b, k => by
    rw [Nat.add_right_comm]
    show tick_n (a + b) (scheduler_tick k) = tick_n b (tick_n a (scheduler_tick k))
    exact tick_n_add a b _

/-- One quantum: `r + 1` ticks with `r + 1` ticks left charge the running process
`r + 1` ticks and end with a switch to the first process of the ready queue. -/
theorem run_quantum : ∀ (r : Nat) (k : Kernel) (A B : Nat) (l : List Nat),
    rr_state k A (B :: l) (r + 1) →
    rr_state (tick_n (r + 1) k) B (l ++ [A]) DEFAULT_QUANTUM ∧
    (∀ q, ((tick_n (r + 1) k).procs q).ticks_total =
      if q = A then ((k.procs A).ticks_total + (r + 1)) % U64 else (k.procs q).ticks_total) ∧
    (∀ i, i ≤ r → (tick_n i k).current_process = A)
  | 0, k, A, B, l, h => by
    obtain ⟨h1, h2⟩ := scheduler_tick_switch k A B l h
    refine ⟨h1, h2, ?_⟩
    intro i hi
    rw [Nat.le_zero.1 hi]
    exact h.current
  | r + 1, k, A, B, l, h => by
    obtain ⟨h1, h2⟩ := scheduler_tick_stay k A (B :: l) r h
    obtain ⟨i1, i2, i3⟩ := run_quantum r (scheduler_tick k) A B l h1
    refine ⟨i1, ?_, ?_⟩
    · intro q
      show ((tick_n (r + 1) (scheduler_tick k)).procs q).ticks_total = _
      rw [i2]
      by_cases hq : q = A
      · rw [if_pos hq, if_pos hq, h2, if_pos rfl]
        unfold U64
        omega
      · rw [if_neg hq, if_neg hq, h2, if_neg hq]
    · intro i hi
      cases i with
      | zero => exact h.current
      | succ j => exact i3 j (by omega)

/-- C12: with the scheduler enabled, `X` current and `RUNNING`, `Y` and `Z` `READY` in
the ready queue in this order, and a full quantum of `DEFAULT_QUANTUM = 10` ticks for
each, thirty calls of `scheduler_tick` charge each of the three processes ten ticks
(`ticks_total` is a `uint64_t`), the current process is `X` before tick 10, `Y` from
tick 10, `Z` from tick 20 and `X` again at tick 30, and the state after tick 30 has
`X` running and the queue `[Y, Z]` with full quanta. -/
theorem round_robin_thirty_ticks (k : Kernel) (X Y Z : Nat)
    (hen : k.scheduler_enabled = true) (hcur : k.current_process = X) (hX0 : X ≠ 0)
    (hXY : X ≠ Y) (hXZ : X ≠ Z) (hq : queue_is k [Y, Z])
    (hXs : (k.procs X).state = RUNNING) (hYs : (k.procs Y).state = READY)
    (hZs : (k.procs Z).state = READY)
    (hXr : (k.procs X).ticks_remaining = DEFAULT_QUANTUM)
    (hYr : (k.procs Y).ticks_remaining = DEFAULT_QUANTUM)
    (hZr : (k.procs Z).ticks_remaining = DEFAULT_QUANTUM) :
    ((tick_n 30 k).procs X).ticks_total = ((k.procs X).ticks_total + 10) % U64 ∧
    ((tick_n 30 k).procs Y).ticks_total = ((k.procs Y).ticks_total + 10) % U64 ∧
    ((tick_n 30 k).procs Z).ticks_total = ((k.procs Z).ticks_total + 10) % U64 ∧
    (∀ i, i < 10 → (tick_n i k).current_process = X) ∧
    (∀ i, 10 ≤ i → i < 20 → (tick_n i k).current_process = Y) ∧
    (∀ i, 20 ≤ i → i < 30 → (tick_n i k).current_process = Z) ∧
    (tick_n 30 k).current_process = X ∧
    ((tick_n 30 k).procs X).state = RUNNING ∧
    ((tick_n 30 k).procs Y).state = READY ∧
    ((tick_n 30 k).procs Z).state = READY ∧
    queue_is (tick_n 30 k) [Y, Z] ∧
    ((tick_n 30 k).procs X).ticks_remaining = DEFAULT_QUANTUM ∧
    ((tick_n 30 k).procs Y).ticks_remaining = DEFAULT_QUANTUM ∧
    ((tick_n 30 k).procs Z).ticks_remaining = DEFAULT_QUANTUM := by
  have hYZ : Y ≠ Z := fun e => by
    have := (List.nodup_cons.1 hq.1).1
    exact this (e ▸ List.mem_singleton_self _)
  have h0 : rr_state k X [Y, Z] (9 + 1) := by
    refine ⟨hen, hcur, hX0, ?_, hXs, hXr, hq, ?_⟩
    · intro hm
      rcases List.mem_cons.1 hm with e | hm
      · exact hXY e
      · exact hXZ (List.mem_singleton.1 hm)
    · intro x hx
      rcases List.mem_cons.1 hx with e | hm
      · rw [e]; exact ⟨hYs, hYr⟩
      · rw [List.mem_singleton.1 hm]; exact ⟨hZs, hZr⟩
  obtain ⟨a1, a2, a3⟩ := run_quantum 9 k X Y [Z] h0
  obtain ⟨b1, b2, b3⟩ := run_quantum 9 (tick_n 10 k) Y Z [X] a1
  obtain ⟨c1, c2, c3⟩ := run_quantum 9 (tick_n 10 (tick_n 10 k)) Z X [Y] b1
  have e20 : ∀ j, tick_n (10 + j) k = tick_n j (tick_n 10 k) := fun j => tick_n_add 10 j k
  have e30 : ∀ j, tick_n (20 + j) k = tick_n j (tick_n 10 (tick_n 10 k)) := fun j => by
    have : 20 + j = 10 + (10 + j) := by omega
    rw [this, tick_n_add, tick_n_add]
  have e3 : tick_n 30 k = tick_n 10 (tick_n 10 (tick_n 10 k)) := e30 10
  rw [e3]
  refine ⟨?_, ?_, ?_, ?_, ?_, ?_, c1.current, c1.running, ?_, ?_, c1.queue, c1.left, ?_, ?_⟩
  · rw [c2, if_neg hXZ, b2, if_neg hXY, a2, if_pos rfl]
  · rw [c2, if_neg hYZ, b2, if_pos rfl, a2, if_neg hXY.symm]
  · rw [c2, if_pos rfl, b2, if_neg hYZ.symm, a2, if_neg hXZ.symm]
  · intro i hi
    exact a3 i (by omega)
  · intro i h1 h2
    have : i = 10 + (i - 10) := by omega
    rw [this, e20]
    exact b3 _ (by omega)
  · intro i h1 h2
    have : i = 20 + (i - 20) := by omega
    rw [this, e30]
    exact c3 _ (by omega)
  · exact (c1.ready Y (by simp)).1
  · exact (c1.ready Z (by simp)).1
  · exact (c1.ready Y (by simp)).2
  · exact (c1.ready Z (by simp)).2

theorem round_robin_thirty_ticks_witness :
    (tick_n 30 kernel3).current_process = 0x2000018 ∧
    queue_is (tick_n 30 kernel3) [0x2002368, 0x20046B8] ∧
    ((tick_n 30 kernel3).procs 0x20046B8).ticks_total =
      ((kernel3.procs 0x20046B8).ticks_total + 10) % U64 :=
  have h := round_robin_thirty_ticks kernel3 0x2000018 0x2002368 0x20046B8 rfl rfl (by decide)
    (by decide) (by decide)
    ⟨by decide, rfl, by decide, rfl, rfl, by decide, rfl, rfl, rfl⟩ rfl rfl rfl rfl rfl rfl
  ⟨h.2.2.2.2.2.2.1, h.2.2.2.2.2.2.2.2.2.2.1, h.2.2.1⟩

/-! ## Signals -/

theorem find_by_pid_from_spec (k : Kernel) (pid : Int) : ∀ (n i : Nat),
    find_by_pid_from k pid n i = 0 ∨
    ∃ j, i ≤ j ∧ j < i + n ∧ find_by_pid_from k pid n i = k.process_table j ∧
      ((k.procs (k.process_table j)).pid : Int) = pid
  | 0, _ => Or.inl rfl
  | n + 1, i => by
    unfold find_by_pid_from
    by_cases h : k.process_table i ≠ 0 ∧ ((k.procs (k.process_table i)).pid : Int) = pid
    · rw [if_pos h]
      exact Or.inr ⟨i, le_rfl, by omega, rfl, h.2⟩
    · rw [if_neg h]
      rcases find_by_pid_from_spec k pid n (i + 1) with e | ⟨j, h1, h2, h3, h4⟩
      · exact Or.inl e
      · exact Or.inr ⟨j, by omega, by omega, h3, h4⟩

/-- C14: `signal_send` acts on the PCB `p` that `process_find_by_pid` gives for the
target pid.  `SIGKILL`, `SIGTERM` and `SIGINT` set its state to `TERMINATED`; `SIGSTOP`
turns `READY` and `RUNNING` into `BLOCKED` and leaves the other states; any other signal
but `SIGCONT` changes nothing.  `SIGCONT` on a `BLOCKED` process sets the state to `READY`
and this is the whole of its effect: the head and the tail of the ready queue and
every link are as before, so that a queue that held the PCBs of `l` still holds exactly
those, whereas `process_unblock` makes the PCB the tail of the queue. -/
theorem signal_send_cont_not_queued (k : Kernel) (pid : Int) (p : Nat)
    (hfind : process_find_by_pid k pid = p) (hp : p ≠ 0) :
    (∀ sig, sig = SIGKILL ∨ sig = SIGTERM ∨ sig = SIGINT →
      signal_send k pid sig = set_proc k p (fun x => { x with state := TERMINATED })) ∧
    ((k.procs p).state = READY ∨ (k.procs p).state = RUNNING →
      signal_send k pid SIGSTOP = set_proc k p (fun x => { x with state := BLOCKED })) ∧
    ((k.procs p).state ≠ READY → (k.procs p).state ≠ RUNNING →
      signal_send k pid SIGSTOP = k) ∧
    ((k.procs p).state ≠ BLOCKED → signal_send k pid SIGCONT = k) ∧
    (∀ sig, sig ≠ SIGKILL → sig ≠ SIGTERM → sig ≠ SIGINT → sig ≠ SIGSTOP → sig ≠ SIGCONT →
      signal_send k pid sig = k) ∧
    ((k.procs p).state = BLOCKED →
      signal_send k pid SIGCONT = set_proc k p (fun x => { x with state := READY }) ∧
      ((signal_send k pid SIGCONT).procs p).state = READY ∧
      (signal_send k pid SIGCONT).ready_queue_head = k.ready_queue_head ∧
      (signal_send k pid SIGCONT).ready_queue_tail = k.ready_queue_tail ∧
      (∀ q, ((signal_send k pid SIGCONT).procs q).next = (k.procs q).next ∧
        ((signal_send k pid SIGCONT).procs q).prev = (k.procs q).prev) ∧
      (∀ l, queue_is k l → queue_is (signal_send k pid SIGCONT) l) ∧
      (process_unblock k p).ready_queue_tail = p ∧
      (∀ l, queue_is k l → p ∉ l → queue_is (process_unblock k p) (l ++ [p]))) := by
  refine ⟨?_, ?_, ?_, ?_, ?_, ?_⟩
  · intro sig hs
    unfold signal_send
    dsimp only
    rw [hfind, if_neg hp]
    rcases hs with e | e | e
    · rw [e, if_pos rfl]
    · rw [e, if_neg (by decide), if_pos rfl]
    · rw [e, if_neg (by decide), if_neg (by decide), if_neg (by decide), if_neg (by decide),
        if_pos rfl]
  · intro hs
    unfold signal_send
    dsimp only
    rw [hfind, if_neg hp, if_neg (by decide), if_neg (by decide), if_pos rfl, if_pos hs.symm]
  · intro h1 h2
    unfold signal_send
    dsimp only
    rw [hfind, if_neg hp, if_neg (by decide), if_neg (by decide), if_pos rfl,
      if_neg (fun h => h.elim h2 h1)]
  · intro h1
    unfold signal_send
    dsimp only
    rw [hfind, if_neg hp, if_neg (by decide), if_neg (by decide), if_neg (by decide), if_pos rfl,
      if_neg h1]
  · intro sig h1 h2 h3 h4 h5
    unfold signal_send
    dsimp only
    rw [hfind, if_neg hp, if_neg h1, if_neg h2, if_neg h4, if_neg h5, if_neg h3]
  · intro hb
    have e : signal_send k pid SIGCONT = set_proc k p (fun x => { x with state := READY }) := by
      unfold signal_send
      dsimp only
      rw [hfind, if_neg hp, if_neg (by decide), if_neg (by decide), if_neg (by decide), if_pos rfl,
        if_pos hb]
    rw [e]
    refine ⟨rfl, ?_, rfl, rfl, ?_, ?_, ?_, ?_⟩
    · rw [set_proc_procs, if_pos rfl]
    · intro q
      exact ⟨set_proc_field (fun x : process_t => x.next) k p q _ (fun _ => rfl),
        set_proc_field (fun x : process_t => x.prev) k p q _ (fun _ => rfl)⟩
    · intro l hl
      exact queue_is_set_proc k l p _ (fun _ => rfl) (fun _ => rfl) hl
    · unfold process_unblock
      rw [if_pos ⟨hp, hb⟩]
      rfl
    · intro l hl hpl
      unfold process_unblock
      rw [if_pos ⟨hp, hb⟩]
      exact queue_is_push _ l p (queue_is_set_proc k l p _ (fun _ => rfl) (fun _ => rfl) hl) hp hpl

theorem signal_send_cont_not_queued_witness :
    ((signal_send kernel4 2 SIGCONT).procs 0x2002368).state = READY ∧
    (signal_send kernel4 2 SIGCONT).ready_queue_tail = 0 ∧
    (process_unblock kernel4 0x2002368).ready_queue_tail = 0x2002368 :=
  have h := (signal_send_cont_not_queued kernel4 2 0x2002368 (by decide) (by decide)).2.2.2.2.2 rfl
  ⟨h.2.1, h.2.2.2.1, h.2.2.2.2.2.2.1⟩

/-! ## Kernel heap: allocation -/

theorem land_not_7 (x : Nat) (h : x < U64) : x &&& 0xFFFFFFFFFFFFFFF8 = x - x % 8 := by
  apply Nat.eq_of_testBit_eq
  intro i
  have e1 : x - x % 8 = 2 ^ 3 * (x / 2 ^ 3) := by
    have := Nat.div_add_mod x 8
    norm_num at this ⊢; omega
  have e2 : 0xFFFFFFFFFFFFFFF8 = 2 ^ 3 * (2 ^ 61 - 1) := by norm_num
  rw [Nat.testBit_and, e1, e2, Nat.testBit_mul_pow_two, Nat.testBit_mul_pow_two,
    Nat.testBit_two_pow_sub_one, ← Nat.shiftRight_eq_div_pow, Nat.testBit_shiftRight]
  by_cases hi : 3 ≤ i
  · simp only [hi, decide_True, Bool.true_and]
    have : 3 + (i - 3) = i := by omega
    rw [this]
    by_cases h61 : i - 3 < 61
    · simp [h61]
    · simp only [h61, decide_False, Bool.and_false]
      symm
      apply Nat.testBit_eq_false_of_lt
      calc x < 2 ^ 64 := h
        _ ≤ 2 ^ i := Nat.pow_le_pow_right (by norm_num) (by omega)
  · simp [hi]

/-- The size `kmalloc` looks for is the request rounded up to a multiple of 8, as a
`size_t`. -/
theorem kmalloc_round (n : Nat) :
    ((n + 7) % U64) &&& 0xFFFFFFFFFFFFFFF8 = (n + 7) / 8 * 8 % U64 := by
  rw [land_not_7 _ (Nat.mod_lt _ (by norm_num [U64]))]
  unfold U64
  omega

theorem find_free_block_first (r : Nat) (b : block_t) (post : List block_t) :
    ∀ pre : List block_t, (∀ x, x ∈ pre → ¬ (x.free = true ∧ x.size ≥ r)) →
      b.free = true → b.size ≥ r → find_free_block r (pre ++ b :: post) = some pre.length
  | [], _, hf, hs => by
    show (if b.free = true ∧ b.size ≥ r then some 0 else _) = _
    rw [if_pos ⟨hf, hs⟩]; rfl
  | x :: pre, hpre, hf, hs => by
    show (if x.free = true ∧ x.size ≥ r then some 0 else
      (find_free_block r (pre ++ b :: post)).map (· + 1)) = _
    rw [if_neg (hpre x (List.mem_cons_self _ _)),
      find_free_block_first r b post pre (fun y hy => hpre y (List.mem_cons_of_mem _ hy)) hf hs]
    rfl

theorem split_block_append (r : Nat) (l : List block_t) :
    ∀ pre : List block_t, split_block r (pre ++ l) pre.length = pre ++ split_block r l 0
  | [] => rfl
  | x :: pre => by
    show x :: split_block r (pre ++ l) pre.length = _
    rw [split_block_append r l pre]; rfl

theorem set_block_free_append (v : Bool) (l : List block_t) :
    ∀ pre : List block_t, set_block_free v (pre ++ l) pre.length = pre ++ set_block_free v l 0
  | [] => rfl
  | x :: pre => by
    show x :: set_block_free v (pre ++ l) pre.length = _
    rw [set_block_free_append v l pre]; rfl

theorem get?_append_length (x : block_t) (post : List block_t) :
    ∀ pre : List block_t, (pre ++ x :: post).get? pre.length = some x
  | [] => rfl
  | _ :: pre => get?_append_length x post pre

/-- The first-fit step of `kmalloc(n)` in terms of the size that `kmalloc` computes in
`size_t`, `(n + 7) & ~7` taken modulo `2^64`. -/
theorem kmalloc_first_fit_mod (h : KHeap) (n : Nat) (pre post : List block_t) (b : block_t)
    (hbs : heap_blocks h = pre ++ b :: post)
    (hpre : ∀ x, x ∈ pre → ¬ (x.free = true ∧ x.size ≥ (n + 7) / 8 * 8 % U64))
    (hfree : b.free = true) (hfit : b.size ≥ (n + 7) / 8 * 8 % U64)
    (harena : b.size ≤ HEAP_SIZE) :
    ∃ h1, kmalloc h n = some (h1, b.addr + BLOCK_HEADER_SIZE) ∧
      (b.size ≥ (n + 7) / 8 * 8 % U64 + BLOCK_HEADER_SIZE + MIN_BLOCK_SIZE →
        h1.blocks = pre ++ { b with size := (n + 7) / 8 * 8 % U64, free := false } ::
          { addr := b.addr + BLOCK_HEADER_SIZE + (n + 7) / 8 * 8 % U64,
            size := b.size - (n + 7) / 8 * 8 % U64 - BLOCK_HEADER_SIZE, free := true } :: post) ∧
      (b.size < (n + 7) / 8 * 8 % U64 + BLOCK_HEADER_SIZE + MIN_BLOCK_SIZE →
        h1.blocks = pre ++ { b with free := false } :: post) := by
  unfold heap_blocks at hbs
  unfold kmalloc
  dsimp only
  rw [kmalloc_round, hbs, find_free_block_first _ b post pre hpre hfree hfit]
  dsimp only
  rw [split_block_append]
  generalize hr : (n + 7) / 8 * 8 % U64 = r at *
  have e3 : ∀ (x : block_t) (rest : List block_t),
      set_block_free false (x :: rest) 0 = { x with free := false } :: rest := fun _ _ => rfl
  have hb : b.size < U64 - 40 := by
    have : HEAP_SIZE = 0x1000000 := rfl
    unfold U64; omega
  by_cases hsplit : b.size ≥ r + BLOCK_HEADER_SIZE + MIN_BLOCK_SIZE
  · have hc : b.size ≥ (r + BLOCK_HEADER_SIZE + MIN_BLOCK_SIZE) % U64 :=
      le_trans (Nat.mod_le _ _) hsplit
    have e1 : split_block r (b :: post) 0 = { b with size := r } ::
        { addr := b.addr + BLOCK_HEADER_SIZE + r,
          size := (b.size + (U64 - r % U64) + (U64 - BLOCK_HEADER_SIZE)) % U64, free := true } :: post := by
      show (if b.size ≥ (r + BLOCK_HEADER_SIZE + MIN_BLOCK_SIZE) % U64 then _ else _) = _
      rw [if_pos hc]
    have e2 : (b.size + (U64 - r % U64) + (U64 - BLOCK_HEADER_SIZE)) % U64
        = b.size - r - BLOCK_HEADER_SIZE := by
      have h1 : BLOCK_HEADER_SIZE = 24 := rfl
      have h2 : MIN_BLOCK_SIZE = 16 := rfl
      rw [h1, h2] at hsplit
      rw [h1]
      unfold U64 at hb ⊢
      omega
    rw [e1, e2, set_block_free_append, e3, get?_append_length]
    refine ⟨_, rfl, fun _ => rfl, fun hlt => absurd hsplit (by omega)⟩
  · have hc : ¬ b.size ≥ (r + BLOCK_HEADER_SIZE + MIN_BLOCK_SIZE) % U64 := by
      have h1 : BLOCK_HEADER_SIZE = 24 := rfl
      have h2 : MIN_BLOCK_SIZE = 16 := rfl
      rw [h1, h2] at hsplit ⊢
      rw [Nat.mod_eq_of_lt (by unfold U64 at hb ⊢; omega)]
      exact hsplit
    have e1 : split_block r (b :: post) 0 = b :: post := by
      show (if b.size ≥ (r + BLOCK_HEADER_SIZE + MIN_BLOCK_SIZE) % U64 then _ else _) = _
      rw [if_neg hc]
    rw [e1, set_block_free_append, e3, get?_append_length]
    exact ⟨_, rfl, fun hge => absurd hge hsplit, fun _ => rfl⟩

/-- C16 (amended): for a request `n` of at most `2^64 - 8` bytes, `r = (n + 7) / 8 * 8`
is `n` rounded up to a multiple of 8, and `kmalloc(n)` takes the first block in list
order that is free and has `size >= r`.  It splits the block exactly when
`size >= r + sizeof(block_t) + 16`: the block keeps `r` bytes and a free block of
`size - r - sizeof(block_t)` bytes follows it in the list; otherwise the whole block is
handed out.  The pointer returned is the address after the header of the block. -/
theorem kmalloc_first_fit (h : KHeap) (n : Nat) (pre post : List block_t) (b : block_t)
    (hn : n + 8 ≤ U64)
    (hbs : heap_blocks h = pre ++ b :: post)
    (hpre : ∀ x, x ∈ pre → ¬ (x.free = true ∧ x.size ≥ (n + 7) / 8 * 8))
    (hfree : b.free = true) (hfit : b.size ≥ (n + 7) / 8 * 8)
    (harena : b.size ≤ HEAP_SIZE) :
    (n ≤ (n + 7) / 8 * 8 ∧ (n + 7) / 8 * 8 < n + 8 ∧ (n + 7) / 8 * 8 % 8 = 0) ∧
    ∃ h1, kmalloc h n = some (h1, b.addr + BLOCK_HEADER_SIZE) ∧
      (b.size ≥ (n + 7) / 8 * 8 + BLOCK_HEADER_SIZE + MIN_BLOCK_SIZE →
        h1.blocks = pre ++ { b with size := (n + 7) / 8 * 8, free := false } ::
          { addr := b.addr + BLOCK_HEADER_SIZE + (n + 7) / 8 * 8,
            size := b.size - (n + 7) / 8 * 8 - BLOCK_HEADER_SIZE, free := true } :: post) ∧
      (b.size < (n + 7) / 8 * 8 + BLOCK_HEADER_SIZE + MIN_BLOCK_SIZE →
        h1.blocks = pre ++ { b with free := false } :: post) := by
  have e : (n + 7) / 8 * 8 % U64 = (n + 7) / 8 * 8 :=
    Nat.mod_eq_of_lt (by unfold U64 at hn ⊢; omega)
  refine ⟨by omega, ?_⟩
  have key := kmalloc_first_fit_mod h n pre post b hbs (by rw [e]; exact hpre) hfree
    (by rw [e]; exact hfit) harena
  rw [e] at key
  exact key

/-- Witness of C16 on `heap0`: `kmalloc(100)` takes the fourth block, the first free
one, keeps 104 bytes and splits the rest off. -/
theorem kmalloc_first_fit_witness :
    ∃ h1, kmalloc heap0 100 = some (h1, 0x2002350 + BLOCK_HEADER_SIZE) ∧
      h1.blocks = [⟨0x2000000, 264, false⟩, ⟨0x2000120, 8192, false⟩, ⟨0x2002138, 512, false⟩,
        ⟨0x2002350, 104, false⟩, ⟨0x20023D0, 0xFFDC18, true⟩] :=
  (kmalloc_first_fit heap0 100
    [⟨0x2000000, 264, false⟩, ⟨0x2000120, 8192, false⟩, ⟨0x2002138, 512, false⟩] []
    ⟨0x2002350, 0xFFDC98, true⟩ (by decide) rfl (by decide) rfl (by decide) (by decide)).2.imp
    (fun _ hh => ⟨hh.1, hh.2.1 (by decide)⟩)

/-- Counterexample to C16 as stated: the request `2^64 - 1` rounded up to a multiple
of 8 is `2^64`, and no block of `heap0` has that size; `kmalloc` computes the size 0
and hands out the first free block, split to 0 bytes. -/
theorem kmalloc_round_counterexample :
    (U64 - 1 + 7) / 8 * 8 = U64 ∧
    (∀ b, b ∈ heap_blocks heap0 → b.size < (U64 - 1 + 7) / 8 * 8) ∧
    (kmalloc heap0 (U64 - 1)).map (fun r => (r.2, r.1.blocks)) =
      some (0x2002350 + BLOCK_HEADER_SIZE,
        [⟨0x2000000, 264, false⟩, ⟨0x2000120, 8192, false⟩, ⟨0x2002138, 512, false⟩,
         ⟨0x2002350, 0, false⟩, ⟨0x2002368, 0xFFDC80, true⟩]) := by
  refine ⟨by decide, by decide, by decide⟩

/-! ## Kernel heap: reallocation -/

/-- C17, as the code behaves: for a live allocation `ptr` whose chunk has size `s` and a
`new_size` of at most `s`, `krealloc(ptr, new_size)` returns `ptr` and changes
nothing: the chunk keeps the size `s`, the list of blocks, the statistics and every
byte of memory are as before, and no tail is given back to the heap. -/
theorem krealloc_shrink_keeps_chunk (h : KHeap) (m : Mem) (ptr new_size s : Nat)
    (hl : heap_live h ptr) (hs : chunk_size h ptr = some s) (hn : new_size ≤ s) :
    krealloc h m ptr new_size = some (h, m, ptr) := by
  obtain ⟨h1, h2, h3, h4⟩ := hl
  obtain ⟨pos, b, g1, g2, _, _⟩ := first_used_block_at _ _ h4
  have hblock : (ptr + U64 - BLOCK_HEADER_SIZE) % U64 = ptr - BLOCK_HEADER_SIZE := by
    simp only [U64, BLOCK_HEADER_SIZE, HEAP_START, HEAP_SIZE] at *; omega
  have hne0 : ptr ≠ 0 := by simp only [BLOCK_HEADER_SIZE] at h1; omega
  have hbs : b.size = s := by
    unfold chunk_size at hs
    rw [g1] at hs
    simp only [g2, Option.map_some', Option.some.injEq] at hs
    exact hs
  unfold krealloc
  rw [if_neg hne0, hblock, g1]
  simp only [g2]
  rw [if_pos (by rw [hbs]; exact hn)]

theorem krealloc_shrink_keeps_chunk_witness :
    krealloc heap0 (fun _ => 0) 0x2000138 100 = some (heap0, fun _ => 0, 0x2000138) :=
  krealloc_shrink_keeps_chunk heap0 (fun _ => 0) 0x2000138 100 8192 (by decide) (by decide)
    (by decide)

/-- C17, the claim as stated fails: the kernel stack of `heap0` is a live chunk of
8192 bytes and the request of 100 bytes rounds to 104 with `104 + 24 + 16 <= 8192`, yet
after `krealloc` the chunk still has 8192 bytes, not 104, and the only free block of the
heap is the one that was free before. -/
theorem krealloc_shrink_counterexample :
    heap_live heap0 0x2000138 ∧ chunk_size heap0 0x2000138 = some 8192 ∧
    (100 + 7) / 8 * 8 + BLOCK_HEADER_SIZE + MIN_BLOCK_SIZE ≤ 8192 ∧
    ∃ h1 m1, krealloc heap0 (fun _ => 0) 0x2000138 100 = some (h1, m1, 0x2000138) ∧
      chunk_size h1 0x2000138 ≠ some ((100 + 7) / 8 * 8) ∧
      h1.blocks.filter (fun b => b.free) = heap0.blocks.filter (fun b => b.free) := by
  exact ⟨by decide, by decide, by decide, heap0, fun _ => 0, rfl, by decide, rfl⟩

/-! ## Releasing a process structure -/

theorem bitmap_test_clear (bm : Nat → Nat) (p : Nat) :
    bitmap_test (bitmap_clear bm p) p = false := by
  rw [bitmap_test_eq]
  unfold bitmap_clear
  rw [if_pos rfl, Nat.testBit_and, Nat.testBit_xor, Nat.one_shiftLeft, Nat.testBit_two_pow_self]
  have h : (0xFFFFFFFF : Nat).testBit (p % 32) = true := by
    have e : (0xFFFFFFFF : Nat) = 2 ^ 32 - 1 := by norm_num
    rw [e, Nat.testBit_two_pow_sub_one]
    simp
    omega
  rw [h]
  simp

theorem all_free_at_not_used (a : Nat) : ∀ l : List block_t, all_free_at a l → first_used a l = false
  | [], _ => rfl
  | c :: l, h => by
    simp only [first_used]
    by_cases hc : c.addr = a
    · rw [if_pos hc, h c (List.mem_cons_self _ _) hc]; rfl
    · rw [if_neg hc]
      exact all_free_at_not_used a l (fun b hb => h b (List.mem_cons_of_mem _ hb))

theorem set_block_free_map_addr (v : Bool) : ∀ (l : List block_t) (pos : Nat),
    (set_block_free v l pos).map (fun b => b.addr) = l.map (fun b => b.addr)
  | [], _ => rfl
  | _ :: _, 0 => rfl
  | c :: l, pos + 1 => by
    show c.addr :: (set_block_free v l pos).map (fun b => b.addr) = _
    rw [set_block_free_map_addr v l pos]; rfl

theorem all_free_at_set_same (a : Nat) : ∀ (l : List block_t) (pos : Nat),
    (l.map (fun b => b.addr)).Nodup → block_at a l = some pos →
      all_free_at a (set_block_free true l pos)
  | [], pos, _, h => by simp [block_at] at h
  | c :: l, pos, hnd, h => by
    simp only [block_at] at h
    have hnd2 := List.nodup_cons.1 hnd
    by_cases hc : c.addr = a
    · rw [if_pos hc] at h
      simp only [Option.some.injEq] at h
      subst h
      intro b hb hba
      rcases List.mem_cons.1 hb with e | e
      · rw [e]
      · exfalso
        apply hnd2.1
        show c.addr ∈ l.map (fun b => b.addr)
        rw [hc, ← hba]
        exact List.mem_map_of_mem _ e
    · rw [if_neg hc] at h
      cases hb' : block_at a l with
      | none => rw [hb'] at h; simp at h
      | some p =>
        rw [hb'] at h
        simp only [Option.map_some', Option.some.injEq] at h
        subst h
        intro b hb hba
        rcases List.mem_cons.1 hb with e | e
        · rw [e] at hba; exact absurd hba hc
        · exact all_free_at_set_same a l p hnd2.2 hb' b e hba

theorem all_free_at_set_other (a : Nat) : ∀ (l : List block_t) (pos : Nat),
    all_free_at a l → all_free_at a (set_block_free true l pos)
  | [], _, h => h
  | c :: l, 0, h => by
    intro b hb hba
    rcases List.mem_cons.1 hb with e | e
    · rw [e]
    · exact h b (List.mem_cons_of_mem _ e) hba
  | c :: l, pos + 1, h => by
    intro b hb hba
    rcases List.mem_cons.1 hb with e | e
    · rw [e] at hba ⊢; exact h c (List.mem_cons_self _ _) hba
    · exact all_free_at_set_other a l pos (fun x hx => h x (List.mem_cons_of_mem _ hx)) b e hba

theorem all_free_at_coalesce_from (a : Nat) : ∀ (rest : List block_t) (cur : block_t),
    all_free_at a (cur :: rest) → all_free_at a (coalesce_from cur rest)
  | [], cur, h => by simpa [coalesce_from] using h
  | b :: rest, cur, h => by
    simp only [coalesce_from]
    by_cases hm : cur.free = true ∧ b.free = true
    · rw [if_pos hm]
      apply all_free_at_coalesce_from a rest
      intro x hx hxa
      rcases List.mem_cons.1 hx with e | e
      · rw [e]; exact hm.1
      · exact h x (List.mem_cons_of_mem _ (List.mem_cons_of_mem _ e)) hxa
    · rw [if_neg hm]
      intro x hx hxa
      rcases List.mem_cons.1 hx with e | e
      · rw [e] at hxa ⊢; exact h cur (List.mem_cons_self _ _) hxa
      · exact all_free_at_coalesce_from a rest b
          (fun y hy => h y (List.mem_cons_of_mem _ hy)) x e hxa

theorem all_free_at_coalesce (a : Nat) (l : List block_t) (h : all_free_at a l) :
    all_free_at a (coalesce_free_blocks l) := by
  cases l with
  | nil => exact h
  | cons b rest => exact all_free_at_coalesce_from a rest b h

theorem coalesce_from_sublist : ∀ (rest : List block_t) (cur : block_t),
    ((coalesce_from cur rest).map (fun b => b.addr)).Sublist ((cur :: rest).map (fun b => b.addr))
  | [], cur => by simp [coalesce_from]
  | b :: rest, cur => by
    simp only [coalesce_from]
    by_cases hm : cur.free = true ∧ b.free = true
    · rw [if_pos hm]
      have ih := coalesce_from_sublist rest
        { cur with size := (cur.size + BLOCK_HEADER_SIZE + b.size) % U64 }
      simp only [List.map_cons] at ih ⊢
      exact ih.trans (List.Sublist.cons₂ _ (List.sublist_cons_self _ _))
    · rw [if_neg hm]
      simp only [List.map_cons]
      exact List.Sublist.cons₂ _ (coalesce_from_sublist rest b)

theorem coalesce_nodup (l : List block_t) (h : (l.map (fun b => b.addr)).Nodup) :
    ((coalesce_free_blocks l).map (fun b => b.addr)).Nodup := by
  cases l with
  | nil => exact h
  | cons b rest => exact h.sublist (coalesce_from_sublist rest b)

/-- What `kfree` does to the list of blocks for a live payload. -/
theorem kfree_blocks (h : KHeap) (ptr : Nat) (hl : heap_live h ptr) :
    ∃ h1 pos, kfree h ptr = some h1 ∧ block_at (ptr - BLOCK_HEADER_SIZE) h.blocks = some pos ∧
      h1.blocks = coalesce_free_blocks (set_block_free true h.blocks pos) := by
  obtain ⟨h1, h2, h3, h4⟩ := hl
  obtain ⟨pos, b, g1, g2, g3, g4⟩ := first_used_block_at _ _ h4
  have hblock : (ptr + U64 - BLOCK_HEADER_SIZE) % U64 = ptr - BLOCK_HEADER_SIZE := by
    simp only [U64, BLOCK_HEADER_SIZE, HEAP_START, HEAP_SIZE] at *; omega
  have hne0 : ptr ≠ 0 := by simp only [BLOCK_HEADER_SIZE] at h1; omega
  refine ⟨{ h with
      blocks := coalesce_free_blocks (set_block_free true h.blocks pos)
      total_allocated := (h.total_allocated + U64 - b.size % U64) % U64
      total_free := (h.total_free + b.size) % U64
      allocation_count := (h.allocation_count + U64 - 1) % U64 }, pos, ?_, g1, rfl⟩
  unfold kfree
  rw [if_neg hne0]
  simp only [hblock]
  rw [if_neg (by omega), g1]
  simp only [g2, g3, Bool.false_eq_true, if_false]

/-- After `kfree` of a live payload its block is marked free, a block that was marked
free stays so, and the header addresses stay pairwise distinct. -/
theorem kfree_marks_free (h : KHeap) (ptr : Nat) (hl : heap_live h ptr)
    (hnd : (h.blocks.map (fun b => b.addr)).Nodup) :
    ∃ h1, kfree h ptr = some h1 ∧ all_free_at (ptr - BLOCK_HEADER_SIZE) h1.blocks ∧
      (∀ a, all_free_at a h.blocks → all_free_at a h1.blocks) ∧
      (h1.blocks.map (fun b => b.addr)).Nodup ∧
      (∀ q, q ≠ ptr → heap_live h q → heap_live h1 q) := by
  obtain ⟨h1, pos, e1, e2, e3⟩ := kfree_blocks h ptr hl
  obtain ⟨h1', e1', e4⟩ := kfree_of_live h ptr hl
  rw [e1] at e1'
  simp only [Option.some.injEq] at e1'
  subst e1'
  refine ⟨h1, e1, ?_, ?_, ?_, e4⟩
  · rw [e3]
    exact all_free_at_coalesce _ _ (all_free_at_set_same _ _ _ hnd e2)
  · intro a ha
    rw [e3]
    exact all_free_at_coalesce _ _ (all_free_at_set_other _ _ _ ha)
  · rw [e3]
    apply coalesce_nodup
    rw [set_block_free_map_addr]
    exact hnd

/-- C18: `free_process_struct(p)` for a PCB held in slot `j` of the process table,
with a live kernel stack, a live FD table and a root the PMM owns, returns; it empties
slot `j` and leaves every other slot, marks the heap blocks of the kernel stack and of
the PCB free, and frees the frame of the root in the PMM bitmap.  The block of the FD
table that `init_process_fd_table` allocated is not released: it is still in use
after the call. -/
theorem free_process_struct_keeps_fd_table (k : Kernel) (c j : Nat) (hc : c ≠ 0)
    (hj : j < MAX_PROCESSES) (htj : k.process_table j = c)
    (hfirst : ∀ j', j' < j → k.process_table j' ≠ c)
    (hnd : (k.heap.blocks.map (fun b => b.addr)).Nodup)
    (hpcb : heap_live k.heap c)
    (hks : heap_live k.heap (k.procs c).kernel_stack) (hksc : (k.procs c).kernel_stack ≠ c)
    (hfd : heap_live k.heap (k.procs c).fd_table) (hfdc : (k.procs c).fd_table ≠ c)
    (hfdks : (k.procs c).fd_table ≠ (k.procs c).kernel_stack)
    (hroot0 : (k.procs c).page_table ≠ 0) (hrootk : (k.procs c).page_table ≠ k.kpml4)
    (hroot : root_releasable k (k.procs c).page_table) :
    ∃ k1, free_process_struct k c = some k1 ∧ k1.process_table j = 0 ∧
      (∀ i, i ≠ j → k1.process_table i = k.process_table i) ∧
      first_used ((k.procs c).kernel_stack - BLOCK_HEADER_SIZE) k1.heap.blocks = false ∧
      first_used (c - BLOCK_HEADER_SIZE) k1.heap.blocks = false ∧
      bitmap_test k1.phys.pmm_bitmap ((k.procs c).page_table / PAGE_SIZE) = false ∧
      heap_live k1.heap (k.procs c).fd_table ∧
      first_used ((k.procs c).fd_table - BLOCK_HEADER_SIZE) k1.heap.blocks = true := by
  have hslot : find_slot_of k.process_table c MAX_PROCESSES 0 = some j :=
    find_slot_of_spec _ _ _ 0 j (Nat.zero_le _) (by omega) htj (fun j' _ b => hfirst j' b)
  have hks0 : (k.procs c).kernel_stack ≠ 0 := by
    have := hks.1
    simp only [BLOCK_HEADER_SIZE] at this
    omega
  obtain ⟨h1, a1, a2, _, a4, a5⟩ := kfree_marks_free k.heap _ hks hnd
  have hpcb1 : heap_live h1 c := a5 c (fun e => hksc e.symm) hpcb
  have hfd1 : heap_live h1 (k.procs c).fd_table := a5 _ hfdks hfd
  obtain ⟨h2, b1, b2, b3, _, b5⟩ := kfree_marks_free h1 c hpcb1 a4
  have hfd2 : heap_live h2 (k.procs c).fd_table := b5 _ hfdc hfd1
  have hph : vmm_destroy_address_space k.kpml4 k.phys (k.procs c).page_table =
      some { k.phys with
        pmm_bitmap := bitmap_clear k.phys.pmm_bitmap ((k.procs c).page_table / PAGE_SIZE)
        pmm_free_pages := (k.phys.pmm_free_pages + 1) % U64 } := by
    unfold vmm_destroy_address_space
    rw [if_neg (fun h => h.elim hroot0 hrootk)]
    rcases hroot with e | e | ⟨e1, e2, e3, e4⟩
    · exact absurd e hroot0
    · exact absurd e hrootk
    · unfold pmm_free_page
      rw [if_neg (by simp only [not_or, not_not, not_lt]; exact ⟨e1, e2⟩),
        if_neg (by omega), if_neg (by simp [e4])]
  unfold free_process_struct
  rw [if_neg hc, hslot]
  dsimp only
  rw [if_pos hks0, a1]
  dsimp only [Option.map_some']
  rw [if_pos hroot0, hph]
  dsimp only [Option.map_some']
  rw [b1]
  refine ⟨_, rfl, by simp, fun i hi => by simp [hi], ?_, ?_, ?_, hfd2, hfd2.2.2.2⟩
  · exact all_free_at_not_used _ _ (b3 _ a2)
  · exact all_free_at_not_used _ _ b2
  · exact bitmap_test_clear _ _

theorem free_process_struct_keeps_fd_table_witness :
    ∃ k1, free_process_struct kernel2 0x2002368 = some k1 ∧ k1.process_table 2 = 0 ∧
      first_used ((kernel2.procs 0x2002368).fd_table - BLOCK_HEADER_SIZE) k1.heap.blocks = true :=
  (free_process_struct_keeps_fd_table kernel2 0x2002368 2 (by decide) (by decide) rfl (by decide)
    (by decide) (by decide) (by decide) (by decide) (by decide) (by decide) (by decide)
    (by decide) (by decide) (by decide)).imp
    (fun _ h => ⟨h.1, h.2.1, h.2.2.2.2.2.2.2⟩)

/-! ## Duplicating a descriptor onto itself -/

/-- C19 (the code does otherwise for the standard streams): for a descriptor
`fd < MAX_FDS` of the calling process, `sys_dup2(fd, fd)` leaves the kernel state, and so
every entry of the FD table, unchanged; it returns `fd` when the entry of `fd` is bound
to a node or to a pipe, and `-1` when it is bound to neither.  That is how
`init_process_fd_table` leaves the entries 0, 1 and 2, which `sys_read` and `sys_write`
serve without looking at the table: for the implicit standard streams the call returns
`-1`, not `fd`. -/
theorem dup2_same_descriptor (k : Kernel) (fd : Nat) (ht : get_fd_table k ≠ 0)
    (hfd : fd < MAX_FDS) :
    (sys_dup2 k fd fd).1 = k ∧
    (((k.fd_tables (get_fd_table k) fd).node ≠ 0 ∨ (k.fd_tables (get_fd_table k) fd).pipe ≠ 0) →
      (sys_dup2 k fd fd).2 = fd) ∧
    (((k.fd_tables (get_fd_table k) fd).node = 0 ∧ (k.fd_tables (get_fd_table k) fd).pipe = 0) →
      (sys_dup2 k fd fd).2 = U64 - 1) := by
  unfold sys_dup2
  dsimp only
  rw [if_neg ht, if_neg (show ¬ (fd ≥ MAX_FDS ∨ fd ≥ MAX_FDS) by omega)]
  by_cases he : (k.fd_tables (get_fd_table k) fd).node = 0 ∧
      (k.fd_tables (get_fd_table k) fd).pipe = 0
  · rw [if_pos he]
    exact ⟨rfl, fun h => absurd he.1 (fun e => h.elim (fun a => a e) (fun a => a he.2)),
      fun _ => rfl⟩
  · rw [if_neg he, if_pos rfl]
    exact ⟨rfl, fun _ => rfl, fun h => absurd h he⟩

/-- Witness of C19: in `kernel5` descriptor 3 is bound to a file and `sys_dup2(3, 3)`
returns 3; in `kernel0` the FD table is as `init_process_fd_table` left it and
`sys_dup2(1, 1)` returns `-1`, with the state unchanged in both. -/
theorem dup2_same_descriptor_witness :
    ((sys_dup2 kernel5 3 3).1 = kernel5 ∧ (sys_dup2 kernel5 3 3).2 = 3) ∧
    (get_fd_table kernel0 ≠ 0 ∧ (sys_dup2 kernel0 1 1).1 = kernel0 ∧
      (sys_dup2 kernel0 1 1).2 = U64 - 1 ∧ (sys_dup2 kernel0 1 1).2 ≠ 1) :=
  have h := dup2_same_descriptor kernel5 3 (by decide) (by decide)
  have g := dup2_same_descriptor kernel0 1 (by decide) (by decide)
  ⟨⟨h.1, h.2.1 (by decide)⟩, by decide, g.1, g.2.2 (by decide),
    fun e => absurd ((g.2.2 (by decide)).symm.trans e) (by decide)⟩

/-! ## Trap dispatch -/

theorem init_exceptions_handlers (t : Trap) (i : Nat) :
    (init_exceptions t).interrupt_handlers i =
      if i = 14 then some isr_t.page_fault
      else if i = 13 then some isr_t.general_protection_fault
      else if i = 12 then some isr_t.stack_fault
      else if i = 8 then some isr_t.double_fault
      else if i = 6 then some isr_t.invalid_opcode
      else t.interrupt_handlers i := rfl

theorem console_texts_append : ∀ (a b : List console_t),
    console_texts (a ++ b) = console_texts a ++ console_texts b
  | [], _ => rfl
  | console_t.text s :: a, b => by
    show s :: console_texts (a ++ b) = s :: (console_texts a ++ console_texts b)
    rw [console_texts_append a b]
  | console_t.hex _ :: a, b => by
    show console_texts (a ++ b) = console_texts a ++ console_texts b
    exact console_texts_append a b

theorem console_texts_print_hex (l : String) (v : Nat) :
    console_texts (print_hex l v) = [l, ": 0x", "  "] := rfl

/-- The texts written by `panic_with_regs` do not depend on the trap frame. -/
theorem panic_with_regs_texts (msg : String) (regs : registers_t) :
    console_texts (panic_with_regs msg regs) =
      console_texts (panic_with_regs msg regs_page_fault) := by
  unfold panic_with_regs
  simp only [console_texts_append, console_texts_print_hex]

/-- C20: after `init_exceptions` the entry 14 of `interrupt_handlers` is
`page_fault_handler`, yet for a trap frame with `int_no = 14` the function
`isr_handler` does not call it: as for every `int_no < 32` it calls
`exception_handler`, which halts in `panic_with_regs` with the message of the
exception, here "Page Fault", and a register dump.  The fault address is not read and
the error code is not decoded (`page_fault_handler` by itself reports the error code 6
as page not present, write, user mode).  For `32 <= int_no < 256` with a null entry in
the table `isr_handler` writes a message and returns, the frame, the kernel state and the
table being as before. -/
theorem isr_page_fault_bypasses_handler (t : Trap) (regs : registers_t)
    (h14 : regs.int_no = 14) :
    (init_exceptions t).interrupt_handlers 14 = some isr_t.page_fault ∧
    isr_handler (init_exceptions t) regs =
      some (outcome_t.halted ((init_exceptions t).console ++ panic_with_regs "Page Fault" regs)) ∧
    isr_handler (init_exceptions t) regs ≠
      some (call_handler isr_t.page_fault (init_exceptions t) regs) ∧
    "Faulting address: " ∉ console_texts (panic_with_regs "Page Fault" regs) ∧
    "page not present" ∉ console_texts (panic_with_regs "Page Fault" regs) ∧
    "protection violation" ∉ console_texts (panic_with_regs "Page Fault" regs) ∧
    page_fault_decode 6 =
      [console_t.text "page not present", console_t.text ", during ", console_t.text "write",
       console_t.text " in ", console_t.text "user", console_t.text " mode"] ∧
    (∀ (t1 : Trap) (r : registers_t), r.int_no < 32 →
      isr_handler t1 r = some (outcome_t.halted
        (t1.console ++ panic_with_regs (exception_messages.getD r.int_no "") r))) ∧
    (∀ (t1 : Trap) (r : registers_t), 32 ≤ r.int_no → r.int_no < 256 →
      t1.interrupt_handlers r.int_no = none →
      isr_handler t1 r = some (outcome_t.returned
        { t1 with console := t1.console ++
            [console_t.text "Unhandled interrupt: ", console_t.text "\n"] } r)) := by
  have hexc : ∀ (t1 : Trap) (r : registers_t), r.int_no < 32 →
      isr_handler t1 r = some (outcome_t.halted
        (t1.console ++ panic_with_regs (exception_messages.getD r.int_no "") r)) := by
    intro t1 r hr
    unfold isr_handler exception_handler
    rw [if_pos hr, if_pos hr]
  have h1 : isr_handler (init_exceptions t) regs =
      some (outcome_t.halted ((init_exceptions t).console ++ panic_with_regs "Page Fault" regs)) := by
    rw [hexc _ _ (by rw [h14]; decide), h14]
    rfl
  refine ⟨rfl, h1, ?_, ?_, ?_, ?_, by decide, hexc, ?_⟩
  · rw [h1]
    intro h
    simp only [call_handler, Option.some.injEq, outcome_t.halted.injEq,
      List.append_cancel_left_eq] at h
    have h2 := congrArg List.head? h
    simp [panic_with_regs, page_fault_handler] at h2
    exact absurd h2 (by decide)
  · rw [panic_with_regs_texts]; decide
  · rw [panic_with_regs_texts]; decide
  · rw [panic_with_regs_texts]; decide
  · intro t1 r h32 h256 hn
    unfold isr_handler
    rw [if_neg (by omega), if_neg (by omega), hn]

theorem isr_page_fault_bypasses_handler_witness :
    isr_handler (init_exceptions trap0) regs_page_fault =
      some (outcome_t.halted ((init_exceptions trap0).console ++
        panic_with_regs "Page Fault" regs_page_fault)) ∧
    isr_handler (init_exceptions trap0) regs_page_fault ≠
      some (call_handler isr_t.page_fault (init_exceptions trap0) regs_page_fault) :=
  have h := isr_page_fault_bypasses_handler trap0 regs_page_fault rfl
  ⟨h.2.1, h.2.2.1⟩

/-! ## Mapping a page -/

theorem table_at_succ (m : Mem) (root v k : Nat) :
    table_at m root v (k + 1) =
      match table_at m root v k with
      | none => none
      | some t =>
        if entry m t (level_index (4 - k) v) &&& PAGE_PRESENT = 0 then none
        else some (entry m t (level_index (4 - k) v) &&& NOT_FFF) := by
  rw [table_at]

theorem table_at_succ_some (m : Mem) (root v k t : Nat) (h : table_at m root v k = some t) :
    table_at m root v (k + 1) =
      if entry m t (level_index (4 - k) v) &&& PAGE_PRESENT = 0 then none
      else some (entry m t (level_index (4 - k) v) &&& NOT_FFF) := by
  rw [table_at_succ, h]

theorem table_at_succ_none (m : Mem) (root v k : Nat) (h : table_at m root v k = none) :
    table_at m root v (k + 1) = none := by
  rw [table_at_succ, h]

theorem table_at_none_le (m : Mem) (root v : Nat) : ∀ k j, k ≤ j →
    table_at m root v k = none → table_at m root v j = none := by
  intro k j hkj h
  induction j with
  | zero =>
    have : k = 0 := by omega
    rw [this] at h; exact h
  | succ j ih =>
    rcases Nat.eq_or_lt_of_le hkj with e | e
    · rw [← e]; exact h
    · exact table_at_succ_none m root v j (ih (by omega))

/-- The translation in terms of the page table reached after three steps. -/
theorem vmm_get_physical_table_at (m : Mem) (root v : Nat) :
    vmm_get_physical m root v =
      match table_at m root v 3 with
      | none => 0
      | some t =>
        if entry m t (PT_INDEX v) &&& PAGE_PRESENT = 0 then 0
        else (entry m t (PT_INDEX v) &&& NOT_FFF) ||| (v &&& 0xFFF) := by
  have l4 : level_index (4 - 0) v = PML4_INDEX v := rfl
  have l3 : level_index (4 - 1) v = PDPT_INDEX v := rfl
  have l2 : level_index (4 - 2) v = PD_INDEX v := rfl
  have h0 : table_at m root v 0 = some root := rfl
  unfold vmm_get_physical
  dsimp only
  by_cases c4 : entry m root (PML4_INDEX v) &&& PAGE_PRESENT = 0
  · have h1 : table_at m root v 1 = none := by
      rw [table_at_succ_some m root v 0 root h0, l4, if_pos c4]
    rw [if_pos c4, table_at_none_le m root v 1 3 (by norm_num) h1]
  · have h1 : table_at m root v 1 = some (entry m root (PML4_INDEX v) &&& NOT_FFF) := by
      rw [table_at_succ_some m root v 0 root h0, l4, if_neg c4]
    rw [if_neg c4]
    by_cases c3 : entry m (entry m root (PML4_INDEX v) &&& NOT_FFF) (PDPT_INDEX v) &&& PAGE_PRESENT = 0
    · have h2 : table_at m root v 2 = none := by
        rw [table_at_succ_some m root v 1 _ h1, l3, if_pos c3]
      rw [if_pos c3, table_at_none_le m root v 2 3 (by norm_num) h2]
    · have h2 := table_at_succ_some m root v 1 _ h1
      rw [l3, if_neg c3] at h2
      rw [if_neg c3]
      by_cases c2 : entry m (entry m (entry m root (PML4_INDEX v) &&& NOT_FFF) (PDPT_INDEX v) &&& NOT_FFF)
          (PD_INDEX v) &&& PAGE_PRESENT = 0
      · have h3 : table_at m root v 3 = none := by
          rw [table_at_succ_some m root v 2 _ h2, l2, if_pos c2]
        rw [if_pos c2, h3]
      · have h3 := table_at_succ_some m root v 2 _ h2
        rw [l2, if_neg c2] at h3
        rw [if_neg c2, h3]

/-- The entry that `vmm_get_or_create_table` and `vmm_map_page` store for the aligned
address `a` with flags below bit 12: it is present and its address part is `a`. -/
theorem mk_entry (a f : Nat) (ha : a % 4096 = 0) (hlt : a < U64) (hf : f < 4096) :
    (((a &&& NOT_FFF) ||| f) ||| PAGE_PRESENT) % U64 = a + (f ||| 1) ∧
    (a + (f ||| 1)) &&& PAGE_PRESENT ≠ 0 ∧ (a + (f ||| 1)) &&& NOT_FFF = a := by
  have h1 : a &&& NOT_FFF = a := by rw [land_not_fff a hlt, ha]; rfl
  have hg : f ||| 1 < 4096 := Nat.or_lt_two_pow (n := 12) hf (by norm_num)
  have hodd : (f ||| 1) % 2 = 1 := by
    have : (f ||| 1).testBit 0 = true := by simp [Nat.testBit_or]
    rwa [Nat.testBit_zero, decide_eq_true_eq] at this
  have h2 : ((a &&& NOT_FFF) ||| f) ||| PAGE_PRESENT = a + (f ||| 1) := by
    rw [h1, Nat.lor_assoc]
    exact lor_flags a (f ||| 1) ha hg
  have hlt2 : a + (f ||| 1) < U64 := by unfold U64 at hlt ⊢; omega
  refine ⟨by rw [h2, Nat.mod_eq_of_lt hlt2], ?_, ?_⟩
  · rw [land_present]; omega
  · rw [land_not_fff _ hlt2]; omega

theorem land_not_fff_aligned (x : Nat) (h : x < U64) : (x &&& NOT_FFF) % 4096 = 0 := by
  rw [land_not_fff x h]; omega

theorem table_at_aligned (m : Mem) (root v : Nat) (hr : root % 4096 = 0) :
    ∀ k t, table_at m root v k = some t → t % 4096 = 0
  | 0, t, h => by
    simp only [table_at, Option.some.injEq] at h
    rw [← h]; exact hr
  | k + 1, t, h => by
    rw [table_at_succ] at h
    cases hk : table_at m root v k with
    | none => rw [hk] at h; cases h
    | some t0 =>
      rw [hk] at h
      dsimp only at h
      split_ifs at h
      simp only [Option.some.injEq] at h
      rw [← h]
      exact land_not_fff_aligned _ (read64_lt _ _)

/-- Two memories with the same entries along the walk of `v` reach the same tables. -/
theorem table_at_congr (m m1 : Mem) (root v : Nat) : ∀ k,
    (∀ j t, j < k → table_at m root v j = some t →
      entry m1 t (level_index (4 - j) v) = entry m t (level_index (4 - j) v)) →
    table_at m1 root v k = table_at m root v k
  | 0, _ => rfl
  | k + 1, h => by
    have ih := table_at_congr m m1 root v k (fun j t hj ht => h j t (by omega) ht)
    rw [table_at_succ, table_at_succ, ih]
    cases hk : table_at m root v k with
    | none => rfl
    | some t =>
      dsimp only
      rw [h k t (by omega) hk]

/-- The tables reached depend on the address through the indices only. -/
theorem table_at_indices (m : Mem) (root v w : Nat) : ∀ k,
    (∀ i, i < k → level_index (4 - i) v = level_index (4 - i) w) →
    table_at m root v k = table_at m root w k
  | 0, _ => rfl
  | k + 1, h => by
    have ih := table_at_indices m root v w k (fun i hi => h i (by omega))
    rw [table_at_succ, table_at_succ, ih, h k (by omega)]

theorem level_index_div (l v : Nat) :
    level_index l v =
      if l = 1 then v / 4096 % 512 else if l = 2 then v / 4096 / 512 % 512
      else if l = 3 then v / 4096 / 512 / 512 % 512 else v / 4096 / 512 / 512 / 512 % 512 := by
  have key : ∀ x : Nat, x &&& 0x1FF = x % 512 := fun x => Nat.and_pow_two_sub_one_eq_mod x 9
  have e12 : v >>> 12 = v / 4096 := by rw [Nat.shiftRight_eq_div_pow]
  have e21 : v >>> 21 = v / 4096 / 512 := by
    rw [Nat.shiftRight_eq_div_pow, Nat.div_div_eq_div_mul]
  have e30 : v >>> 30 = v / 4096 / 512 / 512 := by
    rw [Nat.shiftRight_eq_div_pow, Nat.div_div_eq_div_mul, Nat.div_div_eq_div_mul]
  have e39 : v >>> 39 = v / 4096 / 512 / 512 / 512 := by
    rw [Nat.shiftRight_eq_div_pow, Nat.div_div_eq_div_mul, Nat.div_div_eq_div_mul,
      Nat.div_div_eq_div_mul]
  unfold level_index PT_INDEX PD_INDEX PDPT_INDEX PML4_INDEX
  split
  · rw [if_pos rfl, key, e12]
  · rw [if_neg (by norm_num), if_pos rfl, key, e21]
  · rw [if_neg (by norm_num), if_neg (by norm_num), if_pos rfl, key, e30]
  · rename_i h1 h2 h3
    rw [if_neg (fun e => h1 e), if_neg (fun e => h2 e), if_neg (fun e => h3 e), key, e39]

/-- Two addresses have the same four indices exactly when they agree on the bits 12
to 47. -/
theorem indices_eq_iff (v w : Nat) :
    (∀ i, i < 4 → level_index (4 - i) v = level_index (4 - i) w) ↔
      v / 4096 % 2 ^ 36 = w / 4096 % 2 ^ 36 := by
  constructor
  · intro h
    have h4 := h 0 (by norm_num)
    have h3 := h 1 (by norm_num)
    have h2 := h 2 (by norm_num)
    have h1 := h 3 (by norm_num)
    rw [level_index_div, level_index_div] at h4 h3 h2 h1
    norm_num at h4 h3 h2 h1 ⊢
    omega
  · intro h i hi
    rw [level_index_div, level_index_div]
    norm_num at h
    have : i = 0 ∨ i = 1 ∨ i = 2 ∨ i = 3 := by omega
    rcases this with e | e | e | e <;> subst e <;> norm_num <;> omega

/-- Hanging a new, empty table `n` below an entry that was not present keeps the tree
well formed and changes no translation. -/
theorem extend_tree (s s1 : Phys) (root v k0 P n : Nat)
    (hwf : tree_wf s root) (hk : k0 ≤ 2) (hP : table_at s.mem root v k0 = some P)
    (hnp : entry s.mem P (level_index (4 - k0) v) &&& PAGE_PRESENT = 0)
    (hfree : frame_free s (n / 4096)) (hused : ¬ frame_free s1 (n / 4096))
    (hmono : ∀ f, frame_free s1 f → frame_free s f)
    (E1 : ∀ t i, t % 4096 = 0 → t / 4096 ≠ n / 4096 → i < 512 →
      (t ≠ P ∨ i ≠ level_index (4 - k0) v) → entry s1.mem t i = entry s.mem t i)
    (E2 : entry s1.mem P (level_index (4 - k0) v) &&& PAGE_PRESENT ≠ 0 ∧
      entry s1.mem P (level_index (4 - k0) v) &&& NOT_FFF = n)
    (E3 : ∀ i, i < 512 → entry s1.mem n i = 0) :
    tree_wf s1 root ∧ table_at s1.mem root v (k0 + 1) = some n ∧
    ∀ w, vmm_get_physical s1.mem root w = vmm_get_physical s.mem root w := by
  -- tables of the old tree are aligned and are not in the new frame
  have hold : ∀ w k t, k ≤ 3 → table_at s.mem root w k = some t →
      t % 4096 = 0 ∧ t / 4096 ≠ n / 4096 := by
    intro w k t hk3 ht
    refine ⟨table_at_aligned _ _ _ hwf.aligned k t ht, fun e => ?_⟩
    exact hwf.owned w k t hk3 ht (e ▸ hfree)
  have hPn : P ≠ n := fun e => (hold v k0 P (by omega) hP).2 (by rw [e])
  -- the walks that do not go through the new entry
  have hsame : ∀ w k, k ≤ 3 →
      (∀ j, j < k → ¬ (table_at s.mem root w j = some P ∧
        level_index (4 - j) w = level_index (4 - k0) v)) →
      table_at s1.mem root w k = table_at s.mem root w k := by
    intro w k hk3 hno
    apply table_at_congr
    intro j t hj ht
    obtain ⟨a1, a2⟩ := hold w j t (by omega) ht
    apply E1 t _ a1 a2 (level_index_lt _ _)
    by_cases htP : t = P
    · right
      intro e
      exact hno j hj ⟨by rw [ht, htP], e⟩
    · exact Or.inl htP
  -- a walk meets `P` at depth `k0` only
  have hdepth : ∀ w j, j ≤ 3 → table_at s.mem root w j = some P → j = k0 := by
    intro w j hj ht
    exact (hwf.inj w v j k0 P hj (by omega) ht hP).1
  have hpre : ∀ w k, k ≤ k0 → table_at s1.mem root w k = table_at s.mem root w k := by
    intro w k hkk
    apply hsame w k (by omega)
    intro j hj ⟨h1, _⟩
    have := hdepth w j (by omega) h1
    omega
  have hpass : ∀ w, table_at s.mem root w k0 = some P →
      level_index (4 - k0) w = level_index (4 - k0) v →
      table_at s1.mem root w (k0 + 1) = some n ∧ table_at s.mem root w (k0 + 1) = none ∧
      ∀ k, k0 + 1 < k → k ≤ 3 → table_at s1.mem root w k = none := by
    intro w h1 h2
    have h3 : table_at s1.mem root w k0 = some P := by rw [hpre w k0 le_rfl]; exact h1
    have h4 : table_at s1.mem root w (k0 + 1) = some n := by
      rw [table_at_succ_some _ _ _ _ _ h3, h2, if_neg E2.1, E2.2]
    have h5 : table_at s.mem root w (k0 + 1) = none := by
      rw [table_at_succ_some _ _ _ _ _ h1, h2, if_pos hnp]
    refine ⟨h4, h5, fun k hk1 hk3 => ?_⟩
    apply table_at_none_le _ _ _ (k0 + 2) k (by omega)
    rw [table_at_succ_some _ _ _ _ _ h4, E3 _ (level_index_lt _ _)]
    rfl
  have hnopass : ∀ w, ¬ (table_at s.mem root w k0 = some P ∧
      level_index (4 - k0) w = level_index (4 - k0) v) →
      ∀ k, k ≤ 3 → table_at s1.mem root w k = table_at s.mem root w k := by
    intro w hno k hk3
    apply hsame w k hk3
    intro j hj ⟨h1, h2⟩
    have := hdepth w j (by omega) h1
    subst this
    exact hno ⟨h1, h2⟩
  -- every table of the new tree is the new one or a table of the old tree
  have hchar : ∀ w k t, k ≤ 3 → table_at s1.mem root w k = some t →
      (t = n ∧ k = k0 + 1 ∧ table_at s.mem root w k0 = some P ∧
        level_index (4 - k0) w = level_index (4 - k0) v) ∨
      (t ≠ n ∧ table_at s.mem root w k = some t) := by
    intro w k t hk3 ht
    by_cases hp : table_at s.mem root w k0 = some P ∧
        level_index (4 - k0) w = level_index (4 - k0) v
    · obtain ⟨p1, p2, p3⟩ := hpass w hp.1 hp.2
      rcases Nat.lt_trichotomy k (k0 + 1) with hlt | heq | hgt
      · right
        rw [hpre w k (by omega)] at ht
        exact ⟨fun e => (hold w k t hk3 ht).2 (by rw [e]), ht⟩
      · left
        rw [heq, p1] at ht
        simp only [Option.some.injEq] at ht
        exact ⟨ht.symm, heq, hp.1, hp.2⟩
      · rw [p3 k hgt hk3] at ht; cases ht
    · right
      rw [hnopass w hp k hk3] at ht
      exact ⟨fun e => (hold w k t hk3 ht).2 (by rw [e]), ht⟩
  refine ⟨⟨hwf.aligned, ?_, ?_⟩, (hpass v hP rfl).1, ?_⟩
  · intro w k t hk3 ht
    rcases hchar w k t hk3 ht with ⟨e, _⟩ | ⟨_, h2⟩
    · rw [e]; exact hused
    · exact fun hf => hwf.owned w k t hk3 h2 (hmono _ hf)
  · intro w1 w2 k j t hk3 hj3 h1 h2
    rcases hchar w1 k t hk3 h1 with ⟨e1, a1, a2, a3⟩ | ⟨e1, a1⟩
    · rcases hchar w2 j t hj3 h2 with ⟨_, b1, b2, b3⟩ | ⟨e2, _⟩
      · refine ⟨by omega, fun i hi => ?_⟩
        rcases Nat.eq_or_lt_of_le (show i ≤ k0 by omega) with e | e
        · rw [e, a3, b3]
        · exact (hwf.inj w1 w2 k0 k0 P (by omega) (by omega) a2 b2).2 i e
      · exact absurd e1 e2
    · rcases hchar w2 j t hj3 h2 with ⟨e2, _⟩ | ⟨_, b1⟩
      · exact absurd e2 e1
      · exact hwf.inj w1 w2 k j t hk3 hj3 a1 b1
  · intro w
    rw [vmm_get_physical_table_at, vmm_get_physical_table_at]
    by_cases hp : table_at s.mem root w k0 = some P ∧
        level_index (4 - k0) w = level_index (4 - k0) v
    · obtain ⟨p1, p2, p3⟩ := hpass w hp.1 hp.2
      rw [table_at_none_le _ _ _ (k0 + 1) 3 (by omega) p2]
      rcases Nat.eq_or_lt_of_le (show k0 + 1 ≤ 3 by omega) with e | e
      · rw [e] at p1
        rw [p1]
        dsimp only
        have : entry s1.mem n (PT_INDEX w) = 0 := E3 _ (level_index_lt 1 w)
        rw [this]
        rfl
      · rw [p3 3 e le_rfl]
    · rw [hnopass w hp 3 le_rfl]
      cases h3 : table_at s.mem root w 3 with
      | none => rfl
      | some t =>
        dsimp only
        obtain ⟨a1, a2⟩ := hold w 3 t le_rfl h3
        have htP : t ≠ P := by
          intro e
          have := hdepth w 3 le_rfl (by rw [h3, e])
          omega
        have : entry s1.mem t (PT_INDEX w) = entry s.mem t (PT_INDEX w) :=
          E1 t _ a1 a2 (level_index_lt 1 w) (Or.inl htP)
        rw [this]

/-- The flags of `vmm.h` other than `PAGE_NX` lie below bit 12. -/
theorem page_flags_lt :
    PAGE_PRESENT ||| PAGE_WRITABLE ||| PAGE_USER ||| PAGE_WRITE_THROUGH ||| PAGE_CACHE_DISABLE |||
      PAGE_ACCESSED ||| PAGE_DIRTY ||| PAGE_HUGE ||| PAGE_GLOBAL < 4096 := by decide

theorem frames_ne (t p : Nat) (ht : t % 4096 = 0) (hp : p % 4096 = 0) (h : t ≠ p) :
    t / 4096 ≠ p / 4096 := by omega

/-- One step of `vmm_map_page`: `vmm_get_or_create_table` on the table `P` that the
walk of `v` reaches after `k0` steps gives the table of the next step, keeps the tree
well formed and changes no translation. -/
theorem get_or_create_step (s : Phys) (root v k0 P fl : Nat) (hwf : tree_wf s root)
    (hk : k0 ≤ 2) (hP : table_at s.mem root v k0 = some P) (hfl : fl < 4096)
    (hne : (vmm_get_or_create_table s P (level_index (4 - k0) v) fl).2 ≠ 0) :
    tree_wf (vmm_get_or_create_table s P (level_index (4 - k0) v) fl).1 root ∧
    table_at (vmm_get_or_create_table s P (level_index (4 - k0) v) fl).1.mem root v (k0 + 1) =
      some (vmm_get_or_create_table s P (level_index (4 - k0) v) fl).2 ∧
    ∀ w, vmm_get_physical (vmm_get_or_create_table s P (level_index (4 - k0) v) fl).1.mem root w =
      vmm_get_physical s.mem root w := by
  unfold vmm_get_or_create_table at hne ⊢
  by_cases hpres : entry s.mem P (level_index (4 - k0) v) &&& PAGE_PRESENT = 0
  · rw [if_pos hpres] at hne ⊢
    dsimp only at hne ⊢
    by_cases ha : (pmm_alloc_page s).2 = 0
    · rw [if_pos ha] at hne
      exact absurd rfl hne
    · rw [if_neg ha]
      obtain ⟨g1, g2, g3, g4, g5, g6⟩ := pmm_alloc_page_grows s ha
      have hPal : P % 4096 = 0 := table_at_aligned _ _ _ hwf.aligned k0 P hP
      have hPown : ¬ frame_free s (P / 4096) := hwf.owned v k0 P (by omega) hP
      have hPn : P / 4096 ≠ (pmm_alloc_page s).2 / 4096 := fun e => hPown (e ▸ g3)
      have hnlt : (pmm_alloc_page s).2 < U64 := by
        have := frame_free_lt s _ g3
        unfold U64; omega
      obtain ⟨k1, k2, k3⟩ := mk_entry (pmm_alloc_page s).2 fl g2 hnlt hfl
      generalize hn : (pmm_alloc_page s).2 = n at *
      generalize hs1 : (pmm_alloc_page s).1 = s1 at *
      refine extend_tree s _ root v k0 P n hwf hk hP hpres g3 g4 g1.1 ?_ ?_ ?_
      · intro t i ht htn hi hor
        show entry (set_entry s1.mem P _ _) t i = _
        have e1 : entry (set_entry s1.mem P (level_index (4 - k0) v)
            (n &&& NOT_FFF ||| fl ||| PAGE_PRESENT)) t i = entry s1.mem t i := by
          by_cases htP : t = P
          · rw [htP]
            exact entry_set_other _ _ _ _ _ (hor.resolve_left (fun h => h htP))
          · exact entry_set_entry_frame _ t P _ _ _ hPal (level_index_lt _ _) hi ht
              (frames_ne t P ht hPal htP)
        rw [e1]
        exact entry_congr _ _ t i ht hi (fun a ha => g6 a (by rw [ha]; exact htn))
      · show entry (set_entry s1.mem P _ _) P _ &&& PAGE_PRESENT ≠ 0 ∧
          entry (set_entry s1.mem P _ _) P _ &&& NOT_FFF = n
        rw [entry_set_same, k1]
        exact ⟨k2, k3⟩
      · intro i hi
        show entry (set_entry s1.mem P _ _) n i = 0
        rw [entry_set_entry_frame _ n P _ _ _ hPal (level_index_lt _ _) hi g2 (Ne.symm hPn)]
        exact entry_zero_of_zero _ n i g2 hi g5
  · rw [if_neg hpres]
    refine ⟨hwf, ?_, fun _ => rfl⟩
    rw [table_at_succ_some _ _ _ _ _ hP, if_neg hpres]

/-- The last step of `vmm_map_page`: storing the leaf entry changes the translation of
the addresses with the indices of `v`, and of no other address. -/
theorem set_leaf (s : Phys) (root v T leaf : Nat) (hwf : tree_wf s root)
    (hT : table_at s.mem root v 3 = some T) (hleaf : leaf < U64) :
    tree_wf { s with mem := set_entry s.mem T (PT_INDEX v) leaf } root ∧
    (∀ w, (∀ i, i < 4 → level_index (4 - i) w = level_index (4 - i) v) →
      vmm_get_physical (set_entry s.mem T (PT_INDEX v) leaf) root w =
        if leaf &&& PAGE_PRESENT = 0 then 0 else (leaf &&& NOT_FFF) ||| (w &&& 0xFFF)) ∧
    (∀ w, ¬ (∀ i, i < 4 → level_index (4 - i) w = level_index (4 - i) v) →
      vmm_get_physical (set_entry s.mem T (PT_INDEX v) leaf) root w =
        vmm_get_physical s.mem root w) := by
  have hTal : T % 4096 = 0 := table_at_aligned _ _ _ hwf.aligned 3 T hT
  have htab : ∀ w k, k ≤ 3 →
      table_at (set_entry s.mem T (PT_INDEX v) leaf) root w k = table_at s.mem root w k := by
    intro w k hk3
    apply table_at_congr
    intro j t hj ht
    have htT : t ≠ T := by
      intro e
      have := (hwf.inj w v j 3 T (by omega) le_rfl (by rw [ht, e]) hT).1
      omega
    exact entry_set_entry_frame _ t T _ _ _ hTal (level_index_lt 1 v) (level_index_lt _ _)
      (table_at_aligned _ _ _ hwf.aligned j t ht)
      (frames_ne t T (table_at_aligned _ _ _ hwf.aligned j t ht) hTal htT)
  refine ⟨⟨hwf.aligned, ?_, ?_⟩, ?_, ?_⟩
  · intro w k t hk3 ht
    have h2 : table_at s.mem root w k = some t := by rw [← htab w k hk3]; exact ht
    exact hwf.owned w k t hk3 h2
  · intro w1 w2 k j t hk3 hj3 h1 h2
    have a1 : table_at s.mem root w1 k = some t := by rw [← htab w1 k hk3]; exact h1
    have a2 : table_at s.mem root w2 j = some t := by rw [← htab w2 j hj3]; exact h2
    exact hwf.inj w1 w2 k j t hk3 hj3 a1 a2
  · intro w hw
    have h3 : table_at s.mem root w 3 = some T := by
      rw [table_at_indices _ _ w v 3 (fun i hi => hw i (by omega))]; exact hT
    have hpt : PT_INDEX w = PT_INDEX v := hw 3 (by norm_num)
    rw [vmm_get_physical_table_at, htab w 3 le_rfl, h3]
    dsimp only
    rw [hpt, entry_set_same, Nat.mod_eq_of_lt hleaf]
  · intro w hw
    rw [vmm_get_physical_table_at, vmm_get_physical_table_at, htab w 3 le_rfl]
    cases h3 : table_at s.mem root w 3 with
    | none => rfl
    | some t =>
      dsimp only
      have e : entry (set_entry s.mem T (PT_INDEX v) leaf) t (PT_INDEX w) =
          entry s.mem t (PT_INDEX w) := by
        by_cases htT : t = T
        · rw [htT]
          apply entry_set_other
          intro hpt
          apply hw
          intro i hi
          rcases Nat.eq_or_lt_of_le (show i ≤ 3 by omega) with e3 | e3
          · rw [e3]; exact hpt
          · exact (hwf.inj w v 3 3 T le_rfl le_rfl (by rw [h3, htT]) hT).2 i e3
        · exact entry_set_entry_frame _ t T _ _ _ hTal (level_index_lt 1 v) (level_index_lt 1 w)
            (table_at_aligned _ _ _ hwf.aligned 3 t h3)
            (frames_ne t T (table_at_aligned _ _ _ hwf.aligned 3 t h3) hTal htT)
      rw [e]

/-- C11, for flags below bit 12 (every flag of `vmm.h` but `PAGE_NX`): in an address
space whose page tables form a tree of frames the PMM owns, when
`vmm_map_page(root, virt, phys, flags)` returns 0 every address `v` of the page of
`virt` translates to `(phys & ~0xFFF) | (v & 0xFFF)`, the translation of every address
that differs from `virt` in the bits 12 to 47, which the walk looks at, is as before the
call, and the tables still form such a tree. -/
theorem map_page_translation (s : Phys) (root virt phys flags : Nat) (hwf : tree_wf s root)
    (hv : virt < U64) (hp : phys < U64) (hf : flags < 4096)
    (hok : (vmm_map_page s root virt phys flags).2 = true) :
    tree_wf (vmm_map_page s root virt phys flags).1 root ∧
    (∀ v, v / 4096 = virt / 4096 →
      vmm_get_physical (vmm_map_page s root virt phys flags).1.mem root v =
        (phys &&& NOT_FFF) ||| (v &&& 0xFFF)) ∧
    (∀ w, w / 4096 % 2 ^ 36 ≠ virt / 4096 % 2 ^ 36 →
      vmm_get_physical (vmm_map_page s root virt phys flags).1.mem root w =
        vmm_get_physical s.mem root w) := by
  have hvdiv : (virt &&& NOT_FFF) / 4096 = virt / 4096 := by
    rw [land_not_fff virt hv]; omega
  have hpal : (phys &&& NOT_FFF) % 4096 = 0 := land_not_fff_aligned phys hp
  have hplt : phys &&& NOT_FFF < U64 := by rw [land_not_fff phys hp]; omega
  obtain ⟨k1, k2, k3⟩ := mk_entry (phys &&& NOT_FFF) flags hpal hplt hf
  have hfl : (if virt &&& NOT_FFF ≥ KERNEL_BASE then PAGE_WRITABLE
      else PAGE_WRITABLE ||| PAGE_USER) < 4096 := by
    split_ifs <;> decide
  unfold vmm_map_page at hok ⊢
  dsimp only at hok ⊢
  generalize (if virt &&& NOT_FFF ≥ KERNEL_BASE then PAGE_WRITABLE
      else PAGE_WRITABLE ||| PAGE_USER) = fl at hfl hok ⊢
  generalize hvv : virt &&& NOT_FFF = vv at hvdiv hok ⊢
  have hidx : ∀ w, (∀ i, i < 4 → level_index (4 - i) w = level_index (4 - i) vv) ↔
      w / 4096 % 2 ^ 36 = virt / 4096 % 2 ^ 36 := by
    intro w
    rw [indices_eq_iff, hvdiv]
  -- the PDPT
  have s1 := get_or_create_step s root vv 0 root fl hwf (by norm_num) rfl hfl
  have l4 : level_index (4 - 0) vv = PML4_INDEX vv := rfl
  rw [l4] at s1
  generalize vmm_get_or_create_table s root (PML4_INDEX vv) fl = r1 at s1 hok ⊢
  by_cases h1 : r1.2 = 0
  · rw [if_pos h1] at hok; cases hok
  rw [if_neg h1] at hok ⊢
  obtain ⟨w1, t1, p1⟩ := s1 h1
  -- the page directory
  have s2 := get_or_create_step r1.1 root vv 1 r1.2 fl w1 (by norm_num) t1 hfl
  have l3 : level_index (4 - 1) vv = PDPT_INDEX vv := rfl
  rw [l3] at s2
  generalize vmm_get_or_create_table r1.1 r1.2 (PDPT_INDEX vv) fl = r2 at s2 hok ⊢
  by_cases h2 : r2.2 = 0
  · rw [if_pos h2] at hok; cases hok
  rw [if_neg h2] at hok ⊢
  obtain ⟨w2, t2, p2⟩ := s2 h2
  -- the page table
  have s3 := get_or_create_step r2.1 root vv 2 r2.2 fl w2 (by norm_num) t2 hfl
  have l2 : level_index (4 - 2) vv = PD_INDEX vv := rfl
  rw [l2] at s3
  generalize vmm_get_or_create_table r2.1 r2.2 (PD_INDEX vv) fl = r3 at s3 hok ⊢
  by_cases h3 : r3.2 = 0
  · rw [if_pos h3] at hok; cases hok
  rw [if_neg h3]
  obtain ⟨w3, t3, p3⟩ := s3 h3
  -- the leaf
  have hg : flags ||| 1 < 4096 := Nat.or_lt_two_pow (n := 12) hf (by norm_num)
  have hval : ((phys &&& NOT_FFF) &&& NOT_FFF ||| flags) ||| PAGE_PRESENT =
      (phys &&& NOT_FFF) + (flags ||| 1) := by
    have a1 : (phys &&& NOT_FFF) &&& NOT_FFF = phys &&& NOT_FFF := by
      rw [land_not_fff _ hplt, hpal]; rfl
    rw [a1, Nat.lor_assoc]
    exact lor_flags (phys &&& NOT_FFF) (flags ||| 1) hpal hg
  have hleaf : ((phys &&& NOT_FFF) &&& NOT_FFF ||| flags) ||| PAGE_PRESENT < U64 := by
    rw [hval]
    unfold U64 at hplt ⊢
    omega
  obtain ⟨w4, q1, q2⟩ := set_leaf r3.1 root vv r3.2 _ w3 t3 hleaf
  refine ⟨w4, ?_, ?_⟩
  · intro v hvp
    have k2' : (((phys &&& NOT_FFF) &&& NOT_FFF ||| flags) ||| PAGE_PRESENT) &&& PAGE_PRESENT ≠ 0 := by
      rw [hval]; exact k2
    have k3' : (((phys &&& NOT_FFF) &&& NOT_FFF ||| flags) ||| PAGE_PRESENT) &&& NOT_FFF =
        phys &&& NOT_FFF := by
      rw [hval]; exact k3
    have := q1 v ((hidx v).2 (by rw [hvp]))
    rw [if_neg k2', k3'] at this
    exact this
  · intro w hw
    have := q2 w (fun h => hw ((hidx w).1 h))
    rw [this, p3, p2, p1]

theorem table_at_zero_mem (root v : Nat) : ∀ k, table_at (fun _ => 0) root v (k + 1) = none := by
  intro k
  apply table_at_none_le _ _ _ 1 (k + 1) (by omega)
  rw [table_at_succ_some _ _ _ 0 root rfl]
  have : entry (fun _ => 0) root (level_index (4 - 0) v) = 0 := by
    unfold entry read64 read8
    norm_num
  rw [this]
  rfl

/-- The address space of `phys0`, an empty PML4 at `0x400000`, is a well-formed tree. -/
theorem tree_wf_phys0 : tree_wf phys0 0x400000 := by
  refine ⟨by decide, ?_, ?_⟩
  · intro v k t _ ht
    cases k with
    | zero =>
      simp only [table_at, Option.some.injEq] at ht
      rw [← ht]
      decide
    | succ k =>
      have : table_at phys0.mem 0x400000 v (k + 1) = none := table_at_zero_mem _ v k
      rw [this] at ht; cases ht
  · intro v w k j t _ _ h1 h2
    cases k with
    | zero =>
      cases j with
      | zero => exact ⟨rfl, fun i hi => absurd hi (Nat.not_lt_zero i)⟩
      | succ j =>
        have : table_at phys0.mem 0x400000 w (j + 1) = none := table_at_zero_mem _ w j
        rw [this] at h2; cases h2
    | succ k =>
      have : table_at phys0.mem 0x400000 v (k + 1) = none := table_at_zero_mem _ v k
      rw [this] at h1; cases h1

set_option maxRecDepth 1000000 in
theorem map_page_phys0_ok : (vmm_map_page phys0 0x400000 0x1234 0x5678 7).2 = true := by decide

set_option maxRecDepth 1000000 in
theorem map_page_phys0_nx :
    (vmm_map_page phys0 0x400000 0x1000 0x5000 (PAGE_NX ||| PAGE_WRITABLE ||| PAGE_PRESENT)).2 =
      true ∧
    vmm_get_physical
      (vmm_map_page phys0 0x400000 0x1000 0x5000 (PAGE_NX ||| PAGE_WRITABLE ||| PAGE_PRESENT)).1.mem
      0x400000 0x1000 = 0x8000000000005000 := by
  refine ⟨by decide, by decide⟩

theorem map_page_translation_witness :
    vmm_get_physical (vmm_map_page phys0 0x400000 0x1234 0x5678 7).1.mem 0x400000 0x1FFF =
      (0x5678 &&& NOT_FFF) ||| (0x1FFF &&& 0xFFF) ∧
    vmm_get_physical (vmm_map_page phys0 0x400000 0x1234 0x5678 7).1.mem 0x400000 0x2000 =
      vmm_get_physical phys0.mem 0x400000 0x2000 :=
  have h := map_page_translation phys0 0x400000 0x1234 0x5678 7 tree_wf_phys0 (by decide)
    (by decide) (by decide) map_page_phys0_ok
  ⟨h.2.1 0x1FFF (by decide), h.2.2 0x2000 (by decide)⟩

/-- C11, the claim as stated fails for `PAGE_NX`: in the empty address space of
`phys0`, a tree the PMM owns, the call `vmm_map_page(root, 0x1000, 0x5000, PAGE_NX |
PAGE_WRITABLE | PAGE_PRESENT)` returns 0, and `vmm_get_physical(root, 0x1000)` is then
`0x8000000000005000`, the frame address with bit 63 of the entry still set, not
`0x5000`. -/
theorem map_page_nx_counterexample :
    tree_wf phys0 0x400000 ∧
    (vmm_map_page phys0 0x400000 0x1000 0x5000 (PAGE_NX ||| PAGE_WRITABLE ||| PAGE_PRESENT)).2 =
      true ∧
    vmm_get_physical
      (vmm_map_page phys0 0x400000 0x1000 0x5000 (PAGE_NX ||| PAGE_WRITABLE ||| PAGE_PRESENT)).1.mem
      0x400000 0x1000 = 0x8000000000005000 ∧
    (0x5000 &&& NOT_FFF) ||| (0x1000 &&& 0xFFF) = 0x5000 :=
  ⟨tree_wf_phys0, map_page_phys0_nx.1, map_page_phys0_nx.2, by decide⟩

/-! ## Loading an ELF segment that is not page aligned -/

set_option maxRecDepth 1000000 in
set_option maxHeartbeats 8000000 in
theorem elf_load_0x400010 :
    (elf_load 4 (phys_elf 0x400010) proc1 0x300000).map (fun r =>
      (r.2.2, r.2.1.context.rip, vmm_get_physical r.1.mem 0x400000 0x400010,
       read8 r.1.mem (vmm_get_physical r.1.mem 0x400000 0x400010), read8 r.1.mem 0x401020)) =
      some (0, 0x400010, 0x401010, 0, 0x42) := by
  decide!

set_option maxRecDepth 1000000 in
set_option maxHeartbeats 8000000 in
theorem elf_load_0x400FFF :
    (elf_load 4 (phys_elf 0x400FFF) proc1 0x300000).map (fun r =>
      (r.2.2, vmm_get_physical r.1.mem 0x400000 0x400FFF,
       read8 r.1.mem (vmm_get_physical r.1.mem 0x400000 0x400FFF), read8 r.1.mem 0x402FFE)) =
      some (0, 0x401FFF, 0, 0x42) := by
  decide!

theorem elf_image_valid :
    elf_validate (phys_elf 0x400010).mem 0x300000 = true ∧
    read8 (phys_elf 0x400010).mem (0x300000 + 120) = 0x42 ∧
    read8 (phys_elf 0x400FFF).mem 0x402FFE = 0 := by
  refine ⟨by decide, by decide, by decide⟩

/-- C15: `elf_load` does not place the bytes of a segment whose `p_vaddr` is not page
aligned where the claim says.  The image `elf_image 0x400010` passes `elf_validate`
and has one `PT_LOAD` segment with `p_vaddr = 0x400010`, `p_offset = 120` and
`p_filesz = p_memsz = 1`, whose byte is `0x42`.  `elf_load` returns 0 and sets
`context.rip` to `e_entry`, and `vmm_get_physical` then gives `0x401010` for `p_vaddr`;
but the byte stored there is 0: the copy loop adds the page offset `0x10` to a
translation that contains it already, and the byte `0x42` is at `0x401020`.  With
`p_vaddr = 0x400FFF` the byte is stored at `0x402FFE`, outside the frame `0x401000`
that was mapped for the segment. -/
theorem elf_load_unaligned_segment :
    elf_validate (phys_elf 0x400010).mem 0x300000 = true ∧
    read8 (phys_elf 0x400010).mem (0x300000 + 120) = 0x42 ∧
    (elf_load 4 (phys_elf 0x400010) proc1 0x300000).map (fun r =>
      (r.2.2, r.2.1.context.rip, vmm_get_physical r.1.mem 0x400000 0x400010,
       read8 r.1.mem (vmm_get_physical r.1.mem 0x400000 0x400010), read8 r.1.mem 0x401020)) =
      some (0, 0x400010, 0x401010, 0, 0x42) ∧
    (elf_load 4 (phys_elf 0x400FFF) proc1 0x300000).map (fun r =>
      (r.2.2, vmm_get_physical r.1.mem 0x400000 0x400FFF,
       read8 r.1.mem (vmm_get_physical r.1.mem 0x400000 0x400FFF), read8 r.1.mem 0x402FFE)) =
      some (0, 0x401FFF, 0, 0x42) ∧
    read8 (phys_elf 0x400FFF).mem 0x402FFE = 0 :=
  ⟨elf_image_valid.1, elf_image_valid.2.1, elf_load_0x400010, elf_load_0x400FFF,
    elf_image_valid.2.2⟩

/-! ## One pass of `schedule`, in full -/

theorem ready_queue_push_globals (k : Kernel) (p : Nat) :
    (ready_queue_push k p).scheduler_enabled = k.scheduler_enabled ∧
    (ready_queue_push k p).process_table = k.process_table ∧
    (ready_queue_push k p).idle_process = k.idle_process ∧
    (ready_queue_push k p).current_process = k.current_process := by
  unfold ready_queue_push
  dsimp only
  split_ifs <;> exact ⟨rfl, rfl, rfl, rfl⟩

theorem ready_queue_pop_globals (k : Kernel) :
    (ready_queue_pop k).1.scheduler_enabled = k.scheduler_enabled ∧
    (ready_queue_pop k).1.process_table = k.process_table ∧
    (ready_queue_pop k).1.idle_process = k.idle_process ∧
    (ready_queue_pop k).1.current_process = k.current_process := by
  unfold ready_queue_pop ready_queue_remove
  dsimp only
  split_ifs <;> exact ⟨rfl, rfl, rfl, rfl⟩

theorem context_switch_globals (k : Kernel) (a b : Nat) :
    (context_switch k a b).process_table = k.process_table ∧
    (context_switch k a b).idle_process = k.idle_process := by
  unfold context_switch
  by_cases h : a ≠ 0
  · rw [if_pos h]; exact ⟨rfl, rfl⟩
  · rw [if_neg h]; exact ⟨rfl, rfl⟩

/-- The popped pointer of a queue that holds the PCBs of `l`, and the queue left. -/
theorem queue_is_pop_any (k : Kernel) (l : List Nat) (h : queue_is k l) :
    (ready_queue_pop k).2 = l.headD 0 ∧ queue_is (ready_queue_pop k).1 l.tail := by
  cases l with
  | nil =>
    rw [ready_queue_pop_empty k h.2.1]
    exact ⟨rfl, h⟩
  | cons p l =>
    obtain ⟨r1, r2, _, _⟩ := queue_is_pop k p l h
    exact ⟨r1, r2⟩

/-- One pass of `schedule` over a well-formed ready queue `l`, with `c` the process
that `process_get_current` gives: `c` is put at the back when it is `RUNNING`, the
first PCB of the resulting queue `l1` (the PCB of slot 0 when `l1` is empty) is `next`,
and `next` is made `RUNNING` and current only when it differs from `c`. -/
theorem schedule_pass (k : Kernel) (l l1 : List Nat) (c next : Nat)
    (hen : k.scheduler_enabled = true) (hq : queue_is k l)
    (hc : process_get_current k = c) (hc0 : c ≠ 0) (hcl : c ∉ l)
    (hl1 : l1 = if (k.procs c).state = RUNNING then l ++ [c] else l)
    (hnext : next = l1.headD (k.process_table 0)) :
    queue_is (schedule k) l1.tail ∧
    (schedule k).current_process = (if c ≠ next then next else k.current_process) ∧
    (∀ q, ((schedule k).procs q).state =
      if c ≠ next ∧ q = next then RUNNING
      else if q = c ∧ (k.procs c).state = RUNNING then READY else (k.procs q).state) ∧
    (schedule k).scheduler_enabled = true ∧ (schedule k).process_table = k.process_table ∧
    (schedule k).idle_process = k.idle_process := by
  unfold schedule
  rw [if_neg (by simp [hen])]
  dsimp only
  have hcur0 : process_get_current { k with schedule_count := (k.schedule_count + 1) % U64 } = c := hc
  rw [hcur0]
  -- the state after the requeue step
  have st1 : ∃ k1 : Kernel, k1 = (if c ≠ 0 ∧ (k.procs c).state = RUNNING then
        ready_queue_push (set_proc { k with schedule_count := (k.schedule_count + 1) % U64 } c
          (fun p => { p with state := READY })) c
      else { k with schedule_count := (k.schedule_count + 1) % U64 }) ∧
      queue_is k1 l1 ∧
      (∀ q, (k1.procs q).state =
        if q = c ∧ (k.procs c).state = RUNNING then READY else (k.procs q).state) ∧
      k1.scheduler_enabled = true ∧ k1.process_table = k.process_table ∧
      k1.idle_process = k.idle_process ∧ k1.current_process = k.current_process := by
    refine ⟨_, rfl, ?_⟩
    by_cases hrun : (k.procs c).state = RUNNING
    · rw [if_pos (show c ≠ 0 ∧ (k.procs c).state = RUNNING from ⟨hc0, hrun⟩)]
      rw [if_pos hrun] at hl1
      obtain ⟨g1, g2, g3, g4⟩ := ready_queue_push_globals
        (set_proc { k with schedule_count := (k.schedule_count + 1) % U64 } c
          (fun p => { p with state := READY })) c
      refine ⟨?_, ?_, ?_, ?_, ?_, ?_⟩
      · rw [hl1]
        apply queue_is_push _ _ _ _ hc0 hcl
        refine queue_is_set_proc _ _ c (fun p => { p with state := READY })
          (fun _ => rfl) (fun _ => rfl) ?_
        exact queue_is_of_eq k _ _ rfl rfl (fun _ => ⟨rfl, rfl⟩) hq
      · intro q
        rw [ready_queue_push_field (fun p : process_t => p.state) (fun _ _ => rfl) (fun _ _ => rfl),
          set_proc_procs]
        by_cases hqc : q = c
        · rw [if_pos hqc, if_pos ⟨hqc, hrun⟩]
        · rw [if_neg hqc, if_neg (fun h : q = c ∧ _ => hqc h.1)]
      · rw [g1]; exact hen
      · rw [g2]; rfl
      · rw [g3]; rfl
      · rw [g4]; rfl
    · rw [if_neg (fun h : c ≠ 0 ∧ (k.procs c).state = RUNNING => hrun h.2)]
      rw [if_neg hrun] at hl1
      refine ⟨?_, ?_, hen, rfl, rfl, rfl⟩
      · rw [hl1]
        exact queue_is_of_eq k _ _ rfl rfl (fun _ => ⟨rfl, rfl⟩) hq
      · intro q
        rw [if_neg (fun h : q = c ∧ _ => hrun h.2)]
  obtain ⟨k1, e1, hq1, hs1, he1, ht1, hi1, hcp1⟩ := st1
  rw [← e1]
  clear e1
  -- the pop
  obtain ⟨r1, r2⟩ := queue_is_pop_any k1 l1 hq1
  obtain ⟨p1, p2, p3, p4⟩ := ready_queue_pop_globals k1
  have hs2 : ∀ q, ((ready_queue_pop k1).1.procs q).state = (k1.procs q).state := fun q =>
    ready_queue_pop_field (fun p : process_t => p.state) (fun _ _ => rfl) (fun _ _ => rfl) k1 q
  generalize ready_queue_pop k1 = r at r1 r2 p1 p2 p3 p4 hs2 ⊢
  have hnx : (if r.2 = 0 then r.1.process_table 0 else r.2) = next := by
    rw [hnext, r1, p2, ht1]
    cases l1 with
    | nil => simp
    | cons b l2 =>
      have hb0 : b ≠ 0 := queue_links_nonzero k1 _ 0 hq1.2.2 b (List.mem_cons_self _ _)
      simp [hb0]
  rw [hnx]
  have hs3 : ∀ q, (r.1.procs q).state =
      if q = c ∧ (k.procs c).state = RUNNING then READY else (k.procs q).state := fun q => by
    rw [hs2, hs1]
  by_cases hcn : c ≠ next
  · rw [if_pos hcn, if_pos hcn]
    refine ⟨?_, ?_, ?_, ?_, ?_, ?_⟩
    · refine queue_is_of_eq r.1 _ _ ?_ ?_ ?_ r2
      · rw [(context_switch_head _ c next).1]
        split_ifs <;> rfl
      · rw [(context_switch_head _ c next).2.1]
        split_ifs <;> rfl
      · intro x
        rw [context_switch_field (fun p : process_t => p.prev) (fun _ _ => rfl),
          context_switch_field (fun p : process_t => p.next) (fun _ _ => rfl)]
        have hK : ∀ K4 : Kernel,
            K4.procs = (set_proc r.1 next (fun p => { p with state := RUNNING })).procs →
            (K4.procs x).prev = (r.1.procs x).prev ∧ (K4.procs x).next = (r.1.procs x).next := by
          intro K4 e
          rw [e]
          exact ⟨set_proc_field (fun p : process_t => p.prev) _ _ _ _ (fun _ => rfl),
            set_proc_field (fun p : process_t => p.next) _ _ _ _ (fun _ => rfl)⟩
        apply hK
        split_ifs <;> rfl
    · rw [(context_switch_head _ c next).2.2.1]
      split_ifs <;> rfl
    · intro q
      rw [context_switch_field (fun p : process_t => p.state) (fun _ _ => rfl)]
      have hK : ∀ K4 : Kernel,
          K4.procs = (set_proc r.1 next (fun p => { p with state := RUNNING })).procs →
          (K4.procs q).state = if c ≠ next ∧ q = next then RUNNING
            else if q = c ∧ (k.procs c).state = RUNNING then READY else (k.procs q).state := by
        intro K4 e
        rw [e, set_proc_procs]
        by_cases hqn : q = next
        · rw [if_pos hqn, if_pos ⟨hcn, hqn⟩]
        · rw [if_neg hqn, if_neg (fun h : c ≠ next ∧ q = next => hqn h.2), hs3]
      apply hK
      split_ifs <;> rfl
    · rw [(context_switch_head _ c next).2.2.2]
      have : ∀ K4 : Kernel, K4.scheduler_enabled = r.1.scheduler_enabled →
          K4.scheduler_enabled = true := fun K4 e => by rw [e, p1]; exact he1
      apply this
      split_ifs <;> rfl
    · rw [(context_switch_globals _ c next).1]
      have : ∀ K4 : Kernel, K4.process_table = r.1.process_table →
          K4.process_table = k.process_table := fun K4 e => by rw [e, p2]; exact ht1
      apply this
      split_ifs <;> rfl
    · rw [(context_switch_globals _ c next).2]
      have : ∀ K4 : Kernel, K4.idle_process = r.1.idle_process →
          K4.idle_process = k.idle_process := fun K4 e => by rw [e, p3]; exact hi1
      apply this
      split_ifs <;> rfl
  · rw [if_neg hcn, if_neg hcn]
    refine ⟨r2, ?_, ?_, ?_, ?_, ?_⟩
    · rw [p4]; exact hcp1
    · intro q
      rw [if_neg (fun h : c ≠ next ∧ q = next => hcn h.1)]
      exact hs3 q
    · rw [p1]; exact he1
    · rw [p2]; exact ht1
    · rw [p3]; exact hi1

/-- At quantum expiry `scheduler_tick` is a pass of `schedule` on a state that differs
from the one before the tick in the tick counters of the current process only. -/
theorem scheduler_tick_expiry (k : Kernel) (A : Nat) (hen : k.scheduler_enabled = true)
    (hcur : process_get_current k = A) (hA0 : A ≠ 0) (hr : (k.procs A).ticks_remaining ≤ 1) :
    ∃ k1 : Kernel, scheduler_tick k = schedule k1 ∧ k1.scheduler_enabled = true ∧
      k1.current_process = k.current_process ∧ k1.idle_process = k.idle_process ∧
      k1.process_table = k.process_table ∧
      k1.ready_queue_head = k.ready_queue_head ∧ k1.ready_queue_tail = k.ready_queue_tail ∧
      ∀ q, (k1.procs q).state = (k.procs q).state ∧ (k1.procs q).prev = (k.procs q).prev ∧
        (k1.procs q).next = (k.procs q).next := by
  have hf : ∀ (K : Kernel) (f : process_t → process_t), (∀ x, (f x).state = x.state) →
      (∀ x, (f x).prev = x.prev) → (∀ x, (f x).next = x.next) →
      ∀ q, ((set_proc K A f).procs q).state = (K.procs q).state ∧
        ((set_proc K A f).procs q).prev = (K.procs q).prev ∧
        ((set_proc K A f).procs q).next = (K.procs q).next := fun K f h1 h2 h3 q =>
    ⟨set_proc_field (fun p : process_t => p.state) K A q f h1,
     set_proc_field (fun p : process_t => p.prev) K A q f h2,
     set_proc_field (fun p : process_t => p.next) K A q f h3⟩
  unfold scheduler_tick
  rw [if_neg (by simp [hen])]
  dsimp only
  rw [hcur, if_neg hA0]
  have e1 : ((set_proc k A (fun p => { p with ticks_total := (p.ticks_total + 1) % U64 })).procs
      A).ticks_remaining = (k.procs A).ticks_remaining := by
    rw [set_proc_procs, if_pos rfl]
  by_cases h0 : (k.procs A).ticks_remaining > 0
  · rw [if_pos (show ((set_proc k A (fun p => { p with ticks_total := (p.ticks_total + 1) % U64
        })).procs A).ticks_remaining > 0 by rw [e1]; exact h0)]
    have e2 : ((set_proc (set_proc k A (fun p => { p with ticks_total := (p.ticks_total + 1) % U64 })) A
      (fun p => { p with ticks_remaining := p.ticks_remaining - 1 })).procs A).ticks_remaining
        = 0 := by
      rw [set_proc_procs, if_pos rfl]
      show ((set_proc k A (fun p => { p with ticks_total := (p.ticks_total + 1) % U64 })).procs
        A).ticks_remaining - 1 = 0
      rw [e1]; omega
    rw [if_pos e2]
    refine ⟨_, rfl, hen, rfl, rfl, rfl, rfl, rfl, fun q => ?_⟩
    obtain ⟨a1, a2, a3⟩ := hf k (fun p => { p with ticks_total := (p.ticks_total + 1) % U64 })
      (fun _ => rfl) (fun _ => rfl) (fun _ => rfl) q
    obtain ⟨b1, b2, b3⟩ := hf (set_proc k A (fun p => { p with ticks_total := (p.ticks_total + 1) % U64 }))
      (fun p => { p with ticks_remaining := p.ticks_remaining - 1 })
      (fun _ => rfl) (fun _ => rfl) (fun _ => rfl) q
    obtain ⟨c1, c2, c3⟩ := hf (set_proc (set_proc k A (fun p => { p with ticks_total := (p.ticks_total + 1) % U64 })) A
      (fun p => { p with ticks_remaining := p.ticks_remaining - 1 }))
      (fun p => { p with ticks_remaining := DEFAULT_QUANTUM })
      (fun _ => rfl) (fun _ => rfl) (fun _ => rfl) q
    exact ⟨by rw [c1, b1, a1], by rw [c2, b2, a2], by rw [c3, b3, a3]⟩
  · rw [if_neg (show ¬ ((set_proc k A (fun p => { p with ticks_total := (p.ticks_total + 1) % U64
        })).procs A).ticks_remaining > 0 by rw [e1]; exact h0)]
    rw [if_pos (show ((set_proc k A (fun p => { p with ticks_total := (p.ticks_total + 1) % U64
        })).procs A).ticks_remaining = 0 by rw [e1]; omega)]
    refine ⟨_, rfl, hen, rfl, rfl, rfl, rfl, rfl, fun q => ?_⟩
    obtain ⟨a1, a2, a3⟩ := hf k (fun p => { p with ticks_total := (p.ticks_total + 1) % U64 })
      (fun _ => rfl) (fun _ => rfl) (fun _ => rfl) q
    obtain ⟨c1, c2, c3⟩ := hf (set_proc k A (fun p => { p with ticks_total := (p.ticks_total + 1) % U64 }))
      (fun p => { p with ticks_remaining := DEFAULT_QUANTUM })
      (fun _ => rfl) (fun _ => rfl) (fun _ => rfl) q
    exact ⟨by rw [c1, a1], by rw [c2, a2], by rw [c3, a3]⟩

/-- A pass of `schedule` that finds the current process `RUNNING` and the ready queue
empty: the process is set `READY`, pushed, popped again, and nothing else is written. -/
theorem schedule_alone (k : Kernel) (A : Nat)
    (hen : k.scheduler_enabled = true) (hcur : k.current_process = A) (hA0 : A ≠ 0)
    (hrun : (k.procs A).state = RUNNING) (hq : queue_is k []) :
    (schedule k).current_process = A ∧ queue_is (schedule k) [] ∧
    (∀ q, ((schedule k).procs q).state = if q = A then READY else (k.procs q).state) ∧
    (schedule k).scheduler_enabled = true ∧ (schedule k).process_table = k.process_table ∧
    (schedule k).idle_process = k.idle_process := by
  obtain ⟨h1, h2, h3, h4, h5, h6⟩ := schedule_pass k [] [A] A A hen hq
    (process_get_current_of k A hcur hA0) hA0 (by simp) (by rw [if_pos hrun]; rfl) rfl
  refine ⟨?_, h1, ?_, h4, h5, h6⟩
  · rw [h2, if_neg (by simp)]; exact hcur
  · intro q
    rw [h3, if_neg (fun h : A ≠ A ∧ _ => h.1 rfl)]
    by_cases hqA : q = A
    · rw [if_pos ⟨hqA, hrun⟩, if_pos hqA]
    · rw [if_neg (fun h : q = A ∧ _ => hqA h.1), if_neg hqA]

/-- C21 (the code does otherwise): when the current process `A` is `RUNNING` and is
the only runnable one (the ready queue is empty), the pass of `schedule`, and the
`scheduler_tick` that ends its quantum, select `A` again and leave it in state `READY`:
at the end of the pass the PCB that `current_process` points to is not `RUNNING`, and
when no other PCB was `RUNNING` before, none is `RUNNING` after. -/
theorem schedule_reselect_not_running (k : Kernel) (A : Nat)
    (hen : k.scheduler_enabled = true) (hcur : k.current_process = A) (hA0 : A ≠ 0)
    (hrun : (k.procs A).state = RUNNING) (hq : queue_is k [])
    (hothers : ∀ q, q ≠ A → (k.procs q).state ≠ RUNNING) :
    ((schedule k).current_process = A ∧ ((schedule k).procs A).state = READY ∧
      ∀ q, ((schedule k).procs q).state ≠ RUNNING) ∧
    ((k.procs A).ticks_remaining ≤ 1 →
      (scheduler_tick k).current_process = A ∧ ((scheduler_tick k).procs A).state = READY ∧
      ∀ q, ((scheduler_tick k).procs q).state ≠ RUNNING) := by
  have key : ∀ k1 : Kernel, k1.scheduler_enabled = true → k1.current_process = A →
      (k1.procs A).state = RUNNING → queue_is k1 [] →
      (∀ q, q ≠ A → (k1.procs q).state ≠ RUNNING) →
      (schedule k1).current_process = A ∧ ((schedule k1).procs A).state = READY ∧
      ∀ q, ((schedule k1).procs q).state ≠ RUNNING := by
    intro k1 e1 e2 e3 e4 e5
    obtain ⟨h1, _, h3, _⟩ := schedule_alone k1 A e1 e2 hA0 e3 e4
    refine ⟨h1, by rw [h3, if_pos rfl], fun q => ?_⟩
    rw [h3]
    by_cases hqA : q = A
    · rw [if_pos hqA]; simp
    · rw [if_neg hqA]; exact e5 q hqA
  refine ⟨key k hen hcur hrun hq hothers, fun hr => ?_⟩
  obtain ⟨k1, e, a1, a2, _, _, a5, a6, a7⟩ := scheduler_tick_expiry k A hen
    (process_get_current_of k A hcur hA0) hA0 hr
  rw [e]
  refine key k1 a1 (a2.trans hcur) (by rw [(a7 A).1]; exact hrun) ?_ ?_
  · exact queue_is_of_eq k k1 [] a5 a6 (fun x => ⟨(a7 x).2.1, (a7 x).2.2⟩) hq
  · intro q hqA
    rw [(a7 q).1]; exact hothers q hqA

theorem kernel0_others (q : Nat) (hq : q ≠ 0x2000018) : (kernel0.procs q).state ≠ RUNNING := by
  show ((if q = 0x2000018 then proc1
    else if q = 0x200000 then { process_zero with priority := 255, ticks_remaining := 1 }
    else process_zero).state) ≠ RUNNING
  rw [if_neg hq]
  split_ifs <;> decide

/-- Witness of C21 on `kernel0`, where PID 1 is the only process: after the pass the
current PCB is `READY` and no PCB is `RUNNING`. -/
theorem schedule_reselect_not_running_witness :
    (schedule kernel0).current_process = 0x2000018 ∧
    ((schedule kernel0).procs 0x2000018).state = READY ∧
    ∀ q, ((schedule kernel0).procs q).state ≠ RUNNING :=
  (schedule_reselect_not_running kernel0 0x2000018 rfl rfl (by decide) (by decide)
    (queue_is_empty kernel0 rfl rfl) kernel0_others).1

/-- The state that the scheduler stays in once the idle PCB `I` is current and the
ready queue is empty: nothing is ever queued or selected again. -/
theorem schedule_idle_alone (k : Kernel) (I : Nat)
    (hen : k.scheduler_enabled = true) (hcur : k.current_process = I) (hI0 : I ≠ 0)
    (ht : k.process_table 0 = I) (hq : queue_is k []) :
    (schedule k).current_process = I ∧ queue_is (schedule k) [] ∧
    (∀ q, q ≠ I → ((schedule k).procs q).state = (k.procs q).state) ∧
    (schedule k).scheduler_enabled = true ∧ (schedule k).process_table = k.process_table := by
  by_cases hrun : (k.procs I).state = RUNNING
  · obtain ⟨h1, h2, h3, h4, h5, _⟩ := schedule_alone k I hen hcur hI0 hrun hq
    exact ⟨h1, h2, fun q hqI => by rw [h3, if_neg hqI], h4, h5⟩
  · obtain ⟨h1, h2, h3, h4, h5, _⟩ := schedule_pass k [] [] I I hen hq
      (process_get_current_of k I hcur hI0) hI0 (by simp) (by rw [if_neg hrun]) (by rw [ht]; rfl)
    refine ⟨?_, h1, ?_, h4, h5⟩
    · rw [h2, if_neg (by simp)]; exact hcur
    · intro q hqI
      rw [h3, if_neg (fun h : I ≠ I ∧ _ => h.1 rfl), if_neg (fun h : q = I ∧ _ => hqI h.1)]

theorem schedule_n_idle_alone (A I i : Nat) (hI0 : I ≠ 0) (hIA : I ≠ A) : ∀ (n : Nat) (k : Kernel),
    k.scheduler_enabled = true → k.current_process = I → k.process_table 0 = I →
    queue_is k [] → (k.procs A).state = READY → k.process_table i = A →
    (schedule_n n k).current_process = I ∧ queue_is (schedule_n n k) [] ∧
    ((schedule_n n k).procs A).state = READY ∧ (schedule_n n k).process_table i = A
  | 0, k, _, hcur, _, hq, hs, hi => ⟨hcur, hq, hs, hi⟩
  | n + 1, k, hen, hcur, ht, hq, hs, hi => by
    obtain ⟨h1, h2, h3, h4, h5⟩ := schedule_idle_alone k I hen hcur hI0 ht hq
    exact schedule_n_idle_alone A I i hI0 hIA n (schedule k) h4 h1 (by rw [h5]; exact ht) h2
      (by rw [h3 A hIA.symm]; exact hs) (by rw [h5]; exact hi)

/-- C22 (the code does otherwise): a process `A` in slot `i` of the process table
that is `RUNNING` and alone (the ready queue is empty) is `READY` at the end of every
later pass of `schedule` and is linked in no queue: the ready queue is empty after each
pass.  The first pass leaves it current, the second makes the idle PCB `I` of slot 0
current, and from then on no pass selects `A` again. -/
theorem schedule_drops_ready_process (k : Kernel) (A I i n : Nat)
    (hen : k.scheduler_enabled = true) (hcur : k.current_process = A) (hA0 : A ≠ 0)
    (hI0 : I ≠ 0) (hIA : I ≠ A) (ht : k.process_table 0 = I) (hi : k.process_table i = A)
    (hrun : (k.procs A).state = RUNNING) (hq : queue_is k []) :
    ((schedule_n (n + 1) k).procs A).state = READY ∧ queue_is (schedule_n (n + 1) k) [] ∧
    (schedule_n (n + 1) k).process_table i = A ∧
    (schedule_n 1 k).current_process = A ∧
    (schedule_n (n + 2) k).current_process = I := by
  obtain ⟨a1, a2, a3, a4, a5, _⟩ := schedule_alone k A hen hcur hA0 hrun hq
  have sA : ((schedule k).procs A).state = READY := by rw [a3, if_pos rfl]
  -- the second pass
  obtain ⟨b1, b2, b3, b4, b5, _⟩ := schedule_pass (schedule k) [] [] A I a4 a2
    (process_get_current_of _ A a1 hA0) hA0 (by simp)
    (by rw [if_neg (by rw [sA]; simp)]) (by rw [a5, ht]; rfl)
  rw [if_pos hIA.symm] at b2
  have sA2 : ((schedule (schedule k)).procs A).state = READY := by
    rw [b3, if_neg (fun h : A ≠ I ∧ A = I => h.1 h.2),
      if_neg (fun h : A = A ∧ ((schedule k).procs A).state = RUNNING => by
        rw [sA] at h; exact absurd h.2 (by simp))]
    exact sA
  have inv := fun m => schedule_n_idle_alone A I i hI0 hIA m (schedule (schedule k)) b4 b2
    (by rw [b5, a5]; exact ht) b1 sA2 (by rw [b5, a5]; exact hi)
  refine ⟨?_, ?_, ?_, a1, (inv n).1⟩
  · cases n with
    | zero => exact sA
    | succ m => exact (inv m).2.2.1
  · cases n with
    | zero => exact a2
    | succ m => exact (inv m).2.1
  · cases n with
    | zero => show (schedule k).process_table i = A; rw [a5]; exact hi
    | succ m => exact (inv m).2.2.2

/-- Witness of C22 on `kernel0`: after five passes PID 1, in slot 1, is `READY`, the
ready queue is empty and the idle process is current. -/
theorem schedule_drops_ready_process_witness :
    ((schedule_n 5 kernel0).procs 0x2000018).state = READY ∧
    queue_is (schedule_n 5 kernel0) [] ∧
    (schedule_n 5 kernel0).process_table 1 = 0x2000018 ∧
    (schedule_n 1 kernel0).current_process = 0x2000018 ∧
    (schedule_n 6 kernel0).current_process = 0x200000 :=
  schedule_drops_ready_process kernel0 0x2000018 0x200000 1 4 rfl rfl (by decide) (by decide)
    (by decide) rfl rfl (by decide) (queue_is_empty kernel0 rfl rfl)

/-- C23 (the code does otherwise): `schedule` treats the idle PCB like any other.
When the idle PCB is the current `RUNNING` process with `r + 1` ticks left and the ready
queue holds `B :: l`, the `scheduler_tick` that ends its quantum links the idle PCB at
the back of the ready queue and makes `B` current; when `B` was alone in the queue, its
quantum of ten ticks later ends with the idle PCB popped from the queue and made
current although the queue is not empty after the requeue step: it holds `B`. -/
theorem schedule_requeues_idle (k : Kernel) (B : Nat) (l : List Nat) (r : Nat)
    (h : rr_state k k.idle_process (B :: l) (r + 1)) :
    (queue_is (tick_n (r + 1) k) (l ++ [k.idle_process]) ∧
      (tick_n (r + 1) k).current_process = B ∧
      ((tick_n (r + 1) k).procs k.idle_process).state = READY) ∧
    (l = [] → (tick_n (r + 1 + 10) k).current_process = k.idle_process ∧
      ((tick_n (r + 1 + 10) k).procs k.idle_process).state = RUNNING ∧
      queue_is (tick_n (r + 1 + 10) k) [B]) := by
  obtain ⟨h1, _, _⟩ := run_quantum r k k.idle_process B l h
  refine ⟨⟨h1.queue, h1.current, (h1.ready k.idle_process (by simp)).1⟩, fun hl => ?_⟩
  subst hl
  obtain ⟨h2, _, _⟩ := run_quantum 9 (tick_n (r + 1) k) B k.idle_process [] h1
  rw [tick_n_add]
  exact ⟨h2.current, h2.running, h2.queue⟩

/-- Witness of C23 on `kernel6`: one tick ends the quantum of the idle loop and puts
the idle PCB in the ready queue; ten ticks later it is popped and runs although PID 1
is in the queue. -/
theorem schedule_requeues_idle_witness :
    queue_is (tick_n 1 kernel6) [0x200000] ∧ (tick_n 1 kernel6).current_process = 0x2000018 ∧
    (tick_n 11 kernel6).current_process = 0x200000 ∧ queue_is (tick_n 11 kernel6) [0x2000018] :=
  have h := schedule_requeues_idle kernel6 0x2000018 [] 0
    ⟨rfl, rfl, by decide, by decide, by decide, rfl,
      ⟨by decide, rfl, by decide, rfl, rfl, rfl⟩, by decide⟩
  ⟨h.1.1, h.1.2.1, (h.2 rfl).1, (h.2 rfl).2.2⟩

/-! ## Signals and the ready queue -/

theorem signal_send_terminate (k : Kernel) (pid sig : Int) (p : Nat)
    (hfind : process_find_by_pid k pid = p) (hp : p ≠ 0)
    (hs : sig = SIGKILL ∨ sig = SIGTERM ∨ sig = SIGINT) :
    signal_send k pid sig = set_proc k p (fun x => { x with state := TERMINATED }) := by
  unfold signal_send
  dsimp only
  rw [hfind, if_neg hp]
  rcases hs with e | e | e
  · rw [if_pos e]
  · rw [if_neg (by rw [e]; decide), if_pos e]
  · rw [if_neg (by rw [e]; decide), if_neg (by rw [e]; decide), if_neg (by rw [e]; decide),
      if_neg (by rw [e]; decide), if_pos e]

theorem signal_send_stop (k : Kernel) (pid : Int) (p : Nat)
    (hfind : process_find_by_pid k pid = p) (hp : p ≠ 0)
    (hst : (k.procs p).state = RUNNING ∨ (k.procs p).state = READY) :
    signal_send k pid SIGSTOP = set_proc k p (fun x => { x with state := BLOCKED }) := by
  unfold signal_send
  dsimp only
  rw [hfind, if_neg hp, if_neg (by decide), if_neg (by decide), if_pos rfl, if_pos hst]

/-- C24 (the code does otherwise): `signal_send` writes the state of the target and
nothing else.  After `SIGKILL`, `SIGTERM`, `SIGINT` or `SIGSTOP` for a process `p` that is
`READY` and linked in the ready queue, the queue holds the same PCBs as before, `p`
among them, with state `TERMINATED` (`BLOCKED` for `SIGSTOP`); when `p` is at the head of
the queue, the next pass of `schedule` pops it and makes it the current, `RUNNING`
process; and `free_process_struct`, when it releases the table slot of `p`, leaves `p`
linked in the queue. -/
theorem signal_send_leaves_target_queued (k : Kernel) (pid sig : Int) (p : Nat) (l : List Nat)
    (hs : sig = SIGKILL ∨ sig = SIGTERM ∨ sig = SIGINT ∨ sig = SIGSTOP)
    (hfind : process_find_by_pid k pid = p) (hp : p ≠ 0) (hst : (k.procs p).state = READY)
    (hq : queue_is k l) (hpl : p ∈ l) :
    queue_is (signal_send k pid sig) l ∧
    ((signal_send k pid sig).procs p).state = (if sig = SIGSTOP then BLOCKED else TERMINATED) ∧
    (k.scheduler_enabled = true → process_get_current k ≠ 0 → process_get_current k ∉ l →
      l.head? = some p →
      (schedule (signal_send k pid sig)).current_process = p ∧
      ((schedule (signal_send k pid sig)).procs p).state = RUNNING) ∧
    (∀ j, j < MAX_PROCESSES → k.process_table j = p → (∀ j', j' < j → k.process_table j' ≠ p) →
      reapable (signal_send k pid sig) p →
      ∃ k1, free_process_struct (signal_send k pid sig) p = some k1 ∧ k1.process_table j = 0 ∧
        queue_is k1 l) := by
  have key : ∃ s : process_state_t, s = (if sig = SIGSTOP then BLOCKED else TERMINATED) ∧
      signal_send k pid sig = set_proc k p (fun x => { x with state := s }) := by
    rcases hs with e | e | e | e
    · exact ⟨TERMINATED, by rw [if_neg (by rw [e]; decide)],
        signal_send_terminate k pid sig p hfind hp (Or.inl e)⟩
    · exact ⟨TERMINATED, by rw [if_neg (by rw [e]; decide)],
        signal_send_terminate k pid sig p hfind hp (Or.inr (Or.inl e))⟩
    · exact ⟨TERMINATED, by rw [if_neg (by rw [e]; decide)],
        signal_send_terminate k pid sig p hfind hp (Or.inr (Or.inr e))⟩
    · exact ⟨BLOCKED, by rw [if_pos e], by
        rw [e]; exact signal_send_stop k pid p hfind hp (Or.inr hst)⟩
  obtain ⟨s, es, e⟩ := key
  rw [e, ← es]
  have hq1 : queue_is (set_proc k p (fun x => { x with state := s })) l :=
    queue_is_set_proc k l p _ (fun _ => rfl) (fun _ => rfl) hq
  refine ⟨hq1, by rw [set_proc_procs, if_pos rfl], ?_, ?_⟩
  · intro hen hc0 hcl hhead
    obtain ⟨l2, el⟩ : ∃ l2, l = p :: l2 := by
      cases l with
      | nil => cases hhead
      | cons a l2 =>
        simp only [List.head?_cons, Option.some.injEq] at hhead
        exact ⟨l2, by rw [hhead]⟩
    have hcp : process_get_current k ≠ p := fun h => hcl (h ▸ hpl)
    obtain ⟨_, h2, h3, _⟩ := schedule_pass (set_proc k p (fun x => { x with state := s })) l
      (if ((set_proc k p (fun x => { x with state := s })).procs (process_get_current k)).state
          = RUNNING then l ++ [process_get_current k] else l)
      (process_get_current k) p hen hq1 rfl hc0 hcl rfl
      (by rw [el]; split_ifs <;> rfl)
    rw [if_pos hcp] at h2
    exact ⟨h2, by rw [h3, if_pos ⟨hcp, rfl⟩]⟩
  · intro j hj htj hfirst hr
    obtain ⟨k1, f1, f2, _, f4, _, _, _, f8, f9⟩ := free_process_struct_spec
      (set_proc k p (fun x => { x with state := s })) p j hp hj htj hfirst hr
    exact ⟨k1, f1, f2, queue_is_of_eq _ k1 l f8 f9 (fun x => by rw [f4]; exact ⟨rfl, rfl⟩) hq1⟩

/-- Witness of C24 on `kernel3`, where PID 2 is `READY` at the head of the ready queue:
after `SIGKILL` it is `TERMINATED` and still the head of the queue, and the next pass of
`schedule` runs it. -/
theorem signal_send_leaves_target_queued_witness :
    queue_is (signal_send kernel3 2 SIGKILL) [0x2002368, 0x20046B8] ∧
    ((signal_send kernel3 2 SIGKILL).procs 0x2002368).state = TERMINATED ∧
    (schedule (signal_send kernel3 2 SIGKILL)).current_process = 0x2002368 ∧
    ((schedule (signal_send kernel3 2 SIGKILL)).procs 0x2002368).state = RUNNING :=
  have h := signal_send_leaves_target_queued kernel3 2 SIGKILL 0x2002368 [0x2002368, 0x20046B8]
    (Or.inl rfl) (by decide) (by decide) (by decide)
    ⟨by decide, rfl, by decide, rfl, rfl, by decide, rfl, rfl, rfl⟩ (by decide)
  ⟨h.1, h.2.1, (h.2.2.1 rfl (by decide) (by decide) rfl).1,
    (h.2.2.1 rfl (by decide) (by decide) rfl).2⟩

/-! ## Exit and the life of a zombie -/

theorem same_sched_refl (k : Kernel) : same_sched k k :=
  ⟨rfl, rfl, rfl, rfl, rfl, rfl, fun _ => ⟨rfl, rfl, rfl, rfl, rfl⟩⟩

theorem same_sched_set_proc (k : Kernel) (p : Nat) (f : process_t → process_t)
    (h1 : ∀ x, (f x).state = x.state) (h2 : ∀ x, (f x).prev = x.prev)
    (h3 : ∀ x, (f x).next = x.next) (h4 : ∀ x, (f x).parent_pid = x.parent_pid)
    (h5 : ∀ x, (f x).pid = x.pid) : same_sched k (set_proc k p f) :=
  ⟨rfl, rfl, rfl, rfl, rfl, rfl, fun q =>
    ⟨set_proc_field (fun x : process_t => x.state) k p q f h1,
     set_proc_field (fun x : process_t => x.prev) k p q f h2,
     set_proc_field (fun x : process_t => x.next) k p q f h3,
     set_proc_field (fun x : process_t => x.parent_pid) k p q f h4,
     set_proc_field (fun x : process_t => x.pid) k p q f h5⟩⟩

theorem same_sched_trans (k k1 k2 : Kernel) (h1 : same_sched k k1) (h2 : same_sched k1 k2) :
    same_sched k k2 := by
  obtain ⟨a1, a2, a3, a4, a5, a6, a7⟩ := h1
  obtain ⟨b1, b2, b3, b4, b5, b6, b7⟩ := h2
  refine ⟨b1.trans a1, b2.trans a2, b3.trans a3, b4.trans a4, b5.trans a5, b6.trans a6, fun q => ?_⟩
  obtain ⟨c1, c2, c3, c4, c5⟩ := a7 q
  obtain ⟨d1, d2, d3, d4, d5⟩ := b7 q
  exact ⟨d1.trans c1, d2.trans c2, d3.trans c3, d4.trans c4, d5.trans c5⟩

theorem same_sched_current (k k1 : Kernel) (h : same_sched k k1) :
    process_get_current k1 = process_get_current k := by
  unfold process_get_current
  rw [h.2.1, h.2.2.1]

theorem zombie_kept_of_same (k k1 : Kernel) (z j : Nat) (l : List Nat) (h : same_sched k k1)
    (hz : zombie_kept k z j l) : zombie_kept k1 z j l := by
  have hc := same_sched_current k k1 h
  obtain ⟨a1, a2, a3, a4, a5, a6, a7⟩ := h
  exact
    { enabled := a1.trans hz.enabled
      queue := queue_is_of_eq k k1 l a5 a6 (fun x => ⟨(a7 x).2.1, (a7 x).2.2.1⟩) hz.queue
      current := by rw [hc]; exact hz.current
      current_out := by rw [hc]; exact hz.current_out
      slot0 := by rw [a4, a3]; exact hz.slot0
      idle_nonnull := by rw [a3]; exact hz.idle_nonnull
      idle_state := by rw [a3, (a7 _).1]; exact hz.idle_state
      slot := by rw [a4]; exact hz.slot
      state := by rw [(a7 z).1]; exact hz.state
      out := hz.out
      other := by rw [hc]; exact hz.other }

/-- A write to a PCB other than `z` that keeps the queue links and does not make the
idle PCB a zombie keeps a zombie at rest. -/
theorem zombie_kept_set_proc (k : Kernel) (z j p : Nat) (l : List Nat)
    (f : process_t → process_t) (hz : zombie_kept k z j l) (hp : p ≠ z)
    (h2 : ∀ x, (f x).prev = x.prev) (h3 : ∀ x, (f x).next = x.next)
    (hs : p = k.idle_process → (f (k.procs p)).state ≠ ZOMBIE) :
    zombie_kept (set_proc k p f) z j l :=
  { enabled := hz.enabled
    queue := queue_is_set_proc k l p f h3 h2 hz.queue
    current := hz.current
    current_out := hz.current_out
    slot0 := hz.slot0
    idle_nonnull := hz.idle_nonnull
    idle_state := by
      show ((set_proc k p f).procs k.idle_process).state ≠ ZOMBIE
      rw [set_proc_procs]
      by_cases h : k.idle_process = p
      · rw [if_pos h]; exact hs h.symm
      · rw [if_neg h]; exact hz.idle_state
    slot := hz.slot
    state := by
      rw [set_proc_procs, if_neg hp.symm]; exact hz.state
    out := hz.out
    other := hz.other }

/-- A pass of `schedule` keeps a zombie at rest. -/
theorem zombie_kept_schedule (k : Kernel) (z j : Nat) (l : List Nat) (hz : zombie_kept k z j l) :
    ∃ l1, zombie_kept (schedule k) z j l1 := by
  obtain ⟨h1, h2, h3, h4, h5, h6⟩ := schedule_pass k l
    (if (k.procs (process_get_current k)).state = RUNNING then l ++ [process_get_current k] else l)
    (process_get_current k)
    ((if (k.procs (process_get_current k)).state = RUNNING then l ++ [process_get_current k]
      else l).headD (k.process_table 0))
    hz.enabled hz.queue rfl hz.current hz.current_out rfl rfl
  generalize hl1 : (if (k.procs (process_get_current k)).state = RUNNING
    then l ++ [process_get_current k] else l) = l1 at h1 h2 h3
  have hzl1 : z ∉ l1 := by
    rw [← hl1]
    split_ifs
    · intro hm
      rcases List.mem_append.1 hm with hm | hm
      · exact hz.out hm
      · exact hz.other (List.mem_singleton.1 hm)
    · exact hz.out
  have hnd1 : l1.Nodup ∧ ∀ x, x ∈ l1 → x ≠ 0 := by
    rw [← hl1]
    split_ifs
    · have hq := queue_is_push k l _ hz.queue hz.current hz.current_out
      exact ⟨hq.1, fun x hx => by
        rcases List.mem_append.1 hx with hm | hm
        · exact queue_links_nonzero k l 0 hz.queue.2.2 x hm
        · rw [List.mem_singleton.1 hm]; exact hz.current⟩
    · exact ⟨hz.queue.1, fun x hx => queue_links_nonzero k l 0 hz.queue.2.2 x hx⟩
  have hidz : k.idle_process ≠ z := fun e => hz.idle_state (by rw [e]; exact hz.state)
  generalize hnx : l1.headD (k.process_table 0) = next at h2 h3
  have hnz : next ≠ z := by
    rw [← hnx]
    cases l1 with
    | nil => show k.process_table 0 ≠ z; rw [hz.slot0]; exact hidz
    | cons b l2 => exact fun e => hzl1 (e ▸ List.mem_cons_self _ _)
  have hn0 : next ≠ 0 := by
    rw [← hnx]
    cases l1 with
    | nil => show k.process_table 0 ≠ 0; rw [hz.slot0]; exact hz.idle_nonnull
    | cons b l2 => exact hnd1.2 b (List.mem_cons_self _ _)
  have hntail : next ∉ l1.tail := by
    rw [← hnx]
    cases l1 with
    | nil => simp
    | cons b l2 => exact (List.nodup_cons.1 hnd1.1).1
  have hcur : process_get_current (schedule k) = next := by
    unfold process_get_current
    rw [h2, h6]
    by_cases hcn : process_get_current k ≠ next
    · rw [if_pos hcn, if_pos hn0]
    · rw [if_neg hcn]
      have e : process_get_current k = next := not_not.1 hcn
      rw [← e]
      rfl
  refine ⟨l1.tail, ?_⟩
  exact
    { enabled := h4
      queue := h1
      current := by rw [hcur]; exact hn0
      current_out := by rw [hcur]; exact hntail
      slot0 := by rw [h5, h6]; exact hz.slot0
      idle_nonnull := by rw [h6]; exact hz.idle_nonnull
      idle_state := by
        rw [h6, h3]
        split_ifs
        · simp
        · simp
        · exact hz.idle_state
      slot := by rw [h5]; exact hz.slot
      state := by
        rw [h3, if_neg (fun h : _ ∧ z = next => hnz h.2.symm),
          if_neg (fun h : z = process_get_current k ∧ _ => hz.other h.1)]
        exact hz.state
      out := fun hm => hzl1 (List.mem_of_mem_tail hm)
      other := by rw [hcur]; exact hnz.symm }

/-- What `scheduler_tick` does to the part of the state the scheduler reads: nothing,
or a pass of `schedule`. -/
theorem scheduler_tick_cases (k : Kernel) :
    ∃ k1, same_sched k k1 ∧ (scheduler_tick k = k1 ∨ scheduler_tick k = schedule k1) := by
  have s1 := same_sched_set_proc k (process_get_current k)
    (fun p => { p with ticks_total := (p.ticks_total + 1) % U64 })
    (fun _ => rfl) (fun _ => rfl) (fun _ => rfl) (fun _ => rfl) (fun _ => rfl)
  have s2 := fun ka => same_sched_set_proc ka (process_get_current k)
    (fun p => { p with ticks_remaining := p.ticks_remaining - 1 })
    (fun _ => rfl) (fun _ => rfl) (fun _ => rfl) (fun _ => rfl) (fun _ => rfl)
  have s3 := fun ka => same_sched_set_proc ka (process_get_current k)
    (fun p => { p with ticks_remaining := DEFAULT_QUANTUM })
    (fun _ => rfl) (fun _ => rfl) (fun _ => rfl) (fun _ => rfl) (fun _ => rfl)
  unfold scheduler_tick
  by_cases hen : ¬ k.scheduler_enabled = true
  · rw [if_pos hen]; exact ⟨k, same_sched_refl k, Or.inl rfl⟩
  rw [if_neg hen]
  dsimp only
  by_cases hc : process_get_current k = 0
  · rw [if_pos hc]; exact ⟨k, same_sched_refl k, Or.inl rfl⟩
  rw [if_neg hc]
  by_cases h1 : ((set_proc k (process_get_current k)
      (fun p => { p with ticks_total := (p.ticks_total + 1) % U64 })).procs
        (process_get_current k)).ticks_remaining > 0
  · rw [if_pos h1]
    by_cases h2 : ((set_proc (set_proc k (process_get_current k)
        (fun p => { p with ticks_total := (p.ticks_total + 1) % U64 })) (process_get_current k)
        (fun p => { p with ticks_remaining := p.ticks_remaining - 1 })).procs
          (process_get_current k)).ticks_remaining = 0
    · rw [if_pos h2]
      exact ⟨_, same_sched_trans _ _ _ (same_sched_trans _ _ _ s1 (s2 _)) (s3 _), Or.inr rfl⟩
    · rw [if_neg h2]
      exact ⟨_, same_sched_trans _ _ _ s1 (s2 _), Or.inl rfl⟩
  · rw [if_neg h1]
    by_cases h2 : ((set_proc k (process_get_current k)
        (fun p => { p with ticks_total := (p.ticks_total + 1) % U64 })).procs
          (process_get_current k)).ticks_remaining = 0
    · rw [if_pos h2]
      exact ⟨_, same_sched_trans _ _ _ s1 (s3 _), Or.inr rfl⟩
    · rw [if_neg h2]
      exact ⟨_, s1, Or.inl rfl⟩

theorem find_zombie_from_found (k : Kernel) (pid : Nat) : ∀ (n i : Nat),
    find_zombie_from k pid n i ≠ 0 →
    ∃ j, k.process_table j = find_zombie_from k pid n i ∧
      (k.procs (find_zombie_from k pid n i)).parent_pid = pid ∧
      (k.procs (find_zombie_from k pid n i)).state = ZOMBIE
  | 0, _, h => absurd rfl h
  | n + 1, i, h => by
    unfold find_zombie_from at h ⊢
    by_cases hc : k.process_table i ≠ 0 ∧ (k.procs (k.process_table i)).parent_pid = pid ∧
        (k.procs (k.process_table i)).state = ZOMBIE
    · rw [if_pos hc]
      exact ⟨i, rfl, hc.2.1, hc.2.2⟩
    · rw [if_neg hc] at h ⊢
      exact find_zombie_from_found k pid n (i + 1) h

theorem find_slot_of_found (tbl : Nat → Nat) (c : Nat) : ∀ (n i0 i : Nat),
    find_slot_of tbl c n i0 = some i → tbl i = c
  | 0, _, _, h => by cases h
  | n + 1, i0, i, h => by
    unfold find_slot_of at h
    by_cases ht : tbl i0 = c
    · rw [if_pos ht] at h
      cases h
      exact ht
    · rw [if_neg ht] at h
      exact find_slot_of_found tbl c n _ _ h

/-- The part of `free_process_struct` after the slot is cleared writes the heap and the
PMM only. -/
theorem free_process_struct_rest (ka k1 : Kernel) (c : Nat) (r2 r3 : Option Kernel) (kb kc : Kernel)
    (h2 : r2 = if (ka.procs c).kernel_stack ≠ 0 then
        (kfree ka.heap (ka.procs c).kernel_stack).map (fun h => { ka with heap := h })
      else some ka) (e2 : r2 = some kb)
    (h3 : r3 = if (kb.procs c).page_table ≠ 0 then
        (vmm_destroy_address_space kb.kpml4 kb.phys (kb.procs c).page_table).map
          (fun ph => { kb with phys := ph })
      else some kb) (e3 : r3 = some kc)
    (h : (kfree kc.heap c).map (fun h => { kc with heap := h }) = some k1) :
    k1.scheduler_enabled = ka.scheduler_enabled ∧ k1.current_process = ka.current_process ∧
    k1.idle_process = ka.idle_process ∧ k1.procs = ka.procs ∧
    k1.ready_queue_head = ka.ready_queue_head ∧ k1.ready_queue_tail = ka.ready_queue_tail ∧
    k1.process_table = ka.process_table := by
  have fb : kb.scheduler_enabled = ka.scheduler_enabled ∧ kb.current_process = ka.current_process ∧
      kb.idle_process = ka.idle_process ∧ kb.procs = ka.procs ∧
      kb.ready_queue_head = ka.ready_queue_head ∧ kb.ready_queue_tail = ka.ready_queue_tail ∧
      kb.process_table = ka.process_table := by
    rw [e2] at h2
    split_ifs at h2
    · obtain ⟨hh, e⟩ := map_heap_some _ _ _ h2.symm
      rw [e]; exact ⟨rfl, rfl, rfl, rfl, rfl, rfl, rfl⟩
    · cases h2; exact ⟨rfl, rfl, rfl, rfl, rfl, rfl, rfl⟩
  have fc : kc.scheduler_enabled = kb.scheduler_enabled ∧ kc.current_process = kb.current_process ∧
      kc.idle_process = kb.idle_process ∧ kc.procs = kb.procs ∧
      kc.ready_queue_head = kb.ready_queue_head ∧ kc.ready_queue_tail = kb.ready_queue_tail ∧
      kc.process_table = kb.process_table := by
    rw [e3] at h3
    split_ifs at h3
    · obtain ⟨hh, e⟩ := map_phys_some _ _ _ h3.symm
      rw [e]; exact ⟨rfl, rfl, rfl, rfl, rfl, rfl, rfl⟩
    · cases h3; exact ⟨rfl, rfl, rfl, rfl, rfl, rfl, rfl⟩
  obtain ⟨hh, e⟩ := map_heap_some _ _ _ h
  obtain ⟨b1, b2, b3, b4, b5, b6, b7⟩ := fb
  obtain ⟨c1, c2, c3, c4, c5, c6, c7⟩ := fc
  rw [e]
  exact ⟨c1.trans b1, c2.trans b2, c3.trans b3, c4.trans b4, c5.trans b5, c6.trans b6,
    c7.trans b7⟩

/-- What `free_process_struct` leaves as it was: everything the scheduler reads but the
slot of the released PCB. -/
theorem free_process_struct_frame (k k1 : Kernel) (c : Nat)
    (h : free_process_struct k c = some k1) :
    k1.scheduler_enabled = k.scheduler_enabled ∧ k1.current_process = k.current_process ∧
    k1.idle_process = k.idle_process ∧ k1.procs = k.procs ∧
    k1.ready_queue_head = k.ready_queue_head ∧ k1.ready_queue_tail = k.ready_queue_tail ∧
    ∀ i, k1.process_table i = k.process_table i ∨ k.process_table i = c := by
  unfold free_process_struct at h
  by_cases hc : c = 0
  · rw [if_pos hc] at h
    cases h
    exact ⟨rfl, rfl, rfl, rfl, rfl, rfl, fun _ => Or.inl rfl⟩
  rw [if_neg hc] at h
  cases hf : find_slot_of k.process_table c MAX_PROCESSES 0 with
  | none =>
    rw [hf] at h
    dsimp only at h
    split at h
    · cases h
    · rename_i kb e2
      split at h
      · cases h
      · rename_i kc e3
        obtain ⟨a1, a2, a3, a4, a5, a6, a7⟩ :=
          free_process_struct_rest k k1 c _ _ kb kc rfl e2 rfl e3 h
        exact ⟨a1, a2, a3, a4, a5, a6, fun i => Or.inl (by rw [a7])⟩
  | some i =>
    rw [hf] at h
    dsimp only at h
    split at h
    · cases h
    · rename_i kb e2
      split at h
      · cases h
      · rename_i kc e3
        obtain ⟨a1, a2, a3, a4, a5, a6, a7⟩ :=
          free_process_struct_rest
            { k with process_table := fun j => if j = i then 0 else k.process_table j }
            k1 c _ _ kb kc rfl e2 rfl e3 h
        refine ⟨a1, a2, a3, a4, a5, a6, fun i1 => ?_⟩
        rw [a7]
        by_cases hi : i1 = i
        · right; rw [hi]; exact find_slot_of_found _ _ _ _ _ hf
        · left
          show (if i1 = i then 0 else k.process_table i1) = _
          rw [if_neg hi]

/-- What `signal_send` writes: nothing, or the state of the target, which it never
makes a zombie. -/
theorem signal_send_cases (k : Kernel) (pid sig : Int) :
    signal_send k pid sig = k ∨
    ∃ s, s ≠ ZOMBIE ∧ signal_send k pid sig =
      set_proc k (process_find_by_pid k pid) (fun x => { x with state := s }) := by
  unfold signal_send
  dsimp only
  split_ifs
  · exact Or.inl rfl
  · exact Or.inr ⟨TERMINATED, by decide, rfl⟩
  · exact Or.inr ⟨TERMINATED, by decide, rfl⟩
  · exact Or.inr ⟨BLOCKED, by decide, rfl⟩
  · exact Or.inl rfl
  · exact Or.inr ⟨READY, by decide, rfl⟩
  · exact Or.inl rfl
  · exact Or.inr ⟨TERMINATED, by decide, rfl⟩
  · exact Or.inl rfl

theorem set_proc_twice (k : Kernel) (c : Nat) (f g : process_t → process_t) :
    set_proc (set_proc k c f) c g = set_proc k c (fun p => g (f p)) := by
  unfold set_proc
  simp only [if_true]
  congr 1
  funext q
  by_cases hq : q = c
  · simp [hq]
  · simp [hq]

theorem process_exit_eq (k : Kernel) (h0 : k.current_process ≠ 0)
    (hi : k.current_process ≠ k.idle_process) :
    process_exit k =
      (schedule (set_proc k k.current_process (fun p => { p with state := TERMINATED })), false) := by
  unfold process_exit
  rw [if_pos ⟨h0, hi⟩]

/-- The state in which `sys_exit` of the non-idle current process `c` calls `schedule`. -/
theorem sys_exit_cases (k : Kernel) (status c : Nat) (hcur : k.current_process = c)
    (hc0 : c ≠ 0) (hci : c ≠ k.idle_process) :
    ∃ k2 s, (sys_exit k status).1 = schedule k2 ∧
      s = (if (k.procs c).parent_pid = 0 then TERMINATED else ZOMBIE) ∧
      k2 = set_proc k c (fun p => { p with exit_status := status % U32, state := s }) ∧
      ((sys_exit k status).2 = none ∨ process_get_current (schedule k2) = c) := by
  have hpc : process_get_current k = c := process_get_current_of k c hcur hc0
  unfold sys_exit
  dsimp only
  rw [hpc, if_neg hc0]
  have e2 : set_proc (set_proc k c (fun p => { p with exit_status := status % U32 })) c
      (fun p => { p with state := ZOMBIE }) =
      set_proc k c (fun p => { p with exit_status := status % U32, state := ZOMBIE }) :=
    set_proc_twice k c _ _
  rw [e2]
  have e3 : ((set_proc k c (fun p => { p with exit_status := status % U32, state := ZOMBIE })).procs
      c).parent_pid = (k.procs c).parent_pid := by
    rw [set_proc_procs, if_pos rfl]
  rw [e3]
  have e1 : set_proc (set_proc k c (fun p => { p with exit_status := status % U32, state := ZOMBIE }))
      c (fun p => { p with state := TERMINATED }) =
      set_proc k c (fun p => { p with exit_status := status % U32, state := TERMINATED }) :=
    set_proc_twice k c _ _
  have e4 : process_exit (set_proc k c (fun p => { p with exit_status := status % U32, state := ZOMBIE }))
      = (schedule (set_proc k c
          (fun p => { p with exit_status := status % U32, state := TERMINATED })), false) := by
    rw [process_exit_eq _ (by show k.current_process ≠ 0; rw [hcur]; exact hc0)
      (by show k.current_process ≠ k.idle_process; rw [hcur]; exact hci)]
    show (schedule (set_proc (set_proc k c _) k.current_process _), false) = _
    rw [hcur, e1]
  by_cases hp : (k.procs c).parent_pid = 0
  · rw [if_pos hp, if_pos hp, e4]
    exact ⟨set_proc k c (fun p => { p with exit_status := status % U32, state := TERMINATED }),
      TERMINATED, rfl, rfl, rfl, Or.inl rfl⟩
  · rw [if_neg hp, if_neg hp]
    by_cases hg : process_get_current (schedule (set_proc k c
        (fun p => { p with exit_status := status % U32, state := ZOMBIE }))) = c
    · exact ⟨set_proc k c (fun p => { p with exit_status := status % U32, state := ZOMBIE }),
        ZOMBIE, rfl, rfl, rfl, Or.inr hg⟩
    · refine ⟨set_proc k c (fun p => { p with exit_status := status % U32, state := ZOMBIE }),
        ZOMBIE, rfl, rfl, rfl, Or.inl ?_⟩
      show (if _ then some 0 else none) = none
      rw [if_neg hg]

/-- A `sys_wait` of a process that is not the parent of `z`, with a status pointer that
is null or points outside the kernel's data, keeps the zombie `z` at rest. -/
theorem zombie_kept_wait (k k1 : Kernel) (z j status_ptr : Nat) (l : List Nat) (r : wait_result)
    (hz : zombie_kept k z j l) (hw : sys_wait k status_ptr = some (k1, r))
    (hptr : status_ptr = 0 ∨ user_int k status_ptr)
    (hpid : (k.procs (process_get_current k)).pid ≠ (k.procs z).parent_pid) :
    ∃ l1, zombie_kept k1 z j l1 := by
  unfold sys_wait at hw
  dsimp only at hw
  rw [if_neg hz.current] at hw
  by_cases hch : find_zombie_child k (k.procs (process_get_current k)).pid ≠ 0
  · rw [if_pos hch] at hw
    obtain ⟨i, fi, fp, fs⟩ := find_zombie_from_found k _ MAX_PROCESSES 0 hch
    change k.process_table i = find_zombie_child k _ at fi
    change (k.procs (find_zombie_child k _)).parent_pid = _ at fp
    change (k.procs (find_zombie_child k _)).state = ZOMBIE at fs
    generalize find_zombie_child k (k.procs (process_get_current k)).pid = child at hw hch fi fp fs
    obtain ⟨m, hs, -⟩ := wait_store_mem k status_ptr (k.procs child).exit_status hptr
    rw [hs] at hw
    dsimp only at hw
    cases hf : free_process_struct { k with phys := { k.phys with mem := m } } child with
    | none => rw [hf] at hw; cases hw
    | some k2 =>
      rw [hf] at hw
      simp only [Option.map_some', Option.some.injEq, Prod.mk.injEq] at hw
      obtain ⟨a1, a2, a3, a4, a5, a6, a7⟩ := free_process_struct_frame _ k2 child hf
      have hchz : child ≠ z := fun h => hpid (by rw [← fp, h])
      have hchi : child ≠ k.idle_process := fun h => hz.idle_state (by rw [← h]; exact fs)
      have hcur : process_get_current k2 = process_get_current k := by
        unfold process_get_current; rw [a2, a3]
      rw [← hw.1]
      refine ⟨l, ?_⟩
      exact
        { enabled := a1.trans hz.enabled
          queue := queue_is_of_eq k k2 l a5 a6 (fun x => by rw [a4]; exact ⟨rfl, rfl⟩) hz.queue
          current := by rw [hcur]; exact hz.current
          current_out := by rw [hcur]; exact hz.current_out
          slot0 := by
            rw [a3]
            rcases a7 0 with h | h
            · rw [h]; exact hz.slot0
            · exact absurd (h.symm.trans hz.slot0) hchi
          idle_nonnull := by rw [a3]; exact hz.idle_nonnull
          idle_state := by rw [a3, a4]; exact hz.idle_state
          slot := by
            rcases a7 j with h | h
            · rw [h]; exact hz.slot
            · exact absurd (h.symm.trans hz.slot) hchz
          state := by rw [a4]; exact hz.state
          out := hz.out
          other := by rw [hcur]; exact hz.other }
  · rw [if_neg hch] at hw
    simp only [Option.some.injEq, Prod.mk.injEq] at hw
    rw [← hw.1]
    apply zombie_kept_schedule _ z j l
    exact zombie_kept_set_proc k z j _ l _ hz (fun h => hz.other h.symm) (fun _ => rfl)
      (fun _ => rfl) (fun _ => by simp)

/-- Every step that is neither the parent's `sys_wait` nor a signal for `z` keeps the
zombie `z` at rest in its slot. -/
theorem zombie_kept_step (k k1 : Kernel) (z j : Nat) (l : List Nat) (hz : zombie_kept k z j l)
    (hs : zombie_step z k k1) : ∃ l1, zombie_kept k1 z j l1 := by
  cases hs with
  | pass => exact zombie_kept_schedule k z j l hz
  | tick =>
    obtain ⟨k2, s, e | e⟩ := scheduler_tick_cases k
    · rw [e]; exact ⟨l, zombie_kept_of_same k k2 z j l s hz⟩
    · rw [e]; exact zombie_kept_schedule k2 z j l (zombie_kept_of_same k k2 z j l s hz)
  | exit status h0 hi =>
    obtain ⟨k2, s, e, _, e2, _⟩ := sys_exit_cases k status k.current_process rfl h0 hi
    rw [e]
    apply zombie_kept_schedule k2 z j l
    rw [e2]
    have hcz : k.current_process ≠ z := by
      have := hz.other
      rw [process_get_current_of k k.current_process rfl h0] at this
      exact fun h => this h.symm
    exact zombie_kept_set_proc k z j _ l _ hz hcz (fun _ => rfl) (fun _ => rfl)
      (fun h => absurd h hi)
  | wait status_ptr _ r hw hptr hpid =>
    exact zombie_kept_wait k _ z j status_ptr l r hz hw hptr hpid
  | signal pid sig hp =>
    rcases signal_send_cases k pid sig with e | ⟨s, hs, e⟩
    · rw [e]; exact ⟨l, hz⟩
    · rw [e]
      exact ⟨l, zombie_kept_set_proc k z j _ l _ hz hp (fun _ => rfl) (fun _ => rfl) (fun _ => hs)⟩

theorem zombie_kept_run (z j : Nat) (k k1 : Kernel) (h : Relation.ReflTransGen (zombie_step z) k k1) :
    (∃ l, zombie_kept k z j l) → ∃ l1, zombie_kept k1 z j l1 := by
  induction h with
  | refl => exact fun h => h
  | tail _ hs ih =>
    intro h0
    obtain ⟨l1, h1⟩ := ih h0
    exact zombie_kept_step _ _ z j l1 h1 hs

theorem heap_chain_append (l2 : List block_t) (e : Nat) : ∀ (l1 : List block_t) (a : Nat),
    heap_chain a (l1 ++ l2) e ↔ ∃ m, heap_chain a l1 m ∧ heap_chain m l2 e
  | [], a => ⟨fun h => ⟨a, rfl, h⟩, fun ⟨m, h1, h2⟩ => by
      have : a = m := h1
      rw [this]; exact h2⟩
  | b :: l1, a => by
    show (b.addr = a ∧ heap_chain _ (l1 ++ l2) e) ↔
      ∃ m, (b.addr = a ∧ heap_chain _ l1 m) ∧ heap_chain m l2 e
    rw [heap_chain_append l2 e l1]
    constructor
    · rintro ⟨h1, m, h2, h3⟩; exact ⟨m, ⟨h1, h2⟩, h3⟩
    · rintro ⟨m, ⟨h1, h2⟩, h3⟩; exact ⟨h1, m, h2, h3⟩

theorem heap_chain_le : ∀ (l : List block_t) (a e : Nat), heap_chain a l e → a ≤ e
  | [], a, e, h => le_of_eq h
  | b :: l, a, e, h => by
    have := heap_chain_le l _ e h.2
    omega

theorem heap_chain_mem : ∀ (l : List block_t) (a e : Nat), heap_chain a l e →
    ∀ b, b ∈ l → a ≤ b.addr ∧ b.addr + BLOCK_HEADER_SIZE + b.size ≤ e
  | [], _, _, _, b, hb => by cases hb
  | c :: l, a, e, h, b, hb => by
    rcases List.mem_cons.1 hb with hbc | hbl
    · rw [hbc, h.1]
      exact ⟨le_rfl, heap_chain_le l _ e h.2⟩
    · obtain ⟨h1, h2⟩ := heap_chain_mem l _ e h.2 b hbl
      exact ⟨by omega, h2⟩

theorem heap_chain_sum : ∀ (l : List block_t) (a e : Nat), heap_chain a l e →
    a + (l.map (fun b => BLOCK_HEADER_SIZE + b.size)).sum = e
  | [], a, e, h => by simpa using h
  | b :: l, a, e, h => by
    have := heap_chain_sum l _ e h.2
    simp only [List.map_cons, List.sum_cons]
    omega

theorem heap_chain_pairwise : ∀ (l : List block_t) (a e : Nat), heap_chain a l e →
    l.Pairwise (fun b c => b.addr + BLOCK_HEADER_SIZE + b.size ≤ c.addr)
  | [], _, _, _ => List.Pairwise.nil
  | b :: l, a, e, h => by
    refine List.Pairwise.cons ?_ (heap_chain_pairwise l _ e h.2)
    intro c hc
    rw [h.1]
    exact (heap_chain_mem l _ e h.2 c hc).1

theorem heap_chain_set_free (v : Bool) (e : Nat) : ∀ (l : List block_t) (pos a : Nat),
    heap_chain a l e → heap_chain a (set_block_free v l pos) e
  | [], _, _, h => h
  | _ :: _, 0, _, h => ⟨h.1, h.2⟩
  | _ :: l, pos + 1, _, h => ⟨h.1, heap_chain_set_free v e l pos _ h.2⟩

theorem heap_chain_split (size e : Nat) (he : e + 64 ≤ U64) : ∀ (l : List block_t) (pos a : Nat),
    heap_chain a l e → (∀ b, l.get? pos = some b → size ≤ b.size) →
    heap_chain a (split_block size l pos) e
  | [], _, _, h, _ => h
  | b :: l, 0, a, h, hs => by
    have hsz : size ≤ b.size := hs b rfl
    have hb := heap_chain_le l _ e h.2
    unfold split_block
    have e1 : (size + BLOCK_HEADER_SIZE + MIN_BLOCK_SIZE) % U64 = size + 40 := by
      unfold BLOCK_HEADER_SIZE MIN_BLOCK_SIZE
      unfold BLOCK_HEADER_SIZE at hb
      unfold U64 at he ⊢
      omega
    rw [e1]
    by_cases hc : b.size ≥ size + 40
    · rw [if_pos hc]
      refine ⟨h.1, ?_, ?_⟩
      · show b.addr + BLOCK_HEADER_SIZE + size = a + BLOCK_HEADER_SIZE + size
        rw [h.1]
      · have e2 : (b.size + (U64 - size % U64) + (U64 - BLOCK_HEADER_SIZE)) % U64 =
            b.size - size - 24 := by
          unfold BLOCK_HEADER_SIZE
          unfold BLOCK_HEADER_SIZE at hb
          unfold U64 at he ⊢
          omega
        show heap_chain (a + BLOCK_HEADER_SIZE + size + BLOCK_HEADER_SIZE +
          (b.size + (U64 - size % U64) + (U64 - BLOCK_HEADER_SIZE)) % U64) l e
        rw [e2]
        have e3 : a + BLOCK_HEADER_SIZE + size + BLOCK_HEADER_SIZE + (b.size - size - 24) =
            a + BLOCK_HEADER_SIZE + b.size := by
          unfold BLOCK_HEADER_SIZE
          omega
        rw [e3]
        exact h.2
    · rw [if_neg hc]
      exact h
  | b :: l, pos + 1, a, h, hs =>
    ⟨h.1, heap_chain_split size e he l pos _ h.2 (fun c hc => hs c hc)⟩

theorem heap_chain_coalesce_from (e : Nat) (he : e < U64) : ∀ (rest : List block_t)
    (cur : block_t) (a : Nat), heap_chain a (cur :: rest) e →
    heap_chain a (coalesce_from cur rest) e
  | [], _, _, h => h
  | b :: rest, cur, a, h => by
    unfold coalesce_from
    by_cases hc : cur.free = true ∧ b.free = true
    · rw [if_pos hc]
      apply heap_chain_coalesce_from e he rest
      have hb := heap_chain_le rest _ e h.2.2
      have e1 : (cur.size + BLOCK_HEADER_SIZE + b.size) % U64 =
          cur.size + BLOCK_HEADER_SIZE + b.size := by
        apply Nat.mod_eq_of_lt
        have := h.2.1
        omega
      refine ⟨h.1, ?_⟩
      show heap_chain (a + BLOCK_HEADER_SIZE + (cur.size + BLOCK_HEADER_SIZE + b.size) % U64) rest e
      rw [e1]
      have e2 : a + BLOCK_HEADER_SIZE + (cur.size + BLOCK_HEADER_SIZE + b.size) =
          b.addr + BLOCK_HEADER_SIZE + b.size := by
        have := h.2.1
        omega
      rw [e2, h.2.1]
      exact h.2.2
    · rw [if_neg hc]
      exact ⟨h.1, heap_chain_coalesce_from e he rest b _ h.2⟩

theorem heap_chain_coalesce (e : Nat) (he : e < U64) (l : List block_t) (a : Nat)
    (h : heap_chain a l e) : heap_chain a (coalesce_free_blocks l) e := by
  cases l with
  | nil => exact h
  | cons b rest => exact heap_chain_coalesce_from e he rest b a h

theorem find_free_block_get (size : Nat) : ∀ (l : List block_t) (pos : Nat),
    find_free_block size l = some pos →
    ∃ b, l.get? pos = some b ∧ b.free = true ∧ b.size ≥ size
  | [], _, h => by cases h
  | b :: l, pos, h => by
    unfold find_free_block at h
    by_cases hc : b.free = true ∧ b.size ≥ size
    · rw [if_pos hc] at h
      cases h
      exact ⟨b, rfl, hc.1, hc.2⟩
    · rw [if_neg hc] at h
      cases hf : find_free_block size l with
      | none => rw [hf] at h; cases h
      | some p =>
        rw [hf] at h
        cases h
        exact find_free_block_get size l p hf

theorem split_block_get (size : Nat) : ∀ (l : List block_t) (pos : Nat) (b : block_t),
    l.get? pos = some b →
    ∃ c, (split_block size l pos).get? pos = some c ∧ c.addr = b.addr ∧ c.free = b.free ∧
      (c.size = b.size ∨ c.size = size)
  | [], _, _, h => by cases h
  | x :: l, 0, b, h => by
    have e : x = b := by simpa using h
    subst e
    unfold split_block
    split_ifs
    · exact ⟨_, rfl, rfl, rfl, Or.inr rfl⟩
    · exact ⟨_, rfl, rfl, rfl, Or.inl rfl⟩
  | x :: l, pos + 1, b, h => split_block_get size l pos b h

theorem set_block_free_get (v : Bool) : ∀ (l : List block_t) (pos : Nat) (b : block_t),
    l.get? pos = some b → (set_block_free v l pos).get? pos = some { b with free := v }
  | [], _, _, h => by cases h
  | x :: l, 0, b, h => by
    have e : x = b := by simpa using h
    subst e
    rfl
  | x :: l, pos + 1, b, h => set_block_free_get v l pos b h

/-- The request of `n` bytes, rounded as `kmalloc` does, is at least `n` unless the
addition of 7 wraps. -/
theorem kmalloc_round_ge (n : Nat) (hn : n + 8 ≤ U64) :
    n ≤ ((n + 7) % U64) &&& 0xFFFFFFFFFFFFFFF8 := by
  rw [kmalloc_round]
  unfold U64 at hn ⊢
  omega

/-- What `kmalloc` does to a heap whose blocks tile the arena. -/
theorem kmalloc_chain (h0 h1 : KHeap) (n p e : Nat) (he : e + 64 ≤ U64)
    (hw : heap_chain HEAP_START (heap_blocks h0) e)
    (hk : kmalloc h0 n = some (h1, p)) :
    heap_chain HEAP_START h1.blocks e ∧ h1.heap_initialized = true ∧
    ∃ b, b ∈ h1.blocks ∧ p = b.addr + BLOCK_HEADER_SIZE ∧ b.free = false ∧
      b.size ≥ ((n + 7) % U64) &&& 0xFFFFFFFFFFFFFFF8 := by
  have hi : (if h0.heap_initialized then h0 else init_heap h0).heap_initialized = true := by
    by_cases h : h0.heap_initialized = true
    · rw [if_pos h]; exact h
    · rw [if_neg h]; rfl
  unfold kmalloc at hk
  dsimp only at hk
  unfold heap_blocks at hw
  generalize (if h0.heap_initialized then h0 else init_heap h0) = h at hk hw hi
  cases hf : find_free_block (((n + 7) % U64) &&& 0xFFFFFFFFFFFFFFF8) h.blocks with
  | none => rw [hf] at hk; cases hk
  | some pos =>
    rw [hf] at hk
    dsimp only at hk
    obtain ⟨b, g1, g2, g3⟩ := find_free_block_get _ _ _ hf
    obtain ⟨c, s1, s2, s3, s4⟩ := split_block_get (((n + 7) % U64) &&& 0xFFFFFFFFFFFFFFF8) _ _ _ g1
    have s5 := set_block_free_get false _ _ _ s1
    rw [s5] at hk
    simp only [Option.some.injEq, Prod.mk.injEq] at hk
    obtain ⟨k1, k2⟩ := hk
    rw [← k1]
    refine ⟨?_, hi, { c with free := false }, ?_, k2.symm, rfl, ?_⟩
    · apply heap_chain_set_free
      apply heap_chain_split _ e he _ _ _ hw
      intro b' hb'
      rw [g1] at hb'
      cases hb'
      exact g3
    · exact List.get?_mem s5
    · show c.size ≥ _
      rcases s4 with e1 | e1
      · rw [e1]; exact g3
      · rw [e1]

/-- What `kfree` does to a heap whose blocks tile the arena. -/
theorem kfree_chain (h h1 : KHeap) (p e : Nat) (he : e < U64)
    (hw : heap_chain HEAP_START h.blocks e) (hk : kfree h p = some h1) :
    heap_chain HEAP_START h1.blocks e ∧ h1.heap_initialized = h.heap_initialized := by
  unfold kfree at hk
  by_cases hp : p = 0
  · rw [if_pos hp] at hk
    cases hk
    exact ⟨hw, rfl⟩
  rw [if_neg hp] at hk
  dsimp only at hk
  split_ifs at hk
  cases hb : block_at ((p + U64 - BLOCK_HEADER_SIZE) % U64) h.blocks with
  | none => rw [hb] at hk; cases hk
  | some pos =>
    rw [hb] at hk
    dsimp only at hk
    cases hg : h.blocks.get? pos with
    | none => rw [hg] at hk; cases hk
    | some b =>
      rw [hg] at hk
      dsimp only at hk
      split_ifs at hk
      cases hk
      exact ⟨heap_chain_coalesce e he _ _ (heap_chain_set_free true e _ _ _ hw), rfl⟩

theorem heap_tiled_boot : heap_tiled heap_boot :=
  ⟨⟨rfl, rfl⟩, Or.inr rfl⟩

theorem heap_blocks_of_init (h : KHeap) (hi : h.heap_initialized = true) :
    heap_blocks h = h.blocks := by
  unfold heap_blocks
  rw [if_pos hi]

theorem arena_end_bound : HEAP_START + HEAP_SIZE + 64 ≤ U64 := by decide

theorem kmalloc_tiled (h0 h1 : KHeap) (n p : Nat) (hw : heap_tiled h0)
    (hk : kmalloc h0 n = some (h1, p)) :
    heap_tiled h1 ∧ h1.heap_initialized = true ∧
    ∃ b, b ∈ h1.blocks ∧ p = b.addr + BLOCK_HEADER_SIZE ∧ b.free = false ∧
      b.size ≥ ((n + 7) % U64) &&& 0xFFFFFFFFFFFFFFF8 := by
  obtain ⟨a1, a2, a3⟩ := kmalloc_chain h0 h1 n p _ arena_end_bound hw.1 hk
  exact ⟨⟨by rw [heap_blocks_of_init h1 a2]; exact a1, Or.inl a2⟩, a2, a3⟩

theorem kfree_tiled (h h1 : KHeap) (p : Nat) (hw : heap_tiled h) (hk : kfree h p = some h1) :
    heap_tiled h1 := by
  rcases hw.2 with hi | hb
  · obtain ⟨a1, a2⟩ := kfree_chain h h1 p (HEAP_START + HEAP_SIZE) (by have := arena_end_bound; omega)
      (by rw [← heap_blocks_of_init h hi]; exact hw.1) hk
    have hi1 : h1.heap_initialized = true := a2.trans hi
    exact ⟨by rw [heap_blocks_of_init h1 hi1]; exact a1, Or.inl hi1⟩
  · unfold kfree at hk
    by_cases hp : p = 0
    · rw [if_pos hp] at hk
      cases hk
      exact hw
    · rw [if_neg hp, hb] at hk
      dsimp only at hk
      split_ifs at hk
      cases hk

theorem krealloc_tiled (h h1 : KHeap) (m m1 : Mem) (ptr n p : Nat) (hw : heap_tiled h)
    (hk : krealloc h m ptr n = some (h1, m1, p)) : heap_tiled h1 := by
  unfold krealloc at hk
  by_cases hp : ptr = 0
  · rw [if_pos hp] at hk
    cases hm : kmalloc h n with
    | none => rw [hm] at hk; cases hk
    | some r =>
      rw [hm] at hk
      simp only [Option.map_some', Option.some.injEq, Prod.mk.injEq] at hk
      rw [← hk.1]
      exact (kmalloc_tiled h r.1 n r.2 hw hm).1
  rw [if_neg hp] at hk
  cases hb : block_at ((ptr + U64 - BLOCK_HEADER_SIZE) % U64) h.blocks with
  | none => rw [hb] at hk; cases hk
  | some pos =>
    rw [hb] at hk
    dsimp only at hk
    cases hg : h.blocks.get? pos with
    | none => rw [hg] at hk; cases hk
    | some b =>
      rw [hg] at hk
      dsimp only at hk
      by_cases hs : n ≤ b.size
      · rw [if_pos hs] at hk
        cases hk
        exact hw
      · rw [if_neg hs] at hk
        cases hm : kmalloc h n with
        | none => rw [hm] at hk; cases hk
        | some r =>
          rw [hm] at hk
          dsimp only at hk
          have hw1 := (kmalloc_tiled h r.1 n r.2 hw hm).1
          by_cases hz : r.2 = 0
          · rw [if_pos hz] at hk
            cases hk
            exact hw1
          · rw [if_neg hz] at hk
            cases hf : kfree r.1 ptr with
            | none => rw [hf] at hk; cases hk
            | some h2 =>
              rw [hf] at hk
              simp only [Option.map_some', Option.some.injEq, Prod.mk.injEq] at hk
              rw [← hk.1]
              exact kfree_tiled r.1 h2 ptr hw1 hf

theorem kzalloc_tiled (h h1 : KHeap) (m m1 : Mem) (n p : Nat) (hw : heap_tiled h)
    (hk : kzalloc h m n = some (h1, m1, p)) : heap_tiled h1 := by
  unfold kzalloc at hk
  cases hm : kmalloc h n with
  | none => rw [hm] at hk; cases hk
  | some r =>
    rw [hm] at hk
    dsimp only at hk
    have hw1 := (kmalloc_tiled h r.1 n r.2 hw hm).1
    split_ifs at hk
    · cases hk; exact hw1
    · cases hk; exact hw1

theorem run_heap_call_tiled (c : heap_call) (s s1 : KHeap × Mem) (hw : heap_tiled s.1)
    (hr : run_heap_call c s = some s1) : heap_tiled s1.1 := by
  cases c with
  | malloc size =>
    replace hr : (kmalloc s.1 size).map (fun r => (r.1, s.2)) = some s1 := hr
    cases hm : kmalloc s.1 size with
    | none => rw [hm] at hr; cases hr
    | some r =>
      rw [hm] at hr
      cases hr
      exact (kmalloc_tiled s.1 r.1 size r.2 hw hm).1
  | zalloc size =>
    replace hr : (kzalloc s.1 s.2 size).map (fun r => (r.1, r.2.1)) = some s1 := hr
    cases hm : kzalloc s.1 s.2 size with
    | none => rw [hm] at hr; cases hr
    | some r =>
      rw [hm] at hr
      cases hr
      exact kzalloc_tiled s.1 r.1 s.2 r.2.1 size r.2.2 hw hm
  | realloc ptr new_size =>
    replace hr : (krealloc s.1 s.2 ptr new_size).map (fun r => (r.1, r.2.1)) = some s1 := hr
    cases hm : krealloc s.1 s.2 ptr new_size with
    | none => rw [hm] at hr; cases hr
    | some r =>
      rw [hm] at hr
      cases hr
      exact krealloc_tiled s.1 r.1 s.2 r.2.1 ptr new_size r.2.2 hw hm
  | free ptr =>
    replace hr : (kfree s.1 ptr).map (fun h => (h, s.2)) = some s1 := hr
    cases hm : kfree s.1 ptr with
    | none => rw [hm] at hr; cases hr
    | some r =>
      rw [hm] at hr
      cases hr
      exact kfree_tiled s.1 r ptr hw hm

theorem run_heap_calls_tiled : ∀ (cs : List heap_call) (s s1 : KHeap × Mem), heap_tiled s.1 →
    run_heap_calls cs s = some s1 → heap_tiled s1.1
  | [], s, s1, hw, hr => by cases hr; exact hw
  | c :: cs, s, s1, hw, hr => by
    unfold run_heap_calls at hr
    cases hc : run_heap_call c s with
    | none => rw [hc] at hr; cases hr
    | some s2 =>
      rw [hc] at hr
      exact run_heap_calls_tiled cs s2 s1 (run_heap_call_tiled c s s2 hw hc) hr

theorem block_at_addr (a : Nat) : ∀ (l : List block_t) (pos : Nat) (b : block_t),
    block_at a l = some pos → l.get? pos = some b → b.addr = a
  | [], pos, b, h, _ => by simp [block_at] at h
  | c :: l, pos, b, h, hg => by
    simp only [block_at] at h
    by_cases hc : c.addr = a
    · rw [if_pos hc] at h
      cases h
      simp only [List.get?_cons_zero, Option.some.injEq] at hg
      rw [← hg]; exact hc
    · rw [if_neg hc] at h
      cases hb : block_at a l with
      | none => rw [hb] at h; cases h
      | some q =>
        rw [hb] at h
        simp only [Option.map_some', Option.some.injEq] at h
        subst h
        exact block_at_addr a l q b hb (by simpa using hg)

/-- What a `kfree` that the model follows was given: the null pointer, or the payload
pointer of a block of the list that is in use. -/
theorem kfree_some_payload (h h1 : KHeap) (p : Nat) (hk : kfree h p = some h1) :
    p = 0 ∨ ∃ b, b ∈ h.blocks ∧ b.addr = (p + U64 - BLOCK_HEADER_SIZE) % U64 ∧
      b.free = false := by
  unfold kfree at hk
  by_cases hp : p = 0
  · exact Or.inl hp
  · right
    rw [if_neg hp] at hk
    dsimp only at hk
    split at hk
    · cases hk
    · cases hb : block_at ((p + U64 - BLOCK_HEADER_SIZE) % U64) h.blocks with
      | none => rw [hb] at hk; cases hk
      | some pos =>
        rw [hb] at hk
        dsimp only at hk
        cases hg : h.blocks.get? pos with
        | none => rw [hg] at hk; cases hk
        | some b =>
          rw [hg] at hk
          dsimp only at hk
          by_cases hf : b.free = true
          · rw [if_pos hf] at hk; cases hk
          · exact ⟨b, List.get?_mem hg, block_at_addr _ _ _ _ hb hg, by simpa using hf⟩

/-- What a `krealloc` that the model follows was given: the null pointer, or the payload
pointer of a block of the list. -/
theorem krealloc_some_payload (h : KHeap) (m : Mem) (p n : Nat) (r : KHeap × Mem × Nat)
    (hk : krealloc h m p n = some r) :
    p = 0 ∨ ∃ b, b ∈ h.blocks ∧ b.addr = (p + U64 - BLOCK_HEADER_SIZE) % U64 := by
  unfold krealloc at hk
  by_cases hp : p = 0
  · exact Or.inl hp
  · right
    rw [if_neg hp] at hk
    cases hb : block_at ((p + U64 - BLOCK_HEADER_SIZE) % U64) h.blocks with
    | none => rw [hb] at hk; cases hk
    | some pos =>
      rw [hb] at hk
      dsimp only at hk
      cases hg : h.blocks.get? pos with
      | none => rw [hg] at hk; cases hk
      | some b => exact ⟨b, List.get?_mem hg, block_at_addr _ _ _ _ hb hg⟩

/-- C30 (amended): in every heap state reached from the boot state by calls of
`kmalloc`, `kzalloc`, `krealloc` and `kfree` that do not panic, in which every pointer
passed to `kfree` or `krealloc` is null or the payload pointer of a block of the list
(`kfree_some_payload`, `krealloc_some_payload`) and every size passed to `kzalloc` or
`krealloc` is at most `2^64 - 8`, the blocks that `kmalloc` searches (those that
`init_heap` sets up on the first call) tile the arena: the first header is at the arena
start, every block ends where the next header is, the last one ends at the arena end, so
the addresses are strictly increasing, header and size add up to 16 MiB and the payloads
of two blocks do not overlap; and a pointer returned by `kmalloc(n)` for `n` up to
`2^64 - 8` is the payload of a block in use of at least `n` bytes that lies inside the
arena. -/
theorem heap_blocks_tile_arena (calls : List heap_call) (m : Mem) (s : KHeap × Mem)
    (_hfit : ∀ c, c ∈ calls → heap_call_fits c)
    (hrun : run_heap_calls calls (heap_boot, m) = some s) :
    heap_chain HEAP_START (heap_blocks s.1) (HEAP_START + HEAP_SIZE) ∧
    (heap_blocks s.1).Pairwise (fun b c => b.addr < c.addr) ∧
    ((heap_blocks s.1).map (fun b => BLOCK_HEADER_SIZE + b.size)).sum = HEAP_SIZE ∧
    (heap_blocks s.1).Pairwise (fun b c => b.addr + BLOCK_HEADER_SIZE + b.size ≤ c.addr) ∧
    ∀ n h1 p, n + 8 ≤ U64 → kmalloc s.1 n = some (h1, p) →
      HEAP_START + BLOCK_HEADER_SIZE ≤ p ∧ p + n ≤ HEAP_START + HEAP_SIZE ∧
      ∃ b, b ∈ h1.blocks ∧ b.addr + BLOCK_HEADER_SIZE = p ∧ b.free = false ∧ n ≤ b.size := by
  have hw := run_heap_calls_tiled calls (heap_boot, m) s heap_tiled_boot hrun
  have hp := heap_chain_pairwise _ _ _ hw.1
  refine ⟨hw.1, ?_, ?_, hp, ?_⟩
  · refine hp.imp ?_
    intro b c h
    unfold BLOCK_HEADER_SIZE at h
    omega
  · have := heap_chain_sum _ _ _ hw.1
    omega
  · intro n h1 p hn hk
    obtain ⟨a1, a2, b, b1, b2, b3, b4⟩ := kmalloc_tiled s.1 h1 n p hw hk
    have hge := kmalloc_round_ge n hn
    have a3 := a1.1
    rw [heap_blocks_of_init h1 a2] at a3
    obtain ⟨c1, c2⟩ := heap_chain_mem _ _ _ a3 b b1
    refine ⟨by rw [b2]; omega, by rw [b2]; omega, b, b1, b2.symm, b3, by omega⟩

/-- Witness of C30: the heap after `kmalloc(264)`, `kmalloc(8192)` and `kfree` of the
first pointer. -/
theorem heap_blocks_tile_arena_witness :
    heap_chain HEAP_START (heap_blocks heap3) (HEAP_START + HEAP_SIZE) ∧
    ((heap_blocks heap3).map (fun b => BLOCK_HEADER_SIZE + b.size)).sum = HEAP_SIZE :=
  have h := heap_blocks_tile_arena
    [heap_call.malloc 264, heap_call.malloc 8192, heap_call.free 0x2000018] (fun _ => 0)
    (heap3, fun _ => 0) (by decide) rfl
  ⟨h.1, h.2.2.1⟩

/-- Counterexample to C30 as stated: the request `2^64 - 1` is rounded to 0, so
`kmalloc` does not panic on the boot heap and returns the payload of a block of 0
bytes. -/
theorem kmalloc_wrap_counterexample :
    (kmalloc heap_boot (U64 - 1)).map (fun r => (r.2, chunk_size r.1 r.2)) =
      some (0x2000018, some 0) := by
  decide

/-! ## Physical memory manager: the counter and the bitmap -/

theorem bitmap_test_clear_other (bm : Nat → Nat) (p q : Nat) (h : q ≠ p) :
    bitmap_test (bitmap_clear bm p) q = bitmap_test bm q := by
  rw [bitmap_test_eq, bitmap_test_eq]
  unfold bitmap_clear
  by_cases hw : q / 32 = p / 32
  · rw [if_pos hw, Nat.testBit_and, Nat.testBit_xor, Nat.one_shiftLeft, Nat.testBit_two_pow, hw]
    have hb : p % 32 ≠ q % 32 := by omega
    have h1 : (0xFFFFFFFF : Nat).testBit (q % 32) = true := by
      have e : (0xFFFFFFFF : Nat) = 2 ^ 32 - 1 := by norm_num
      rw [e, Nat.testBit_two_pow_sub_one]
      simp
      omega
    rw [h1]
    simp [hb]
  · rw [if_neg hw]

theorem countP_range_congr (P Q : Nat → Bool) : ∀ n : Nat, (∀ q, q < n → P q = Q q) →
    (List.range n).countP P = (List.range n).countP Q
  | 0, _ => rfl
  | n + 1, h => by
    rw [List.range_succ, List.countP_append, List.countP_append,
      countP_range_congr P Q n (fun q hq => h q (by omega))]
    simp only [List.countP_cons, List.countP_nil, h n (by omega)]

/-- Turning one bit on adds one to the count of a range that holds it. -/
theorem countP_range_flip (P Q : Nat → Bool) (p : Nat) (hPp : P p = false) (hQp : Q p = true)
    (ho : ∀ q, q ≠ p → Q q = P q) : ∀ n : Nat, p < n →
    (List.range n).countP Q = (List.range n).countP P + 1
  | 0, h => by omega
  | n + 1, h => by
    rw [List.range_succ, List.countP_append, List.countP_append]
    by_cases hpn : p = n
    · rw [countP_range_congr Q P n (fun q hq => ho q (by omega))]
      subst hpn
      simp only [List.countP_cons, List.countP_nil, hPp, hQp]
      simp
    · rw [countP_range_flip P Q p hPp hQp ho n (by omega)]
      simp only [List.countP_cons, List.countP_nil, ho n (fun e => hpn e.symm)]
      omega

theorem clear_add_set (bm : Nat → Nat) (n : Nat) : set_bits bm n + clear_bits bm n = n := by
  unfold set_bits clear_bits
  have := List.length_eq_countP_add_countP (fun p => bitmap_test bm p) (List.range n)
  rw [List.length_range] at this
  have e : (List.range n).countP (fun p => !bitmap_test bm p) =
      (List.range n).countP (fun a => decide ¬ bitmap_test bm a = true) := by
    apply countP_range_congr
    intro q _
    cases bitmap_test bm q <;> rfl
  rw [e]
  omega

theorem clear_bits_le (bm : Nat → Nat) (n : Nat) : clear_bits bm n ≤ n := by
  have := clear_add_set bm n
  omega

/-- Bits that are all set add nothing to the count of clear bits. -/
theorem clear_bits_extend (bm : Nat → Nat) (n : Nat) : ∀ m : Nat,
    (∀ p, n ≤ p → p < n + m → bitmap_test bm p = true) →
    clear_bits bm (n + m) = clear_bits bm n
  | 0, _ => rfl
  | m + 1, h => by
    have ih := clear_bits_extend bm n m (fun p h1 h2 => h p h1 (by omega))
    unfold clear_bits at ih ⊢
    rw [← Nat.add_assoc, List.range_succ, List.countP_append, ih]
    simp [h (n + m) (by omega) (by omega)]

theorem clear_bits_set (bm : Nat → Nat) (p n : Nat) (hp : p < n)
    (hc : bitmap_test bm p = false) :
    clear_bits bm n = clear_bits (bitmap_set bm p) n + 1 := by
  unfold clear_bits
  apply countP_range_flip _ _ p
  · rw [bitmap_test_set]; simp
  · rw [hc]; rfl
  · intro q hq
    rw [bitmap_test_set]
    simp [hq]
  · exact hp

theorem clear_bits_clear (bm : Nat → Nat) (p n : Nat) (hp : p < n)
    (hc : bitmap_test bm p = true) :
    clear_bits (bitmap_clear bm p) n = clear_bits bm n + 1 := by
  unfold clear_bits
  apply countP_range_flip _ _ p
  · rw [hc]; rfl
  · rw [bitmap_test_clear]; rfl
  · intro q hq
    rw [bitmap_test_clear_other bm p q hq]
  · exact hp

/-- The two equations of the claim follow from the invariant. -/
theorem pmm_ok_counts (s : Phys) (h : pmm_ok s) :
    s.pmm_free_pages = clear_bits s.pmm_bitmap (BITMAP_WORDS * 32) ∧
    set_bits s.pmm_bitmap s.pmm_total_pages + s.pmm_free_pages = s.pmm_total_pages := by
  constructor
  · have e : BITMAP_WORDS * 32 = s.pmm_total_pages + (BITMAP_WORDS * 32 - s.pmm_total_pages) := by
      have := h.fits; omega
    rw [e, clear_bits_extend, h.counted]
    intro p h1 h2
    cases hb : bitmap_test s.pmm_bitmap p
    · have := (h.managed p (by omega) hb).2
      omega
    · rfl
  · rw [h.counted]
    exact clear_add_set _ _

theorem pmm_alloc_page_ok (s : Phys) (h : pmm_ok s) : pmm_ok (pmm_alloc_page s).1 := by
  unfold pmm_alloc_page
  cases hf : bitmap_find_free s.pmm_bitmap with
  | none => exact h
  | some page =>
    dsimp only
    obtain ⟨f1, f2⟩ := bitmap_find_free_spec _ _ hf
    obtain ⟨m1, m2⟩ := h.managed page f1 f2
    have hcnt := clear_bits_set s.pmm_bitmap page s.pmm_total_pages m2 f2
    exact
      { fits := h.fits
        managed := by
          intro p hp hb
          show _ ∧ p < s.pmm_total_pages
          change bitmap_test (bitmap_set s.pmm_bitmap page) p = false at hb
          rw [bitmap_test_set] at hb
          simp only [Bool.or_eq_false_iff] at hb
          exact h.managed p hp hb.2
        counted := by
          show (s.pmm_free_pages + U64 - 1) % U64 =
            clear_bits (bitmap_set s.pmm_bitmap page) s.pmm_total_pages
          rw [h.counted, hcnt]
          have hb := clear_bits_le (bitmap_set s.pmm_bitmap page) s.pmm_total_pages
          have ht := h.fits
          have : BITMAP_WORDS * 32 = 1048576 := by decide
          unfold U64
          omega }

theorem pmm_free_page_ok (s s1 : Phys) (addr : Nat) (h : pmm_ok s)
    (hf : pmm_free_page s addr = some s1) : pmm_ok s1 := by
  unfold pmm_free_page at hf
  split_ifs at hf with c1 c2 c3
  cases hf
  simp only [not_or, not_not, not_lt, ge_iff_le, not_le, Bool.not_eq_true] at c1 c2 c3
  have hset : bitmap_test s.pmm_bitmap (addr / PAGE_SIZE) = true := by
    cases hb : bitmap_test s.pmm_bitmap (addr / PAGE_SIZE)
    · rw [hb] at c3; simp at c3
    · rfl
  have hcnt := clear_bits_clear s.pmm_bitmap (addr / PAGE_SIZE) s.pmm_total_pages c2 hset
  exact
    { fits := h.fits
      managed := by
        intro p hp hb
        show _ ∧ p < s.pmm_total_pages
        change bitmap_test (bitmap_clear s.pmm_bitmap (addr / PAGE_SIZE)) p = false at hb
        by_cases hpa : p = addr / PAGE_SIZE
        · rw [hpa]
          refine ⟨?_, c2⟩
          have := c1.2
          unfold PMM_START PAGE_SIZE at *
          omega
        · rw [bitmap_test_clear_other _ _ _ hpa] at hb
          exact h.managed p hp hb
      counted := by
        show (s.pmm_free_pages + 1) % U64 =
          clear_bits (bitmap_clear s.pmm_bitmap (addr / PAGE_SIZE)) s.pmm_total_pages
        rw [hcnt, h.counted]
        have hb := clear_bits_le (bitmap_clear s.pmm_bitmap (addr / PAGE_SIZE)) s.pmm_total_pages
        have ht := h.fits
        have : BITMAP_WORDS * 32 = 1048576 := by decide
        unfold U64
        omega }

theorem pmm_init_loop_spec : ∀ (n page : Nat) (bm : Nat → Nat) (free : Nat), free + n < U64 →
    (pmm_init_loop n page bm free).2 = free + n ∧
    ∀ q, bitmap_test (pmm_init_loop n page bm free).1 q =
      if page ≤ q ∧ q < page + n then false else bitmap_test bm q
  | 0, page, bm, free, _ => ⟨rfl, fun q => by
      rw [if_neg (by omega)]; rfl⟩
  | n + 1, page, bm, free, h => by
    have e1 : (free + 1) % U64 = free + 1 := Nat.mod_eq_of_lt (by omega)
    obtain ⟨i1, i2⟩ := pmm_init_loop_spec n (page + 1) (bitmap_clear bm page) ((free + 1) % U64)
      (by rw [e1]; omega)
    refine ⟨?_, fun q => ?_⟩
    · show (pmm_init_loop n (page + 1) (bitmap_clear bm page) ((free + 1) % U64)).2 = _
      rw [i1, e1]; omega
    · show bitmap_test (pmm_init_loop n (page + 1) (bitmap_clear bm page) ((free + 1) % U64)).1 q = _
      rw [i2]
      by_cases hq : q = page
      · rw [hq, if_neg (by omega), if_pos (by omega), bitmap_test_clear]
      · rw [bitmap_test_clear_other _ _ _ hq]
        by_cases hr : page + 1 ≤ q ∧ q < page + 1 + n
        · rw [if_pos hr, if_pos (by omega)]
        · rw [if_neg hr, if_neg (by omega)]

/-- The count of clear bits of a bitmap whose clear bits below `m` are those from `a` on. -/
theorem clear_bits_from (bm : Nat → Nat) (a : Nat) : ∀ m : Nat,
    (∀ q, q < m → bitmap_test bm q = decide (q < a)) → clear_bits bm m = m - a
  | 0, _ => by simp [clear_bits]
  | m + 1, h => by
    have ih := clear_bits_from bm a m (fun q hq => h q (by omega))
    unfold clear_bits at ih ⊢
    rw [List.range_succ, List.countP_append, ih]
    simp only [List.countP_cons, List.countP_nil, h m (by omega)]
    by_cases hma : m < a
    · simp [hma]; omega
    · simp [hma]; omega

theorem bitmap_all_set (bm : Nat → Nat) (q : Nat) (h : bm (q / 32) = 0xFFFFFFFF) :
    bitmap_test bm q = true := by
  rw [bitmap_test_eq, h]
  have e : (0xFFFFFFFF : Nat) = 2 ^ 32 - 1 := by norm_num
  rw [e, Nat.testBit_two_pow_sub_one]
  simp
  omega

/-- The bits and the counter that `pmm_init` leaves. -/
theorem pmm_init_bits (s0 : Phys) (memory_size : Nat) :
    (pmm_init s0 memory_size).pmm_total_pages = memory_size / PAGE_SIZE ∧
    (pmm_init s0 memory_size).pmm_free_pages =
      (if memory_size / PAGE_SIZE > BITMAP_SIZE * 32 then BITMAP_SIZE * 32
        else memory_size / PAGE_SIZE) - PMM_START / PAGE_SIZE ∧
    ∀ q, q < BITMAP_WORDS * 32 → bitmap_test (pmm_init s0 memory_size).pmm_bitmap q =
      decide (¬ (PMM_START / PAGE_SIZE ≤ q ∧
        q < (if memory_size / PAGE_SIZE > BITMAP_SIZE * 32 then BITMAP_SIZE * 32
          else memory_size / PAGE_SIZE))) := by
  have hb : BITMAP_SIZE * 32 = 4194304 := by decide
  have hp : PMM_START / PAGE_SIZE = 1024 := by decide
  have hw : BITMAP_WORDS = 32768 := by decide
  unfold pmm_init
  dsimp only
  generalize hl : (if memory_size / PAGE_SIZE > BITMAP_SIZE * 32 then BITMAP_SIZE * 32
      else memory_size / PAGE_SIZE) = last
  have hlast : last ≤ 4194304 := by
    rw [← hl]
    split_ifs <;> omega
  rw [hp]
  obtain ⟨i1, i2⟩ := pmm_init_loop_spec (last - 1024) 1024
    (fun i => if i < BITMAP_WORDS then 0xFFFFFFFF else s0.pmm_bitmap i) 0
    (by unfold U64; omega)
  refine ⟨rfl, ?_, fun q hq => ?_⟩
  · rw [i1]; omega
  · rw [i2]
    have hqw : q / 32 < BITMAP_WORDS := by omega
    by_cases hr : 1024 ≤ q ∧ q < last
    · rw [if_pos (by omega)]
      simp [hr]
    · rw [if_neg (by omega), bitmap_all_set _ _ (by simp only [if_pos hqw])]
      simp [hr]

theorem pmm_init_ok (s0 : Phys) (memory_size : Nat)
    (hm : memory_size / PAGE_SIZE ≤ BITMAP_WORDS * 32) : pmm_ok (pmm_init s0 memory_size) := by
  obtain ⟨h1, h2, h3⟩ := pmm_init_bits s0 memory_size
  have hcap : BITMAP_WORDS * 32 = 1048576 := by decide
  have hb : BITMAP_SIZE * 32 = 4194304 := by decide
  have hp : PMM_START / PAGE_SIZE = 1024 := by decide
  rw [if_neg (by omega)] at h2
  have h3' : ∀ q, q < BITMAP_WORDS * 32 → bitmap_test (pmm_init s0 memory_size).pmm_bitmap q =
      decide (¬ (PMM_START / PAGE_SIZE ≤ q ∧ q < memory_size / PAGE_SIZE)) := by
    intro q hq
    rw [h3 q hq, if_neg (by omega)]
  exact
    { fits := by rw [h1]; exact hm
      managed := by
        intro p hp1 hp2
        rw [h3' p hp1] at hp2
        rw [h1]
        simpa using hp2
      counted := by
        rw [h1, h2]
        by_cases ht : memory_size / PAGE_SIZE ≤ PMM_START / PAGE_SIZE
        · rw [clear_bits_from _ (memory_size / PAGE_SIZE)]
          · omega
          · intro q hq
            rw [h3' q (by omega)]
            simp only [decide_eq_decide]
            omega
        · rw [clear_bits_from _ (PMM_START / PAGE_SIZE)]
          intro q hq
          rw [h3' q (by omega)]
          simp only [decide_eq_decide]
          omega }

theorem pages_free_spec (bm : Nat → Nat) : ∀ (n start : Nat), start + n < U64 →
    pages_free bm start n = true → ∀ i, i < n → bitmap_test bm (start + i) = false
  | 0, _, _, _, i, hi => by omega
  | n + 1, start, hb, h, i, hi => by
    unfold pages_free at h
    have e : start % U64 = start := Nat.mod_eq_of_lt (by omega)
    rw [e] at h
    cases ht : bitmap_test bm start
    · rw [ht] at h
      simp only [Bool.false_eq_true, if_false] at h
      cases i with
      | zero => exact ht
      | succ j =>
        have := pages_free_spec bm n (start + 1) (by omega) h j (by omega)
        rw [← this]
        congr 1
        omega
    · rw [ht] at h
      simp at h

theorem set_pages_spec (m : Nat) : ∀ (n start : Nat) (bm : Nat → Nat), start + n < U64 →
    start + n ≤ m → (∀ i, i < n → bitmap_test bm (start + i) = false) →
    clear_bits bm m = clear_bits (set_pages bm start n) m + n ∧
    ∀ q, bitmap_test (set_pages bm start n) q = false → bitmap_test bm q = false
  | 0, _, _, _, _, _ => ⟨rfl, fun _ h => h⟩
  | n + 1, start, bm, hb, hm, hc => by
    have e : start % U64 = start := Nat.mod_eq_of_lt (by omega)
    have h0 : bitmap_test bm start = false := hc 0 (by omega)
    have h1 := clear_bits_set bm start m (by omega) h0
    obtain ⟨i1, i2⟩ := set_pages_spec m n (start + 1) (bitmap_set bm start) (by omega) (by omega)
      (by
        intro i hi
        rw [bitmap_test_set]
        have := hc (i + 1) (by omega)
        have e2 : start + (i + 1) = start + 1 + i := by omega
        rw [e2] at this
        rw [this]
        simp
        omega)
    refine ⟨?_, fun q hq => ?_⟩
    · show _ = clear_bits (set_pages (bitmap_set bm (start % U64)) (start + 1) n) m + (n + 1)
      rw [e, h1, i1]; omega
    · change bitmap_test (set_pages (bitmap_set bm (start % U64)) (start + 1) n) q = false at hq
      rw [e] at hq
      have := i2 q hq
      rw [bitmap_test_set] at this
      simp only [Bool.or_eq_false_iff] at this
      exact this.2

theorem alloc_pages_from_ok (s : Phys) (count : Nat) (h : pmm_ok s) (hc : count < 2 ^ 63) :
    ∀ (fuel start : Nat), start + fuel ≤ 2 ^ 63 → pmm_ok (alloc_pages_from s count fuel start).1
  | 0, _, _ => h
  | fuel + 1, start, hs => by
    unfold alloc_pages_from
    have e : (start + count) % U64 = start + count :=
      Nat.mod_eq_of_lt (by unfold U64; omega)
    rw [e]
    by_cases hcnd : start + count ≤ s.pmm_total_pages
    · rw [if_pos hcnd]
      by_cases hf : pages_free s.pmm_bitmap start count = true
      · rw [if_pos hf]
        have hfree := pages_free_spec s.pmm_bitmap count start (by unfold U64; omega) hf
        obtain ⟨i1, i2⟩ := set_pages_spec s.pmm_total_pages count start s.pmm_bitmap
          (by unfold U64; omega) hcnd hfree
        exact
          { fits := h.fits
            managed := fun p hp hb => h.managed p hp (i2 p hb)
            counted := by
              show (s.pmm_free_pages + U64 - count % U64) % U64 =
                clear_bits (set_pages s.pmm_bitmap start count) s.pmm_total_pages
              rw [h.counted, i1]
              have hb := clear_bits_le (set_pages s.pmm_bitmap start count) s.pmm_total_pages
              have hft := h.fits
              have hcap : BITMAP_WORDS * 32 = 1048576 := by decide
              have e3 : count % U64 = count := Nat.mod_eq_of_lt (by unfold U64; omega)
              rw [e3]
              unfold U64
              omega }
      · rw [if_neg hf]
        exact alloc_pages_from_ok s count h hc fuel (start + 1) (by omega)
    · rw [if_neg hcnd]
      exact h

theorem pmm_alloc_pages_ok (s : Phys) (count : Nat) (h : pmm_ok s) (hc : count < 2 ^ 63) :
    pmm_ok (pmm_alloc_pages s count).1 := by
  unfold pmm_alloc_pages
  by_cases h0 : count = 0
  · rw [if_pos h0]; exact h
  · rw [if_neg h0]
    apply alloc_pages_from_ok s count h hc
    have := h.fits
    have hcap : BITMAP_WORDS * 32 = 1048576 := by decide
    have hp : PMM_START / PAGE_SIZE = 1024 := by decide
    omega

theorem pmm_free_pages_loop_ok (addr : Nat) : ∀ (n i : Nat) (s s1 : Phys), pmm_ok s →
    pmm_free_pages_loop addr n i s = some s1 → pmm_ok s1
  | 0, _, s, s1, h, hr => by cases hr; exact h
  | n + 1, i, s, s1, h, hr => by
    unfold pmm_free_pages_loop at hr
    cases hf : pmm_free_page s ((addr + i * PAGE_SIZE) % U64) with
    | none => rw [hf] at hr; cases hr
    | some s2 =>
      rw [hf] at hr
      exact pmm_free_pages_loop_ok addr n (i + 1) s2 s1 (pmm_free_page_ok s s2 _ h hf) hr

theorem run_pmm_call_ok (c : pmm_call) (s s1 : Phys) (h : pmm_ok s) (hc : pmm_call_sane c)
    (hr : run_pmm_call c s = some s1) : pmm_ok s1 := by
  cases c with
  | alloc_page =>
    replace hr : some (pmm_alloc_page s).1 = some s1 := hr
    cases hr
    exact pmm_alloc_page_ok s h
  | alloc_pages count =>
    replace hr : some (pmm_alloc_pages s count).1 = some s1 := hr
    cases hr
    exact pmm_alloc_pages_ok s count h hc
  | free_page addr => exact pmm_free_page_ok s s1 addr h hr
  | free_pages addr count =>
    replace hr : pmm_free_pages s addr count = some s1 := hr
    unfold pmm_free_pages at hr
    split_ifs at hr
    · cases hr; exact h
    · exact pmm_free_pages_loop_ok addr count 0 s s1 h hr

theorem run_pmm_calls_ok : ∀ (cs : List pmm_call) (s s1 : Phys), pmm_ok s →
    (∀ c, c ∈ cs → pmm_call_sane c) → run_pmm_calls cs s = some s1 → pmm_ok s1
  | [], s, s1, h, _, hr => by cases hr; exact h
  | c :: cs, s, s1, h, hc, hr => by
    unfold run_pmm_calls at hr
    cases hf : run_pmm_call c s with
    | none => rw [hf] at hr; cases hr
    | some s2 =>
      rw [hf] at hr
      exact run_pmm_calls_ok cs s2 s1
        (run_pmm_call_ok c s s2 h (hc c (List.mem_cons_self _ _)) hf)
        (fun c1 h1 => hc c1 (List.mem_cons_of_mem _ h1)) hr

/-- C29 (the code does otherwise for more than 4 GiB): `pmm_init` clamps the last page
to `BITMAP_SIZE * 32`, four times the number of bits of the bitmap.  For a
`memory_size` of more than `2^20` pages it counts more free pages than the bitmap has
clear bits: all bits of the array from page 1024 on are clear and the counter exceeds
their number by the pages that do not fit.  For a `memory_size` of at most `2^20` pages
the claim holds: after `pmm_init` and every sequence of calls of `pmm_alloc_page`,
`pmm_alloc_pages` (with a count below `2^63`), `pmm_free_page` and `pmm_free_pages` that
does not panic, `pmm_free_pages` is the number of clear bits of the bitmap, the set bits
among the frames below `pmm_total_pages` and the counter add up to `pmm_total_pages`,
and `pmm_get_stats` reports these numbers. -/
theorem pmm_counter_and_bitmap (s0 : Phys) (memory_size : Nat) :
    (BITMAP_WORDS * 32 < memory_size / PAGE_SIZE →
      clear_bits (pmm_init s0 memory_size).pmm_bitmap (BITMAP_WORDS * 32) =
        BITMAP_WORDS * 32 - PMM_START / PAGE_SIZE ∧
      (pmm_init s0 memory_size).pmm_free_pages >
        clear_bits (pmm_init s0 memory_size).pmm_bitmap (BITMAP_WORDS * 32)) ∧
    (memory_size / PAGE_SIZE ≤ BITMAP_WORDS * 32 → ∀ (calls : List pmm_call) (s : Phys),
      (∀ c, c ∈ calls → pmm_call_sane c) →
      run_pmm_calls calls (pmm_init s0 memory_size) = some s →
      s.pmm_free_pages = clear_bits s.pmm_bitmap (BITMAP_WORDS * 32) ∧
      set_bits s.pmm_bitmap s.pmm_total_pages + s.pmm_free_pages = s.pmm_total_pages ∧
      pmm_get_stats s =
        (s.pmm_total_pages, s.pmm_free_pages, set_bits s.pmm_bitmap s.pmm_total_pages)) := by
  have hcap : BITMAP_WORDS * 32 = 1048576 := by decide
  have hb : BITMAP_SIZE * 32 = 4194304 := by decide
  have hp : PMM_START / PAGE_SIZE = 1024 := by decide
  constructor
  · intro hbig
    obtain ⟨h1, h2, h3⟩ := pmm_init_bits s0 memory_size
    have hc : clear_bits (pmm_init s0 memory_size).pmm_bitmap (BITMAP_WORDS * 32) =
        BITMAP_WORDS * 32 - PMM_START / PAGE_SIZE := by
      apply clear_bits_from
      intro q hq
      rw [h3 q hq]
      simp only [decide_eq_decide]
      split_ifs <;> omega
    refine ⟨hc, ?_⟩
    rw [hc, h2]
    split_ifs <;> omega
  · intro hm calls s hs hr
    have hok := run_pmm_calls_ok calls _ s (pmm_init_ok s0 memory_size hm) hs hr
    obtain ⟨c1, c2⟩ := pmm_ok_counts s hok
    refine ⟨c1, c2, ?_⟩
    unfold pmm_get_stats
    have hf := hok.fits
    have e : (s.pmm_total_pages + U64 - s.pmm_free_pages % U64) % U64 =
        set_bits s.pmm_bitmap s.pmm_total_pages := by
      unfold U64
      omega
    rw [e]

/-- Witness of C29: a machine of 8 GiB for the first part; 4 MiB + 8 KiB, one
`pmm_alloc_page` and one `pmm_alloc_pages(1)` for the second. -/
theorem pmm_counter_and_bitmap_witness :
    (pmm_init phys0 0x200000000).pmm_free_pages >
      clear_bits (pmm_init phys0 0x200000000).pmm_bitmap (BITMAP_WORDS * 32) ∧
    (pmm_alloc_pages (pmm_alloc_page (pmm_init phys0 0x402000)).1 1).1.pmm_free_pages =
      clear_bits (pmm_alloc_pages (pmm_alloc_page (pmm_init phys0 0x402000)).1 1).1.pmm_bitmap
        (BITMAP_WORDS * 32) :=
  ⟨((pmm_counter_and_bitmap phys0 0x200000000).1 (by decide)).2,
   ((pmm_counter_and_bitmap phys0 0x402000).2 (by decide)
      [pmm_call.alloc_page, pmm_call.alloc_pages 1] _
      (by
        intro c hc
        rcases List.mem_cons.1 hc with e | hc
        · rw [e]; exact trivial
        · rw [List.mem_singleton.1 hc]; show (1 : Nat) < 2 ^ 63; norm_num)
      rfl).1⟩

/-! ## User mappings above the lower half -/

set_option maxRecDepth 1000000 in
set_option maxHeartbeats 8000000 in
theorem elf_load_kernel_base :
    (elf_load 4 (phys_elf 0xFFFF800000000000) proc1 0x300000).map (fun r =>
      (r.2.2, decide (entry r.1.mem 0x400000 256 &&& PAGE_PRESENT ≠ 0),
       (vmm_leaf r.1.mem 0x400000 0xFFFF800000000000).map (fun e => e &&& PAGE_USER))) =
      some (0, true, some 4) := by
  decide!

set_option maxRecDepth 1000000 in
set_option maxHeartbeats 8000000 in
theorem alloc_user_pages_hole :
    (vmm_alloc_user_pages kernel0 0x2000018 0x800000000000 1).map (fun r =>
      (r.2, decide (entry r.1.phys.mem 0x400000 256 &&& PAGE_PRESENT ≠ 0),
       (vmm_leaf r.1.phys.mem 0x400000 0x800000000000).map (fun e => e &&& PAGE_USER))) =
      some (true, true, some 4) := by
  decide!

set_option maxRecDepth 1000000 in
set_option maxHeartbeats 8000000 in
theorem alloc_user_pages_cross :
    (vmm_alloc_user_pages kernel0 0x2000018 0xFFFF7FFFFFFFF000 2).map (fun r =>
      (r.2, decide (entry r.1.phys.mem 0x400000 256 &&& PAGE_PRESENT ≠ 0),
       (vmm_leaf r.1.phys.mem 0x400000 0xFFFF800000000000).map (fun e => e &&& PAGE_USER))) =
      some (true, true, some 4) := by
  decide!

/-- C28 (the code does otherwise): the only address check of `vmm_alloc_user_pages`
is `virt_addr >= KERNEL_BASE` on the first page, and `elf_load` checks no address at
all.  In `kernel0`, where the PML4 of PID 1 at `0x400000` has entry 256 empty,
`vmm_alloc_user_pages(p, 0x0000_8000_0000_0000, 1)` and
`vmm_alloc_user_pages(p, 0xFFFF_7FFF_FFFF_F000, 2)` return 0, write PML4 entry 256 and
leave a present leaf with the USER bit for a page of PML4 index 256; `elf_load` of a
valid image whose `PT_LOAD` header has `p_vaddr = 0xFFFF_8000_0000_0000` returns 0 and
does the same for the page at `KERNEL_BASE`. -/
theorem user_mapping_in_upper_half :
    (∀ (k : Kernel) (process v n : Nat), v < KERNEL_BASE →
      vmm_alloc_user_pages k process v n = alloc_user_pages_loop process v n 0 k) ∧
    (0x800000000000 < KERNEL_BASE ∧ 0xFFFF7FFFFFFFF000 < KERNEL_BASE ∧
      PML4_INDEX 0x800000000000 = 256 ∧ PML4_INDEX KERNEL_BASE = 256) ∧
    (entry kernel0.phys.mem 0x400000 256 = 0 ∧ (kernel0.procs 0x2000018).page_table = 0x400000 ∧
      entry (phys_elf 0xFFFF800000000000).mem 0x400000 256 = 0) ∧
    (vmm_alloc_user_pages kernel0 0x2000018 0x800000000000 1).map (fun r =>
      (r.2, decide (entry r.1.phys.mem 0x400000 256 &&& PAGE_PRESENT ≠ 0),
       (vmm_leaf r.1.phys.mem 0x400000 0x800000000000).map (fun e => e &&& PAGE_USER))) =
      some (true, true, some 4) ∧
    (vmm_alloc_user_pages kernel0 0x2000018 0xFFFF7FFFFFFFF000 2).map (fun r =>
      (r.2, decide (entry r.1.phys.mem 0x400000 256 &&& PAGE_PRESENT ≠ 0),
       (vmm_leaf r.1.phys.mem 0x400000 0xFFFF800000000000).map (fun e => e &&& PAGE_USER))) =
      some (true, true, some 4) ∧
    (elf_validate (phys_elf 0xFFFF800000000000).mem 0x300000 = true ∧
      read32 (phys_elf 0xFFFF800000000000).mem (0x300000 + 64) = PT_LOAD ∧
      read64 (phys_elf 0xFFFF800000000000).mem (0x300000 + 64 + 16) = KERNEL_BASE) ∧
    (elf_load 4 (phys_elf 0xFFFF800000000000) proc1 0x300000).map (fun r =>
      (r.2.2, decide (entry r.1.mem 0x400000 256 &&& PAGE_PRESENT ≠ 0),
       (vmm_leaf r.1.mem 0x400000 0xFFFF800000000000).map (fun e => e &&& PAGE_USER))) =
      some (0, true, some 4) := by
  refine ⟨?_, by decide, ⟨by decide, by decide, by decide⟩, alloc_user_pages_hole,
    alloc_user_pages_cross, ⟨by decide, by decide, by decide⟩, elf_load_kernel_base⟩
  intro k process v n hv
  unfold vmm_alloc_user_pages
  rw [if_neg (by omega)]

/-! ## The root directory of the RAM filesystem -/

theorem find_free_entry_none (b : fs_block_t) (n i0 : Nat)
    (h : ∀ i, i0 ≤ i → i < i0 + n → dirent_inode b i ≠ 0) : find_free_entry b n i0 = none := by
  induction n generalizing i0 with
  | zero => rfl
  | succ n ih =>
    unfold find_free_entry
    rw [if_neg (h i0 (le_refl _) (by omega))]
    exact ih (i0 + 1) (fun i h1 h2 => h i (by omega) (by omega))

theorem find_free_node_spec (fs : ramfs_t) (n i0 j : Nat) (h : find_free_node fs n i0 = some j) :
    (fs.nodes j).inode_num = 0 ∧ i0 ≤ j ∧ j < i0 + n := by
  induction n generalizing i0 with
  | zero => cases h
  | succ n ih =>
    unfold find_free_node at h
    by_cases c : (fs.nodes i0).inode_num = 0
    · rw [if_pos c] at h
      cases h
      exact ⟨c, le_refl _, by omega⟩
    · rw [if_neg c] at h
      have := ih (i0 + 1) h
      exact ⟨this.1, by omega, by omega⟩

theorem finddir_from_none (fs : ramfs_t) (b : fs_block_t) (name : List Nat) (n i0 : Nat)
    (h : ∀ i, i0 ≤ i → i < i0 + n → strcmp_eq b.data (i * DIRENT_SIZE) name = false) :
    finddir_from fs b name n i0 = none := by
  induction n generalizing i0 with
  | zero => rfl
  | succ n ih =>
    unfold finddir_from
    rw [if_neg (by rw [h i0 (le_refl _) (by omega)]; simp)]
    exact ih (i0 + 1) (fun i h1 h2 => h i (by omega) (by omega))

theorem readdir_from_spec (b : fs_block_t) (index n i0 c j : Nat)
    (h : readdir_from b index n i0 c = some j) : i0 ≤ j ∧ j < i0 + n := by
  induction n generalizing i0 c with
  | zero => cases h
  | succ n ih =>
    unfold readdir_from at h
    by_cases c1 : dirent_inode b i0 ≠ 0
    · rw [if_pos c1] at h
      by_cases c2 : c = index
      · rw [if_pos c2] at h
        cases h
        exact ⟨le_refl _, by omega⟩
      · rw [if_neg c2] at h
        have := ih (i0 + 1) (c + 1) h
        exact ⟨by omega, by omega⟩
    · rw [if_neg c1] at h
      have := ih (i0 + 1) c h
      exact ⟨by omega, by omega⟩

theorem root_has_entry_false (fs : ramfs_t) (ino : Nat)
    (h : ∀ i, i < MAX_ENTRIES → dirent_inode (fs.blocks (fs.nodes fs.root).first_block) i ≠ ino) :
    root_has_entry fs ino = false := by
  unfold root_has_entry
  rw [Bool.eq_false_iff]
  intro hc
  rw [List.any_eq_true] at hc
  obtain ⟨i, hi, e⟩ := hc
  exact h i (List.mem_range.mp hi) (of_decide_eq_true e)

theorem all_linked_false (fs : ramfs_t) (n : Nat) (hn : n < FS_MAX_FILES) (hr : n ≠ fs.root)
    (h0 : (fs.nodes n).inode_num ≠ 0) (h : root_has_entry fs (fs.nodes n).inode_num = false) :
    all_linked fs = false := by
  unfold all_linked
  rw [Bool.eq_false_iff]
  intro hc
  rw [List.all_eq_true] at hc
  have := hc n (List.mem_range.mpr hn)
  rw [h, decide_eq_false hr, decide_eq_false h0] at this
  exact Bool.noConfusion this

/-- C27 (the code does otherwise): when the fourteen entries of the root directory
block are in use, `ramfs_create_file` on the root with a name of fewer than 32
characters still takes the first free inode slot `n`, gives it the number
`next_inode` and returns it, and stores nothing in the directory block.  The new
inode then has a non-zero `inode_num` that no entry of the root block carries:
`all_linked` is false, `fs_readdir` never yields an entry with that number, and
`fs_finddir` on the root with the name of the file returns the null pointer unless
an older entry had that name. -/
theorem create_file_on_full_root (fs : ramfs_t) (name : List Nat) (n : Nat)
    (hroot : (fs.nodes fs.root).type = FS_TYPE_DIR)
    (hfb : (fs.nodes fs.root).first_block ≠ NO_BLOCK)
    (hfull : ∀ i, i < MAX_ENTRIES →
      dirent_inode (fs.blocks (fs.nodes fs.root).first_block) i ≠ 0)
    (hfree : find_free_node fs FS_MAX_FILES 0 = some n) (hn : n ≠ fs.root)
    (hlen : name.length < FS_FILENAME_MAX) (hino : fs.next_inode ≠ 0)
    (hnew : ∀ i, i < MAX_ENTRIES →
      dirent_inode (fs.blocks (fs.nodes fs.root).first_block) i ≠ fs.next_inode) :
    ∃ fs1, ramfs_create_file fs fs.root name = some (fs1, some n) ∧
      run_fs_call fs (.create_file name) = some fs1 ∧
      fs1.root = fs.root ∧ fs1.blocks = fs.blocks ∧
      (fs1.nodes n).inode_num = fs.next_inode ∧ (fs1.nodes n).name = name ∧
      (fs1.nodes n).type = FS_TYPE_FILE ∧
      root_has_entry fs1 (fs1.nodes n).inode_num = false ∧
      all_linked fs1 = false ∧
      (∀ index e, fs_readdir fs1 fs1.root index = some e → e.2 ≠ (fs1.nodes n).inode_num) ∧
      ((∀ i, i < MAX_ENTRIES →
          strcmp_eq (fs.blocks (fs.nodes fs.root).first_block).data (i * DIRENT_SIZE) name
            = false) →
        fs_finddir fs1 fs1.root name = none) := by
  have hspec := find_free_node_spec fs FS_MAX_FILES 0 n hfree
  have hroot1 : ∀ f, (set_node { fs with next_inode := (fs.next_inode + 1) % U32 } n f).nodes
      fs.root = fs.nodes fs.root := by
    intro f
    show (if fs.root = n then _ else _) = _
    rw [if_neg (fun e => hn e.symm)]
  have hcreate : ramfs_create_file fs fs.root name = some
      (set_node { fs with next_inode := (fs.next_inode + 1) % U32 } n
        (fun nd => { nd with inode_num := fs.next_inode, name := name, type := FS_TYPE_FILE,
                             size := 0, permissions := FS_PERM_READ ||| FS_PERM_WRITE,
                             first_block := NO_BLOCK }), some n) := by
    unfold ramfs_create_file
    rw [if_neg (not_not.mpr hroot), hfree]
    dsimp only
    rw [if_neg (by omega)]
    unfold add_to_parent
    rw [hroot1, if_pos hfb]
    have e : (set_node { fs with next_inode := (fs.next_inode + 1) % U32 } n
        (fun nd => { nd with inode_num := fs.next_inode, name := name, type := FS_TYPE_FILE,
                             size := 0, permissions := FS_PERM_READ ||| FS_PERM_WRITE,
                             first_block := NO_BLOCK })).blocks = fs.blocks := rfl
    rw [e, find_free_entry_none _ _ _ (fun i _ h2 => hfull i (by omega))]
  refine ⟨_, hcreate, ?_, rfl, rfl, ?_, ?_, ?_, ?_, ?_, ?_, ?_⟩
  · show (ramfs_create_file fs fs.root name).bind _ = _
    rw [hcreate]
    rfl
  · show (if n = n then _ else _ : fs_node_t).inode_num = _
    rw [if_pos rfl]
  · show (if n = n then _ else _ : fs_node_t).name = _
    rw [if_pos rfl]
  · show (if n = n then _ else _ : fs_node_t).type = _
    rw [if_pos rfl]
  · apply root_has_entry_false
    intro i hi
    show dirent_inode (fs.blocks ((set_node { fs with next_inode := (fs.next_inode + 1) % U32 }
      n _).nodes fs.root).first_block) i ≠ (if n = n then _ else _ : fs_node_t).inode_num
    rw [hroot1, if_pos rfl]
    exact hnew i hi
  · apply all_linked_false _ n
    · have := hspec.2.2
      omega
    · exact hn
    · show (if n = n then _ else _ : fs_node_t).inode_num ≠ 0
      rw [if_pos rfl]
      exact hino
    · apply root_has_entry_false
      intro i hi
      show dirent_inode (fs.blocks ((set_node { fs with next_inode := (fs.next_inode + 1) % U32 }
        n _).nodes fs.root).first_block) i ≠ (if n = n then _ else _ : fs_node_t).inode_num
      rw [hroot1, if_pos rfl]
      exact hnew i hi
  · intro index e he
    have he' : ramfs_readdir (set_node { fs with next_inode := (fs.next_inode + 1) % U32 } n
        (fun nd => { nd with inode_num := fs.next_inode, name := name, type := FS_TYPE_FILE,
                             size := 0, permissions := FS_PERM_READ ||| FS_PERM_WRITE,
                             first_block := NO_BLOCK })) fs.root index = some e := he
    unfold ramfs_readdir at he'
    rw [hroot1, if_neg (not_not.mpr hroot), if_pos hfb] at he'
    rw [Option.map_eq_some'] at he'
    obtain ⟨j, hj, ej⟩ := he'
    have hb := readdir_from_spec _ _ _ _ _ _ hj
    rw [← ej]
    show dirent_inode (fs.blocks (fs.nodes fs.root).first_block) j ≠
      (if n = n then _ else _ : fs_node_t).inode_num
    rw [if_pos rfl]
    exact hnew j (by omega)
  · intro hname
    show ramfs_finddir (set_node { fs with next_inode := (fs.next_inode + 1) % U32 } n
        (fun nd => { nd with inode_num := fs.next_inode, name := name, type := FS_TYPE_FILE,
                             size := 0, permissions := FS_PERM_READ ||| FS_PERM_WRITE,
                             first_block := NO_BLOCK })) fs.root name = none
    unfold ramfs_finddir
    rw [hroot1, if_neg (not_not.mpr hroot), if_pos hfb]
    exact finddir_from_none _ _ _ _ _ (fun i _ h2 => hname i (by omega))

set_option maxRecDepth 1000000 in
set_option maxHeartbeats 8000000 in
theorem ramfs_full_run :
    ((fs_init ramfs0).bind (run_fs_calls twelve_files)).isSome = true ∧
    all_linked ramfs_full = true ∧ ramfs_full.next_inode = 16 ∧ ramfs_full.root = 0 ∧
    (ramfs_full.nodes ramfs_full.root).type = FS_TYPE_DIR ∧
    (ramfs_full.nodes ramfs_full.root).first_block ≠ NO_BLOCK ∧
    (∀ i, i < MAX_ENTRIES →
      dirent_inode (ramfs_full.blocks (ramfs_full.nodes ramfs_full.root).first_block) i ≠ 0) ∧
    find_free_node ramfs_full FS_MAX_FILES 0 = some 15 ∧
    (∀ i, i < MAX_ENTRIES →
      dirent_inode (ramfs_full.blocks (ramfs_full.nodes ramfs_full.root).first_block) i
        ≠ ramfs_full.next_inode) ∧
    (∀ i, i < MAX_ENTRIES →
      strcmp_eq (ramfs_full.blocks (ramfs_full.nodes ramfs_full.root).first_block).data
        (i * DIRENT_SIZE) (cstr "m") = false) := by
  decide!

/-- Witness of C27: after `fs_init` and twelve more files the root directory holds
fourteen entries and every inode has one; the next `ramfs_create_file`, for the name
"m", returns inode slot 15 with number 16, which no entry carries and which
`fs_finddir` does not find. -/
theorem create_file_on_full_root_witness :
    ((fs_init ramfs0).bind (run_fs_calls twelve_files)).isSome = true ∧
    all_linked ramfs_full = true ∧
    ∃ fs1, ramfs_create_file ramfs_full ramfs_full.root (cstr "m") = some (fs1, some 15) ∧
      (fs1.nodes 15).inode_num = 16 ∧ all_linked fs1 = false ∧
      fs_finddir fs1 fs1.root (cstr "m") = none :=
  have f := ramfs_full_run
  have h := create_file_on_full_root ramfs_full (cstr "m") 15 f.2.2.2.2.1 f.2.2.2.2.2.1
    f.2.2.2.2.2.2.1 f.2.2.2.2.2.2.2.1 (by rw [f.2.2.2.1]; decide) (by decide)
    (by rw [f.2.2.1]; decide) f.2.2.2.2.2.2.2.2.1
  ⟨f.1, f.2.1, h.choose, h.choose_spec.1,
    h.choose_spec.2.2.2.2.1.trans f.2.2.1, h.choose_spec.2.2.2.2.2.2.2.2.1,
    h.choose_spec.2.2.2.2.2.2.2.2.2.2 f.2.2.2.2.2.2.2.2.2⟩

/-! ## The heap of a process and `sys_sbrk` -/

/-- The leaf entry in terms of the page table reached after three steps. -/
theorem vmm_leaf_table_at (m : Mem) (root v : Nat) :
    vmm_leaf m root v =
      match table_at m root v 3 with
      | none => none
      | some t =>
        if entry m t (PT_INDEX v) &&& PAGE_PRESENT = 0 then none
        else some (entry m t (PT_INDEX v)) := by
  have l4 : level_index (4 - 0) v = PML4_INDEX v := rfl
  have l3 : level_index (4 - 1) v = PDPT_INDEX v := rfl
  have l2 : level_index (4 - 2) v = PD_INDEX v := rfl
  have h0 : table_at m root v 0 = some root := rfl
  unfold vmm_leaf
  dsimp only
  by_cases c4 : entry m root (PML4_INDEX v) &&& PAGE_PRESENT = 0
  · have h1 : table_at m root v 1 = none := by
      rw [table_at_succ_some m root v 0 root h0, l4, if_pos c4]
    rw [if_pos c4, table_at_none_le m root v 1 3 (by norm_num) h1]
  · have h1 : table_at m root v 1 = some (entry m root (PML4_INDEX v) &&& NOT_FFF) := by
      rw [table_at_succ_some m root v 0 root h0, l4, if_neg c4]
    rw [if_neg c4]
    by_cases c3 : entry m (entry m root (PML4_INDEX v) &&& NOT_FFF) (PDPT_INDEX v) &&& PAGE_PRESENT = 0
    · have h2 : table_at m root v 2 = none := by
        rw [table_at_succ_some m root v 1 _ h1, l3, if_pos c3]
      rw [if_pos c3, table_at_none_le m root v 2 3 (by norm_num) h2]
    · have h2 := table_at_succ_some m root v 1 _ h1
      rw [l3, if_neg c3] at h2
      rw [if_neg c3]
      by_cases c2 : entry m (entry m (entry m root (PML4_INDEX v) &&& NOT_FFF) (PDPT_INDEX v) &&& NOT_FFF)
          (PD_INDEX v) &&& PAGE_PRESENT = 0
      · have h3 : table_at m root v 3 = none := by
          rw [table_at_succ_some m root v 2 _ h2, l2, if_pos c2]
        rw [if_pos c2, h3]
      · have h3 := table_at_succ_some m root v 2 _ h2
        rw [l2, if_neg c2] at h3
        rw [if_neg c2, h3]

/-- The leaf entry depends on the address through the page only. -/
theorem vmm_leaf_page (m : Mem) (root v w : Nat) (h : w / 4096 = v / 4096) :
    vmm_leaf m root w = vmm_leaf m root v := by
  have hi : ∀ i, i < 4 → level_index (4 - i) w = level_index (4 - i) v :=
    (indices_eq_iff w v).2 (by rw [h])
  rw [vmm_leaf_table_at, vmm_leaf_table_at, table_at_indices m root w v 3 (fun i hi3 => hi i (by omega))]
  have : PT_INDEX w = PT_INDEX v := hi 3 (by norm_num)
  rw [this]

/-- Hanging a new, empty table below an entry that was not present keeps every table
of the old tree, adds the new table only, and changes no leaf entry. -/
theorem extend_tree_tables (s s1 : Phys) (root v k0 P n : Nat)
    (hwf : tree_wf s root) (hk : k0 ≤ 2) (hP : table_at s.mem root v k0 = some P)
    (hnp : entry s.mem P (level_index (4 - k0) v) &&& PAGE_PRESENT = 0)
    (hfree : frame_free s (n / 4096))
    (E1 : ∀ t i, t % 4096 = 0 → t / 4096 ≠ n / 4096 → i < 512 →
      (t ≠ P ∨ i ≠ level_index (4 - k0) v) → entry s1.mem t i = entry s.mem t i)
    (E2 : entry s1.mem P (level_index (4 - k0) v) &&& PAGE_PRESENT ≠ 0 ∧
      entry s1.mem P (level_index (4 - k0) v) &&& NOT_FFF = n)
    (E3 : ∀ i, i < 512 → entry s1.mem n i = 0) :
    (∀ w k t, k ≤ 3 → table_at s.mem root w k = some t → table_at s1.mem root w k = some t) ∧
    (∀ w k t, k ≤ 3 → table_at s1.mem root w k = some t →
      t = n ∨ table_at s.mem root w k = some t) ∧
    ∀ w, vmm_leaf s1.mem root w = vmm_leaf s.mem root w := by
  have hold : ∀ w k t, k ≤ 3 → table_at s.mem root w k = some t →
      t % 4096 = 0 ∧ t / 4096 ≠ n / 4096 := by
    intro w k t hk3 ht
    refine ⟨table_at_aligned _ _ _ hwf.aligned k t ht, fun e => ?_⟩
    exact hwf.owned w k t hk3 ht (e ▸ hfree)
  have hsame : ∀ w k, k ≤ 3 →
      (∀ j, j < k → ¬ (table_at s.mem root w j = some P ∧
        level_index (4 - j) w = level_index (4 - k0) v)) →
      table_at s1.mem root w k = table_at s.mem root w k := by
    intro w k hk3 hno
    apply table_at_congr
    intro j t hj ht
    obtain ⟨a1, a2⟩ := hold w j t (by omega) ht
    apply E1 t _ a1 a2 (level_index_lt _ _)
    by_cases htP : t = P
    · right
      intro e
      exact hno j hj ⟨by rw [ht, htP], e⟩
    · exact Or.inl htP
  have hdepth : ∀ w j, j ≤ 3 → table_at s.mem root w j = some P → j = k0 := by
    intro w j hj ht
    exact (hwf.inj w v j k0 P hj (by omega) ht hP).1
  have hpre : ∀ w k, k ≤ k0 → table_at s1.mem root w k = table_at s.mem root w k := by
    intro w k hkk
    apply hsame w k (by omega)
    intro j hj ⟨h1, _⟩
    have := hdepth w j (by omega) h1
    omega
  have hpass : ∀ w, table_at s.mem root w k0 = some P →
      level_index (4 - k0) w = level_index (4 - k0) v →
      table_at s1.mem root w (k0 + 1) = some n ∧ table_at s.mem root w (k0 + 1) = none ∧
      ∀ k, k0 + 1 < k → k ≤ 3 → table_at s1.mem root w k = none := by
    intro w h1 h2
    have h3 : table_at s1.mem root w k0 = some P := by rw [hpre w k0 le_rfl]; exact h1
    have h4 : table_at s1.mem root w (k0 + 1) = some n := by
      rw [table_at_succ_some _ _ _ _ _ h3, h2, if_neg E2.1, E2.2]
    have h5 : table_at s.mem root w (k0 + 1) = none := by
      rw [table_at_succ_some _ _ _ _ _ h1, h2, if_pos hnp]
    refine ⟨h4, h5, fun k hk1 hk3 => ?_⟩
    apply table_at_none_le _ _ _ (k0 + 2) k (by omega)
    rw [table_at_succ_some _ _ _ _ _ h4, E3 _ (level_index_lt _ _)]
    rfl
  have hnopass : ∀ w, ¬ (table_at s.mem root w k0 = some P ∧
      level_index (4 - k0) w = level_index (4 - k0) v) →
      ∀ k, k ≤ 3 → table_at s1.mem root w k = table_at s.mem root w k := by
    intro w hno k hk3
    apply hsame w k hk3
    intro j hj ⟨h1, h2⟩
    have := hdepth w j (by omega) h1
    subst this
    exact hno ⟨h1, h2⟩
  have T1 : ∀ w k t, k ≤ 3 → table_at s.mem root w k = some t →
      table_at s1.mem root w k = some t := by
    intro w k t hk3 ht
    by_cases hp : table_at s.mem root w k0 = some P ∧
        level_index (4 - k0) w = level_index (4 - k0) v
    · obtain ⟨_, p2, _⟩ := hpass w hp.1 hp.2
      by_cases hkk : k ≤ k0
      · rw [hpre w k hkk]; exact ht
      · rw [table_at_none_le _ _ _ (k0 + 1) k (by omega) p2] at ht
        cases ht
    · rw [hnopass w hp k hk3]; exact ht
  have T2 : ∀ w k t, k ≤ 3 → table_at s1.mem root w k = some t →
      t = n ∨ table_at s.mem root w k = some t := by
    intro w k t hk3 ht
    by_cases hp : table_at s.mem root w k0 = some P ∧
        level_index (4 - k0) w = level_index (4 - k0) v
    · obtain ⟨p1, p2, p3⟩ := hpass w hp.1 hp.2
      rcases Nat.lt_trichotomy k (k0 + 1) with hlt | heq | hgt
      · right
        rw [hpre w k (by omega)] at ht
        exact ht
      · left
        rw [heq, p1] at ht
        simp only [Option.some.injEq] at ht
        exact ht.symm
      · rw [p3 k hgt hk3] at ht; cases ht
    · right
      rw [hnopass w hp k hk3] at ht
      exact ht
  refine ⟨T1, T2, fun w => ?_⟩
  rw [vmm_leaf_table_at, vmm_leaf_table_at]
  cases h3 : table_at s.mem root w 3 with
  | some t =>
    rw [T1 w 3 t le_rfl h3]
    dsimp only
    obtain ⟨a1, a2⟩ := hold w 3 t le_rfl h3
    have htP : t ≠ P := by
      intro e
      have := hdepth w 3 le_rfl (by rw [h3, e])
      omega
    have e : entry s1.mem t (PT_INDEX w) = entry s.mem t (PT_INDEX w) :=
      E1 t _ a1 a2 (level_index_lt 1 w) (Or.inl htP)
    rw [e]
  | none =>
    cases h3' : table_at s1.mem root w 3 with
    | none => rfl
    | some t =>
      rcases T2 w 3 t le_rfl h3' with e | e
      · dsimp only
        have : entry s1.mem t (PT_INDEX w) = 0 := by
          rw [e]; exact E3 _ (level_index_lt 1 w)
        rw [this]
        rfl
      · rw [h3] at e; cases e

theorem tree_step_refl (s : Phys) (root : Nat) (hwf : tree_wf s root) (hok : pmm_ok s) :
    tree_step s s root :=
  ⟨hwf, hok, rfl, fun _ h => h, fun _ _ _ _ h => Or.inr h, fun _ _ _ _ h => h⟩

theorem tree_step_trans (s s1 s2 : Phys) (root : Nat) (h1 : tree_step s s1 root)
    (h2 : tree_step s1 s2 root) : tree_step s s2 root := by
  obtain ⟨_, _, a3, a4, a5, a6⟩ := h1
  obtain ⟨b1, b2, b3, b4, b5, b6⟩ := h2
  refine ⟨b1, b2, b3.trans a3, fun f h => a4 f (b4 f h), ?_, ?_⟩
  · intro w k t hk ht
    rcases b5 w k t hk ht with e | e
    · exact Or.inl (a4 _ e)
    · exact a5 w k t hk e
  · intro w k t hk ht
    exact b6 w k t hk (a6 w k t hk ht)

theorem pmm_ok_mem (s : Phys) (m : Mem) (h : pmm_ok s) : pmm_ok { s with mem := m } :=
  ⟨h.fits, h.managed, h.counted⟩

theorem frame_free_mem (s : Phys) (m : Mem) (f : Nat) :
    frame_free { s with mem := m } f ↔ frame_free s f := Iff.rfl

/-- With the PMM invariant, `pmm_alloc_page` returns 0 only when no frame is free, and
then the state is as before. -/
theorem pmm_alloc_page_null (s : Phys) (hok : pmm_ok s) (h : (pmm_alloc_page s).2 = 0) :
    (pmm_alloc_page s).1 = s := by
  unfold pmm_alloc_page at h ⊢
  cases hf : bitmap_find_free s.pmm_bitmap with
  | none => rfl
  | some page =>
    rw [hf] at h
    dsimp only at h
    obtain ⟨f1, f2⟩ := bitmap_find_free_spec _ _ hf
    have := (hok.managed page f1 f2).1
    have hp : PMM_START / PAGE_SIZE = 1024 := by decide
    rw [hp] at this
    unfold PAGE_SIZE at h
    omega

theorem pmm_alloc_page_total (s : Phys) :
    (pmm_alloc_page s).1.pmm_total_pages = s.pmm_total_pages := by
  unfold pmm_alloc_page
  cases bitmap_find_free s.pmm_bitmap <;> rfl

/-- A successful `pmm_alloc_page` keeps the tree below `root` and its leaf entries. -/
theorem pmm_alloc_page_tree (s : Phys) (root : Nat) (hwf : tree_wf s root) (hok : pmm_ok s)
    (h : (pmm_alloc_page s).2 ≠ 0) :
    tree_step s (pmm_alloc_page s).1 root ∧
    (∀ w, vmm_leaf (pmm_alloc_page s).1.mem root w = vmm_leaf s.mem root w) ∧
    ∀ w k, k ≤ 3 → table_at (pmm_alloc_page s).1.mem root w k = table_at s.mem root w k := by
  obtain ⟨g1, g2, g3, g4, g5, g6⟩ := pmm_alloc_page_grows s h
  have hent : ∀ w k t i, k ≤ 3 → table_at s.mem root w k = some t → i < 512 →
      entry (pmm_alloc_page s).1.mem t i = entry s.mem t i := by
    intro w k t i hk ht hi
    apply entry_congr _ _ t i (table_at_aligned _ _ _ hwf.aligned k t ht) hi
    intro a ha
    apply g6
    rw [ha]
    intro e
    exact hwf.owned w k t hk ht (e ▸ g3)
  have htab : ∀ w k, k ≤ 3 →
      table_at (pmm_alloc_page s).1.mem root w k = table_at s.mem root w k := by
    intro w k hk
    apply table_at_congr
    intro j t hj ht
    exact hent w j t _ (by omega) ht (level_index_lt _ _)
  refine ⟨⟨⟨hwf.aligned, ?_, ?_⟩, pmm_alloc_page_ok s hok, pmm_alloc_page_total s, g1.1, ?_, ?_⟩, ?_,
    htab⟩
  · intro w k t hk ht
    rw [htab w k hk] at ht
    exact fun hf => hwf.owned w k t hk ht (g1.1 _ hf)
  · intro w1 w2 k j t hk hj h1 h2
    rw [htab w1 k hk] at h1
    rw [htab w2 j hj] at h2
    exact hwf.inj w1 w2 k j t hk hj h1 h2
  · intro w k t hk ht
    rw [htab w k hk] at ht
    exact Or.inr ht
  · intro w k t hk ht
    rw [htab w k hk]
    exact ht
  · intro w
    rw [vmm_leaf_table_at, vmm_leaf_table_at, htab w 3 le_rfl]
    cases h3 : table_at s.mem root w 3 with
    | none => rfl
    | some t =>
      dsimp only
      have e : entry (pmm_alloc_page s).1.mem t (PT_INDEX w) = entry s.mem t (PT_INDEX w) :=
        hent w 3 t _ le_rfl h3 (level_index_lt 1 w)
      rw [e]

theorem get_or_create_present (s : Phys) (P i fl : Nat)
    (h : ¬ entry s.mem P i &&& PAGE_PRESENT = 0) :
    vmm_get_or_create_table s P i fl = (s, entry s.mem P i &&& NOT_FFF) := by
  unfold vmm_get_or_create_table
  rw [if_neg h]

theorem get_or_create_fail (s : Phys) (P i fl : Nat)
    (h : entry s.mem P i &&& PAGE_PRESENT = 0) (ha : (pmm_alloc_page s).2 = 0) :
    vmm_get_or_create_table s P i fl = ((pmm_alloc_page s).1, 0) := by
  unfold vmm_get_or_create_table
  rw [if_pos h]
  dsimp only
  rw [if_pos ha]

theorem get_or_create_new (s : Phys) (P i fl : Nat)
    (h : entry s.mem P i &&& PAGE_PRESENT = 0) (ha : (pmm_alloc_page s).2 ≠ 0) :
    vmm_get_or_create_table s P i fl =
      ({ (pmm_alloc_page s).1 with
          mem := set_entry (pmm_alloc_page s).1.mem P i
                   ((((pmm_alloc_page s).2 &&& NOT_FFF) ||| fl) ||| PAGE_PRESENT) },
        (pmm_alloc_page s).2) := by
  unfold vmm_get_or_create_table
  rw [if_pos h]
  dsimp only
  rw [if_neg ha]

/-- One step of `vmm_map_page`, with or without a new table: the tree is kept, no leaf
entry changes, a failing step changes nothing, and a successful one gives the table of
the next level. -/
theorem get_or_create_more (s : Phys) (root v k0 P fl : Nat) (hwf : tree_wf s root)
    (hok : pmm_ok s) (hk : k0 ≤ 2) (hP : table_at s.mem root v k0 = some P) (hfl : fl < 4096) :
    tree_step s (vmm_get_or_create_table s P (level_index (4 - k0) v) fl).1 root ∧
    (∀ w, vmm_leaf (vmm_get_or_create_table s P (level_index (4 - k0) v) fl).1.mem root w =
      vmm_leaf s.mem root w) ∧
    ((vmm_get_or_create_table s P (level_index (4 - k0) v) fl).2 = 0 →
      (vmm_get_or_create_table s P (level_index (4 - k0) v) fl).1 = s) ∧
    ((vmm_get_or_create_table s P (level_index (4 - k0) v) fl).2 ≠ 0 →
      table_at (vmm_get_or_create_table s P (level_index (4 - k0) v) fl).1.mem root v (k0 + 1) =
        some (vmm_get_or_create_table s P (level_index (4 - k0) v) fl).2) := by
  by_cases hpres : entry s.mem P (level_index (4 - k0) v) &&& PAGE_PRESENT = 0
  · by_cases ha : (pmm_alloc_page s).2 = 0
    · rw [get_or_create_fail s P _ fl hpres ha, pmm_alloc_page_null s hok ha]
      exact ⟨tree_step_refl s root hwf hok, fun _ => rfl, fun _ => rfl, fun h => absurd rfl h⟩
    · rw [get_or_create_new s P _ fl hpres ha]
      obtain ⟨g1, g2, g3, g4, g5, g6⟩ := pmm_alloc_page_grows s ha
      have hPal : P % 4096 = 0 := table_at_aligned _ _ _ hwf.aligned k0 P hP
      have hPown : ¬ frame_free s (P / 4096) := hwf.owned v k0 P (by omega) hP
      have hPn : P / 4096 ≠ (pmm_alloc_page s).2 / 4096 := fun e => hPown (e ▸ g3)
      have hnlt : (pmm_alloc_page s).2 < U64 := by
        have := frame_free_lt s _ g3
        unfold U64; omega
      obtain ⟨k1, k2, k3⟩ := mk_entry (pmm_alloc_page s).2 fl g2 hnlt hfl
      have hok1 := pmm_alloc_page_ok s hok
      have htot := pmm_alloc_page_total s
      generalize hn : (pmm_alloc_page s).2 = n at *
      generalize hs1 : (pmm_alloc_page s).1 = s1 at *
      have E1 : ∀ t i, t % 4096 = 0 → t / 4096 ≠ n / 4096 → i < 512 →
          (t ≠ P ∨ i ≠ level_index (4 - k0) v) →
          entry (set_entry s1.mem P (level_index (4 - k0) v)
            (n &&& NOT_FFF ||| fl ||| PAGE_PRESENT)) t i = entry s.mem t i := by
        intro t i ht htn hi hor
        have e1 : entry (set_entry s1.mem P (level_index (4 - k0) v)
            (n &&& NOT_FFF ||| fl ||| PAGE_PRESENT)) t i = entry s1.mem t i := by
          by_cases htP : t = P
          · rw [htP]
            exact entry_set_other _ _ _ _ _ (hor.resolve_left (fun h => h htP))
          · exact entry_set_entry_frame _ t P _ _ _ hPal (level_index_lt _ _) hi ht
              (frames_ne t P ht hPal htP)
        rw [e1]
        exact entry_congr _ _ t i ht hi (fun a ha => g6 a (by rw [ha]; exact htn))
      have E2 : entry (set_entry s1.mem P (level_index (4 - k0) v)
            (n &&& NOT_FFF ||| fl ||| PAGE_PRESENT)) P (level_index (4 - k0) v)
              &&& PAGE_PRESENT ≠ 0 ∧
          entry (set_entry s1.mem P (level_index (4 - k0) v)
            (n &&& NOT_FFF ||| fl ||| PAGE_PRESENT)) P (level_index (4 - k0) v) &&& NOT_FFF = n := by
        rw [entry_set_same, k1]
        exact ⟨k2, k3⟩
      have E3 : ∀ i, i < 512 → entry (set_entry s1.mem P (level_index (4 - k0) v)
            (n &&& NOT_FFF ||| fl ||| PAGE_PRESENT)) n i = 0 := by
        intro i hi
        rw [entry_set_entry_frame _ n P _ _ _ hPal (level_index_lt _ _) hi g2 (Ne.symm hPn)]
        exact entry_zero_of_zero _ n i g2 hi g5
      obtain ⟨x1, x2, _⟩ := extend_tree s
        { s1 with mem := set_entry s1.mem P (level_index (4 - k0) v)
                           (n &&& NOT_FFF ||| fl ||| PAGE_PRESENT) }
        root v k0 P n hwf hk hP hpres g3 g4 g1.1 E1 E2 E3
      obtain ⟨y1, y2, y3⟩ := extend_tree_tables s
        { s1 with mem := set_entry s1.mem P (level_index (4 - k0) v)
                           (n &&& NOT_FFF ||| fl ||| PAGE_PRESENT) }
        root v k0 P n hwf hk hP hpres g3 E1 E2 E3
      refine ⟨⟨x1, pmm_ok_mem _ _ hok1, htot, g1.1, ?_, y1⟩, y3, ?_, fun _ => x2⟩
      · intro w k t hk3 ht
        rcases y2 w k t hk3 ht with e | e
        · left; rw [e]; exact g3
        · exact Or.inr e
      · intro h0
        exact absurd h0 ha
  · rw [get_or_create_present s P _ fl hpres]
    refine ⟨tree_step_refl s root hwf hok, fun _ => rfl, fun _ => rfl, fun _ => ?_⟩
    rw [table_at_succ_some _ _ _ _ _ hP, if_neg hpres]

/-- The last step of `vmm_map_page` at the level of leaf entries: the store changes the
leaf entry of the addresses with the indices of `v` and no other, and no table. -/
theorem set_leaf_more (s : Phys) (root v T leaf : Nat) (hwf : tree_wf s root) (hok : pmm_ok s)
    (hT : table_at s.mem root v 3 = some T) (hleaf : leaf < U64) :
    tree_step s { s with mem := set_entry s.mem T (PT_INDEX v) leaf } root ∧
    (∀ w, (∀ i, i < 4 → level_index (4 - i) w = level_index (4 - i) v) →
      vmm_leaf (set_entry s.mem T (PT_INDEX v) leaf) root w =
        if leaf &&& PAGE_PRESENT = 0 then none else some leaf) ∧
    (∀ w, ¬ (∀ i, i < 4 → level_index (4 - i) w = level_index (4 - i) v) →
      vmm_leaf (set_entry s.mem T (PT_INDEX v) leaf) root w = vmm_leaf s.mem root w) := by
  have hTal : T % 4096 = 0 := table_at_aligned _ _ _ hwf.aligned 3 T hT
  have htab : ∀ w k, k ≤ 3 →
      table_at (set_entry s.mem T (PT_INDEX v) leaf) root w k = table_at s.mem root w k := by
    intro w k hk3
    apply table_at_congr
    intro j t hj ht
    have htT : t ≠ T := by
      intro e
      have := (hwf.inj w v j 3 T (by omega) le_rfl (by rw [ht, e]) hT).1
      omega
    exact entry_set_entry_frame _ t T _ _ _ hTal (level_index_lt 1 v) (level_index_lt _ _)
      (table_at_aligned _ _ _ hwf.aligned j t ht)
      (frames_ne t T (table_at_aligned _ _ _ hwf.aligned j t ht) hTal htT)
  refine ⟨⟨(set_leaf s root v T leaf hwf hT hleaf).1, pmm_ok_mem _ _ hok, rfl, fun _ h => h,
    ?_, ?_⟩, ?_, ?_⟩
  · intro w k t hk ht
    right
    rw [← htab w k hk]
    exact ht
  · intro w k t hk ht
    show table_at (set_entry s.mem T (PT_INDEX v) leaf) root w k = some t
    rw [htab w k hk]
    exact ht
  · intro w hw
    have h3 : table_at s.mem root w 3 = some T := by
      rw [table_at_indices _ _ w v 3 (fun i hi => hw i (by omega))]; exact hT
    have hpt : PT_INDEX w = PT_INDEX v := hw 3 (by norm_num)
    rw [vmm_leaf_table_at, htab w 3 le_rfl, h3]
    dsimp only
    rw [hpt, entry_set_same, Nat.mod_eq_of_lt hleaf]
  · intro w hw
    rw [vmm_leaf_table_at, vmm_leaf_table_at, htab w 3 le_rfl]
    cases h3 : table_at s.mem root w 3 with
    | none => rfl
    | some t =>
      dsimp only
      have e : entry (set_entry s.mem T (PT_INDEX v) leaf) t (PT_INDEX w) =
          entry s.mem t (PT_INDEX w) := by
        by_cases htT : t = T
        · rw [htT]
          apply entry_set_other
          intro hpt
          apply hw
          intro i hi
          rcases Nat.eq_or_lt_of_le (show i ≤ 3 by omega) with e3 | e3
          · rw [e3]; exact hpt
          · exact (hwf.inj w v 3 3 T le_rfl le_rfl (by rw [h3, htT]) hT).2 i e3
        · exact entry_set_entry_frame _ t T _ _ _ hTal (level_index_lt 1 v) (level_index_lt 1 w)
            (table_at_aligned _ _ _ hwf.aligned 3 t h3)
            (frames_ne t T (table_at_aligned _ _ _ hwf.aligned 3 t h3) hTal htT)
      rw [e]

/-- What `vmm_map_page` does to the tree and to the leaf entries, whether it succeeds or
not: the tree is kept; on success the leaf entry of the page of `virt` is the frame with
the flags and the present bit, and every other leaf entry is as before; on failure every
leaf entry is as before. -/
theorem vmm_map_page_more (s : Phys) (root virt phys flags : Nat) (hwf : tree_wf s root)
    (hok : pmm_ok s) (hv : virt < U64) (hp : phys < U64) (hf : flags < 4096) :
    tree_step s (vmm_map_page s root virt phys flags).1 root ∧
    (∀ w, ((vmm_map_page s root virt phys flags).2 = false ∨
        w / 4096 % 2 ^ 36 ≠ virt / 4096 % 2 ^ 36) →
      vmm_leaf (vmm_map_page s root virt phys flags).1.mem root w = vmm_leaf s.mem root w) ∧
    ((vmm_map_page s root virt phys flags).2 = true → ∀ w,
      w / 4096 % 2 ^ 36 = virt / 4096 % 2 ^ 36 →
      vmm_leaf (vmm_map_page s root virt phys flags).1.mem root w =
        some ((phys &&& NOT_FFF) + (flags ||| 1))) := by
  have hvdiv : (virt &&& NOT_FFF) / 4096 = virt / 4096 := by
    rw [land_not_fff virt hv]; omega
  have hpal : (phys &&& NOT_FFF) % 4096 = 0 := land_not_fff_aligned phys hp
  have hplt : phys &&& NOT_FFF < U64 := by rw [land_not_fff phys hp]; omega
  obtain ⟨k1, k2, k3⟩ := mk_entry (phys &&& NOT_FFF) flags hpal hplt hf
  have hfl : (if virt &&& NOT_FFF ≥ KERNEL_BASE then PAGE_WRITABLE
      else PAGE_WRITABLE ||| PAGE_USER) < 4096 := by
    split_ifs <;> decide
  unfold vmm_map_page
  dsimp only
  generalize (if virt &&& NOT_FFF ≥ KERNEL_BASE then PAGE_WRITABLE
      else PAGE_WRITABLE ||| PAGE_USER) = fl at hfl ⊢
  generalize hvv : virt &&& NOT_FFF = vv at hvdiv ⊢
  have hidx : ∀ w, (∀ i, i < 4 → level_index (4 - i) w = level_index (4 - i) vv) ↔
      w / 4096 % 2 ^ 36 = virt / 4096 % 2 ^ 36 := by
    intro w
    rw [indices_eq_iff, hvdiv]
  -- the PDPT
  have s1 := get_or_create_more s root vv 0 root fl hwf hok (by norm_num) rfl hfl
  have l4 : level_index (4 - 0) vv = PML4_INDEX vv := rfl
  rw [l4] at s1
  generalize vmm_get_or_create_table s root (PML4_INDEX vv) fl = r1 at s1 ⊢
  obtain ⟨a1, b1, _, d1⟩ := s1
  by_cases h1 : r1.2 = 0
  · rw [if_pos h1]
    exact ⟨a1, fun w _ => b1 w, fun h => Bool.noConfusion h⟩
  rw [if_neg h1]
  -- the page directory
  have s2 := get_or_create_more r1.1 root vv 1 r1.2 fl a1.1 a1.2.1 (by norm_num) (d1 h1) hfl
  have l3 : level_index (4 - 1) vv = PDPT_INDEX vv := rfl
  rw [l3] at s2
  generalize vmm_get_or_create_table r1.1 r1.2 (PDPT_INDEX vv) fl = r2 at s2 ⊢
  obtain ⟨a2, b2, _, d2⟩ := s2
  by_cases h2 : r2.2 = 0
  · rw [if_pos h2]
    exact ⟨tree_step_trans _ _ _ _ a1 a2, fun w _ => (b2 w).trans (b1 w),
      fun h => Bool.noConfusion h⟩
  rw [if_neg h2]
  -- the page table
  have s3 := get_or_create_more r2.1 root vv 2 r2.2 fl a2.1 a2.2.1 (by norm_num) (d2 h2) hfl
  have l2 : level_index (4 - 2) vv = PD_INDEX vv := rfl
  rw [l2] at s3
  generalize vmm_get_or_create_table r2.1 r2.2 (PD_INDEX vv) fl = r3 at s3 ⊢
  obtain ⟨a3, b3, _, d3⟩ := s3
  by_cases h3 : r3.2 = 0
  · rw [if_pos h3]
    exact ⟨tree_step_trans _ _ _ _ a1 (tree_step_trans _ _ _ _ a2 a3),
      fun w _ => ((b3 w).trans (b2 w)).trans (b1 w), fun h => Bool.noConfusion h⟩
  rw [if_neg h3]
  -- the leaf
  have hg : flags ||| 1 < 4096 := Nat.or_lt_two_pow (n := 12) hf (by norm_num)
  have hval : ((phys &&& NOT_FFF) &&& NOT_FFF ||| flags) ||| PAGE_PRESENT =
      (phys &&& NOT_FFF) + (flags ||| 1) := by
    have a1 : (phys &&& NOT_FFF) &&& NOT_FFF = phys &&& NOT_FFF := by
      rw [land_not_fff _ hplt, hpal]; rfl
    rw [a1, Nat.lor_assoc]
    exact lor_flags (phys &&& NOT_FFF) (flags ||| 1) hpal hg
  have hleaf : ((phys &&& NOT_FFF) &&& NOT_FFF ||| flags) ||| PAGE_PRESENT < U64 := by
    rw [hval]
    unfold U64 at hplt ⊢
    omega
  obtain ⟨a4, q1, q2⟩ := set_leaf_more r3.1 root vv r3.2 _ a3.1 a3.2.1 (d3 h3) hleaf
  refine ⟨tree_step_trans _ _ _ _ a1 (tree_step_trans _ _ _ _ a2
    (tree_step_trans _ _ _ _ a3 a4)), ?_, ?_⟩
  · intro w hw
    have hw2 : w / 4096 % 2 ^ 36 ≠ virt / 4096 % 2 ^ 36 := by
      rcases hw with e | e
      · exact Bool.noConfusion e
      · exact e
    have := q2 w (fun h => hw2 ((hidx w).1 h))
    exact ((this.trans (b3 w)).trans (b2 w)).trans (b1 w)
  · intro _ w hw
    have := q1 w ((hidx w).2 hw)
    rw [if_neg (by rw [hval]; exact k2)] at this
    rw [← hval]
    exact this

theorem user_leaf_flags (a : Nat) (ha : a % 4096 = 0) :
    (a + 7) &&& PAGE_USER ≠ 0 ∧ (a + 7) &&& PAGE_WRITABLE ≠ 0 := by
  have e : a + 7 = a ||| 7 := (lor_flags a 7 ha (by norm_num)).symm
  rw [e]
  constructor
  · intro h
    have h2 : ((a ||| 7) &&& PAGE_USER).testBit 2 = true := by
      unfold PAGE_USER
      rw [Nat.testBit_and, Nat.testBit_or]
      have : Nat.testBit 7 2 = true := by decide
      have : Nat.testBit 4 2 = true := by decide
      simp [*]
    rw [h] at h2
    simp at h2
  · intro h
    have h2 : ((a ||| 7) &&& PAGE_WRITABLE).testBit 1 = true := by
      unfold PAGE_WRITABLE
      rw [Nat.testBit_and, Nat.testBit_or]
      have : Nat.testBit 7 1 = true := by decide
      have : Nat.testBit 2 1 = true := by decide
      simp [*]
    rw [h] at h2
    simp at h2

/-- The frame that `pmm_free_page` releases is the only frame that becomes free, and
memory is as before. -/
theorem pmm_free_page_frames (s s1 : Phys) (addr : Nat) (h : pmm_free_page s addr = some s1) :
    s1.mem = s.mem ∧ ∀ f, frame_free s1 f → f = addr / 4096 ∨ frame_free s f := by
  unfold pmm_free_page at h
  split_ifs at h
  cases h
  refine ⟨rfl, fun f hf => ?_⟩
  by_cases e : f = addr / 4096
  · exact Or.inl e
  · right
    refine ⟨hf.1, ?_⟩
    have := hf.2
    change bitmap_test (bitmap_clear s.pmm_bitmap (addr / PAGE_SIZE)) f = false at this
    rw [bitmap_test_clear_other _ _ _ (by unfold PAGE_SIZE; exact e)] at this
    exact this

/-! ## Frames below the kernel heap arena -/

theorem find_free_bit_least (w : Nat) (b : Nat) (hb : w &&& (1 <<< b) = 0) :
    ∀ n bit, bit ≤ b → b < bit + n → ∃ r, find_free_bit w n bit = some r ∧ r ≤ b := by
  intro n
  induction n with
  | zero => intro bit h1 h2; omega
  | succ n ih =>
    intro bit h1 h2
    simp only [find_free_bit]
    by_cases h : w &&& (1 <<< bit) = 0
    · rw [if_pos h]; exact ⟨bit, rfl, h1⟩
    · rw [if_neg h]
      have hne : bit ≠ b := fun e => h (e ▸ hb)
      exact ih (bit + 1) (by omega) (by omega)

theorem all_ones_bit (b : Nat) (hb : b < 32) : (0xFFFFFFFF : Nat) &&& (1 <<< b) ≠ 0 := by
  interval_cases b <;> decide

theorem bitmap_find_free_from_least (bm : Nat → Nat) (p : Nat) (hp : bitmap_test bm p = false) :
    ∀ n i, i ≤ p / 32 → p / 32 < i + n →
      ∃ f, bitmap_find_free_from bm n i = some f ∧ f ≤ p := by
  have hbit : bm (p / 32) &&& (1 <<< (p % 32)) = 0 := by
    unfold bitmap_test at hp
    simpa using hp
  intro n
  induction n with
  | zero => intro i h1 h2; omega
  | succ n ih =>
    intro i h1 h2
    simp only [bitmap_find_free_from]
    by_cases hi : i = p / 32
    · subst hi
      have hne : bm (p / 32) ≠ 0xFFFFFFFF := by
        intro e
        rw [e] at hbit
        exact all_ones_bit _ (Nat.mod_lt _ (by norm_num)) hbit
      obtain ⟨r, hr, hle⟩ := find_free_bit_least _ _ hbit 32 0 (Nat.zero_le _)
        (by have := Nat.mod_lt p (show 32 > 0 by norm_num); omega)
      rw [if_pos hne, hr]
      exact ⟨_, rfl, by omega⟩
    · by_cases hfull : bm i ≠ 0xFFFFFFFF
      · rw [if_pos hfull]
        cases hf : find_free_bit (bm i) 32 0 with
        | none => exact ih (i + 1) (by omega) (by omega)
        | some bit =>
          have := (find_free_bit_spec (bm i) 32 0 bit hf).2.1
          exact ⟨_, rfl, by omega⟩
      · rw [if_neg hfull]
        exact ih (i + 1) (by omega) (by omega)

/-- The function `bitmap_find_free` returns the lowest clear bit. -/
theorem bitmap_find_free_least (bm : Nat → Nat) (p : Nat) (hp : bitmap_test bm p = false)
    (hlt : p < BITMAP_WORDS * 32) : ∃ f, bitmap_find_free bm = some f ∧ f ≤ p := by
  unfold bitmap_find_free
  exact bitmap_find_free_from_least bm p hp BITMAP_WORDS 0 (Nat.zero_le _) (by omega)



theorem arena_kept_refl (s : Phys) : arena_kept s s := fun _ _ => rfl

theorem arena_kept_trans (s s1 s2 : Phys) (h1 : arena_kept s s1) (h2 : arena_kept s1 s2) :
    arena_kept s s2 := fun i hi => (h2 i hi).trans (h1 i hi)

/-- With a free frame below the kernel heap arena, `bitmap_find_free` returns one. -/
theorem low_frames_find (s : Phys) (h : 1 ≤ low_frames s) :
    ∃ f, bitmap_find_free s.pmm_bitmap = some f ∧ f < HEAP_START / PAGE_SIZE ∧
      bitmap_test s.pmm_bitmap f = false := by
  unfold low_frames clear_bits at h
  have hpos : 0 < List.countP (fun p => !bitmap_test s.pmm_bitmap p)
      (List.range (HEAP_START / PAGE_SIZE)) := by omega
  obtain ⟨p, hp1, hp2⟩ := List.countP_pos_iff.mp hpos
  rw [List.mem_range] at hp1
  have hp3 : bitmap_test s.pmm_bitmap p = false := by simpa using hp2
  have hb : HEAP_START / PAGE_SIZE = 8192 := by decide
  have hw : BITMAP_WORDS * 32 = 1048576 := by decide
  obtain ⟨f, hf, hle⟩ := bitmap_find_free_least s.pmm_bitmap p hp3 (by omega)
  exact ⟨f, hf, by omega, (bitmap_find_free_spec _ _ hf).2⟩

/-- With a free frame below the kernel heap arena, `pmm_alloc_page` takes one of them
and no frame of the arena. -/
theorem pmm_alloc_page_low (s : Phys) (h : 1 ≤ low_frames s) :
    arena_kept s (pmm_alloc_page s).1 ∧ low_frames s = low_frames (pmm_alloc_page s).1 + 1 := by
  obtain ⟨f, hf, hlt, hc⟩ := low_frames_find s h
  unfold pmm_alloc_page
  rw [hf]
  dsimp only
  constructor
  · intro i _
    show bitmap_set s.pmm_bitmap f _ = _
    unfold bitmap_set
    have hb : HEAP_START / PAGE_SIZE = 8192 := by decide
    have hb2 : HEAP_START / PAGE_SIZE / 32 = 256 := by decide
    rw [hb] at hlt
    rw [hb2, if_neg (by omega)]
  · exact clear_bits_set s.pmm_bitmap f _ hlt hc

/-- One step of `vmm_map_page` takes at most one frame, and none of the kernel heap
arena while a frame below it is free. -/
theorem get_or_create_low (s : Phys) (P i fl : Nat) (h : 1 ≤ low_frames s) :
    arena_kept s (vmm_get_or_create_table s P i fl).1 ∧
    low_frames s ≤ low_frames (vmm_get_or_create_table s P i fl).1 + 1 := by
  by_cases hpres : entry s.mem P i &&& PAGE_PRESENT = 0
  · obtain ⟨a1, a2⟩ := pmm_alloc_page_low s h
    by_cases ha : (pmm_alloc_page s).2 = 0
    · rw [get_or_create_fail s P i fl hpres ha]
      exact ⟨a1, by
        show low_frames s ≤ low_frames (pmm_alloc_page s).1 + 1
        omega⟩
    · rw [get_or_create_new s P i fl hpres ha]
      exact ⟨a1, by
        show low_frames s ≤ low_frames (pmm_alloc_page s).1 + 1
        omega⟩
  · rw [get_or_create_present s P i fl hpres]
    exact ⟨arena_kept_refl s, Nat.le_add_right _ _⟩

/-- The function `vmm_map_page` takes at most three frames, and none of the kernel heap
arena while three frames below it are free. -/
theorem vmm_map_page_low (s : Phys) (root virt phys flags : Nat) (h : 3 ≤ low_frames s) :
    arena_kept s (vmm_map_page s root virt phys flags).1 ∧
    low_frames s ≤ low_frames (vmm_map_page s root virt phys flags).1 + 3 := by
  unfold vmm_map_page
  dsimp only
  generalize (if virt &&& NOT_FFF ≥ KERNEL_BASE then PAGE_WRITABLE
      else PAGE_WRITABLE ||| PAGE_USER) = fl
  obtain ⟨a1, a2⟩ := get_or_create_low s root (PML4_INDEX (virt &&& NOT_FFF)) fl (by omega)
  generalize vmm_get_or_create_table s root (PML4_INDEX (virt &&& NOT_FFF)) fl = r1 at a1 a2 ⊢
  by_cases h1 : r1.2 = 0
  · rw [if_pos h1]
    exact ⟨a1, by
      show low_frames s ≤ low_frames r1.1 + 3
      omega⟩
  rw [if_neg h1]
  obtain ⟨b1, b2⟩ := get_or_create_low r1.1 r1.2 (PDPT_INDEX (virt &&& NOT_FFF)) fl (by omega)
  generalize vmm_get_or_create_table r1.1 r1.2 (PDPT_INDEX (virt &&& NOT_FFF)) fl = r2 at b1 b2 ⊢
  by_cases h2 : r2.2 = 0
  · rw [if_pos h2]
    exact ⟨arena_kept_trans _ _ _ a1 b1, by
      show low_frames s ≤ low_frames r2.1 + 3
      omega⟩
  rw [if_neg h2]
  obtain ⟨c1, c2⟩ := get_or_create_low r2.1 r2.2 (PD_INDEX (virt &&& NOT_FFF)) fl (by omega)
  generalize vmm_get_or_create_table r2.1 r2.2 (PD_INDEX (virt &&& NOT_FFF)) fl = r3 at c1 c2 ⊢
  by_cases h3 : r3.2 = 0
  · rw [if_pos h3]
    exact ⟨arena_kept_trans _ _ _ (arena_kept_trans _ _ _ a1 b1) c1, by
      show low_frames s ≤ low_frames r3.1 + 3
      omega⟩
  rw [if_neg h3]
  exact ⟨arena_kept_trans _ _ _ (arena_kept_trans _ _ _ a1 b1) c1, by
    show low_frames s ≤ low_frames r3.1 + 3
    omega⟩

/-- The function `pmm_free_page` takes no frame. -/
theorem pmm_free_page_low (s s1 : Phys) (addr : Nat) (h : pmm_free_page s addr = some s1) :
    low_frames s ≤ low_frames s1 := by
  unfold pmm_free_page at h
  split_ifs at h
  cases h
  unfold low_frames clear_bits
  dsimp only
  apply List.countP_mono_left
  intro q _ hq
  by_cases e : q = addr / PAGE_SIZE
  · rw [e, bitmap_test_clear]
    rfl
  · rw [bitmap_test_clear_other _ _ _ e]
    exact hq

/-- Once no frame below the kernel heap arena is free, `pmm_alloc_page` hands out the
first frame of the arena, the one at `HEAP_START`, which `pmm_init` leaves free, and
zeroes it; in `kernel0` this frame holds the PCB of the current process. -/
theorem pmm_alloc_page_arena (s : Phys) (h0 : low_frames s = 0)
    (hf : bitmap_test s.pmm_bitmap (HEAP_START / PAGE_SIZE) = false) :
    (pmm_alloc_page s).2 = HEAP_START ∧ ¬ arena_kept s (pmm_alloc_page s).1 ∧
    (∀ a, HEAP_START ≤ a → a < HEAP_START + PAGE_SIZE → (pmm_alloc_page s).1.mem a = 0) ∧
    HEAP_START ≤ process_get_current kernel0 ∧
    process_get_current kernel0 + SIZEOF_PROCESS ≤ HEAP_START + PAGE_SIZE := by
  have hb : HEAP_START / PAGE_SIZE = 8192 := by decide
  have hw : BITMAP_WORDS * 32 = 1048576 := by decide
  obtain ⟨f, hfree, hle⟩ := bitmap_find_free_least s.pmm_bitmap _ hf (by omega)
  have hclr := (bitmap_find_free_spec _ _ hfree).2
  have hge : ¬ f < HEAP_START / PAGE_SIZE := by
    intro hlt
    unfold low_frames clear_bits at h0
    rw [List.countP_eq_zero] at h0
    have := h0 f (List.mem_range.mpr hlt)
    rw [hclr] at this
    exact this rfl
  have hfe : f = 8192 := by omega
  subst hfe
  unfold pmm_alloc_page
  rw [hfree]
  dsimp only
  refine ⟨by decide, ?_, ?_, by decide, by decide⟩
  · intro hk
    have h1 := hk 0 (by decide)
    have e1 : HEAP_START / PAGE_SIZE / 32 + 0 = 256 := by decide
    rw [e1] at h1
    have h2 : bitmap_set s.pmm_bitmap 8192 256 = s.pmm_bitmap 256 := h1
    unfold bitmap_set at h2
    rw [if_pos (by norm_num)] at h2
    rw [hb] at hf
    rw [bitmap_test_eq] at hf
    have e2 : (8192 : Nat) / 32 = 256 := by norm_num
    have e3 : (8192 : Nat) % 32 = 0 := by norm_num
    rw [e2, e3] at hf
    rw [e3] at h2
    have h3 : (s.pmm_bitmap 256 ||| 1 <<< 0).testBit 0 = true := by
      rw [Nat.testBit_or]
      simp
    rw [h2, hf] at h3
    exact Bool.noConfusion h3
  · intro a ha1 ha2
    have e4 : HEAP_START = 8192 * PAGE_SIZE := by decide
    have e5 : PAGE_SIZE = 8 * (PAGE_SIZE / 8) := by decide
    exact zero_words_inside _ _ _ _ (by rw [← e4]; exact ha1) (by rw [← e4, ← e5]; exact ha2)

/-- One page of the loop of `vmm_alloc_user_pages`: with four free frames below the
kernel heap arena the iteration takes no frame of the arena. -/
theorem alloc_iteration_low (s : Phys) (root virt flags : Nat) (h : 4 ≤ low_frames s) :
    arena_kept s (vmm_map_page (pmm_alloc_page s).1 root virt (pmm_alloc_page s).2 flags).1 ∧
    low_frames s ≤
      low_frames (vmm_map_page (pmm_alloc_page s).1 root virt (pmm_alloc_page s).2 flags).1 + 4 := by
  obtain ⟨a1, a2⟩ := pmm_alloc_page_low s (by omega)
  obtain ⟨b1, b2⟩ := vmm_map_page_low (pmm_alloc_page s).1 root virt (pmm_alloc_page s).2 flags
    (by omega)
  exact ⟨arena_kept_trans _ _ _ a1 b1, by omega⟩


/-- One page of `vmm_alloc_user_pages`, as `sys_sbrk` asks for it, with four free
frames below the kernel heap arena: the call returns, it takes at most four of them, the
address space stays a tree, every page that was mapped for user writes still is, and on
success the page of `virt` is mapped for user writes. -/
theorem alloc_user_page_more (k : Kernel) (c virt : Nat)
    (hwf : tree_wf k.phys (k.procs c).page_table) (hok : pmm_ok k.phys) (hv : virt < 2 ^ 47)
    (hb : 4 ≤ low_frames k.phys) :
    ∃ k1 ok, vmm_alloc_user_pages k c virt 1 = some (k1, ok) ∧
      tree_wf k1.phys (k.procs c).page_table ∧ pmm_ok k1.phys ∧
      k1.current_process = k.current_process ∧ k1.idle_process = k.idle_process ∧
      (∀ q, (k1.procs q).page_table = (k.procs q).page_table ∧
        (k1.procs q).heap_start = (k.procs q).heap_start ∧
        (k1.procs q).heap_current = (k.procs q).heap_current ∧
        (k1.procs q).heap_max = (k.procs q).heap_max) ∧
      (∀ w, user_mapped k.phys.mem (k.procs c).page_table w →
        user_mapped k1.phys.mem (k.procs c).page_table w) ∧
      (ok = true → ∀ w, w / 4096 = virt / 4096 →
        user_mapped k1.phys.mem (k.procs c).page_table w) ∧
      low_frames k.phys ≤ low_frames k1.phys + 4 := by
  have hvk : ¬ virt ≥ KERNEL_BASE := by unfold KERNEL_BASE; omega
  have hvirt : (virt + 0 * PAGE_SIZE) % U64 = virt := by
    rw [Nat.zero_mul, Nat.add_zero]
    exact Nat.mod_eq_of_lt (by unfold U64; omega)
  unfold vmm_alloc_user_pages
  rw [if_neg hvk]
  simp only [alloc_user_pages_loop]
  rw [hvirt]
  by_cases h0 : (pmm_alloc_page k.phys).2 = 0
  · rw [if_pos h0, pmm_alloc_page_null k.phys hok h0]
    exact ⟨_, _, rfl, hwf, hok, rfl, rfl, fun _ => ⟨rfl, rfl, rfl, rfl⟩, fun _ h => h,
      fun h => Bool.noConfusion h, Nat.le_add_right _ _⟩
  · rw [if_neg h0]
    obtain ⟨g1, g2, g3, g4, g5, g6⟩ := pmm_alloc_page_grows k.phys h0
    obtain ⟨t1, t2, t3⟩ := pmm_alloc_page_tree k.phys (k.procs c).page_table hwf hok h0
    have hplt : (pmm_alloc_page k.phys).2 < U64 := by
      have := frame_free_lt k.phys _ g3
      unfold U64; omega
    have hman := hok.managed _ g3.1 g3.2
    have hp1 : PMM_START / PAGE_SIZE = 1024 := by decide
    rw [hp1] at hman
    obtain ⟨m1, m2, m3⟩ := vmm_map_page_more (pmm_alloc_page k.phys).1 (k.procs c).page_table
      virt (pmm_alloc_page k.phys).2 ((PAGE_PRESENT ||| PAGE_WRITABLE) ||| PAGE_USER)
      t1.1 t1.2.1 (by unfold U64; omega) hplt (by decide)
    obtain ⟨l1, l2⟩ := alloc_iteration_low k.phys (k.procs c).page_table virt
      ((PAGE_PRESENT ||| PAGE_WRITABLE) ||| PAGE_USER) hb
    generalize vmm_map_page (pmm_alloc_page k.phys).1 (k.procs c).page_table virt
      (pmm_alloc_page k.phys).2 ((PAGE_PRESENT ||| PAGE_WRITABLE) ||| PAGE_USER) = q
      at m1 m2 m3 l1 l2 ⊢
    rw [if_neg (not_not.mpr l1)]
    have hval : ((pmm_alloc_page k.phys).2 &&& NOT_FFF) +
        (((PAGE_PRESENT ||| PAGE_WRITABLE) ||| PAGE_USER) ||| 1) = (pmm_alloc_page k.phys).2 + 7 := by
      rw [land_not_fff _ hplt, g2]
      rfl
    have hnew : ∀ w, w / 4096 = virt / 4096 → q.2 = true →
        user_mapped q.1.mem (k.procs c).page_table w := by
      intro w hw hq
      have h1 := m3 hq w (by rw [hw])
      rw [hval] at h1
      obtain ⟨_, _, k3⟩ := mk_entry (pmm_alloc_page k.phys).2 7 g2 hplt (by norm_num)
      have k3' : ((pmm_alloc_page k.phys).2 + 7) &&& NOT_FFF = (pmm_alloc_page k.phys).2 := k3
      refine ⟨_, h1, ?_, (user_leaf_flags _ g2).1, (user_leaf_flags _ g2).2⟩
      rw [k3']
      exact h0
    by_cases hq : q.2 = true
    · rw [if_neg (not_not.mpr hq)]
      refine ⟨_, _, rfl, m1.1, m1.2.1, rfl, rfl, fun x => ?_, ?_, ?_, l2⟩
      · exact ⟨set_proc_field (fun p => p.page_table) _ _ _ _ (fun _ => rfl),
          set_proc_field (fun p => p.heap_start) _ _ _ _ (fun _ => rfl),
          set_proc_field (fun p => p.heap_current) _ _ _ _ (fun _ => rfl),
          set_proc_field (fun p => p.heap_max) _ _ _ _ (fun _ => rfl)⟩
      · intro w hm
        show user_mapped q.1.mem (k.procs c).page_table w
        by_cases hw : w / 4096 % 2 ^ 36 = virt / 4096 % 2 ^ 36
        · have h1 := m3 hq w hw
          rw [hval] at h1
          obtain ⟨_, _, k3⟩ := mk_entry (pmm_alloc_page k.phys).2 7 g2 hplt (by norm_num)
          have k3' : ((pmm_alloc_page k.phys).2 + 7) &&& NOT_FFF = (pmm_alloc_page k.phys).2 := k3
          refine ⟨_, h1, ?_, (user_leaf_flags _ g2).1, (user_leaf_flags _ g2).2⟩
          rw [k3']
          exact h0
        · obtain ⟨e, he, hf⟩ := hm
          exact ⟨e, by rw [m2 w (Or.inr hw), t2 w]; exact he, hf⟩
      · intro _ w hw
        exact hnew w hw hq
    · rw [if_pos hq]
      have hqf : q.2 = false := by
        cases h : q.2
        · rfl
        · exact absurd h hq
      cases hfree : pmm_free_page q.1 (pmm_alloc_page k.phys).2 with
      | none =>
        exfalso
        unfold pmm_free_page at hfree
        have htot : q.1.pmm_total_pages = k.phys.pmm_total_pages := m1.2.2.1.trans t1.2.2.1
        have hbit : bitmap_test q.1.pmm_bitmap ((pmm_alloc_page k.phys).2 / PAGE_SIZE) = true := by
          cases hb : bitmap_test q.1.pmm_bitmap ((pmm_alloc_page k.phys).2 / PAGE_SIZE)
          · exact absurd (m1.2.2.2.1 _ ⟨g3.1, hb⟩) g4
          · rfl
        rw [if_neg (by unfold PAGE_SIZE PMM_START; omega), if_neg (by rw [htot]; unfold PAGE_SIZE; omega),
          if_neg (by rw [hbit]; simp)] at hfree
        cases hfree
      | some ph =>
        obtain ⟨hmem, hfr⟩ := pmm_free_page_frames _ _ _ hfree
        have hnot : ∀ w j t, j ≤ 3 → table_at q.1.mem (k.procs c).page_table w j = some t →
            t / 4096 ≠ (pmm_alloc_page k.phys).2 / 4096 := by
          intro w j t hj ht e
          rcases m1.2.2.2.2.1 w j t hj ht with a | a
          · exact g4 (e ▸ a)
          · rw [t3 w j hj] at a
            exact hwf.owned w j t hj a (e ▸ g3)
        refine ⟨_, _, rfl, ⟨hwf.aligned, ?_, ?_⟩, pmm_free_page_ok _ _ _ m1.2.1 hfree, rfl, rfl,
          fun _ => ⟨rfl, rfl, rfl, rfl⟩, ?_, fun h => Bool.noConfusion h,
          le_trans l2 (Nat.add_le_add_right (pmm_free_page_low _ _ _ hfree) 4)⟩
        · intro w j t hj ht hf
          change table_at ph.mem _ w j = some t at ht
          rw [hmem] at ht
          rcases hfr _ hf with e | e
          · exact hnot w j t hj ht e
          · exact m1.1.owned w j t hj ht e
        · intro w1 w2 j1 j2 t hj1 hj2 h1 h2
          change table_at ph.mem _ w1 j1 = some t at h1
          change table_at ph.mem _ w2 j2 = some t at h2
          rw [hmem] at h1 h2
          exact m1.1.inj w1 w2 j1 j2 t hj1 hj2 h1 h2
        · intro w hm
          show user_mapped ph.mem (k.procs c).page_table w
          obtain ⟨e, he, hf⟩ := hm
          exact ⟨e, by rw [hmem, m2 w (Or.inl hqf), t2 w]; exact he, hf⟩

theorem user_mapped_page (m : Mem) (root v w : Nat) (h : w / 4096 = v / 4096)
    (hv : user_mapped m root v) : user_mapped m root w := by
  obtain ⟨e, he, hf⟩ := hv
  exact ⟨e, by rw [vmm_leaf_page m root v w h]; exact he, hf⟩

/-- The growth loop of `sys_sbrk`, with four free frames below the kernel heap arena
for every iteration, returns, keeps the address space a tree and every user mapping,
and when it completes every page it visited at or above the break is mapped for user
writes. -/
theorem sbrk_grow_more (c : Nat) : ∀ n page k,
    tree_wf k.phys (k.procs c).page_table → pmm_ok k.phys → page + n * 4096 ≤ 2 ^ 47 →
    4 * n ≤ low_frames k.phys →
    ∃ k1 ok, sbrk_grow c n page k = some (k1, ok) ∧
      tree_wf k1.phys (k.procs c).page_table ∧ pmm_ok k1.phys ∧
      k1.current_process = k.current_process ∧ k1.idle_process = k.idle_process ∧
      (∀ q, (k1.procs q).page_table = (k.procs q).page_table ∧
        (k1.procs q).heap_start = (k.procs q).heap_start ∧
        (k1.procs q).heap_current = (k.procs q).heap_current ∧
        (k1.procs q).heap_max = (k.procs q).heap_max) ∧
      (∀ w, user_mapped k.phys.mem (k.procs c).page_table w →
        user_mapped k1.phys.mem (k.procs c).page_table w) ∧
      (ok = true → ∀ j, j < n → (k.procs c).heap_current ≤ page + j * 4096 →
        ∀ w, w / 4096 = (page + j * 4096) / 4096 →
          user_mapped k1.phys.mem (k.procs c).page_table w) ∧
      low_frames k.phys ≤ low_frames k1.phys + 4 * n := by
  intro n
  induction n with
  | zero =>
    intro page k hwf hok _ _
    exact ⟨k, true, rfl, hwf, hok, rfl, rfl, fun _ => ⟨rfl, rfl, rfl, rfl⟩, fun _ h => h,
      fun _ j hj => absurd hj (Nat.not_lt_zero j), Nat.le_add_right _ _⟩
  | succ n ih =>
    intro page k hwf hok hb hl
    simp only [sbrk_grow]
    by_cases hp : page ≥ (k.procs c).heap_current
    · rw [if_pos hp]
      obtain ⟨ka, oka, a0, a1, a2, a3, a4, a5, a6, a7, a8⟩ :=
        alloc_user_page_more k c page hwf hok (by omega) (by omega)
      rw [a0]
      dsimp only
      by_cases hok1 : oka = true
      · rw [if_neg (not_not.mpr hok1)]
        have hpt : (ka.procs c).page_table = (k.procs c).page_table := (a5 c).1
        have hhc : (ka.procs c).heap_current = (k.procs c).heap_current := (a5 c).2.2.1
        obtain ⟨k1, ok, b0, b1, b2, b3, b4, b5, b6, b7, b8⟩ :=
          ih (page + PAGE_SIZE) ka (by rw [hpt]; exact a1) a2 (by unfold PAGE_SIZE; omega)
            (by omega)
        rw [hpt] at b1 b6 b7
        rw [hhc] at b7
        refine ⟨k1, ok, b0, b1, b2, b3.trans a3, b4.trans a4, fun q => ?_,
          fun w h => b6 w (a6 w h), ?_, by omega⟩
        · exact ⟨(b5 q).1.trans (a5 q).1, (b5 q).2.1.trans (a5 q).2.1,
            (b5 q).2.2.1.trans (a5 q).2.2.1, (b5 q).2.2.2.trans (a5 q).2.2.2⟩
        · intro hk j hj hge w hw
          cases j with
          | zero =>
            apply b6
            apply a7 hok1 w
            rw [hw]
            simp
          | succ j =>
            apply b7 hk j (by omega) (by unfold PAGE_SIZE; omega) w
            rw [hw]
            unfold PAGE_SIZE
            congr 1
            omega
      · rw [if_pos hok1]
        exact ⟨ka, false, rfl, a1, a2, a3, a4, a5, a6, fun h => Bool.noConfusion h, by omega⟩
    · rw [if_neg hp]
      obtain ⟨k1, ok, b0, b1, b2, b3, b4, b5, b6, b7, b8⟩ :=
        ih (page + PAGE_SIZE) k hwf hok (by unfold PAGE_SIZE; omega) (by omega)
      refine ⟨k1, ok, b0, b1, b2, b3, b4, b5, b6, ?_, by omega⟩
      intro hk j hj hge w hw
      cases j with
      | zero =>
        exfalso
        apply hp
        simpa using hge
      | succ j =>
        apply b7 hk j (by omega) (by unfold PAGE_SIZE; omega) w
        rw [hw]
        unfold PAGE_SIZE
        congr 1
        omega

/-- The function `sys_sbrk` returns and keeps the heap invariant, for every 64-bit
increment whose cost in frames is free below the kernel heap arena. -/
theorem sys_sbrk_inv (k : Kernel) (c inc : Nat) (h : sbrk_inv k c) (hinc : inc < U64)
    (hb : sbrk_cost ((k.procs c).heap_max - (k.procs c).heap_start) inc ≤ low_frames k.phys) :
    ∃ k1 r, sys_sbrk k inc = some (k1, r) ∧ sbrk_inv k1 c ∧
      (k1.procs c).heap_start = (k.procs c).heap_start ∧
      (k1.procs c).heap_max = (k.procs c).heap_max ∧
      (k1.procs c).page_table = (k.procs c).page_table ∧
      low_frames k.phys ≤ low_frames k1.phys +
        sbrk_cost ((k.procs c).heap_max - (k.procs c).heap_start) inc := by
  have hal := h.aligned
  have hlo := h.low
  have hhi := h.high
  have hus := h.user
  unfold PAGE_SIZE at hal
  unfold U64 at hinc
  unfold sys_sbrk
  dsimp only
  rw [h.current, if_neg h.nonnull]
  by_cases h0 : inc = 0
  · rw [if_pos h0]
    exact ⟨k, _, rfl, h, rfl, rfl, rfl, Nat.le_add_right _ _⟩
  rw [if_neg h0]
  by_cases h1 : ((k.procs c).heap_current + inc) % U64 > (k.procs c).heap_max
  · rw [if_pos h1]
    exact ⟨k, _, rfl, h, rfl, rfl, rfl, Nat.le_add_right _ _⟩
  rw [if_neg h1]
  by_cases h2 : ((k.procs c).heap_current + inc) % U64 < (k.procs c).heap_start
  · rw [if_pos h2]
    exact ⟨k, _, rfl, h, rfl, rfl, rfl, Nat.le_add_right _ _⟩
  rw [if_neg h2]
  by_cases h3 : 0 < inc ∧ inc < 2 ^ 63
  · rw [if_pos h3]
    have e : ((k.procs c).heap_current + inc) % U64 = (k.procs c).heap_current + inc :=
      Nat.mod_eq_of_lt (by unfold U64; omega)
    rw [e] at h1 h2 ⊢
    have eo : (k.procs c).heap_current &&& NOT_FFF =
        (k.procs c).heap_current - (k.procs c).heap_current % 4096 :=
      land_not_fff _ (by unfold U64; omega)
    have en : (((k.procs c).heap_current + inc + PAGE_SIZE - 1) % U64) &&& NOT_FFF =
        ((k.procs c).heap_current + inc + 4095) -
          ((k.procs c).heap_current + inc + 4095) % 4096 := by
      have : ((k.procs c).heap_current + inc + PAGE_SIZE - 1) % U64 =
          (k.procs c).heap_current + inc + 4095 := by
        unfold PAGE_SIZE
        exact Nat.mod_eq_of_lt (by unfold U64; omega)
      rw [this]
      exact land_not_fff _ (by unfold U64; omega)
    have hcost : sbrk_cost ((k.procs c).heap_max - (k.procs c).heap_start) inc =
        4 * (inc / 4096 + 2) := by
      unfold sbrk_cost
      rw [if_pos (by omega)]
      rfl
    rw [hcost] at hb ⊢
    have hn : 4 * ((((((k.procs c).heap_current + inc + PAGE_SIZE - 1) % U64 &&& NOT_FFF) -
        ((k.procs c).heap_current &&& NOT_FFF)) / PAGE_SIZE)) ≤ 4 * (inc / 4096 + 2) := by
      rw [en, eo]; unfold PAGE_SIZE; omega
    obtain ⟨k1, ok, b0, b1, b2, b3, b4, b5, b6, b7, b8⟩ := sbrk_grow_more c
      (((((k.procs c).heap_current + inc + PAGE_SIZE - 1) % U64 &&& NOT_FFF) -
        ((k.procs c).heap_current &&& NOT_FFF)) / PAGE_SIZE)
      ((k.procs c).heap_current &&& NOT_FFF) k h.tree h.pmm
      (by rw [en, eo]; unfold PAGE_SIZE; omega) (by omega)
    have hlow : low_frames k.phys ≤ low_frames k1.phys + 4 * (inc / 4096 + 2) := by omega
    rw [b0]
    dsimp only
    have hcur1 : process_get_current k1 = c := by
      have := h.current
      unfold process_get_current at this ⊢
      rw [b3, b4]
      exact this
    obtain ⟨c1, c2, c3, c4⟩ := b5 c
    by_cases hok : ok = true
    · rw [if_neg (not_not.mpr hok)]
      refine ⟨_, _, rfl, ?_, ?_, ?_, ?_, hlow⟩
      · refine
          { current := hcur1
            nonnull := h.nonnull
            aligned := ?_
            low := ?_
            high := ?_
            user := ?_
            tree := ?_
            pmm := b2
            mapped := ?_ }
        · rw [set_proc_procs, if_pos rfl]
          show (k1.procs c).heap_start % PAGE_SIZE = 0
          rw [c2]; exact h.aligned
        · rw [set_proc_procs, if_pos rfl]
          show (k1.procs c).heap_start ≤ (k.procs c).heap_current + inc
          rw [c2]; omega
        · rw [set_proc_procs, if_pos rfl]
          show (k.procs c).heap_current + inc ≤ (k1.procs c).heap_max
          rw [c4]; omega
        · rw [set_proc_procs, if_pos rfl]
          show (k1.procs c).heap_max < 2 ^ 47
          rw [c4]; exact hus
        · rw [set_proc_procs, if_pos rfl]
          show tree_wf k1.phys (k1.procs c).page_table
          rw [c1]; exact b1
        · intro v hv1 hv2
          rw [set_proc_procs, if_pos rfl] at hv1 hv2 ⊢
          change (k1.procs c).heap_start ≤ v at hv1
          change v < (k.procs c).heap_current + inc at hv2
          show user_mapped k1.phys.mem (k1.procs c).page_table v
          rw [c1]
          rw [c2] at hv1
          by_cases hlt : v < (k.procs c).heap_current
          · exact b6 v (h.mapped v hv1 hlt)
          · by_cases hge : (k.procs c).heap_current ≤ v / 4096 * 4096
            · rw [en, eo] at b7
              unfold PAGE_SIZE at b7
              apply b7 hok ((v / 4096 * 4096 - ((k.procs c).heap_current -
                (k.procs c).heap_current % 4096)) / 4096) (by omega) (by omega) v
              omega
            · have := h.mapped ((k.procs c).heap_current - 1) (by omega) (by omega)
              exact b6 v (user_mapped_page _ _ _ v (by omega) this)
      · rw [set_proc_procs, if_pos rfl]
        exact c2
      · rw [set_proc_procs, if_pos rfl]
        exact c4
      · rw [set_proc_procs, if_pos rfl]
        exact c1
    · rw [if_pos hok]
      refine ⟨_, _, rfl, ?_, c2, c4, c1, hlow⟩
      exact
        { current := hcur1
          nonnull := h.nonnull
          aligned := by rw [c2]; exact h.aligned
          low := by rw [c2, c3]; exact hlo
          high := by rw [c3, c4]; exact hhi
          user := by rw [c4]; exact hus
          tree := by rw [c1]; exact b1
          pmm := b2
          mapped := by
            intro v hv1 hv2
            rw [c1]
            rw [c2] at hv1
            rw [c3] at hv2
            exact b6 v (h.mapped v hv1 hv2) }
  · rw [if_neg h3]
    have hneg : 2 ^ 63 ≤ inc := by omega
    have hnh : ((k.procs c).heap_current + inc) % U64 ≤ (k.procs c).heap_current := by
      unfold U64 at h1 h2 ⊢
      omega
    refine ⟨_, _, rfl, ?_, ?_, ?_, ?_, Nat.le_add_right _ _⟩
    · exact
        { current := h.current
          nonnull := h.nonnull
          aligned := by rw [set_proc_procs, if_pos rfl]; exact h.aligned
          low := by
            rw [set_proc_procs, if_pos rfl]
            show (k.procs c).heap_start ≤ ((k.procs c).heap_current + inc) % U64
            omega
          high := by
            rw [set_proc_procs, if_pos rfl]
            show ((k.procs c).heap_current + inc) % U64 ≤ (k.procs c).heap_max
            omega
          user := by rw [set_proc_procs, if_pos rfl]; exact hus
          tree := by rw [set_proc_procs, if_pos rfl]; exact h.tree
          pmm := h.pmm
          mapped := by
            intro v hv1 hv2
            rw [set_proc_procs, if_pos rfl] at hv1 hv2 ⊢
            change v < ((k.procs c).heap_current + inc) % U64 at hv2
            exact h.mapped v hv1 (by omega) }
    · rw [set_proc_procs, if_pos rfl]
    · rw [set_proc_procs, if_pos rfl]
    · rw [set_proc_procs, if_pos rfl]

theorem sbrk_calls_inv (c : Nat) : ∀ (deltas : List Nat) (k : Kernel), sbrk_inv k c →
    (∀ d, d ∈ deltas → d < U64) →
    (deltas.map (sbrk_cost ((k.procs c).heap_max - (k.procs c).heap_start))).sum ≤
      low_frames k.phys →
    ∃ k1, sbrk_calls deltas k = some k1 ∧ sbrk_inv k1 c ∧
      (k1.procs c).heap_start = (k.procs c).heap_start ∧
      (k1.procs c).heap_max = (k.procs c).heap_max ∧
      (k1.procs c).page_table = (k.procs c).page_table
  | [], k, h, _, _ => ⟨k, rfl, h, rfl, rfl, rfl⟩
  | d :: ds, k, h, hd, hs => by
    rw [List.map_cons, List.sum_cons] at hs
    obtain ⟨k1, r, e1, i1, a1, a2, a3, a4⟩ :=
      sys_sbrk_inv k c d h (hd d (List.mem_cons_self _ _)) (by omega)
    obtain ⟨k2, e2, i2, b1, b2, b3⟩ :=
      sbrk_calls_inv c ds k1 i1 (fun x hx => hd x (List.mem_cons_of_mem _ hx))
        (by rw [a1, a2]; omega)
    refine ⟨k2, ?_, i2, b1.trans a1, b2.trans a2, b3.trans a3⟩
    show (sys_sbrk k d).bind _ = _
    rw [e1]
    exact e2

/-- A page that is mapped for user writes has a translation that is not 0. -/
theorem user_mapped_phys (m : Mem) (root v : Nat) (h : user_mapped m root v) :
    vmm_get_physical m root v ≠ 0 := by
  obtain ⟨e, he, hf, _⟩ := h
  have hlt := vmm_leaf_lt m root v e he
  rw [phys_of_leaf m root v e he hlt]
  rw [land_not_fff e hlt] at hf
  omega

theorem phys0_bits (q : Nat) (hq : q < 32768) :
    bitmap_test phys0.pmm_bitmap q = decide (q < 1025) := by
  by_cases h1 : q < 1024
  · rw [bitmap_all_set _ q (by
      show (if q / 32 = 32 then 1 else if 32 < q / 32 ∧ q / 32 < 1024 then 0 else 0xFFFFFFFF) = _
      rw [if_neg (by omega), if_neg (by omega)])]
    simp
    omega
  · rw [bitmap_test_eq]
    show (if q / 32 = 32 then 1 else if 32 < q / 32 ∧ q / 32 < 1024 then 0
      else 0xFFFFFFFF).testBit (q % 32) = _
    by_cases h2 : q / 32 = 32
    · rw [if_pos h2]
      have e : (1 : Nat) = 2 ^ 0 := rfl
      rw [e, Nat.testBit_two_pow]
      by_cases h3 : q = 1024
      · subst h3
        decide
      · have a : ¬ (0 = q % 32) := by omega
        have b : ¬ q < 1025 := by omega
        simp [a, b]
    · rw [if_neg h2, if_pos (by omega), Nat.zero_testBit]
      have b : ¬ q < 1025 := by omega
      simp [b]

/-- The PMM state `phys0` satisfies the PMM invariant. -/
theorem pmm_ok_phys0 : pmm_ok phys0 := by
  refine ⟨by decide, ?_, ?_⟩
  · intro p hp hb
    have hp1 : PMM_START / PAGE_SIZE = 1024 := by decide
    rw [hp1]
    show 1024 ≤ p ∧ p < 32768
    by_cases h : p < 32768
    · rw [phys0_bits p h] at hb
      simp at hb
      omega
    · exfalso
      rw [bitmap_all_set _ p (by
        show (if p / 32 = 32 then 1 else if 32 < p / 32 ∧ p / 32 < 1024 then 0
          else 0xFFFFFFFF) = _
        rw [if_neg (by omega), if_neg (by omega)])] at hb
      cases hb
  · show 31743 = clear_bits phys0.pmm_bitmap 32768
    rw [clear_bits_from phys0.pmm_bitmap 1025 32768 phys0_bits]

theorem low_frames_phys0 : low_frames phys0 = 7167 := by
  unfold low_frames
  have hb : HEAP_START / PAGE_SIZE = 8192 := by decide
  rw [hb]
  exact clear_bits_from phys0.pmm_bitmap 1025 8192 (fun q hq => phys0_bits q (by omega))

end SimpleOS
